import Mathlib

/-! xmlpath: tree builder, path compiler and path iterator

A shallow embedding of `parser.go` and `path.go`.

* Go strings and byte slices are lists of bytes (`GoString`).
* A `*Node` always points into the one node table built by `ParseDecoder`, so it is
  embedded as an index into that table; `nil` is `none`.
* Run-time panics (index out of range, nil dereference) and loops that would not
  terminate are explicit `Fault` values.
-/

namespace xmlpath

/-! ## Data model -/

/-- Go `string` / `[]byte`: a sequence of bytes, each a natural number below 256. -/
abbrev GoString := List Nat

/-- Bytes of an ASCII literal. -/
def ascii (s : String) : GoString := s.toList.map Char.toNat

/-- Go slice expression `s[a:b]`. -/
def slice {α : Type} (s : List α) (a b : Nat) : List α := (s.take b).drop a

/-- Run-time failures of the Go program. -/
inductive Fault where
  | indexOutOfRange
  | nilDereference
  | outOfFuel
deriving DecidableEq, Repr

/-- Type `xml.Name`. -/
structure Name where
  Space : GoString := []
  Local : GoString := []
deriving DecidableEq, Repr

/-- Type `xml.Attr`. -/
structure Attr where
  name : Name
  value : GoString
deriving DecidableEq, Repr

/-- Type `xml.Token`: the values `d.Token()` can return. -/
inductive Token where
  | StartElement (name : Name) (attr : List Attr)
  | EndElement (name : Name)
  | CharData (data : GoString)
  | Comment (data : GoString)
  | ProcInst (target : GoString) (inst : GoString)
  | Directive (data : GoString)
deriving DecidableEq, Repr

/-- Type `nodeKind` with its constants in `iota` order. -/
inductive nodeKind where
  | anyNode
  | startNode
  | endNode
  | attrNode
  | textNode
  | commentNode
  | procInstNode
deriving DecidableEq, Repr

/-- Type `Node`. Field `nodes` records whether the Go field `nodes` holds the node
table (`true`) or is still `nil` (`false`); `up` and `down` hold table indices. -/
structure Node where
  kind : nodeKind
  name : Name := {}
  attr : GoString := []
  text : GoString := []
  nodes : Bool := false
  pos : Nat := 0
  end_ : Nat := 0
  up : Option Nat := none
  down : List Nat := []
deriving DecidableEq, Repr

/-- The value returned by `ParseDecoder`: the node table and the index of the returned node. -/
structure Tree where
  nodes : List Node
  root : Nat
deriving DecidableEq, Repr

/-- An `xml.Decoder` as a token source: `Token()` yields `tokens` one by one and then
fails with `err`, or with `io.EOF` when `err` is `none`. -/
structure Decoder where
  tokens : List Token
  err : Option GoString := none
deriving DecidableEq, Repr

/-- Errors returned by `ParseDecoder`. -/
inductive ParseError where
  | EOF
  | decoder (msg : GoString)
  | fault (f : Fault)
deriving DecidableEq, Repr

/-! ## parser.go -/

/-- One round of the token loop of `ParseDecoder`: the records appended for token `t`
and the grown shared text buffer. -/
def appendToken (nodes : List Node) (text : GoString) : Token → List Node × GoString
  | .EndElement _ => (nodes ++ [{ kind := .endNode }], text)
  | .StartElement name attr =>
    ((nodes ++ [{ kind := .startNode, name := name }]) ++
      attr.map (fun a => { kind := .attrNode, name := a.name, attr := a.value }), text)
  | .CharData t =>
    let texti := text.length
    let text1 := text ++ t
    (nodes ++ [{ kind := .textNode, text := slice text1 texti (texti + t.length) }], text1)
  | .Comment t =>
    let texti := text.length
    let text1 := text ++ t
    (nodes ++ [{ kind := .commentNode, text := slice text1 texti (texti + t.length) }], text1)
  | .ProcInst target inst =>
    let texti := text.length
    let text1 := text ++ inst
    (nodes ++ [{ kind := .procInstNode, name := { Local := target },
                 text := slice text1 texti (texti + inst.length) }], text1)
  | .Directive _ => (nodes, text)

/-- The token loop of `ParseDecoder` over the tokens the decoder yields. -/
def readTokens : List Token → List Node → GoString → List Node × GoString
  | [], nodes, text => (nodes, text)
  | t :: ts, nodes, text =>
    let r := appendToken nodes text t
    readTokens ts r.1 r.2

/-- Whether a record kind is collected into `down`. -/
def isDownKind : nodeKind → Bool
  | .startNode => true
  | .textNode => true
  | .commentNode => true
  | .procInstNode => true
  | _ => false

/-- The "compute downs" loop: the indices `i` with `pos + 1 ≤ i < end_` whose `up` is the
closed node `p` and whose kind is start, text, comment or processing instruction. -/
def computeDown (nodes : List Node) (p pos end_ : Nat) : List Nat :=
  (List.range' (pos + 1) (end_ - (pos + 1))).filter fun i =>
    match nodes[i]? with
    | some c => decide (c.up = some p) && isDownKind c.kind
    | none => false

/-- The link pass `for pos := range nodes`, run from `pos` with `n` positions left.
The stack is kept with its top first. When the positions are used up the function
returns `io.EOF`. -/
def linkLoop : Nat → Nat → List Node → List Nat → Except ParseError Tree
  | 0, _, _, _ => .error .EOF
  | n + 1, pos, nodes, stack =>
    match nodes[pos]? with
    | none => .error (.fault .indexOutOfRange)
    | some nd =>
      match nd.kind with
      | .anyNode => linkLoop n (pos + 1) nodes stack
      | .endNode =>
        match stack with
        | [] => .error (.fault .indexOutOfRange)
        | p :: rest =>
          match nodes[p]? with
          | none => .error (.fault .nilDereference)
          | some top =>
            let nodes1 := nodes.set p { top with end_ := pos }
            let down := computeDown nodes1 p top.pos pos
            let nodes2 := nodes1.set p { top with end_ := pos, down := down }
            if rest.isEmpty then .ok { nodes := nodes2, root := p }
            else linkLoop n (pos + 1) nodes2 rest
      | _ =>
        let up := match stack with
          | [] => nd.up
          | p :: _ => some p
        if nd.kind = .startNode then
          linkLoop n (pos + 1) (nodes.set pos { nd with nodes := true, pos := pos, up := up })
            (pos :: stack)
        else
          linkLoop n (pos + 1)
            (nodes.set pos { nd with nodes := true, pos := pos, up := up, end_ := pos + 1 }) stack

/-- The records of the table before the link pass: the synthetic root, the records of
the tokens, and the record closing the root. -/
def buildNodes (tokens : List Token) : List Node :=
  (readTokens tokens [{ kind := .startNode }] []).1 ++ [{ kind := .endNode }]

/-- Function `ParseDecoder`. -/
def ParseDecoder (d : Decoder) : Except ParseError Tree :=
  match d.err with
  | some e => .error (.decoder e)
  | none =>
    let nodes := buildNodes d.tokens
    linkLoop nodes.length 0 nodes []

/-! ## path.go: the path compiler -/

/-- Type `pathStep`. -/
structure pathStep where
  root : Bool := false
  axis : GoString := []
  name : GoString := []
  kind : nodeKind := .anyNode
deriving DecidableEq, Repr

/-- Type `Path`. -/
structure Path where
  path : GoString
  steps : List pathStep
deriving DecidableEq, Repr

/-- Type `pathCompiler`. -/
structure pathCompiler where
  steps : List pathStep
  path : GoString
  i : Nat
deriving DecidableEq, Repr

/-- The cause strings passed to `errorf`, with their arguments. -/
inductive Cause where
  | missingNameAfterAt
  | missingName
  | missingColon
  | unsupportedAxis (name : GoString)
  | unsupportedExpression (name : GoString)
  | cannotSucceed (name axis : GoString)
  | noArguments (name : GoString)
  | missingQuote
  | missingParen
  | expectedSlash (got : Nat)
  | outOfFuel
deriving DecidableEq, Repr

/-- The error built by `errorf`: "compiling xml path %q:%d: %s". -/
structure CompileError where
  path : GoString
  offset : Nat
  cause : Cause
deriving DecidableEq, Repr

/-- Method `errorf`. -/
def pathCompiler.errorf (c : pathCompiler) (cause : Cause) : CompileError :=
  { path := c.path, offset := c.i, cause := cause }

/-- Method `skipByte`. -/
def pathCompiler.skipByte (c : pathCompiler) (b : Nat) : Bool × pathCompiler :=
  if c.path[c.i]? = some b then (true, { c with i := c.i + 1 }) else (false, c)

/-- Method `peekByte`. -/
def pathCompiler.peekByte (c : pathCompiler) (b : Nat) : Bool :=
  decide (c.path[c.i]? = some b)

/-- Function `isNameByte`. -/
def isNameByte (c : Nat) : Bool :=
  (65 ≤ c && c ≤ 90) || (97 ≤ c && c ≤ 122) || (48 ≤ c && c ≤ 57) || c == 95 || c == 46 || c == 45

/-- The scanning loop of `skipName`, with `n` bytes left in the path: the index of the
first byte at or after `i` that is below `utf8.RuneSelf` and not a name byte. -/
def skipNameLoop (path : GoString) : Nat → Nat → Nat
  | 0, i => i
  | n + 1, i =>
    match path[i]? with
    | some b => if 128 ≤ b || isNameByte b then skipNameLoop path n (i + 1) else i
    | none => i

/-- Method `skipName`. -/
def pathCompiler.skipName (c : pathCompiler) : Bool × pathCompiler :=
  match c.path[c.i]? with
  | none => (false, c)
  | some b =>
    if b = 42 then (true, { c with i := c.i + 1 })
    else
      let j := skipNameLoop c.path (c.path.length - c.i) c.i
      (decide (j > c.i), { c with i := j })

/-- End of one round of the loop of `compile`: the separator check and the append. -/
def compileFinish (c : pathCompiler) (step : pathStep) : Except CompileError pathCompiler :=
  match c.path[c.i]? with
  | some b =>
    if b = 47 then .ok { c with i := c.i + 1, steps := c.steps ++ [step] }
    else .error (c.errorf (.expectedSlash b))
  | none => .ok { c with steps := c.steps ++ [step] }

/-- The block of `compile` after `c.skipByte('(')` succeeded: the kind test. -/
def compileKindTest (c : pathCompiler) (step : pathStep) : Except CompileError pathCompiler :=
  let conflict := step.kind ≠ .anyNode
  let kind? : Option nodeKind :=
    if step.name = ascii "node" then some step.kind
    else if step.name = ascii "text" then some .textNode
    else if step.name = ascii "comment" then some .commentNode
    else if step.name = ascii "processing-instruction" then some .procInstNode
    else none
  match kind? with
  | none => .error (c.errorf (.unsupportedExpression step.name))
  | some kind =>
    if conflict then .error (c.errorf (.cannotSucceed step.name step.axis))
    else
      let r := c.skipByte 34
      if r.1 then
        if kind ≠ .procInstNode then .error (r.2.errorf (.noArguments step.name))
        else
          let mark := r.2.i
          let c2 := r.2.skipName.2
          let q := c2.skipByte 34
          if ¬ q.1 then .error (q.2.errorf .missingQuote)
          else
            let e := q.2.skipByte 41
            if ¬ e.1 then .error (e.2.errorf .missingParen)
            else compileFinish e.2 { step with kind := kind, name := slice c.path mark c2.i }
      else
        let e := r.2.skipByte 41
        if ¬ e.1 then .error (e.2.errorf .missingParen)
        else compileFinish e.2 { step with kind := kind, name := ascii "*" }

/-- The names accepted by the axis switch of `compile`. -/
def axisNames : List GoString :=
  [ascii "attribute", ascii "self", ascii "child", ascii "parent",
   ascii "descendant", ascii "descendant-or-self",
   ascii "ancestor", ascii "ancestor-or-self",
   ascii "following", ascii "following-sibling",
   ascii "preceding", ascii "preceding-sibling"]

/-- The final `else` block of the name branch of `compile`: an optional `axis::`, then
a kind test or a plain name. -/
def compileAxis (c : pathCompiler) (step : pathStep) : Except CompileError pathCompiler :=
  let r := c.skipByte 58
  let afterAxis : Except CompileError (pathCompiler × pathStep) :=
    if r.1 then
      let r2 := r.2.skipByte 58
      if ¬ r2.1 then .error (r2.2.errorf .missingColon)
      else if step.name ∉ axisNames then .error (r2.2.errorf (.unsupportedAxis step.name))
      else
        let step1 : pathStep :=
          { step with kind := if step.name = ascii "attribute" then .attrNode else step.kind,
                      axis := step.name }
        let mark := r2.2.i
        let n := r2.2.skipName
        if ¬ n.1 then .error (n.2.errorf .missingName)
        else .ok (n.2, { step1 with name := slice c.path mark n.2.i })
    else .ok (r.2, step)
  match afterAxis with
  | .error e => .error e
  | .ok (c1, step1) =>
    let p := c1.skipByte 40
    if p.1 then compileKindTest p.2 step1
    else if step1.name = ascii "*" ∧ step1.kind = .anyNode then
      compileFinish p.2 { step1 with kind := .startNode }
    else compileFinish p.2 step1

/-- One round of the loop of `compile`, after the leading `/` of the path has been
dealt with: the `//` abbreviation, an attribute step, or a name step. -/
def compileTest (c : pathCompiler) (step : pathStep) : Except CompileError pathCompiler :=
  if c.peekByte 47 then
    compileFinish c { step with axis := ascii "descendant-or-self", name := ascii "*" }
  else
    let a := c.skipByte 64
    if a.1 then
      let mark := a.2.i
      let n := a.2.skipName
      if ¬ n.1 then .error (n.2.errorf .missingNameAfterAt)
      else compileFinish n.2
        { step with axis := ascii "attribute", name := slice c.path mark n.2.i, kind := .attrNode }
    else
      let mark := a.2.i
      let n := a.2.skipName
      let step : pathStep := if n.1 then { step with name := slice c.path mark n.2.i } else step
      if step.name = [] then .error (n.2.errorf .missingName)
      else if step.name = ascii "*" then compileFinish n.2 { step with kind := .startNode }
      else if step.name = ascii "." then
        compileFinish n.2 { step with axis := ascii "self", name := ascii "*" }
      else if step.name = ascii ".." then
        compileFinish n.2 { step with axis := ascii "parent", name := ascii "*" }
      else compileAxis n.2 step

/-- One round of the loop of `compile`. -/
def compileStep (c : pathCompiler) : Except CompileError pathCompiler :=
  let step : pathStep := { axis := ascii "child" }
  let r := if c.i = 0 then c.skipByte 47 else (false, c)
  let step : pathStep :=
    if r.1 then { step with root := true, name := if c.path.length = 1 then ascii "*" else step.name }
    else step
  compileTest r.2 step

/-- The loop `for c.i < len(c.path)` of `compile`, allowed `n` rounds. -/
def compileLoop : Nat → pathCompiler → Except CompileError pathCompiler
  | 0, c => if c.i < c.path.length then .error (c.errorf .outOfFuel) else .ok c
  | n + 1, c =>
    if c.i < c.path.length then
      match compileStep c with
      | .error e => .error e
      | .ok c1 => compileLoop n c1
    else .ok c

/-- Method `compile`. Every round consumes at least one byte, so `len(c.path)` rounds
are enough. -/
def pathCompiler.compile (c : pathCompiler) : Except CompileError pathCompiler :=
  compileLoop c.path.length c

/-- Function `Compile`. -/
def Compile (path : GoString) : Except CompileError Path :=
  match pathCompiler.compile { steps := [], path := path, i := 0 } with
  | .error e => .error e
  | .ok c => .ok { path := path, steps := c.steps }

/-! ## path.go: the iterator -/

/-- Method `match` of `pathStep`. -/
def pathStep.match_ (step : pathStep) (node : Node) : Bool :=
  decide (node.kind ≠ .endNode) &&
    (decide (step.kind = .anyNode) || decide (step.kind = node.kind)) &&
    (decide (step.name = ascii "*") || decide (node.name.Local = step.name))

/-- Type `pathStepState`. -/
structure pathStepState where
  step : pathStep
  node : Option Nat := none
  idx : Int := 0
  aux : Int := 0
deriving DecidableEq, Repr

/-- Type `Iter`. -/
structure Iter where
  state : List pathStepState
  seen : List Bool
deriving DecidableEq, Repr

/-- Method `init` of `pathStepState`. -/
def pathStepState.init (s : pathStepState) (node : Option Nat) : pathStepState :=
  { s with node := node, idx := 0, aux := 0 }

/-- Dereference of a `*Node`. -/
def deref (tbl : List Node) : Option Nat → Except Fault Node
  | none => .error .nilDereference
  | some p =>
    match tbl[p]? with
    | some n => .ok n
    | none => .error .nilDereference

/-- Expression `len(node.nodes)`. -/
def lenNodes (tbl : List Node) (node : Node) : Nat :=
  if node.nodes then tbl.length else 0

/-- Expression `&node.nodes[i]`: the index and the record. -/
def indexNodes (tbl : List Node) (node : Node) (i : Int) : Except Fault (Nat × Node) :=
  if node.nodes = true ∧ 0 ≤ i then
    match tbl[i.toNat]? with
    | some n => .ok (i.toNat, n)
    | none => .error .indexOutOfRange
  else .error .indexOutOfRange

/-- Expression `down[i]` followed by the dereference of the pointer read. -/
def indexDown (tbl : List Node) (down : List Nat) (i : Int) : Except Fault (Nat × Node) :=
  if 0 ≤ i then
    match down[i.toNat]? with
    | some c =>
      match deref tbl (some c) with
      | .ok n => .ok (c, n)
      | .error e => .error e
    | none => .error .indexOutOfRange
  else .error .indexOutOfRange

/-- The loop `for s.node.up != nil { s.node = s.node.up }` of the root walk. -/
def rootWalk (tbl : List Node) : Nat → Nat → Except Fault Nat
  | 0, _ => .error .outOfFuel
  | f + 1, p =>
    match deref tbl (some p) with
    | .error e => .error e
    | .ok n =>
      match n.up with
      | none => .ok p
      | some u => rootWalk tbl f u

/-- The loop of the ancestor axes: the matching ancestor found, if any, and `s.idx`. -/
def ancestorLoop (tbl : List Node) (step : pathStep) : Nat → Nat → Int →
    Except Fault (Option Nat × Int)
  | 0, _, _ => .error .outOfFuel
  | f + 1, p, idx =>
    match deref tbl (some p) with
    | .error e => .error e
    | .ok n =>
      match n.up with
      | none => .ok (none, idx)
      | some u =>
        match deref tbl (some u) with
        | .error e => .error e
        | .ok un =>
          if step.match_ un then .ok (some u, idx + 1)
          else ancestorLoop tbl step f u (idx + 1)

/-- The loop `for s.idx < len(down)` of the child and following-sibling axes. -/
def scanDown (tbl : List Node) (step : pathStep) (down : List Nat) : Nat → Int →
    Except Fault (Option Nat × Int)
  | 0, _ => .error .outOfFuel
  | f + 1, idx =>
    if idx < down.length then
      match indexDown tbl down idx with
      | .error e => .error e
      | .ok (c, n) =>
        if step.match_ n then .ok (some c, idx + 1)
        else scanDown tbl step down f (idx + 1)
    else .ok (none, idx)

/-- The loop `for s.idx < bound` over the table of the descendant and following axes. -/
def scanTable (tbl : List Node) (step : pathStep) (cur : Node) (bound : Int) : Nat → Int →
    Except Fault (Option Nat × Int)
  | 0, _ => .error .outOfFuel
  | f + 1, idx =>
    if idx < bound then
      match indexNodes tbl cur idx with
      | .error e => .error e
      | .ok (k, n) =>
        if n.kind = .attrNode then scanTable tbl step cur bound f (idx + 1)
        else if step.match_ n then .ok (some k, idx + 1)
        else scanTable tbl step cur bound f (idx + 1)
    else .ok (none, idx)

/-- The loop of the sibling axes that looks for `s.node` in `down`: whether it was
found, and `s.idx` after the last increment. -/
def findSelf (down : List Nat) (p : Nat) : Nat → Int → Except Fault (Bool × Int)
  | 0, _ => .error .outOfFuel
  | f + 1, idx =>
    if idx < down.length then
      if 0 ≤ idx then
        match down[idx.toNat]? with
        | some c => if c = p then .ok (true, idx + 1) else findSelf down p f (idx + 1)
        | none => .error .indexOutOfRange
      else .error .indexOutOfRange
    else .ok (false, idx)

/-- The loop `for s.idx >= 0` of the preceding axis: the match found, `s.idx` and `s.aux`. -/
def scanPreceding (tbl : List Node) (step : pathStep) (cur : Node) : Nat → Int → Int →
    Except Fault (Option Nat × Int × Int)
  | 0, _, _ => .error .outOfFuel
  | f + 1, idx, aux =>
    if 0 ≤ idx then
      match indexNodes tbl cur idx with
      | .error e => .error e
      | .ok (k, n) =>
        if n.kind = .attrNode then scanPreceding tbl step cur f (idx - 1) aux
        else
          match indexNodes tbl cur aux with
          | .error e => .error e
          | .ok (_, a) =>
            if a.up = some k then scanPreceding tbl step cur f (idx - 1) n.pos
            else if step.match_ n then .ok (some k, idx - 1, aux)
            else scanPreceding tbl step cur f (idx - 1) aux
    else .ok (none, idx, aux)

/-- The loop `for s.idx >= 0` of the preceding-sibling axis. -/
def scanDownBack (tbl : List Node) (step : pathStep) (down : List Nat) : Nat → Int →
    Except Fault (Option Nat × Int)
  | 0, _ => .error .outOfFuel
  | f + 1, idx =>
    if 0 ≤ idx then
      match indexDown tbl down idx with
      | .error e => .error e
      | .ok (c, n) =>
        if step.match_ n then .ok (some c, idx - 1)
        else scanDownBack tbl step down f (idx - 1)
    else .ok (none, idx)

/-- The loop `for s.idx < s.aux` of the attribute axis. -/
def scanAttr (tbl : List Node) (step : pathStep) (cur : Node) (aux : Int) : Nat → Int →
    Except Fault (Option Nat × Int)
  | 0, _ => .error .outOfFuel
  | f + 1, idx =>
    if idx < aux then
      match indexNodes tbl cur idx with
      | .error e => .error e
      | .ok (k, n) =>
        if n.kind ≠ .attrNode then .ok (none, idx + 1)
        else if step.match_ n then .ok (some k, idx + 1)
        else scanAttr tbl step cur aux f (idx + 1)
    else .ok (none, idx)

/-- End of a scanning axis of `next`: on a match `s.node` is the match and the result
is true; otherwise the method falls through to `s.node = nil; return false`. -/
def pathStepState.found (s : pathStepState) (r : Option Nat × Int) (aux : Int) :
    Bool × pathStepState :=
  match r.1 with
  | some k => (true, { s with node := some k, idx := r.2, aux := aux })
  | none => (false, { s with node := none, idx := r.2, aux := aux })

/-- Lift of `found` over a scanning loop that may fail. -/
def pathStepState.foundIn (s : pathStepState) (aux : Int) :
    Except Fault (Option Nat × Int) → Except Fault (Bool × pathStepState)
  | .error e => .error e
  | .ok r => .ok (s.found r aux)

/-- Case "self" of `next`. -/
def pathStepState.nextSelf (s : pathStepState) (cur : Node) :
    Except Fault (Bool × pathStepState) :=
  if s.idx = 0 ∧ s.step.match_ cur = true then .ok (true, { s with idx := s.idx + 1 })
  else .ok (false, { s with node := none })

/-- Case "parent" of `next`. -/
def pathStepState.nextParent (tbl : List Node) (s : pathStepState) (cur : Node) :
    Except Fault (Bool × pathStepState) :=
  match (if s.idx = 0 then cur.up else none) with
  | none => .ok (false, { s with node := none })
  | some u =>
    match deref tbl (some u) with
    | .error e => .error e
    | .ok un =>
      if s.step.match_ un then .ok (true, { s with idx := s.idx + 1, node := some u })
      else .ok (false, { s with node := none })

/-- Case "ancestor", "ancestor-or-self" of `next`. -/
def pathStepState.nextAncestor (tbl : List Node) (fuel : Nat) (s : pathStepState) (p : Nat)
    (cur : Node) : Except Fault (Bool × pathStepState) :=
  if s.idx = 0 ∧ s.step.axis = ascii "ancestor-or-self" then
    if s.step.match_ cur then .ok (true, { s with idx := s.idx + 1 })
    else s.foundIn s.aux (ancestorLoop tbl s.step fuel p (s.idx + 1))
  else s.foundIn s.aux (ancestorLoop tbl s.step fuel p s.idx)

/-- Case "child" of `next`. -/
def pathStepState.nextChild (tbl : List Node) (fuel : Nat) (s : pathStepState) (cur : Node) :
    Except Fault (Bool × pathStepState) :=
  match (if s.idx = 0 then .ok cur else deref tbl cur.up) with
  | .error e => .error e
  | .ok owner => s.foundIn s.aux (scanDown tbl s.step owner.down fuel s.idx)

/-- Case "descendant", "descendant-or-self" of `next`. -/
def pathStepState.nextDescendant (tbl : List Node) (fuel : Nat) (s : pathStepState)
    (cur : Node) : Except Fault (Bool × pathStepState) :=
  let idx : Int :=
    if s.idx = 0 then (if s.step.axis = ascii "descendant" then (cur.pos : Int) + 1 else cur.pos)
    else s.idx
  let aux : Int := if s.idx = 0 then cur.end_ else s.aux
  s.foundIn aux (scanTable tbl s.step cur aux fuel idx)

/-- Case "following" of `next`. -/
def pathStepState.nextFollowing (tbl : List Node) (fuel : Nat) (s : pathStepState)
    (cur : Node) : Except Fault (Bool × pathStepState) :=
  let idx : Int := if s.idx = 0 then cur.end_ else s.idx
  s.foundIn s.aux (scanTable tbl s.step cur (lenNodes tbl cur) fuel idx)

/-- Case "following-sibling" of `next`. -/
def pathStepState.nextFollowingSibling (tbl : List Node) (fuel : Nat) (s : pathStepState)
    (p : Nat) (cur : Node) : Except Fault (Bool × pathStepState) :=
  match cur.up with
  | none => s.foundIn s.aux (scanDown tbl s.step [] fuel s.idx)
  | some u =>
    match deref tbl (some u) with
    | .error e => .error e
    | .ok un =>
      match (if s.idx = 0 then findSelf un.down p fuel s.idx else .ok (false, s.idx)) with
      | .error e => .error e
      | .ok f => s.foundIn s.aux (scanDown tbl s.step un.down fuel f.2)

/-- Case "preceding" of `next`. -/
def pathStepState.nextPreceding (tbl : List Node) (fuel : Nat) (s : pathStepState)
    (cur : Node) : Except Fault (Bool × pathStepState) :=
  let idx : Int := if s.idx = 0 then (cur.pos : Int) - 1 else s.idx
  let aux : Int := if s.idx = 0 then cur.pos else s.aux
  match scanPreceding tbl s.step cur fuel idx aux with
  | .error e => .error e
  | .ok r => .ok (s.found (r.1, r.2.1) r.2.2)

/-- Case "preceding-sibling" of `next`. -/
def pathStepState.nextPrecedingSibling (tbl : List Node) (fuel : Nat) (s : pathStepState)
    (p : Nat) (cur : Node) : Except Fault (Bool × pathStepState) :=
  match cur.up with
  | none => s.foundIn s.aux (scanDownBack tbl s.step [] fuel s.idx)
  | some u =>
    match deref tbl (some u) with
    | .error e => .error e
    | .ok un =>
      match (if s.aux = 0 then findSelf un.down p fuel s.idx else .ok (false, s.idx)) with
      | .error e => .error e
      | .ok f =>
        let idx : Int := if f.1 then f.2 - 1 else f.2
        let aux : Int := if s.aux = 0 then 1 else s.aux
        s.foundIn aux (scanDownBack tbl s.step un.down fuel idx)

/-- Case "attribute" of `next`. -/
def pathStepState.nextAttribute (tbl : List Node) (fuel : Nat) (s : pathStepState)
    (cur : Node) : Except Fault (Bool × pathStepState) :=
  let idx : Int := if s.idx = 0 then (cur.pos : Int) + 1 else s.idx
  let aux : Int := if s.idx = 0 then cur.end_ else s.aux
  s.foundIn aux (scanAttr tbl s.step cur aux fuel idx)

/-- The `switch s.step.axis` of `next`, entered with `s.node` pointing at record `cur`
of index `p`; an axis outside the twelve names falls through to
`s.node = nil; return false`. -/
def pathStepState.nextAxis (tbl : List Node) (fuel : Nat) (s : pathStepState) (p : Nat)
    (cur : Node) : Except Fault (Bool × pathStepState) :=
  if s.step.axis = ascii "self" then s.nextSelf cur
  else if s.step.axis = ascii "parent" then s.nextParent tbl cur
  else if s.step.axis = ascii "ancestor" ∨ s.step.axis = ascii "ancestor-or-self" then
    s.nextAncestor tbl fuel p cur
  else if s.step.axis = ascii "child" then s.nextChild tbl fuel cur
  else if s.step.axis = ascii "descendant" ∨ s.step.axis = ascii "descendant-or-self" then
    s.nextDescendant tbl fuel cur
  else if s.step.axis = ascii "following" then s.nextFollowing tbl fuel cur
  else if s.step.axis = ascii "following-sibling" then s.nextFollowingSibling tbl fuel p cur
  else if s.step.axis = ascii "preceding" then s.nextPreceding tbl fuel cur
  else if s.step.axis = ascii "preceding-sibling" then s.nextPrecedingSibling tbl fuel p cur
  else if s.step.axis = ascii "attribute" then s.nextAttribute tbl fuel cur
  else .ok (false, { s with node := none })

/-- Method `next` of `pathStepState`. -/
def pathStepState.next (tbl : List Node) (fuel : Nat) (s : pathStepState) :
    Except Fault (Bool × pathStepState) :=
  match s.node with
  | none => .ok (false, s)
  | some p0 =>
    match (if s.step.root = true ∧ s.idx = 0 then rootWalk tbl fuel p0 else .ok p0) with
    | .error e => .error e
    | .ok p =>
      match deref tbl (some p) with
      | .error e => .error e
      | .ok cur => pathStepState.nextAxis tbl fuel { s with node := some p } p cur

/-- Method `Iter` of `Path`, called on the node with index `node`. -/
def Path.Iter (tbl : List Node) (p : Path) (node : Nat) : Except Fault Iter :=
  match deref tbl (some node) with
  | .error e => .error e
  | .ok nd =>
    let state : List pathStepState := p.steps.map fun st => { step := st }
    match state with
    | [] => .error .indexOutOfRange
    | s0 :: rest =>
      .ok { state := s0.init (some node) :: rest,
            seen := List.replicate (lenNodes tbl nd) false }

/-- Method `string` of `Iter`: the loop over `state.node.nodes[pos:end]`. -/
def stringLoop (tbl : List Node) (cur : Node) : List Nat → GoString → Except Fault GoString
  | [], text => .ok text
  | i :: is, text =>
    match indexNodes tbl cur i with
    | .error e => .error e
    | .ok (_, node) =>
      if node.kind = .textNode ∨ node.kind = .commentNode ∨ node.kind = .procInstNode then
        stringLoop tbl cur is (text ++ node.text)
      else stringLoop tbl cur is text

/-- Method `string` of `Iter`. -/
def Iter.string (tbl : List Node) (iter : Iter) : Except Fault GoString :=
  match iter.state.getLast? with
  | none => .error .indexOutOfRange
  | some state =>
    match deref tbl state.node with
    | .error e => .error e
    | .ok nd =>
      if nd.kind = .attrNode then .ok nd.attr
      else stringLoop tbl nd (List.range' nd.pos (nd.end_ - nd.pos)) []

/-- Method `Node` of `Iter`. -/
def Iter.Node (iter : Iter) : Except Fault (Option Nat) :=
  match iter.state.getLast? with
  | none => .error .indexOutOfRange
  | some state => .ok state.node

/-- First inner loop of `Next`, `for !iter.state[tip].next() { tip--; ... }`: the level
whose `next` returned true, or `none` when `tip` reached -1. -/
def retreat (tbl : List Node) (fuel : Nat) : Nat → List pathStepState →
    Except Fault (Option Nat × List pathStepState)
  | 0, st =>
    match st[0]? with
    | none => .error .indexOutOfRange
    | some s =>
      match s.next tbl fuel with
      | .error e => .error e
      | .ok (true, s1) => .ok (some 0, st.set 0 s1)
      | .ok (false, s1) => .ok (none, st.set 0 s1)
  | tip + 1, st =>
    match st[tip + 1]? with
    | none => .error .indexOutOfRange
    | some s =>
      match s.next tbl fuel with
      | .error e => .error e
      | .ok (true, s1) => .ok (some (tip + 1), st.set (tip + 1) s1)
      | .ok (false, s1) => retreat tbl fuel tip (st.set (tip + 1) s1)

/-- Second inner loop of `Next`, `for tip < len(iter.state)-1 { ... }`, with at most `n`
levels above `tip`: whether the last level was reached, and `tip` on exit. -/
def advance (tbl : List Node) (fuel : Nat) : Nat → Nat → List pathStepState →
    Except Fault (Bool × Nat × List pathStepState)
  | 0, tip, st => .ok (true, tip, st)
  | n + 1, tip, st =>
    if tip + 1 < st.length then
      match st[tip]?, st[tip + 1]? with
      | some prev, some s =>
        match (s.init prev.node).next tbl fuel with
        | .error e => .error e
        | .ok (true, s1) => advance tbl fuel n (tip + 1) (st.set (tip + 1) s1)
        | .ok (false, s1) => .ok (false, tip, st.set (tip + 1) s1)
      | _, _ => .error .indexOutOfRange
    else .ok (true, tip, st)

/-- The loop `outer` of `Next`, allowed `n` rounds. -/
def nextLoop (tbl : List Node) (fuel : Nat) : Nat → Nat → Iter → Except Fault (Bool × Iter)
  | 0, _, _ => .error .outOfFuel
  | n + 1, tip, iter =>
    match retreat tbl fuel tip iter.state with
    | .error e => .error e
    | .ok (none, st) => .ok (false, { iter with state := st })
    | .ok (some tip1, st) =>
      match advance tbl fuel st.length tip1 st with
      | .error e => .error e
      | .ok (false, tip2, st2) => nextLoop tbl fuel n tip2 { iter with state := st2 }
      | .ok (true, tip2, st2) =>
        match st2[tip2]? with
        | none => .error .indexOutOfRange
        | some s =>
          match deref tbl s.node with
          | .error e => .error e
          | .ok nd =>
            match iter.seen[nd.pos]? with
            | none => .error .indexOutOfRange
            | some true => nextLoop tbl fuel n tip2 { iter with state := st2 }
            | some false => .ok (true, { state := st2, seen := iter.seen.set nd.pos true })

/-- Method `Next` of `Iter`. -/
def Iter.Next (tbl : List xmlpath.Node) (fuel : Nat) (iter : Iter) :
    Except Fault (Bool × Iter) :=
  match iter.state.length with
  | 0 => .error .indexOutOfRange
  | n + 1 => nextLoop tbl fuel fuel n iter

/-- Method `Exists` of `Path`. -/
def Path.Exists (tbl : List Node) (fuel : Nat) (p : Path) (node : Nat) :
    Except Fault Bool :=
  match p.Iter tbl node with
  | .error e => .error e
  | .ok iter =>
    match iter.Next tbl fuel with
    | .error e => .error e
    | .ok r => .ok r.1

/-- Method `String` of `Path`. -/
def Path.String (tbl : List Node) (fuel : Nat) (p : Path) (node : Nat) :
    Except Fault (GoString × Bool) :=
  match p.Iter tbl node with
  | .error e => .error e
  | .ok iter =>
    match iter.Next tbl fuel with
    | .error e => .error e
    | .ok (true, iter1) =>
      match iter1.string tbl with
      | .error e => .error e
      | .ok s => .ok (s, true)
    | .ok (false, _) => .ok ([], false)

/-- The loop `for iter.Next() { ss = append(ss, iter.string()) }` of `Strings`, allowed
`n` rounds. -/
def stringsLoop (tbl : List Node) (fuel : Nat) : Nat → Iter → List GoString →
    Except Fault (List GoString)
  | 0, _, _ => .error .outOfFuel
  | n + 1, iter, ss =>
    match iter.Next tbl fuel with
    | .error e => .error e
    | .ok (false, _) => .ok ss
    | .ok (true, iter1) =>
      match iter1.string tbl with
      | .error e => .error e
      | .ok s => stringsLoop tbl fuel n iter1 (ss ++ [s])

/-- Method `Strings` of `Path`. -/
def Path.Strings (tbl : List Node) (fuel : Nat) (p : Path) (node : Nat) :
    Except Fault (List GoString × Bool) :=
  match p.Iter tbl node with
  | .error e => .error e
  | .ok iter =>
    match stringsLoop tbl fuel fuel iter [] with
    | .error e => .error e
    | .ok ss => .ok (ss, decide (ss.length > 0))

/-! ## Successive calls of `Next` -/

/-- The table position (`pos`) of the node an iterator stands on, `iter.Node().pos`. -/
def Iter.pos (tbl : List xmlpath.Node) (iter : Iter) : Option Nat :=
  match iter.state.getLast? with
  | none => none
  | some state =>
    match deref tbl state.node with
    | .error _ => none
    | .ok nd => some nd.pos

/-- The iterator after each of the first `k` calls of `Next` that returned true, the
calls being made one after the other on the same iterator; the list ends at the first
call that returns false or fails. -/
def Iter.trace (tbl : List xmlpath.Node) (fuel : Nat) : Nat → Iter → List Iter
  | 0, _ => []
  | k + 1, iter =>
    match iter.Next tbl fuel with
    | .ok (true, iter1) => iter1 :: Iter.trace tbl fuel k iter1
    | _ => []

/-- Repeated advancement until exhaustion: the iterator after each call of `Next` that
returned true, up to the call that returns false; at most `n` calls. -/
def Iter.run (tbl : List xmlpath.Node) (fuel : Nat) : Nat → Iter → Except Fault (List Iter)
  | 0, _ => .error .outOfFuel
  | n + 1, iter =>
    match iter.Next tbl fuel with
    | .error e => .error e
    | .ok (false, _) => .ok []
    | .ok (true, iter1) =>
      match Iter.run tbl fuel n iter1 with
      | .error e => .error e
      | .ok l => .ok (iter1 :: l)

/-- The string values of a list of iterator snapshots, `iter.string()` of each. -/
def stringValues (tbl : List Node) : List Iter → Except Fault (List GoString)
  | [] => .ok []
  | iter :: l =>
    match iter.string tbl with
    | .error e => .error e
    | .ok s =>
      match stringValues tbl l with
      | .error e => .error e
      | .ok ss => .ok (s :: ss)

/-! ## Token sequences -/

/-- Nesting depth after a token sequence read at depth `d`: `none` when an `EndElement`
arrives while no `StartElement` of the sequence is open. -/
def depthAfter : List Token → Nat → Option Nat
  | [], d => some d
  | .StartElement _ _ :: ts, d => depthAfter ts (d + 1)
  | .EndElement _ :: ts, d =>
    match d with
    | 0 => none
    | d + 1 => depthAfter ts d
  | _ :: ts, d => depthAfter ts d

/-- A well-nested token sequence: every `EndElement` closes an open `StartElement` and
no `StartElement` is left open. -/
def wellNested (tokens : List Token) : Prop := depthAfter tokens 0 = some 0

instance (tokens : List Token) : Decidable (wellNested tokens) := by
  unfold wellNested; infer_instance

/-- The token sequence of the document `<a><b id="1">x</b><b id="2">y</b></a>`. -/
def scenarioTokens : List Token :=
  [ .StartElement { Local := ascii "a" } [],
    .StartElement { Local := ascii "b" } [{ name := { Local := ascii "id" }, value := ascii "1" }],
    .CharData (ascii "x"),
    .EndElement { Local := ascii "b" },
    .StartElement { Local := ascii "b" } [{ name := { Local := ascii "id" }, value := ascii "2" }],
    .CharData (ascii "y"),
    .EndElement { Local := ascii "b" },
    .EndElement { Local := ascii "a" } ]

/-- The tree `ParseDecoder` builds from `scenarioTokens`. -/
def scenarioTree : Tree :=
  { root := 0,
    nodes :=
      [ { kind := .startNode, nodes := true, pos := 0, end_ := 11, down := [1] },
        { kind := .startNode, name := { Local := ascii "a" }, nodes := true, pos := 1, end_ := 10,
          up := some 0, down := [2, 6] },
        { kind := .startNode, name := { Local := ascii "b" }, nodes := true, pos := 2, end_ := 5,
          up := some 1, down := [4] },
        { kind := .attrNode, name := { Local := ascii "id" }, attr := ascii "1", nodes := true,
          pos := 3, end_ := 4, up := some 2 },
        { kind := .textNode, text := ascii "x", nodes := true, pos := 4, end_ := 5, up := some 2 },
        { kind := .endNode },
        { kind := .startNode, name := { Local := ascii "b" }, nodes := true, pos := 6, end_ := 9,
          up := some 1, down := [8] },
        { kind := .attrNode, name := { Local := ascii "id" }, attr := ascii "2", nodes := true,
          pos := 7, end_ := 8, up := some 6 },
        { kind := .textNode, text := ascii "y", nodes := true, pos := 8, end_ := 9, up := some 6 },
        { kind := .endNode },
        { kind := .endNode },
        { kind := .endNode } ] }

/-- The compiled path `/a/b`. -/
def scenarioPathAB : Path :=
  { path := ascii "/a/b",
    steps := [ { root := true, axis := ascii "child", name := ascii "a" },
               { axis := ascii "child", name := ascii "b" } ] }

/-- The compiled path `/a/b/@id`. -/
def scenarioPathId : Path :=
  { path := ascii "/a/b/@id",
    steps := [ { root := true, axis := ascii "child", name := ascii "a" },
               { axis := ascii "child", name := ascii "b" },
               { axis := ascii "attribute", name := ascii "id", kind := .attrNode } ] }

/-- The token sequence of the document `<a><x><b/></x><b/></a>`. -/
def nestedTokens : List Token :=
  [ .StartElement { Local := ascii "a" } [],
    .StartElement { Local := ascii "x" } [],
    .StartElement { Local := ascii "b" } [],
    .EndElement { Local := ascii "b" },
    .EndElement { Local := ascii "x" },
    .StartElement { Local := ascii "b" } [],
    .EndElement { Local := ascii "b" },
    .EndElement { Local := ascii "a" } ]

/-- The tree `ParseDecoder` builds from `nestedTokens`. -/
def nestedTree : Tree :=
  { root := 0,
    nodes :=
      [ { kind := .startNode, nodes := true, pos := 0, end_ := 9, down := [1] },
        { kind := .startNode, name := { Local := ascii "a" }, nodes := true, pos := 1, end_ := 8,
          up := some 0, down := [2, 6] },
        { kind := .startNode, name := { Local := ascii "x" }, nodes := true, pos := 2, end_ := 5,
          up := some 1, down := [3] },
        { kind := .startNode, name := { Local := ascii "b" }, nodes := true, pos := 3, end_ := 4,
          up := some 2 },
        { kind := .endNode },
        { kind := .endNode },
        { kind := .startNode, name := { Local := ascii "b" }, nodes := true, pos := 6, end_ := 7,
          up := some 1 },
        { kind := .endNode },
        { kind := .endNode },
        { kind := .endNode } ] }

/-- The compiled path `//b`. -/
def nestedPathB : Path :=
  { path := ascii "//b",
    steps := [ { root := true, axis := ascii "descendant-or-self", name := ascii "*" },
               { axis := ascii "child", name := ascii "b" } ] }

/-- The iterator `Path.Iter` returns for `//b` on the root of `nestedTree`. -/
def nestedIterB : Iter :=
  { state := [ { step := { root := true, axis := ascii "descendant-or-self", name := ascii "*" },
                 node := some 0 },
               { step := { axis := ascii "child", name := ascii "b" } } ],
    seen := List.replicate 10 false }

/-- The compiled path `ancestor::*`. -/
def nestedPathAncestor : Path :=
  { path := ascii "ancestor::*",
    steps := [ { axis := ascii "ancestor", name := ascii "*", kind := .startNode } ] }

/-- The iterator `Path.Iter` returns for `ancestor::*` on the first `b` of `nestedTree`. -/
def nestedIterAncestor : Iter :=
  { state := [ { step := { axis := ascii "ancestor", name := ascii "*", kind := .startNode },
                 node := some 3 } ],
    seen := List.replicate 10 false }

/-- The compiled path `descendant::b`. -/
def nestedPathDescendant : Path :=
  { path := ascii "descendant::b",
    steps := [ { axis := ascii "descendant", name := ascii "b" } ] }

/-- The iterator `Path.Iter` returns for `descendant::b` on the root of `nestedTree`. -/
def nestedIterDescendant : Iter :=
  { state := [ { step := { axis := ascii "descendant", name := ascii "b" }, node := some 0 } ],
    seen := List.replicate 10 false }

/-! ## Predicates used in the proofs -/

/-- Postcondition common to every case of `next`. -/
def StepPost (s : pathStepState) (r : Except Fault (Bool × pathStepState)) : Prop :=
  ∀ b s1, r = .ok (b, s1) → (b = false → s1.node = none) ∧ s1.step = s.step

/-- Every step cursor above level `tip` has an absent node. -/
def AboveNil (tip : Nat) (st : List pathStepState) : Prop :=
  ∀ j s, tip < j → st[j]? = some s → s.node = none

/-- What `retreat` guarantees about the cursors it leaves. -/
def RetreatPost (tip : Nat) (st : List pathStepState)
    (r : Option Nat × List pathStepState) : Prop :=
  r.2.length = st.length ∧ (∀ j, tip < j → r.2[j]? = st[j]?) ∧
    match r.1 with
    | none => tip < st.length ∧ ∀ j s, j ≤ tip → r.2[j]? = some s → s.node = none
    | some t => t ≤ tip ∧ t < st.length ∧
        ∀ j s, t < j → j ≤ tip → r.2[j]? = some s → s.node = none

/-- What `advance` guarantees about the cursors it leaves. -/
def AdvancePost (n tip : Nat) (st : List pathStepState)
    (r : Bool × Nat × List pathStepState) : Prop :=
  r.2.2.length = st.length ∧ tip ≤ r.2.1 ∧
    (r.1 = false → r.2.1 + 1 < st.length ∧
      (∀ s, r.2.2[r.2.1 + 1]? = some s → s.node = none) ∧
      ∀ j, r.2.1 + 1 < j → r.2.2[j]? = st[j]?) ∧
    (r.1 = true → st.length ≤ r.2.1 + 1 ∨ r.2.1 = tip + n)

/-- What a call of `Next` guarantees: on true the node stood on was not yet marked seen
and is marked now; on false nothing is marked and every cursor has an absent node. -/
def NextPost (tbl : List Node) (iter : Iter) (r : Bool × Iter) : Prop :=
  r.2.state.length = iter.state.length ∧
    (r.1 = true → ∃ q, Iter.pos tbl r.2 = some q ∧ iter.seen[q]? = some false ∧
      r.2.seen = iter.seen.set q true) ∧
    (r.1 = false → r.2.seen = iter.seen ∧ ∀ s ∈ r.2.state, s.node = none)

/-- The results of `k` calls of `Next` made one after the other on the same iterator;
the list ends at the first call that fails. -/
def Iter.results (tbl : List xmlpath.Node) (fuel : Nat) : Nat → Iter → List (Except Fault Bool)
  | 0, _ => []
  | k + 1, iter =>
    match iter.Next tbl fuel with
    | .error e => [.error e]
    | .ok (b, iter1) => .ok b :: Iter.results tbl fuel k iter1

/-- A record the link pass has not written to: the zero values of the linking fields. -/
def Node.fresh (nd : Node) : Prop :=
  nd.nodes = false ∧ nd.pos = 0 ∧ nd.end_ = 0 ∧ nd.up = none ∧ nd.down = []

/-- The record kinds the token loop appends for a token. -/
def tokenKinds : Token → List nodeKind
  | .StartElement _ attr => .startNode :: List.replicate attr.length .attrNode
  | .EndElement _ => [.endNode]
  | .CharData _ => [.textNode]
  | .Comment _ => [.commentNode]
  | .ProcInst _ _ => [.procInstNode]
  | .Directive _ => []

/-- The kinds of the records the token loop appends for a token sequence. -/
def recordKinds (tokens : List Token) : List nodeKind := tokens.flatMap tokenKinds

/-- Offset of the first end record that empties a stack of `s` open containers, in a
sequence of record kinds. -/
def closeAt : List nodeKind → Nat → Option Nat
  | [], _ => none
  | .endNode :: ks, s => if s ≤ 1 then some 0 else (closeAt ks (s - 1)).map (· + 1)
  | .startNode :: ks, s => (closeAt ks (s + 1)).map (· + 1)
  | _ :: ks, s => (closeAt ks s).map (· + 1)

/-- Invariant of the link pass at the head of the loop, before position `pos` is
processed, for a table whose record kinds are `K`. -/
structure LinkInv (K : List nodeKind) (pos : Nat) (nodes : List Node) (stack : List Nat) :
    Prop where
  kinds : nodes.map (fun nd => nd.kind) = K
  noAny : nodeKind.anyNode ∉ K
  fresh : ∀ (i : Nat) (nd : Node), pos ≤ i → nodes[i]? = some nd → nd.fresh
  endFresh : ∀ (i : Nat) (nd : Node), nodes[i]? = some nd → nd.kind = .endNode → nd.fresh
  linked : ∀ (i : Nat) (nd : Node), i < pos → nodes[i]? = some nd → nd.kind ≠ .endNode →
    nd.nodes = true ∧ nd.pos = i
  upOK : ∀ (i : Nat) (nd : Node) (u : Nat), i < pos → nodes[i]? = some nd → nd.up = some u →
    u < i ∧ K[u]? = some .startNode
  leaf : ∀ (i : Nat) (nd : Node), i < pos → nodes[i]? = some nd → nd.kind ≠ .startNode → nd.kind ≠ .endNode →
    nd.end_ = i + 1 ∧ nd.down = []
  stackOK : ∀ p ∈ stack, p < pos ∧ K[p]? = some .startNode
  stackOpen : ∀ p ∈ stack, ∀ nd : Node, nodes[p]? = some nd → nd.end_ = 0 ∧ nd.down = []
  stackSorted : stack.Pairwise (fun a b => b < a)
  closed : ∀ (i : Nat) (nd : Node), i < pos → nodes[i]? = some nd → nd.kind = .startNode → i ∉ stack →
    i < nd.end_ ∧ nd.end_ < pos ∧ K[nd.end_]? = some .endNode ∧
      nd.down = computeDown nodes i i nd.end_

/-- The bytes `skipName` scans over: at least `utf8.RuneSelf`, or a name byte. -/
def nameLike (b : Nat) : Bool := decide (128 ≤ b) || isNameByte b

/-- Number of bytes `skipName` consumes when the unread part of the path is `rem`. -/
def nameLen (rem : List Nat) : Nat :=
  match rem with
  | [] => 0
  | b :: _ => if b = 42 then 1 else (rem.takeWhile nameLike).length

/-- Two compiler states that read the same input: same steps so far, and the unread part
of the second path is the unread part of the first followed by `X`, where `X` is empty
or starts with the byte `[`. -/
structure CSim (X : List Nat) (c c1 : pathCompiler) : Prop where
  steps : c.steps = c1.steps
  rem : c1.path.drop c1.i = c.path.drop c.i ++ X
  le : c.i ≤ c.path.length
  le1 : c1.i ≤ c1.path.length
  stop : ∀ b, X.head? = some b → b = 91

/-- State `c1` is state `c` after at least `j` more bytes were read. -/
structure Fwd (j : Nat) (c c1 : pathCompiler) : Prop where
  path : c1.path = c.path
  steps : c1.steps = c.steps
  le : c.i + j ≤ c1.i

/-- State `d` is state `c` after one more step was compiled, reading at least `k` bytes. -/
structure Prog (k : Nat) (c d : pathCompiler) : Prop where
  path : d.path = c.path
  le : c.i + k ≤ d.i
  steps : ∃ st, d.steps = c.steps ++ [st]

/-- Relation between the outcomes of a piece of `compile` run from two states that read
the same input (`CSim`) and come from the states `c` and `c1`: both runs fail, or both
succeed in related states, or the first succeeds at the end of its path and the second
fails where `X` starts. -/
def RelRes (X : List Nat) (k : Nat) (c c1 : pathCompiler)
    (r r1 : Except CompileError pathCompiler) : Prop :=
  match r, r1 with
  | .ok d, .ok d1 => CSim X d d1 ∧ Prog k c d ∧ Prog k c1 d1
  | .error _, .error _ => True
  | .ok d, .error e1 =>
    X ≠ [] ∧ d.i = d.path.length ∧ e1.offset + X.length = e1.path.length ∧ e1.path = c1.path ∧
      Prog k c d
  | .error _, .ok _ => False

/-- Relation between the outcomes of the loop of `compile` run from two states that
read the same input: both fail, or both succeed with the same steps (and `X` is empty),
or the first succeeds and the second fails at the offset where `X` starts. -/
def RelLoop (X : List Nat) (c1 : pathCompiler)
    (r r1 : Except CompileError pathCompiler) : Prop :=
  match r, r1 with
  | .ok d, .ok d1 => d.steps = d1.steps ∧ X = []
  | .error _, .error _ => True
  | .ok _, .error e1 => X ≠ [] ∧ e1.offset + X.length = e1.path.length ∧ e1.path = c1.path
  | .error _, .ok _ => False

/-- The step `descendant-or-self::node()` at the head of a root-anchored path. -/
def stepDOS : pathStep :=
  { root := true, axis := ascii "descendant-or-self", name := ascii "*", kind := .anyNode }

/-- What the link pass guarantees about a table it has processed to the end: the
linking fields of every record. -/
structure TreeOK (tbl : List Node) : Prop where
  linked : ∀ (i : Nat) (nd : Node), tbl[i]? = some nd → nd.kind ≠ .endNode →
    nd.nodes = true ∧ nd.pos = i
  upStart : ∀ (i : Nat) (nd : Node) (u : Nat), tbl[i]? = some nd → nd.up = some u →
    u < i ∧ ∃ un, tbl[u]? = some un ∧ un.kind = .startNode
  downNil : ∀ (i : Nat) (nd : Node), tbl[i]? = some nd → nd.kind ≠ .startNode → nd.down = []
  downEq : ∀ (i : Nat) (nd : Node), tbl[i]? = some nd → nd.kind = .startNode →
    i < nd.end_ ∧ nd.end_ < tbl.length ∧ nd.down = computeDown tbl i i nd.end_
  leafEnd : ∀ (i : Nat) (nd : Node), tbl[i]? = some nd → nd.kind ≠ .startNode →
    nd.kind ≠ .endNode → nd.end_ = i + 1
  endFresh : ∀ (i : Nat) (nd : Node), tbl[i]? = some nd → nd.kind = .endNode → nd.fresh

/-- One call of `next` that returns true takes cursor `a` to cursor `b`. -/
def NextTo (tbl : List Node) (fuel : Nat) (a b : pathStepState) : Prop :=
  a.next tbl fuel = .ok (true, b)

/-- The table position of the node a step cursor stands on. -/
def pathStepState.pos (tbl : List Node) (s : pathStepState) : Option Nat :=
  match deref tbl s.node with
  | .error _ => none
  | .ok nd => some nd.pos

/-- Order of two table positions that are both present. -/
def posLt (a b : Option Nat) : Prop := ∃ x y, a = some x ∧ b = some y ∧ x < y

/-- A cursor of a table-scanning axis after it has returned a node: it stands on record
`k`, whose `pos` is `k`, and the scan resumes at `k + 1`. -/
def JScan (tbl : List Node) (s : pathStepState) : Prop :=
  ∃ (k : Nat) (nd : Node), s.node = some k ∧ tbl[k]? = some nd ∧ nd.pos = k ∧
    s.idx = (k : Int) + 1

/-- A cursor of the child or following-sibling axis after it has returned a node: it
stands on entry `j` of the children of its parent, and resumes at entry `j + 1`. -/
def JDown (tbl : List Node) (s : pathStepState) : Prop :=
  ∃ (k : Nat) (nd : Node) (u : Nat) (un : Node) (j : Nat), s.node = some k ∧
    tbl[k]? = some nd ∧ nd.pos = k ∧ nd.up = some u ∧
    tbl[u]? = some un ∧ un.kind = .startNode ∧ s.idx = (j : Int) + 1 ∧ un.down[j]? = some k

/-- The forward axes. -/
def forwardAxes : List GoString :=
  [ascii "self", ascii "child", ascii "attribute", ascii "descendant",
   ascii "descendant-or-self", ascii "following", ascii "following-sibling"]

/-- What a cursor on a forward axis satisfies after it has returned a node. -/
def JFwd (tbl : List Node) (s : pathStepState) : Prop :=
  s.idx ≠ 0 ∧ (∃ x, s.pos tbl = some x) ∧
    ((s.step.axis = ascii "child" ∨ s.step.axis = ascii "following-sibling") → JDown tbl s) ∧
    ((s.step.axis = ascii "attribute" ∨ s.step.axis = ascii "descendant" ∨
        s.step.axis = ascii "descendant-or-self" ∨ s.step.axis = ascii "following") →
      JScan tbl s)

/-! ## Predicates for the runs of a one-step path -/

/-- The cursors a step goes through when `next` is called on it again and again: each
call but the last returns true and leaves the next cursor of the list, the last call
returns false. -/
def Chain (tbl : List Node) (fuel : Nat) : pathStepState → List pathStepState → Prop
  | s, [] => ∃ s1, s.next tbl fuel = .ok (false, s1)
  | s, s1 :: l => s.next tbl fuel = .ok (true, s1) ∧ Chain tbl fuel s1 l

/-- Whether the record at table index `i` passes the test of `step`. -/
def matchAt (tbl : List Node) (step : pathStep) (i : Nat) : Bool :=
  match tbl[i]? with
  | some r => step.match_ r
  | none => false

/-- Whether the record at table index `i` has the local name `N`. -/
def nameAt (tbl : List Node) (N : GoString) (i : Nat) : Bool :=
  match tbl[i]? with
  | some r => decide (r.name.Local = N)
  | none => false

/-- A cursor of the child axis that is about to scan the entries `rest` of the children
`down` of record `n`: a fresh cursor on `n`, or a resuming cursor on a child of `n`. -/
def AtChild (tbl : List Node) (step : pathStep) (n : Nat) (down : List Nat)
    (s : pathStepState) (rest : List Nat) : Prop :=
  s.step = step ∧ ∃ j : Nat, s.idx = (j : Int) ∧ down.drop j = rest ∧
    ((j = 0 ∧ s.node = some n) ∨
      (j ≠ 0 ∧ ∃ (c : Nat) (cn : Node), s.node = some c ∧ tbl[c]? = some cn ∧ cn.up = some n))

/-- The fields of a record that the token loop writes and the link pass leaves alone. -/
def Node.payload (nd : Node) : nodeKind × Name × GoString × GoString :=
  (nd.kind, nd.name, nd.attr, nd.text)

/-- The token sequence of the document `<?a x?><a/>`. -/
def targetTokens : List Token :=
  [ .ProcInst (ascii "a") (ascii "x"),
    .StartElement { Local := ascii "a" } [],
    .EndElement { Local := ascii "a" } ]

/-- The tree `ParseDecoder` builds from `targetTokens`. -/
def targetTree : Tree :=
  { root := 0,
    nodes :=
      [ { kind := .startNode, nodes := true, pos := 0, end_ := 4, down := [1, 2] },
        { kind := .procInstNode, name := { Local := ascii "a" }, text := ascii "x", nodes := true,
          pos := 1, end_ := 2, up := some 0 },
        { kind := .startNode, name := { Local := ascii "a" }, nodes := true, pos := 2, end_ := 3,
          up := some 0 },
        { kind := .endNode },
        { kind := .endNode } ] }

/-- The step a bare name `N` compiles to. -/
def nameStep (N : GoString) : pathStep :=
  { axis := ascii "child", name := N, kind := .anyNode }

/-- Invariant of the link pass on the nesting of the records, at the head of the loop
before position `pos` is processed: the parent of a processed record is an open container
or a closed one whose interval holds the record, the records after an open container
have their parent at or after it, and closed containers are properly nested. -/
structure NestInv (pos : Nat) (nodes : List Node) (stack : List Nat) : Prop where
  rootUp : ∀ (nd : Node), nodes[0]? = some nd → nd.up = none
  hasUp : ∀ (i : Nat) (nd : Node), 0 < i → i < pos → nodes[i]? = some nd →
    nd.kind ≠ .endNode → ∃ u, nd.up = some u
  upIn : ∀ (i : Nat) (nd : Node) (u : Nat) (un : Node), i < pos → nodes[i]? = some nd →
    nd.up = some u → nodes[u]? = some un → u ∈ stack ∨ i < un.end_
  above : ∀ s ∈ stack, ∀ (i : Nat) (nd : Node) (u : Nat), s < i → i < pos →
    nodes[i]? = some nd → nd.up = some u → s ≤ u
  lam : ∀ (c : Nat) (cn : Node) (i : Nat) (nd : Node) (u : Nat), c < pos →
    nodes[c]? = some cn → cn.kind = .startNode → c ∉ stack → c < i → i < cn.end_ →
    nodes[i]? = some nd → nd.up = some u → c ≤ u
  nest : ∀ (c : Nat) (cn : Node) (u : Nat) (un : Node), c < pos → nodes[c]? = some cn →
    cn.kind = .startNode → c ∉ stack → c < u → u < cn.end_ → nodes[u]? = some un →
    un.kind = .startNode → un.end_ < cn.end_
  sep : ∀ (c : Nat) (cn : Node), c < pos → nodes[c]? = some cn → cn.kind = .startNode →
    c ∉ stack → ∀ s ∈ stack, c < s → cn.end_ < s

/-- What the link pass guarantees about the nesting of the records of a table it has
processed to the end. -/
structure TreeNest (tbl : List Node) : Prop where
  rootUp : ∀ (nd : Node), tbl[0]? = some nd → nd.up = none
  hasUp : ∀ (i : Nat) (nd : Node), 0 < i → tbl[i]? = some nd → nd.kind ≠ .endNode →
    ∃ u, nd.up = some u
  upIn : ∀ (i : Nat) (nd : Node) (u : Nat) (un : Node), tbl[i]? = some nd →
    nd.up = some u → tbl[u]? = some un → i < un.end_
  lam : ∀ (c : Nat) (cn : Node) (i : Nat) (nd : Node) (u : Nat), tbl[c]? = some cn →
    cn.kind = .startNode → c < i → i < cn.end_ → tbl[i]? = some nd → nd.up = some u → c ≤ u
  nest : ∀ (c : Nat) (cn : Node) (u : Nat) (un : Node), tbl[c]? = some cn →
    cn.kind = .startNode → c < u → u < cn.end_ → tbl[u]? = some un →
    un.kind = .startNode → un.end_ < cn.end_
  endKind : ∀ (c : Nat) (cn : Node), tbl[c]? = some cn → cn.kind = .startNode →
    ∃ e, tbl[cn.end_]? = some e ∧ e.kind = .endNode

/-- What the record at table index `i` adds to a string value: its text when it is a
text, comment or processing-instruction record, nothing otherwise. -/
def textOf (tbl : List Node) (i : Nat) : GoString :=
  match tbl[i]? with
  | some r =>
    if r.kind = .textNode ∨ r.kind = .commentNode ∨ r.kind = .procInstNode then r.text else []
  | none => []

/-- The texts of the records at the table indices `l`, concatenated. -/
def flatText (tbl : List Node) (l : List Nat) : GoString :=
  (l.map (textOf tbl)).flatten

/-- An iterator standing on the record with table index `p`. -/
def nodeIter (p : Nat) : Iter :=
  { state := [{ step := {}, node := some p }], seen := [] }

/-- The records reached from record `x` by following `up`, nearest first, at most `f` of
them. -/
def upChain (tbl : List Node) : Nat → Nat → List Nat
  | 0, _ => []
  | f + 1, x =>
    match tbl[x]? with
    | some nd =>
      match nd.up with
      | some u => u :: upChain tbl f u
      | none => []
    | none => []

/-- The proper ancestors of record `x`, nearest first: `up` leads to a smaller index, so
the chain has at most `x` members. -/
def ancestors (tbl : List Node) (x : Nat) : List Nat := upChain tbl x x

/-- The `end` of the record at table index `i`. -/
def endAt (tbl : List Node) (i : Nat) : Nat :=
  match tbl[i]? with
  | some r => r.end_
  | none => 0

/-- Whether the record at table index `i` is returned by the table scan of the
descendant axes: it is not an attribute record and passes the test of `step`. -/
def scanGood (tbl : List Node) (step : pathStep) (i : Nat) : Bool :=
  match tbl[i]? with
  | some r => decide (r.kind ≠ .attrNode) && step.match_ r
  | none => false

/-- A cursor of a descendant axis, started on record `n`, that is about to scan the table
indices `rest`, which end at `bound`: a fresh cursor on `n` (the scan then starts at `lo`)
or a resuming cursor. -/
def AtDesc (tbl : List Node) (step : pathStep) (n lo bound : Nat) (s : pathStepState)
    (rest : List Nat) : Prop :=
  s.step = step ∧ ∃ (p : Nat) (cur : Node), s.node = some p ∧ tbl[p]? = some cur ∧
    cur.nodes = true ∧
    ((s.idx = 0 ∧ p = n ∧ rest = List.range' lo (bound - lo)) ∨
      (∃ j : Nat, s.idx = (j : Int) ∧ j ≠ 0 ∧ s.aux = (bound : Int) ∧
        rest = List.range' j (bound - j)))

/-- The text a record adds to a string value. -/
def recText (r : Node) : GoString :=
  if r.kind = .textNode ∨ r.kind = .commentNode ∨ r.kind = .procInstNode then r.text else []

/-- The character content of a token: the bytes of a `CharData` or `Comment` token, the
instruction bytes of a `ProcInst` token. -/
def tokenText : Token → GoString
  | .CharData d => d
  | .Comment d => d
  | .ProcInst _ inst => inst
  | _ => []

/-- The character content of a token sequence, in token order. -/
def charContent (tokens : List Token) : GoString := (tokens.map tokenText).flatten

/-- The compiled path `descendant-or-self::node()`. -/
def pathDescendantOrSelf : Path :=
  { path := ascii "descendant-or-self::node()",
    steps := [{ axis := ascii "descendant-or-self", name := ascii "*", kind := .anyNode }] }

/-- Whether the record at table index `i` is to be returned by the `preceding` axis
started on record `n`: it is not an attribute record, it is not an ancestor of `n`, and it
passes the test of `step`. -/
def precGood (tbl : List Node) (step : pathStep) (n i : Nat) : Bool :=
  match tbl[i]? with
  | some r => decide (r.kind ≠ .attrNode) && decide (i ∉ ancestors tbl n) && step.match_ r
  | none => false

/-- Record `A` is the lowest of `n` and its ancestors at or above table index `m`. -/
def LowAnc (tbl : List Node) (n A m : Nat) : Prop :=
  (A = n ∨ A ∈ ancestors tbl n) ∧ m ≤ A ∧
    ∀ a, (a = n ∨ a ∈ ancestors tbl n) → m ≤ a → A ≤ a

/-- A cursor of the `preceding` axis, started on record `n`, that is about to scan the
table indices `rest` downwards: a cursor whose `idx` is 0, which `next` takes for a fresh
one (on `n`, or on record 1 after it was returned), or a resuming cursor whose `aux` is
the lowest ancestor passed. -/
def AtPrec (tbl : List Node) (step : pathStep) (n : Nat) (s : pathStepState)
    (rest : List Nat) : Prop :=
  s.step = step ∧ ∃ (p : Nat) (cur : Node), s.node = some p ∧ tbl[p]? = some cur ∧
    cur.nodes = true ∧ cur.pos = p ∧
    ((s.idx = 0 ∧ (p = n ∨ (p = 1 ∧ 1 < n)) ∧ rest = (List.range p).reverse) ∨
      (∃ m A : Nat, s.idx = (m : Int) - 1 ∧ s.idx ≠ 0 ∧ s.aux = (A : Int) ∧
        rest = (List.range m).reverse ∧ m ≤ n ∧ LowAnc tbl n A m))

/-- Whether the record at table index `i` has the record `c` as its parent and is a
container, text, comment or processing-instruction record. -/
def isChildOf (tbl : List Node) (c i : Nat) : Bool :=
  match tbl[i]? with
  | some r => decide (r.up = some c) && isDownKind r.kind
  | none => false

/-! ## Theorems -/

/-- C6: for the token sequence of `<a><b id="1">x</b><b id="2">y</b></a>`, iterating
`/a/b` from the root emits exactly the two `b` element records at table positions 2 and
6, in that order, and is then exhausted; `/a/b/@id` has the string values "1", "2". -/
theorem scenario_a_b :
    ParseDecoder { tokens := scenarioTokens } = .ok scenarioTree ∧
      Compile (ascii "/a/b") = .ok scenarioPathAB ∧
      Compile (ascii "/a/b/@id") = .ok scenarioPathId ∧
      ((scenarioPathAB.Iter scenarioTree.nodes scenarioTree.root).bind fun iter =>
        (iter.run scenarioTree.nodes 16 16).map (List.map (Iter.pos scenarioTree.nodes))) =
        .ok [some 2, some 6] ∧
      ((scenarioPathAB.Iter scenarioTree.nodes scenarioTree.root).bind fun iter =>
        (iter.run scenarioTree.nodes 16 16).map (List.map Iter.Node)) =
        .ok [.ok (some 2), .ok (some 6)] ∧
      scenarioPathId.Strings scenarioTree.nodes 16 scenarioTree.root =
        .ok ([ascii "1", ascii "2"], true) := by
  refine ⟨by rfl, by rfl, by rfl, by rfl, by rfl, by rfl⟩

/-! ### The step cursor: what every case of `next` guarantees -/

theorem found_spec (s : pathStepState) (r : Option Nat × Int) (a : Int) (b : Bool)
    (s1 : pathStepState) (h : s.found r a = (b, s1)) :
    (b = false → s1.node = none) ∧ s1.step = s.step := by
  unfold pathStepState.found at h
  split at h <;> simp at h <;> obtain ⟨h1, h2⟩ := h <;> subst h1 h2 <;> simp

theorem foundIn_spec (s : pathStepState) (a : Int) (x : Except Fault (Option Nat × Int))
    (b : Bool) (s1 : pathStepState) (h : s.foundIn a x = .ok (b, s1)) :
    (b = false → s1.node = none) ∧ s1.step = s.step := by
  unfold pathStepState.foundIn at h
  split at h
  · simp at h
  · simp only [Except.ok.injEq] at h
    exact found_spec _ _ _ _ _ h

theorem stepPost_foundIn (s : pathStepState) (a : Int) (x : Except Fault (Option Nat × Int)) :
    StepPost s (s.foundIn a x) := fun b s1 h => foundIn_spec s a x b s1 h

theorem stepPost_fail (s : pathStepState) : StepPost s (.ok (false, { s with node := none })) := by
  intro b s1 h
  simp only [Except.ok.injEq, Prod.mk.injEq] at h
  obtain ⟨h1, h2⟩ := h
  subst h1 h2
  simp

theorem stepPost_error (s : pathStepState) (e : Fault) : StepPost s (.error e) := by
  intro b s1 h
  simp at h

theorem stepPost_true (s s2 : pathStepState) (h : s2.step = s.step) :
    StepPost s (.ok (true, s2)) := by
  intro b s1 h1
  simp only [Except.ok.injEq, Prod.mk.injEq] at h1
  obtain ⟨h1, h2⟩ := h1
  subst h1 h2
  simp [h]

theorem nextSelf_post (s : pathStepState) (cur : Node) : StepPost s (s.nextSelf cur) := by
  unfold pathStepState.nextSelf
  split
  · exact stepPost_true _ _ rfl
  · exact stepPost_fail _

theorem nextParent_post (tbl : List Node) (s : pathStepState) (cur : Node) :
    StepPost s (s.nextParent tbl cur) := by
  unfold pathStepState.nextParent
  split
  · exact stepPost_fail _
  · split
    · exact stepPost_error _ _
    · split
      · exact stepPost_true _ _ rfl
      · exact stepPost_fail _

theorem nextAncestor_post (tbl : List Node) (fuel : Nat) (s : pathStepState) (p : Nat)
    (cur : Node) : StepPost s (s.nextAncestor tbl fuel p cur) := by
  unfold pathStepState.nextAncestor
  split
  · split
    · exact stepPost_true _ _ rfl
    · exact stepPost_foundIn _ _ _
  · exact stepPost_foundIn _ _ _

theorem nextChild_post (tbl : List Node) (fuel : Nat) (s : pathStepState) (cur : Node) :
    StepPost s (s.nextChild tbl fuel cur) := by
  unfold pathStepState.nextChild
  split
  · exact stepPost_error _ _
  · exact stepPost_foundIn _ _ _

theorem nextFollowingSibling_post (tbl : List Node) (fuel : Nat) (s : pathStepState) (p : Nat)
    (cur : Node) : StepPost s (s.nextFollowingSibling tbl fuel p cur) := by
  unfold pathStepState.nextFollowingSibling
  split
  · exact stepPost_foundIn _ _ _
  · split
    · exact stepPost_error _ _
    · split
      · exact stepPost_error _ _
      · exact stepPost_foundIn _ _ _

theorem nextPreceding_post (tbl : List Node) (fuel : Nat) (s : pathStepState)
    (cur : Node) : StepPost s (s.nextPreceding tbl fuel cur) := by
  unfold pathStepState.nextPreceding
  simp only
  split
  · exact stepPost_error _ _
  · intro b s1 h
    simp only [Except.ok.injEq] at h
    exact found_spec _ _ _ _ _ h

theorem nextPrecedingSibling_post (tbl : List Node) (fuel : Nat) (s : pathStepState) (p : Nat)
    (cur : Node) : StepPost s (s.nextPrecedingSibling tbl fuel p cur) := by
  unfold pathStepState.nextPrecedingSibling
  split
  · exact stepPost_foundIn _ _ _
  · split
    · exact stepPost_error _ _
    · split
      · exact stepPost_error _ _
      · exact stepPost_foundIn _ _ _

theorem nextDescendant_post (tbl : List Node) (fuel : Nat) (s : pathStepState)
    (cur : Node) : StepPost s (s.nextDescendant tbl fuel cur) := by
  unfold pathStepState.nextDescendant
  exact stepPost_foundIn _ _ _

theorem nextFollowing_post (tbl : List Node) (fuel : Nat) (s : pathStepState)
    (cur : Node) : StepPost s (s.nextFollowing tbl fuel cur) := by
  unfold pathStepState.nextFollowing
  exact stepPost_foundIn _ _ _

theorem nextAttribute_post (tbl : List Node) (fuel : Nat) (s : pathStepState)
    (cur : Node) : StepPost s (s.nextAttribute tbl fuel cur) := by
  unfold pathStepState.nextAttribute
  exact stepPost_foundIn _ _ _

theorem nextAxis_post (tbl : List Node) (fuel : Nat) (s : pathStepState) (p : Nat)
    (cur : Node) : StepPost s (s.nextAxis tbl fuel p cur) := by
  unfold pathStepState.nextAxis
  split
  · exact nextSelf_post _ _
  split
  · exact nextParent_post _ _ _
  split
  · exact nextAncestor_post _ _ _ _ _
  split
  · exact nextChild_post _ _ _ _
  split
  · exact nextDescendant_post _ _ _ _
  split
  · exact nextFollowing_post _ _ _ _
  split
  · exact nextFollowingSibling_post _ _ _ _ _
  split
  · exact nextPreceding_post _ _ _ _
  split
  · exact nextPrecedingSibling_post _ _ _ _ _
  split
  · exact nextAttribute_post _ _ _ _
  · exact stepPost_fail _

theorem next_spec (tbl : List Node) (fuel : Nat) (s s1 : pathStepState) (b : Bool)
    (h : s.next tbl fuel = .ok (b, s1)) :
    (b = false → s1.node = none) ∧ s1.step = s.step := by
  unfold pathStepState.next at h
  split at h
  · rename_i hn
    simp only [Except.ok.injEq, Prod.mk.injEq] at h
    obtain ⟨h1, h2⟩ := h
    subst h1 h2
    exact ⟨fun _ => hn, rfl⟩
  · split at h
    · simp at h
    · split at h
      · simp at h
      · have h2 := nextAxis_post tbl fuel _ _ _ _ _ h
        exact h2

/-! ### The loops of `Next` -/

theorem retreat_spec (tbl : List Node) (fuel : Nat) (tip : Nat) :
    ∀ (st : List pathStepState) (r : Option Nat × List pathStepState),
      retreat tbl fuel tip st = .ok r → RetreatPost tip st r := by
  induction tip with
  | zero =>
    intro st r h
    unfold retreat at h
    split at h
    · simp at h
    · rename_i s hs
      have hlen : 0 < st.length := by
        rcases List.getElem?_eq_some.mp hs with ⟨h0, _⟩
        exact h0
      split at h
      · simp at h
      · simp only [Except.ok.injEq] at h
        subst h
        refine ⟨by simp, ?_, ?_⟩
        · intro j hj
          simp only
          rw [List.getElem?_set_ne (by omega)]
        · simp only
          exact ⟨Nat.le_refl _, hlen, fun j s h1 h2 => by omega⟩
      · rename_i s1 hnext
        simp only [Except.ok.injEq] at h
        subst h
        refine ⟨by simp, ?_, ?_⟩
        · intro j hj
          simp only
          rw [List.getElem?_set_ne (by omega)]
        · simp only
          refine ⟨hlen, ?_⟩
          intro j s2 hj hs2
          have hj0 : j = 0 := by omega
          subst hj0
          rw [List.getElem?_set_self hlen] at hs2
          simp only [Option.some.injEq] at hs2
          subst hs2
          exact (next_spec _ _ _ _ _ hnext).1 rfl
  | succ t ih =>
    intro st r h
    unfold retreat at h
    split at h
    · simp at h
    · rename_i s hs
      have hlen : t + 1 < st.length := by
        rcases List.getElem?_eq_some.mp hs with ⟨h0, _⟩
        exact h0
      split at h
      · simp at h
      · simp only [Except.ok.injEq] at h
        subst h
        refine ⟨by simp, ?_, ?_⟩
        · intro j hj
          simp only
          rw [List.getElem?_set_ne (by omega)]
        · simp only
          exact ⟨Nat.le_refl _, hlen, fun j s h1 h2 => by omega⟩
      · rename_i s1 hnext
        have hrec := ih _ _ h
        obtain ⟨h1, h2, h3⟩ := hrec
        have hnil : s1.node = none := (next_spec _ _ _ _ _ hnext).1 rfl
        have htop : r.2[t + 1]? = some s1 := by
          rw [h2 (t + 1) (by omega), List.getElem?_set_self hlen]
        refine ⟨by simpa using h1, ?_, ?_⟩
        · intro j hj
          rw [h2 j (by omega), List.getElem?_set_ne (by omega)]
        · cases hr : r.1 with
          | none =>
            rw [hr] at h3
            simp only at h3 ⊢
            refine ⟨hlen, ?_⟩
            intro j s2 hj hs2
            by_cases hjt : j ≤ t
            · exact h3.2 j s2 hjt hs2
            · have : j = t + 1 := by omega
              subst this
              rw [htop] at hs2
              simp only [Option.some.injEq] at hs2
              subst hs2
              exact hnil
          | some t1 =>
            rw [hr] at h3
            simp only at h3 ⊢
            refine ⟨by omega, by omega, ?_⟩
            intro j s2 hj1 hj hs2
            by_cases hjt : j ≤ t
            · exact h3.2.2 j s2 hj1 hjt hs2
            · have : j = t + 1 := by omega
              subst this
              rw [htop] at hs2
              simp only [Option.some.injEq] at hs2
              subst hs2
              exact hnil


theorem advance_spec (tbl : List Node) (fuel : Nat) (n : Nat) :
    ∀ (tip : Nat) (st : List pathStepState) (r : Bool × Nat × List pathStepState),
      advance tbl fuel n tip st = .ok r → AdvancePost n tip st r := by
  induction n with
  | zero =>
    intro tip st r h
    unfold advance at h
    simp only [Except.ok.injEq] at h
    subst h
    exact ⟨rfl, Nat.le_refl _, by simp, by simp⟩
  | succ n ih =>
    intro tip st r h
    unfold advance at h
    split at h
    · rename_i hlt
      split at h
      · rename_i prev s hprev hs
        split at h
        · simp at h
        · rename_i s1 hnext
          obtain ⟨h1, h2, h3, h4⟩ := ih _ _ _ h
          refine ⟨by simpa using h1, by omega, ?_, ?_⟩
          · intro hb
            obtain ⟨h5, h6, h7⟩ := h3 hb
            refine ⟨by simpa using h5, h6, ?_⟩
            intro j hj
            rw [h7 j hj, List.getElem?_set_ne (by omega)]
          · intro hb
            rcases h4 hb with h5 | h5
            · left
              simpa using h5
            · right
              omega
        · rename_i s1 hnext
          simp only [Except.ok.injEq] at h
          subst h
          refine ⟨by simp, Nat.le_refl _, ?_, by simp⟩
          intro _
          refine ⟨hlt, ?_, ?_⟩
          · intro s2 hs2
            simp only at hs2
            rw [List.getElem?_set_self hlt] at hs2
            simp only [Option.some.injEq] at hs2
            subst hs2
            exact (next_spec _ _ _ _ _ hnext).1 rfl
          · intro j hj
            simp only at hj ⊢
            rw [List.getElem?_set_ne (by omega)]
      · simp at h
    · rename_i hlt
      simp only [Except.ok.injEq] at h
      subst h
      exact ⟨rfl, Nat.le_refl _, by simp, fun _ => Or.inl (by simpa using hlt)⟩

theorem nextLoop_spec (tbl : List Node) (fuel : Nat) (n : Nat) :
    ∀ (tip : Nat) (iter : Iter) (r : Bool × Iter), tip < iter.state.length →
      AboveNil tip iter.state → nextLoop tbl fuel n tip iter = .ok r → NextPost tbl iter r := by
  induction n with
  | zero =>
    intro tip iter r _ _ h
    simp [nextLoop] at h
  | succ n ih =>
    intro tip iter r htip habove h
    unfold nextLoop at h
    split at h
    · simp at h
    · rename_i st hret
      obtain ⟨hr1, hr2, hr3⟩ := retreat_spec _ _ _ _ _ hret
      simp only at hr1 hr2 hr3
      simp only [Except.ok.injEq] at h
      subst h
      refine ⟨hr1, by simp, ?_⟩
      intro _
      refine ⟨rfl, ?_⟩
      intro s hs
      obtain ⟨j, hj⟩ := List.mem_iff_getElem?.mp hs
      simp only at hj
      by_cases hjt : j ≤ tip
      · exact hr3.2 j s hjt hj
      · rw [hr2 j (by omega)] at hj
        exact habove j s (by omega) hj
    · rename_i tip1 st hret
      obtain ⟨hr1, hr2, hr3⟩ := retreat_spec _ _ _ _ _ hret
      simp only at hr1 hr2 hr3
      obtain ⟨hr3a, hr3b, hr3c⟩ := hr3
      have hst : ∀ j s, tip1 < j → st[j]? = some s → s.node = none := by
        intro j s hj hs
        by_cases hjt : j ≤ tip
        · exact hr3c j s hj hjt hs
        · rw [hr2 j (by omega)] at hs
          exact habove j s (by omega) hs
      split at h
      · simp at h
      · rename_i tip2 st2 hadv
        obtain ⟨ha1, ha2, ha3, _⟩ := advance_spec _ _ _ _ _ _ hadv
        simp only at ha1 ha2 ha3
        obtain ⟨ha3a, ha3b, ha3c⟩ := ha3 trivial
        have hrec := ih tip2 { iter with state := st2 } r (by simp only; omega) (by
          intro j s hj hs
          simp only at hs
          by_cases hj1 : j = tip2 + 1
          · subst hj1
            exact ha3b s hs
          · rw [ha3c j (by omega)] at hs
            exact hst j s (by omega) hs) h
        obtain ⟨hp1, hp2, hp3⟩ := hrec
        exact ⟨by simp only at hp1; omega, hp2, hp3⟩
      · rename_i tip2 st2 hadv
        obtain ⟨ha1, ha2, _, ha4⟩ := advance_spec _ _ _ _ _ _ hadv
        simp only at ha1 ha2 ha4
        have hlast : st.length ≤ tip2 + 1 := by
          rcases ha4 trivial with h5 | h5
          · exact h5
          · omega
        split at h
        · simp at h
        · rename_i s hs
          have htip2 : tip2 < st2.length := by
            rcases List.getElem?_eq_some.mp hs with ⟨h0, _⟩
            exact h0
          have hlastS : st2.getLast? = some s := by
            rw [List.getLast?_eq_getElem?]
            have : st2.length - 1 = tip2 := by omega
            rw [this, hs]
          split at h
          · simp at h
          · rename_i nd hnd
            split at h
            · simp at h
            · have hrec := ih tip2 { iter with state := st2 } r (by simp only; omega) (by
                intro j s1 hj hs1
                simp only at hs1
                have : st2.length ≤ j := by omega
                rw [List.getElem?_eq_none this] at hs1
                simp at hs1) h
              obtain ⟨hp1, hp2, hp3⟩ := hrec
              exact ⟨by simp only at hp1; omega, hp2, hp3⟩
            · rename_i hseen
              simp only [Except.ok.injEq] at h
              subst h
              refine ⟨by simp only; omega, ?_, by simp⟩
              intro _
              refine ⟨nd.pos, ?_, hseen, rfl⟩
              simp only [Iter.pos, hlastS, hnd]

theorem Next_spec (tbl : List Node) (fuel : Nat) (iter : Iter) (r : Bool × Iter)
    (h : iter.Next tbl fuel = .ok r) : NextPost tbl iter r := by
  unfold Iter.Next at h
  split at h
  · simp at h
  · rename_i n hn
    refine nextLoop_spec tbl fuel fuel n iter r (by omega) ?_ h
    intro j s hj hs
    have : iter.state.length ≤ j := by omega
    rw [List.getElem?_eq_none this] at hs
    simp at hs

theorem set_getElem?_self {α : Type} (l : List α) (j : Nat) (a : α) (h : l[j]? = some a) :
    l.set j a = l := by
  apply List.ext_getElem?
  intro k
  by_cases hk : j = k
  · subst hk
    rw [List.getElem?_set_self (List.getElem?_eq_some.mp h).1, h]
  · rw [List.getElem?_set_ne hk]

theorem next_of_nil (tbl : List Node) (fuel : Nat) (s : pathStepState) (h : s.node = none) :
    s.next tbl fuel = .ok (false, s) := by
  unfold pathStepState.next
  rw [h]

theorem retreat_allNil (tbl : List Node) (fuel : Nat) (tip : Nat) :
    ∀ (st : List pathStepState), tip < st.length → (∀ s ∈ st, s.node = none) →
      retreat tbl fuel tip st = .ok (none, st) := by
  induction tip with
  | zero =>
    intro st hlen hnil
    unfold retreat
    have hs : st[0]? = some st[0] := List.getElem?_eq_getElem hlen
    rw [hs]
    simp only
    rw [next_of_nil _ _ _ (hnil _ (List.getElem_mem _))]
    simp only
    rw [set_getElem?_self _ _ _ hs]
  | succ t ih =>
    intro st hlen hnil
    unfold retreat
    have hs : st[t + 1]? = some st[t + 1] := List.getElem?_eq_getElem hlen
    rw [hs]
    simp only
    rw [next_of_nil _ _ _ (hnil _ (List.getElem_mem _))]
    simp only
    rw [set_getElem?_self _ _ _ hs]
    exact ih st (by omega) hnil

theorem Next_allNil (tbl : List Node) (g : Nat) (iter : Iter) (hne : iter.state ≠ [])
    (hnil : ∀ s ∈ iter.state, s.node = none) : iter.Next tbl (g + 1) = .ok (false, iter) := by
  unfold Iter.Next
  split
  · rename_i h0
    exact absurd (List.length_eq_zero.mp h0) hne
  · rename_i n hn
    unfold nextLoop
    rw [retreat_allNil tbl (g + 1) n iter.state (by omega) hnil]

/-! ### Successive calls of `Next` -/

theorem results_of_exhausted (tbl : List Node) (g : Nat) (iter : Iter) (hne : iter.state ≠ [])
    (hnil : ∀ s ∈ iter.state, s.node = none) (k : Nat) :
    iter.results tbl (g + 1) k = List.replicate k (.ok false) := by
  induction k with
  | zero => rfl
  | succ k ih =>
    unfold Iter.results
    rw [Next_allNil tbl g iter hne hnil]
    simp only [List.replicate_succ, ih]

theorem trace_positions (tbl : List Node) (fuel : Nat) (k : Nat) :
    ∀ iter : Iter, ((iter.trace tbl fuel k).map (Iter.pos tbl)).Nodup ∧
      ∀ x ∈ (iter.trace tbl fuel k).map (Iter.pos tbl),
        ∃ q, x = some q ∧ iter.seen[q]? = some false := by
  induction k with
  | zero =>
    intro iter
    simp [Iter.trace]
  | succ k ih =>
    intro iter
    unfold Iter.trace
    split
    · rename_i iter1 hnext
      obtain ⟨_, hp, _⟩ := Next_spec tbl fuel iter _ hnext
      obtain ⟨q, hq1, hq2, hq3⟩ := hp rfl
      simp only at hq1 hq3
      obtain ⟨ih1, ih2⟩ := ih iter1
      have hqlen : q < iter.seen.length := (List.getElem?_eq_some.mp hq2).1
      have htail : ∀ x ∈ (iter1.trace tbl fuel k).map (Iter.pos tbl),
          ∃ r, x = some r ∧ r ≠ q ∧ iter.seen[r]? = some false := by
        intro x hx
        obtain ⟨r, hr1, hr2⟩ := ih2 x hx
        rw [hq3] at hr2
        have hrq : r ≠ q := by
          intro h
          subst h
          rw [List.getElem?_set_self hqlen] at hr2
          simp at hr2
        rw [List.getElem?_set_ne (Ne.symm hrq)] at hr2
        exact ⟨r, hr1, hrq, hr2⟩
      constructor
      · simp only [List.map_cons, List.nodup_cons]
        refine ⟨?_, ih1⟩
        intro hmem
        obtain ⟨r, hr1, hr2, _⟩ := htail _ hmem
        rw [hq1] at hr1
        simp only [Option.some.injEq] at hr1
        exact hr2 hr1.symm
      · intro x hx
        simp only [List.map_cons, List.mem_cons] at hx
        rcases hx with hx | hx
        · exact ⟨q, by rw [hx, hq1], hq2⟩
        · obtain ⟨r, hr1, _, hr3⟩ := htail x hx
          exact ⟨r, hr1, hr3⟩
    · simp

theorem run_eq_trace (tbl : List Node) (fuel : Nat) (n : Nat) :
    ∀ (iter : Iter) (l : List Iter), iter.run tbl fuel n = .ok l → iter.trace tbl fuel n = l := by
  induction n with
  | zero =>
    intro iter l h
    simp [Iter.run] at h
  | succ n ih =>
    intro iter l h
    unfold Iter.run at h
    unfold Iter.trace
    split at h
    · simp at h
    · rename_i hnext
      simp only [Except.ok.injEq] at h
      rw [hnext]
      simp only
      exact h
    · rename_i iter1 hnext
      rw [hnext]
      simp only
      split at h
      · simp at h
      · rename_i l1 hrun
        simp only [Except.ok.injEq] at h
        rw [ih iter1 l1 hrun, h]

theorem stringsLoop_iff (tbl : List Node) (fuel : Nat) (n : Nat) :
    ∀ (iter : Iter) (ss0 ss : List GoString),
      stringsLoop tbl fuel n iter ss0 = .ok ss ↔
        ∃ l vs, iter.run tbl fuel n = .ok l ∧ stringValues tbl l = .ok vs ∧ ss = ss0 ++ vs := by
  induction n with
  | zero =>
    intro iter ss0 ss
    simp [stringsLoop, Iter.run]
  | succ n ih =>
    intro iter ss0 ss
    unfold stringsLoop Iter.run
    cases hnext : iter.Next tbl fuel with
    | error e => simp
    | ok r =>
      obtain ⟨b, iter1⟩ := r
      cases b with
      | false =>
        simp only [Except.ok.injEq]
        constructor
        · intro h
          exact ⟨[], [], rfl, rfl, by simp [h]⟩
        · rintro ⟨l, vs, h1, h2, h3⟩
          subst h1
          simp only [stringValues, Except.ok.injEq] at h2
          subst h2
          simp [h3]
      | true =>
        simp only
        cases hstr : iter1.string tbl with
        | error e =>
          constructor
          · intro h
            simp at h
          · rintro ⟨l, vs, h1, h2, _⟩
            cases hrun : iter1.run tbl fuel n with
            | error e1 => simp [hrun] at h1
            | ok l1 =>
              simp only [hrun, Except.ok.injEq] at h1
              subst h1
              simp [stringValues, hstr] at h2
        | ok s =>
          simp only
          rw [ih iter1 (ss0 ++ [s]) ss]
          constructor
          · rintro ⟨l, vs, h1, h2, h3⟩
            refine ⟨iter1 :: l, s :: vs, by simp [h1], by simp [stringValues, hstr, h2], ?_⟩
            simp [h3]
          · rintro ⟨l, vs, h1, h2, h3⟩
            cases hrun : iter1.run tbl fuel n with
            | error e1 => simp [hrun] at h1
            | ok l1 =>
              simp only [hrun, Except.ok.injEq] at h1
              subst h1
              simp only [stringValues, hstr] at h2
              cases hvs1 : stringValues tbl l1 with
              | error e1 => simp [hvs1] at h2
              | ok vs1 =>
                simp only [hvs1, Except.ok.injEq] at h2
                subst h2
                exact ⟨l1, vs1, rfl, hvs1, by simp [h3]⟩

theorem stringValues_length (tbl : List Node) :
    ∀ (l : List Iter) (vs : List GoString), stringValues tbl l = .ok vs → vs.length = l.length := by
  intro l
  induction l with
  | nil =>
    intro vs h
    simp only [stringValues, Except.ok.injEq] at h
    subst h
    rfl
  | cons a l ih =>
    intro vs h
    unfold stringValues at h
    split at h
    · simp at h
    · split at h
      · simp at h
      · rename_i vs1 hvs1
        simp only [Except.ok.injEq] at h
        subst h
        simp [ih _ hvs1]

/-- C4: once `Next` has returned false, every step cursor has an absent node and every
later call of `Next` on the iterator returns false again, leaving it unchanged. This
holds for any iterator value, in particular for one obtained from `Path.Iter` and
advanced any number of times. -/
theorem Next_exhaustion_permanent (tbl : List Node) (iter iter1 : Iter) (f g : Nat)
    (h : iter.Next tbl f = .ok (false, iter1)) :
    (∀ s ∈ iter1.state, s.node = none) ∧ iter1.Next tbl (g + 1) = .ok (false, iter1) ∧
      ∀ k, iter1.results tbl (g + 1) k = List.replicate k (.ok false) := by
  obtain ⟨hlen, _, hp⟩ := Next_spec tbl f iter _ h
  obtain ⟨_, hnil⟩ := hp rfl
  simp only at hlen hnil
  have hne : iter1.state ≠ [] := by
    intro h0
    unfold Iter.Next at h
    rw [h0] at hlen
    simp only [List.length_nil] at hlen
    rw [← hlen] at h
    simp at h
  exact ⟨hnil, Next_allNil tbl g iter1 hne hnil, results_of_exhausted tbl g iter1 hne hnil⟩

/-- Witness of C4: in the tree of the scenario document the path `x` from the root is
exhausted at the first call, and stays so. -/
theorem Next_exhaustion_permanent_witness :
    (∀ s ∈ ([{ step := { axis := ascii "child", name := ascii "x" }, idx := 1 }] :
        List pathStepState), s.node = none) ∧
      Iter.Next scenarioTree.nodes (3 + 1)
          { state := [{ step := { axis := ascii "child", name := ascii "x" }, idx := 1 }],
            seen := List.replicate 12 false } =
        .ok (false,
          { state := [{ step := { axis := ascii "child", name := ascii "x" }, idx := 1 }],
            seen := List.replicate 12 false }) ∧
      ∀ k, Iter.results scenarioTree.nodes (3 + 1) k
          { state := [{ step := { axis := ascii "child", name := ascii "x" }, idx := 1 }],
            seen := List.replicate 12 false } = List.replicate k (.ok false) :=
  Next_exhaustion_permanent scenarioTree.nodes
    { state := [{ step := { axis := ascii "child", name := ascii "x" }, node := some 0 }],
      seen := List.replicate 12 false }
    { state := [{ step := { axis := ascii "child", name := ascii "x" }, idx := 1 }],
      seen := List.replicate 12 false } 16 3 (by rfl)

/-- C1: in every tree returned by `ParseDecoder`, from every start node and for every
path accepted by `Compile` with at least one step, the nodes on which successive calls
of `Next` return true have pairwise distinct table positions; and the values returned
by `Strings` are the string values of nodes with pairwise distinct positions. -/
theorem emitted_positions_distinct (d : Decoder) (t : Tree) (path : GoString) (p : Path)
    (node : Nat) (iter : Iter) (fuel k : Nat)
    (_ht : ParseDecoder d = .ok t) (_hp : Compile path = .ok p) (_hs : p.steps ≠ [])
    (hi : p.Iter t.nodes node = .ok iter) :
    ((iter.trace t.nodes fuel k).map (Iter.pos t.nodes)).Nodup ∧
      (∀ x ∈ (iter.trace t.nodes fuel k).map (Iter.pos t.nodes), x ≠ none) ∧
      ∀ ss b, p.Strings t.nodes fuel node = .ok (ss, b) →
        ∃ l, stringValues t.nodes l = .ok ss ∧ (l.map (Iter.pos t.nodes)).Nodup ∧
          ∀ x ∈ l.map (Iter.pos t.nodes), x ≠ none := by
  have key := fun k => trace_positions t.nodes fuel k iter
  refine ⟨(key k).1, ?_, ?_⟩
  · intro x hx
    obtain ⟨q, hq, _⟩ := (key k).2 x hx
    simp [hq]
  · intro ss b h
    unfold Path.Strings at h
    rw [hi] at h
    simp only at h
    split at h
    · simp at h
    · rename_i ss1 hloop
      simp only [Except.ok.injEq, Prod.mk.injEq] at h
      obtain ⟨l, vs, h1, h2, h3⟩ := (stringsLoop_iff _ _ _ _ _ _).mp hloop
      simp only [List.nil_append] at h3
      have htr := run_eq_trace _ _ _ _ _ h1
      refine ⟨l, by rw [h2, ← h.1, h3], ?_, ?_⟩
      · rw [← htr]
        exact (key fuel).1
      · intro x hx
        rw [← htr] at hx
        obtain ⟨q, hq, _⟩ := (key fuel).2 x hx
        simp [hq]

/-- The iterator `Path.Iter` returns for `/a/b` on the root of the scenario tree. -/
theorem scenarioIter_eq :
    scenarioPathAB.Iter scenarioTree.nodes 0 =
      .ok { state := [ { step := { root := true, axis := ascii "child", name := ascii "a" },
                         node := some 0 },
                       { step := { axis := ascii "child", name := ascii "b" } } ],
            seen := List.replicate 12 false } := by
  rfl

/-- Witness of C1: the scenario document, the path `/a/b`, the root, five calls. -/
theorem emitted_positions_distinct_witness :
    ((Iter.trace scenarioTree.nodes 16 5
        { state := [ { step := { root := true, axis := ascii "child", name := ascii "a" },
                       node := some 0 },
                     { step := { axis := ascii "child", name := ascii "b" } } ],
          seen := List.replicate 12 false }).map (Iter.pos scenarioTree.nodes)).Nodup ∧
      (∀ x ∈ (Iter.trace scenarioTree.nodes 16 5
        { state := [ { step := { root := true, axis := ascii "child", name := ascii "a" },
                       node := some 0 },
                     { step := { axis := ascii "child", name := ascii "b" } } ],
          seen := List.replicate 12 false }).map (Iter.pos scenarioTree.nodes), x ≠ none) ∧
      ∀ ss b, scenarioPathAB.Strings scenarioTree.nodes 16 0 = .ok (ss, b) →
        ∃ l, stringValues scenarioTree.nodes l = .ok ss ∧
          (l.map (Iter.pos scenarioTree.nodes)).Nodup ∧
          ∀ x ∈ l.map (Iter.pos scenarioTree.nodes), x ≠ none :=
  emitted_positions_distinct { tokens := scenarioTokens } scenarioTree (ascii "/a/b")
    scenarioPathAB 0 _ 16 5 (by rfl) (by rfl) (by decide) scenarioIter_eq

/-- On a run without fault, `Strings`, `String` and `Exists` are repeated advancement of
one fresh iterator. When the iteration from `p.Iter(n)` runs to exhaustion emitting the nodes `l` with string
values `vs`, `Strings` returns `vs` with ok true iff `vs` is non-empty, `String` returns
the first element of `vs` and true, or the empty string and false, and `Exists` returns
the same flag; conversely every result of `Strings` arises in this way. -/
theorem strings_are_repeated_advancement (tbl : List Node) (fuel : Nat) (p : Path)
    (node : Nat) (iter : Iter) (l : List Iter) (vs : List GoString)
    (hi : p.Iter tbl node = .ok iter) (hrun : iter.run tbl fuel fuel = .ok l)
    (hvs : stringValues tbl l = .ok vs) :
    p.Strings tbl fuel node = .ok (vs, decide (vs ≠ [])) ∧
      p.String tbl fuel node = .ok (vs.headD [], decide (vs ≠ [])) ∧
      p.Exists tbl fuel node = .ok (decide (vs ≠ [])) ∧
      (∀ ss b, p.Strings tbl fuel node = .ok (ss, b) → ss = vs ∧ b = decide (vs ≠ [])) := by
  have hstrings : p.Strings tbl fuel node = .ok (vs, decide (vs ≠ [])) := by
    unfold Path.Strings
    rw [hi]
    simp only
    have h := (stringsLoop_iff tbl fuel fuel iter [] vs).mpr ⟨l, vs, hrun, hvs, by simp⟩
    rw [h]
    simp only [Except.ok.injEq, Prod.mk.injEq, true_and]
    cases vs <;> simp
  refine ⟨hstrings, ?_, ?_, ?_⟩
  · unfold Path.String
    rw [hi]
    simp only
    cases fuel with
    | zero => simp [Iter.run] at hrun
    | succ n =>
      unfold Iter.run at hrun
      split at hrun
      · simp at hrun
      · rename_i hnext
        simp only [Except.ok.injEq] at hrun
        subst hrun
        simp only [stringValues, Except.ok.injEq] at hvs
        subst hvs
        rw [hnext]
        simp
      · rename_i iter1 hnext
        rw [hnext]
        simp only
        cases hr : iter1.run tbl (n + 1) n with
        | error e => simp [hr] at hrun
        | ok l1 =>
          simp only [hr, Except.ok.injEq] at hrun
          subst hrun
          unfold stringValues at hvs
          cases hstr : iter1.string tbl with
          | error e => simp [hstr] at hvs
          | ok s =>
            simp only [hstr] at hvs
            cases hv1 : stringValues tbl l1 with
            | error e => simp [hv1] at hvs
            | ok vs1 =>
              simp only [hv1, Except.ok.injEq] at hvs
              subst hvs
              simp
  · unfold Path.Exists
    rw [hi]
    simp only
    cases fuel with
    | zero => simp [Iter.run] at hrun
    | succ n =>
      unfold Iter.run at hrun
      split at hrun
      · simp at hrun
      · rename_i hnext
        simp only [Except.ok.injEq] at hrun
        subst hrun
        simp only [stringValues, Except.ok.injEq] at hvs
        subst hvs
        rw [hnext]
        simp
      · rename_i iter1 hnext
        rw [hnext]
        simp only
        cases hr : iter1.run tbl (n + 1) n with
        | error e => simp [hr] at hrun
        | ok l1 =>
          simp only [hr, Except.ok.injEq] at hrun
          subst hrun
          have hlen := stringValues_length tbl _ vs hvs
          cases vs with
          | nil => simp at hlen
          | cons v vs => simp
  · intro ss b h
    rw [hstrings] at h
    simp only [Except.ok.injEq, Prod.mk.injEq] at h
    exact ⟨h.1.symm, h.2.symm⟩

/-- The scenario document and the path `/a/b/@id` from the root: a run without fault. -/
theorem strings_are_repeated_advancement_witness :
    scenarioPathId.Strings scenarioTree.nodes 16 0 =
        .ok ([ascii "1", ascii "2"], decide ([ascii "1", ascii "2"] ≠ [])) ∧
      scenarioPathId.String scenarioTree.nodes 16 0 =
        .ok ([ascii "1", ascii "2"].headD [], decide ([ascii "1", ascii "2"] ≠ [])) ∧
      scenarioPathId.Exists scenarioTree.nodes 16 0 =
        .ok (decide ([ascii "1", ascii "2"] ≠ [])) ∧
      (∀ ss b, scenarioPathId.Strings scenarioTree.nodes 16 0 = .ok (ss, b) →
        ss = [ascii "1", ascii "2"] ∧ b = decide ([ascii "1", ascii "2"] ≠ [])) :=
  strings_are_repeated_advancement scenarioTree.nodes 16 scenarioPathId 0
    { state := [ { step := { root := true, axis := ascii "child", name := ascii "a" },
                   node := some 0 },
                 { step := { axis := ascii "child", name := ascii "b" } },
                 { step := { axis := ascii "attribute", name := ascii "id", kind := .attrNode } } ],
      seen := List.replicate 12 false }
    [ { state := [ { step := { root := true, axis := ascii "child", name := ascii "a" },
                     node := some 1, idx := 1 },
                   { step := { axis := ascii "child", name := ascii "b" }, node := some 2,
                     idx := 1 },
                   { step := { axis := ascii "attribute", name := ascii "id", kind := .attrNode },
                     node := some 3, idx := 4, aux := 5 } ],
        seen := (List.replicate 12 false).set 3 true },
      { state := [ { step := { root := true, axis := ascii "child", name := ascii "a" },
                     node := some 1, idx := 1 },
                   { step := { axis := ascii "child", name := ascii "b" }, node := some 6,
                     idx := 2 },
                   { step := { axis := ascii "attribute", name := ascii "id", kind := .attrNode },
                     node := some 7, idx := 8, aux := 9 } ],
        seen := ((List.replicate 12 false).set 3 true).set 7 true } ]
    [ascii "1", ascii "2"] (by rfl) (by rfl) (by rfl)

/-- C3 (failing input): on the tree of the empty document, a well-nested token
sequence, the path `preceding-sibling::*` iterated from the root indexes the absent
`down` slice at 0 in the first call of `Next`: the call fails with an index out of
range instead of returning false. -/
theorem preceding_sibling_from_root_faults (f : Nat) :
    wellNested [] ∧
      ParseDecoder { tokens := [] } =
        .ok { nodes := [ { kind := .startNode, nodes := true, pos := 0, end_ := 1 },
                         { kind := .endNode } ], root := 0 } ∧
      Compile (ascii "preceding-sibling::*") =
        .ok { path := ascii "preceding-sibling::*",
              steps := [ { axis := ascii "preceding-sibling", name := ascii "*",
                           kind := .startNode } ] } ∧
      Path.Iter [ { kind := .startNode, nodes := true, pos := 0, end_ := 1 }, { kind := .endNode } ]
          { path := ascii "preceding-sibling::*",
            steps := [ { axis := ascii "preceding-sibling", name := ascii "*",
                         kind := .startNode } ] } 0 =
        .ok { state := [ { step := { axis := ascii "preceding-sibling", name := ascii "*",
                                     kind := .startNode }, node := some 0 } ],
              seen := [false, false] } ∧
      Iter.Next [ { kind := .startNode, nodes := true, pos := 0, end_ := 1 }, { kind := .endNode } ]
          (f + 1)
          { state := [ { step := { axis := ascii "preceding-sibling", name := ascii "*",
                                   kind := .startNode }, node := some 0 } ],
            seen := [false, false] } = .error .indexOutOfRange := by
  refine ⟨by decide, by rfl, by rfl, by rfl, by rfl⟩

/-! ### The link pass of `ParseDecoder` -/

theorem getElem?_set_cases {α : Type} {l : List α} {p i : Nat} {a nd : α}
    (h : (l.set p a)[i]? = some nd) :
    (i = p ∧ nd = a ∧ p < l.length) ∨ (i ≠ p ∧ l[i]? = some nd) := by
  by_cases hip : p = i
  · subst hip
    have hlt : p < l.length := by
      have := (List.getElem?_eq_some.mp h).1
      simpa using this
    rw [List.getElem?_set_self hlt] at h
    simp only [Option.some.injEq] at h
    exact Or.inl ⟨rfl, h.symm, hlt⟩
  · rw [List.getElem?_set_ne hip] at h
    exact Or.inr ⟨fun e => hip e.symm, h⟩

theorem kind_of_getElem? {K : List nodeKind} {nodes : List Node}
    (hk : nodes.map (fun nd => nd.kind) = K) {i : Nat} {nd : Node} (h : nodes[i]? = some nd) :
    K[i]? = some nd.kind := by
  rw [← hk, List.getElem?_map, h]
  rfl

theorem computeDown_congr (nodes nodes1 : List Node) (p pos e : Nat)
    (h : ∀ c, pos < c → c < e →
      (nodes1[c]?).map (fun n => (n.up, n.kind)) = (nodes[c]?).map (fun n => (n.up, n.kind))) :
    computeDown nodes1 p pos e = computeDown nodes p pos e := by
  unfold computeDown
  apply List.filter_congr
  intro c hc
  rw [List.mem_range'_1] at hc
  have hc1 := h c (by omega) (by omega)
  cases h1 : nodes1[c]? with
  | none =>
    rw [h1] at hc1
    cases h2 : nodes[c]? with
    | none => rfl
    | some n2 => rw [h2] at hc1; simp at hc1
  | some n1 =>
    rw [h1] at hc1
    cases h2 : nodes[c]? with
    | none => rw [h2] at hc1; simp at hc1
    | some n2 =>
      rw [h2] at hc1
      simp only [Option.map_some', Option.some.injEq, Prod.mk.injEq] at hc1
      simp only [hc1.1, hc1.2]

theorem map_kind_set (nodes : List Node) (p : Nat) (nd nd1 : Node) (h : nodes[p]? = some nd)
    (hk : nd1.kind = nd.kind) :
    (nodes.set p nd1).map (fun n => n.kind) = nodes.map (fun n => n.kind) := by
  apply List.ext_getElem?
  intro i
  rw [List.getElem?_map, List.getElem?_map]
  by_cases hip : p = i
  · subst hip
    rw [List.getElem?_set_self (List.getElem?_eq_some.mp h).1, h]
    simp [hk]
  · rw [List.getElem?_set_ne hip]


theorem links_set_same (nodes : List Node) (p : Nat) (top top1 : Node)
    (h : nodes[p]? = some top) (hu : top1.up = top.up) (hk : top1.kind = top.kind) (c : Nat) :
    ((nodes.set p top1)[c]?).map (fun n => (n.up, n.kind)) =
      (nodes[c]?).map (fun n => (n.up, n.kind)) := by
  by_cases hpc : p = c
  · subst hpc
    rw [List.getElem?_set_self (List.getElem?_eq_some.mp h).1, h]
    simp [hu, hk]
  · rw [List.getElem?_set_ne hpc]

theorem linkInv_start {K : List nodeKind} {pos : Nat} {nodes : List Node} {stack : List Nat}
    (hinv : LinkInv K pos nodes stack) {nd : Node} (hnd : nodes[pos]? = some nd)
    (hk : nd.kind = .startNode) (up : Option Nat)
    (hup : ∀ u, up = some u → ∃ r, stack = u :: r) :
    LinkInv K (pos + 1) (nodes.set pos { nd with nodes := true, pos := pos, up := up })
      (pos :: stack) := by
  have hfresh := hinv.fresh pos nd (Nat.le_refl _) hnd
  obtain ⟨_, _, hf3, _, hf5⟩ := hfresh
  refine ⟨?_, hinv.noAny, ?_, ?_, ?_, ?_, ?_, ?_, ?_, ?_, ?_⟩
  · exact (map_kind_set nodes pos nd _ hnd (by rfl)).trans hinv.kinds
  · intro i x hi hx
    rcases getElem?_set_cases hx with ⟨h1, _, _⟩ | ⟨_, h2⟩
    · omega
    · exact hinv.fresh i x (by omega) h2
  · intro i x hx hxk
    rcases getElem?_set_cases hx with ⟨_, h1, _⟩ | ⟨_, h2⟩
    · subst h1
      simp only [hk] at hxk
      cases hxk
    · exact hinv.endFresh i x h2 hxk
  · intro i x hi hx hxk
    rcases getElem?_set_cases hx with ⟨h0, h1, _⟩ | ⟨h0, h2⟩
    · subst h1
      exact ⟨rfl, h0.symm⟩
    · exact hinv.linked i x (by omega) h2 hxk
  · intro i x u hi hx hxu
    rcases getElem?_set_cases hx with ⟨h0, h1, _⟩ | ⟨h0, h2⟩
    · subst h1
      simp only at hxu
      obtain ⟨r, hr⟩ := hup u hxu
      have := hinv.stackOK u (by rw [hr]; exact List.mem_cons_self _ _)
      exact ⟨by omega, this.2⟩
    · exact hinv.upOK i x u (by omega) h2 hxu
  · intro i x hi hx hx1 hx2
    rcases getElem?_set_cases hx with ⟨h0, h1, _⟩ | ⟨h0, h2⟩
    · subst h1
      exact absurd hk hx1
    · exact hinv.leaf i x (by omega) h2 hx1 hx2
  · intro q hq
    rcases List.mem_cons.mp hq with h | h
    · subst h
      have := kind_of_getElem? hinv.kinds hnd
      rw [hk] at this
      exact ⟨by omega, this⟩
    · have := hinv.stackOK q h
      exact ⟨by omega, this.2⟩
  · intro q hq x hx
    rcases getElem?_set_cases hx with ⟨h0, h1, _⟩ | ⟨h0, h2⟩
    · subst h1
      exact ⟨hf3, hf5⟩
    · rcases List.mem_cons.mp hq with h | h
      · exact absurd h h0
      · exact hinv.stackOpen q h x h2
  · rw [List.pairwise_cons]
    exact ⟨fun b hb => (hinv.stackOK b hb).1, hinv.stackSorted⟩
  · intro i x hi hx hxk hns
    rw [List.mem_cons, not_or] at hns
    rcases getElem?_set_cases hx with ⟨h0, _, _⟩ | ⟨h0, h2⟩
    · exact absurd h0 hns.1
    · obtain ⟨c1, c2, c3, c4⟩ := hinv.closed i x (by omega) h2 hxk hns.2
      refine ⟨c1, by omega, c3, ?_⟩
      rw [c4]
      symm
      apply computeDown_congr
      intro c hc1 hc2
      rw [List.getElem?_set_ne (by omega)]

theorem linkInv_leaf {K : List nodeKind} {pos : Nat} {nodes : List Node} {stack : List Nat}
    (hinv : LinkInv K pos nodes stack) {nd : Node} (hnd : nodes[pos]? = some nd)
    (hk : nd.kind ≠ .startNode) (hk2 : nd.kind ≠ .endNode) (up : Option Nat)
    (hup : ∀ u, up = some u → ∃ r, stack = u :: r) :
    LinkInv K (pos + 1)
      (nodes.set pos { nd with nodes := true, pos := pos, up := up, end_ := pos + 1 })
      stack := by
  have hfresh := hinv.fresh pos nd (Nat.le_refl _) hnd
  obtain ⟨_, _, hf3, _, hf5⟩ := hfresh
  refine ⟨?_, hinv.noAny, ?_, ?_, ?_, ?_, ?_, ?_, ?_, hinv.stackSorted, ?_⟩
  · exact (map_kind_set nodes pos nd _ hnd (by rfl)).trans hinv.kinds
  · intro i x hi hx
    rcases getElem?_set_cases hx with ⟨h1, _, _⟩ | ⟨_, h2⟩
    · omega
    · exact hinv.fresh i x (by omega) h2
  · intro i x hx hxk
    rcases getElem?_set_cases hx with ⟨_, h1, _⟩ | ⟨_, h2⟩
    · subst h1
      exact absurd hxk hk2
    · exact hinv.endFresh i x h2 hxk
  · intro i x hi hx hxk
    rcases getElem?_set_cases hx with ⟨h0, h1, _⟩ | ⟨h0, h2⟩
    · subst h1
      exact ⟨rfl, h0.symm⟩
    · exact hinv.linked i x (by omega) h2 hxk
  · intro i x u hi hx hxu
    rcases getElem?_set_cases hx with ⟨h0, h1, _⟩ | ⟨h0, h2⟩
    · subst h1
      simp only at hxu
      obtain ⟨r, hr⟩ := hup u hxu
      have := hinv.stackOK u (by rw [hr]; exact List.mem_cons_self _ _)
      exact ⟨by omega, this.2⟩
    · exact hinv.upOK i x u (by omega) h2 hxu
  · intro i x hi hx hx1 hx2
    rcases getElem?_set_cases hx with ⟨h0, h1, _⟩ | ⟨h0, h2⟩
    · subst h1
      exact ⟨by simp only; omega, hf5⟩
    · exact hinv.leaf i x (by omega) h2 hx1 hx2
  · intro q hq
    have := hinv.stackOK q hq
    exact ⟨by omega, this.2⟩
  · intro q hq x hx
    rcases getElem?_set_cases hx with ⟨h0, h1, _⟩ | ⟨h0, h2⟩
    · have := (hinv.stackOK q hq).1
      omega
    · exact hinv.stackOpen q hq x h2
  · intro i x hi hx hxk hns
    rcases getElem?_set_cases hx with ⟨h0, h1, _⟩ | ⟨h0, h2⟩
    · subst h1
      exact absurd hxk hk
    · obtain ⟨c1, c2, c3, c4⟩ := hinv.closed i x (by omega) h2 hxk hns
      refine ⟨c1, by omega, c3, ?_⟩
      rw [c4]
      symm
      apply computeDown_congr
      intro c hc1 hc2
      rw [List.getElem?_set_ne (by omega)]

theorem linkInv_end {K : List nodeKind} {pos p : Nat} {nodes : List Node} {rest : List Nat}
    (hinv : LinkInv K pos nodes (p :: rest)) {nd top : Node} (hnd : nodes[pos]? = some nd)
    (hk : nd.kind = .endNode) (htop : nodes[p]? = some top) :
    LinkInv K (pos + 1)
      ((nodes.set p { top with end_ := pos }).set p
        { top with end_ := pos,
                   down := computeDown (nodes.set p { top with end_ := pos }) p top.pos pos })
      rest := by
  have hp := hinv.stackOK p (List.mem_cons_self _ _)
  have htk : top.kind = .startNode := by
    have := kind_of_getElem? hinv.kinds htop
    rw [hp.2] at this
    simp only [Option.some.injEq] at this
    exact this.symm
  have htl := hinv.linked p top hp.1 htop (by rw [htk]; simp)
  have hplt : p < nodes.length := (List.getElem?_eq_some.mp htop).1
  have hsorted := List.pairwise_cons.mp hinv.stackSorted
  rw [List.set_set]
  refine ⟨?_, hinv.noAny, ?_, ?_, ?_, ?_, ?_, ?_, ?_, hsorted.2, ?_⟩
  · exact (map_kind_set nodes p top _ htop (by rfl)).trans hinv.kinds
  · intro i x hi hx
    rcases getElem?_set_cases hx with ⟨h1, _, _⟩ | ⟨_, h2⟩
    · omega
    · exact hinv.fresh i x (by omega) h2
  · intro i x hx hxk
    rcases getElem?_set_cases hx with ⟨_, h1, _⟩ | ⟨_, h2⟩
    · subst h1
      simp only [htk] at hxk
      cases hxk
    · exact hinv.endFresh i x h2 hxk
  · intro i x hi hx hxk
    rcases getElem?_set_cases hx with ⟨h0, h1, _⟩ | ⟨h0, h2⟩
    · subst h1
      subst h0
      exact htl
    · by_cases hip : i = pos
      · subst hip
        rw [hnd] at h2
        simp only [Option.some.injEq] at h2
        subst h2
        exact absurd hk hxk
      · exact hinv.linked i x (by omega) h2 hxk
  · intro i x u hi hx hxu
    rcases getElem?_set_cases hx with ⟨h0, h1, _⟩ | ⟨h0, h2⟩
    · subst h1
      subst h0
      exact hinv.upOK i top u hp.1 htop hxu
    · by_cases hip : i = pos
      · subst hip
        have := (hinv.fresh i x (Nat.le_refl _) h2).2.2.2.1
        rw [this] at hxu
        cases hxu
      · exact hinv.upOK i x u (by omega) h2 hxu
  · intro i x hi hx hx1 hx2
    rcases getElem?_set_cases hx with ⟨h0, h1, _⟩ | ⟨h0, h2⟩
    · subst h1
      exact absurd htk hx1
    · by_cases hip : i = pos
      · subst hip
        rw [hnd] at h2
        simp only [Option.some.injEq] at h2
        subst h2
        exact absurd hk hx2
      · exact hinv.leaf i x (by omega) h2 hx1 hx2
  · intro q hq
    have := hinv.stackOK q (List.mem_cons_of_mem _ hq)
    exact ⟨by omega, this.2⟩
  · intro q hq x hx
    have hqp : q < p := hsorted.1 q hq
    rcases getElem?_set_cases hx with ⟨h0, _, _⟩ | ⟨_, h2⟩
    · omega
    · exact hinv.stackOpen q (List.mem_cons_of_mem _ hq) x h2
  · intro i x hi hx hxk hns
    rcases getElem?_set_cases hx with ⟨h0, h1, _⟩ | ⟨h0, h2⟩
    · subst h1
      subst h0
      have hkp := kind_of_getElem? hinv.kinds hnd
      rw [hk] at hkp
      refine ⟨hp.1, by simp only; omega, hkp, ?_⟩
      simp only
      rw [htl.2]
      apply computeDown_congr
      intro c hc1 hc2
      rw [List.getElem?_set_ne (by omega), List.getElem?_set_ne (by omega)]
    · by_cases hip : i = pos
      · subst hip
        rw [hnd] at h2
        simp only [Option.some.injEq] at h2
        subst h2
        rw [hk] at hxk
        cases hxk
      · have hns2 : i ∉ p :: rest := by
          rw [List.mem_cons, not_or]
          exact ⟨h0, hns⟩
        obtain ⟨c1, c2, c3, c4⟩ := hinv.closed i x (by omega) h2 hxk hns2
        refine ⟨c1, by omega, c3, ?_⟩
        rw [c4]
        symm
        apply computeDown_congr
        intro c _ _
        exact links_set_same nodes p top _ htop (by rfl) (by rfl) c


theorem getLast?_cons_of_ne {α : Type} (a : α) (l : List α) (h : l ≠ []) :
    (a :: l).getLast? = l.getLast? := by
  cases l with
  | nil => exact absurd rfl h
  | cons b l => rw [List.getLast?_cons_cons]

theorem linkLoop_start (n pos : Nat) (nodes : List Node) (stack : List Nat) (nd : Node)
    (hnd : nodes[pos]? = some nd) (hk : nd.kind = .startNode) :
    ∃ up, (stack = [] → up = nd.up) ∧ (∀ p r, stack = p :: r → up = some p) ∧
      linkLoop (n + 1) pos nodes stack =
        linkLoop n (pos + 1) (nodes.set pos { nd with nodes := true, pos := pos, up := up })
          (pos :: stack) := by
  cases stack with
  | nil =>
    refine ⟨nd.up, fun _ => rfl, (fun p r h => by cases h), ?_⟩
    simp [linkLoop, hnd, hk]
  | cons q rest =>
    refine ⟨some q, (fun h => by cases h), (fun p r h => by cases h; rfl), ?_⟩
    simp [linkLoop, hnd, hk]

theorem linkLoop_leaf (n pos : Nat) (nodes : List Node) (stack : List Nat) (nd : Node)
    (hnd : nodes[pos]? = some nd) (hk : nd.kind ≠ .startNode) (hk2 : nd.kind ≠ .endNode)
    (hk3 : nd.kind ≠ .anyNode) :
    ∃ up, (stack = [] → up = nd.up) ∧ (∀ p r, stack = p :: r → up = some p) ∧
      linkLoop (n + 1) pos nodes stack =
        linkLoop n (pos + 1)
          (nodes.set pos { nd with nodes := true, pos := pos, up := up, end_ := pos + 1 })
          stack := by
  cases stack with
  | nil =>
    refine ⟨nd.up, fun _ => rfl, (fun p r h => by cases h), ?_⟩
    cases hkind : nd.kind <;> simp [hkind] at hk hk2 hk3 <;> simp [linkLoop, hnd, hkind]
  | cons q rest =>
    refine ⟨some q, (fun h => by cases h), (fun p r h => by cases h; rfl), ?_⟩
    cases hkind : nd.kind <;> simp [hkind] at hk hk2 hk3 <;> simp [linkLoop, hnd, hkind]

theorem linkLoop_end (n pos p : Nat) (nodes : List Node) (rest : List Nat) (nd top : Node)
    (hnd : nodes[pos]? = some nd) (hk : nd.kind = .endNode) (htop : nodes[p]? = some top) :
    linkLoop (n + 1) pos nodes (p :: rest) =
      if rest.isEmpty then
        .ok { nodes := (nodes.set p { top with end_ := pos }).set p
                { top with end_ := pos,
                           down := computeDown (nodes.set p { top with end_ := pos }) p top.pos
                             pos },
              root := p }
      else
        linkLoop n (pos + 1)
          ((nodes.set p { top with end_ := pos }).set p
            { top with end_ := pos,
                       down := computeDown (nodes.set p { top with end_ := pos }) p top.pos pos })
          rest := by
  conv_lhs => simp only [linkLoop, hnd]
  split
  · rename_i h; rw [hk] at h; cases h
  · simp only [htop]
  · rename_i h1 h2; exact absurd hk h2

theorem closeAt_leaf (k : nodeKind) (ks : List nodeKind) (s : Nat) (h1 : k ≠ .startNode)
    (h2 : k ≠ .endNode) : closeAt (k :: ks) s = (closeAt ks s).map (· + 1) := by
  cases k <;> first | rfl | exact absurd rfl h1 | exact absurd rfl h2

/-- Outcome of the link pass run from `pos` under the invariant: `io.EOF` when no end
record empties the stack, else the tree returned at the first end record that does. -/
theorem linkLoop_spec (K : List nodeKind) (n : Nat) :
    ∀ (pos : Nat) (nodes : List Node) (stack : List Nat), LinkInv K pos nodes stack →
      pos + n = nodes.length → stack ≠ [] →
      (closeAt (K.drop pos) stack.length = none ∧
          linkLoop n pos nodes stack = .error .EOF) ∨
        ∃ r t, closeAt (K.drop pos) stack.length = some r ∧
          linkLoop n pos nodes stack = .ok t ∧ LinkInv K (pos + r + 1) t.nodes [] ∧
          stack.getLast? = some t.root ∧
          ∃ rn, t.nodes[t.root]? = some rn ∧ rn.end_ = pos + r := by
  induction n with
  | zero =>
    intro pos nodes stack hinv hlen _
    left
    have hK : K.length = nodes.length := by rw [← hinv.kinds, List.length_map]
    have : K.drop pos = [] := List.drop_eq_nil_of_le (by omega)
    rw [this]
    exact ⟨rfl, rfl⟩
  | succ n ih =>
    intro pos nodes stack hinv hlen hne
    have hK : K.length = nodes.length := by rw [← hinv.kinds, List.length_map]
    have hpos : pos < nodes.length := by omega
    have hnd : nodes[pos]? = some nodes[pos] := List.getElem?_eq_getElem hpos
    generalize nodes[pos] = nd at hnd
    have hKpos : K[pos]? = some nd.kind := kind_of_getElem? hinv.kinds hnd
    have hdrop : K.drop pos = nd.kind :: K.drop (pos + 1) := by
      have hp : pos < K.length := by omega
      rw [List.drop_eq_getElem_cons hp]
      have := List.getElem?_eq_getElem hp
      rw [hKpos] at this
      simp only [Option.some.injEq] at this
      rw [this]
    rw [hdrop]
    have hfresh := hinv.fresh pos nd (Nat.le_refl _) hnd
    by_cases hk1 : nd.kind = .startNode
    · obtain ⟨up, hu1, hu2, heq⟩ := linkLoop_start n pos nodes stack nd hnd hk1
      have hinv2 := linkInv_start hinv hnd hk1 up (by
        intro u hu
        cases stack with
        | nil => exact absurd rfl hne
        | cons q r =>
          have := hu2 q r rfl
          rw [this] at hu
          simp only [Option.some.injEq] at hu
          exact ⟨r, by rw [hu]⟩)
      have hca : closeAt (nd.kind :: K.drop (pos + 1)) stack.length =
          (closeAt (K.drop (pos + 1)) (pos :: stack).length).map (· + 1) := by
        rw [hk1]
        rfl
      rw [heq, hca]
      have hrec := ih (pos + 1) _ (pos :: stack) hinv2 (by simp; omega) (by simp)
      rcases hrec with ⟨h1, h2⟩ | ⟨r, t, h1, h2, h3, h4, h5⟩
      · left
        exact ⟨by rw [h1]; rfl, h2⟩
      · right
        refine ⟨r + 1, t, by rw [h1]; rfl, h2, ?_, ?_, ?_⟩
        · have : pos + (r + 1) + 1 = pos + 1 + r + 1 := by omega
          rw [this]
          exact h3
        · rw [getLast?_cons_of_ne _ _ hne] at h4
          exact h4
        · obtain ⟨rn, hr1, hr2⟩ := h5
          exact ⟨rn, hr1, by omega⟩
    · by_cases hk2 : nd.kind = .endNode
      · cases stack with
        | nil => exact absurd rfl hne
        | cons p rest =>
          have hp := hinv.stackOK p (List.mem_cons_self _ _)
          have hplt : p < nodes.length := by omega
          have htop : nodes[p]? = some nodes[p] := List.getElem?_eq_getElem hplt
          generalize nodes[p] = top at htop
          have hinv2 := linkInv_end hinv hnd hk2 htop
          rw [linkLoop_end n pos p nodes rest nd top hnd hk2 htop]
          have hkk : closeAt (nd.kind :: K.drop (pos + 1)) (p :: rest).length =
              closeAt (nodeKind.endNode :: K.drop (pos + 1)) (p :: rest).length := by rw [hk2]
          rw [hkk]
          cases rest with
          | nil =>
            right
            simp only [List.isEmpty_nil, ↓reduceIte]
            refine ⟨0, _, by simp [closeAt], rfl, hinv2, by simp, ?_⟩
            refine ⟨{ top with end_ := pos,
                               down := computeDown (nodes.set p { top with end_ := pos }) p
                                 top.pos pos }, ?_, rfl⟩
            simp only
            rw [List.getElem?_set_self (by simpa using hplt)]
          | cons q rest2 =>
            have hrec := ih (pos + 1) _ (q :: rest2) hinv2 (by simp; omega) (by simp)
            simp only [List.isEmpty_cons, Bool.false_eq_true, ↓reduceIte]
            have hca : closeAt (nodeKind.endNode :: K.drop (pos + 1)) (p :: q :: rest2).length =
                (closeAt (K.drop (pos + 1)) (q :: rest2).length).map (· + 1) := by
              simp [closeAt]
            rw [hca]
            rcases hrec with ⟨h1, h2⟩ | ⟨r, t, h1, h2, h3, h4, h5⟩
            · left
              exact ⟨by rw [h1]; rfl, h2⟩
            · right
              refine ⟨r + 1, t, by rw [h1]; rfl, h2, ?_, ?_, ?_⟩
              · have : pos + (r + 1) + 1 = pos + 1 + r + 1 := by omega
                rw [this]
                exact h3
              · rw [List.getLast?_cons_cons]
                exact h4
              · obtain ⟨rn, hr1, hr2⟩ := h5
                exact ⟨rn, hr1, by omega⟩
      · have hk3 : nd.kind ≠ .anyNode := by
          intro h
          apply hinv.noAny
          rw [← h]
          exact List.getElem?_mem hKpos
        obtain ⟨up, hu1, hu2, heq⟩ := linkLoop_leaf n pos nodes stack nd hnd hk1 hk2 hk3
        have hinv2 := linkInv_leaf hinv hnd hk1 hk2 up (by
          intro u hu
          cases stack with
          | nil => exact absurd rfl hne
          | cons q r =>
            have := hu2 q r rfl
            rw [this] at hu
            simp only [Option.some.injEq] at hu
            exact ⟨r, by rw [hu]⟩)
        rw [heq, closeAt_leaf _ _ _ hk1 hk2]
        have hrec := ih (pos + 1) _ stack hinv2 (by simp; omega) hne
        rcases hrec with ⟨h1, h2⟩ | ⟨r, t, h1, h2, h3, h4, h5⟩
        · left
          exact ⟨by rw [h1]; rfl, h2⟩
        · right
          refine ⟨r + 1, t, by rw [h1]; rfl, h2, ?_, h4, ?_⟩
          · have : pos + (r + 1) + 1 = pos + 1 + r + 1 := by omega
            rw [this]
            exact h3
          · obtain ⟨rn, hr1, hr2⟩ := h5
            exact ⟨rn, hr1, by omega⟩

/-! ### The token loop of `ParseDecoder` -/

theorem fresh_mk (k : nodeKind) (nm : Name) (a t : GoString) :
    Node.fresh { kind := k, name := nm, attr := a, text := t } :=
  ⟨rfl, rfl, rfl, rfl, rfl⟩

theorem appendToken_kinds (nodes : List Node) (text : GoString) (t : Token) :
    (appendToken nodes text t).1.map (fun nd => nd.kind) =
      nodes.map (fun nd => nd.kind) ++ tokenKinds t := by
  cases t <;> simp [appendToken, tokenKinds, Function.comp_def]

theorem appendToken_fresh (nodes : List Node) (text : GoString) (t : Token)
    (h : ∀ nd ∈ nodes, nd.fresh) : ∀ nd ∈ (appendToken nodes text t).1, nd.fresh := by
  cases t <;> simp only [appendToken, List.mem_append, List.mem_singleton, List.mem_map] <;>
    intro nd hnd
  · rcases hnd with (hnd | hnd) | ⟨a, _, hnd⟩
    · exact h nd hnd
    · subst hnd; exact fresh_mk _ _ _ _
    · subst hnd; exact fresh_mk _ _ _ _
  · rcases hnd with hnd | hnd
    · exact h nd hnd
    · subst hnd; exact fresh_mk _ _ _ _
  · rcases hnd with hnd | hnd
    · exact h nd hnd
    · subst hnd; exact fresh_mk _ _ _ _
  · rcases hnd with hnd | hnd
    · exact h nd hnd
    · subst hnd; exact fresh_mk _ _ _ _
  · rcases hnd with hnd | hnd
    · exact h nd hnd
    · subst hnd; exact fresh_mk _ _ _ _
  · exact h nd hnd

theorem readTokens_kinds (ts : List Token) :
    ∀ (nodes : List Node) (text : GoString),
      (readTokens ts nodes text).1.map (fun nd => nd.kind) =
        nodes.map (fun nd => nd.kind) ++ recordKinds ts := by
  induction ts with
  | nil => intro nodes text; simp [readTokens, recordKinds]
  | cons t ts ih =>
    intro nodes text
    simp only [readTokens]
    rw [ih, appendToken_kinds]
    simp [recordKinds]

theorem readTokens_fresh (ts : List Token) :
    ∀ (nodes : List Node) (text : GoString), (∀ nd ∈ nodes, nd.fresh) →
      ∀ nd ∈ (readTokens ts nodes text).1, nd.fresh := by
  induction ts with
  | nil => intro nodes text h; simpa [readTokens] using h
  | cons t ts ih =>
    intro nodes text h
    simp only [readTokens]
    exact ih _ _ (appendToken_fresh nodes text t h)

theorem buildNodes_kinds (ts : List Token) :
    (buildNodes ts).map (fun nd => nd.kind) =
      .startNode :: (recordKinds ts ++ [.endNode]) := by
  unfold buildNodes
  rw [List.map_append, readTokens_kinds]
  simp

theorem buildNodes_fresh (ts : List Token) : ∀ nd ∈ buildNodes ts, nd.fresh := by
  unfold buildNodes
  intro nd hnd
  rcases List.mem_append.mp hnd with h | h
  · refine readTokens_fresh ts _ _ ?_ nd h
    intro x hx
    simp only [List.mem_singleton] at hx
    subst hx
    exact fresh_mk _ _ _ _
  · simp only [List.mem_singleton] at h
    subst h
    exact fresh_mk _ _ _ _

theorem tokenKinds_noAny (t : Token) : nodeKind.anyNode ∉ tokenKinds t := by
  cases t <;> simp [tokenKinds]

theorem recordKinds_noAny (ts : List Token) : nodeKind.anyNode ∉ recordKinds ts := by
  unfold recordKinds
  intro h
  rw [List.mem_flatMap] at h
  obtain ⟨t, _, ht⟩ := h
  exact tokenKinds_noAny t ht

theorem linkInv_init (ts : List Token) :
    LinkInv (.startNode :: (recordKinds ts ++ [.endNode])) 0 (buildNodes ts) [] := by
  refine ⟨buildNodes_kinds ts, ?_, ?_, ?_, ?_, ?_, ?_, ?_, ?_, List.Pairwise.nil, ?_⟩
  · intro h
    simp only [List.mem_cons, List.mem_append, List.mem_singleton] at h
    rcases h with h | h | h
    · cases h
    · exact recordKinds_noAny ts h
    · simp at h
  · intro i nd _ h
    exact buildNodes_fresh ts nd (List.getElem?_mem h)
  · intro i nd h _
    exact buildNodes_fresh ts nd (List.getElem?_mem h)
  · intro i nd hi; omega
  · intro i nd u hi; omega
  · intro i nd hi; omega
  · intro p hp; cases hp
  · intro p hp; cases hp
  · intro i nd hi; omega

/-! ### Depth of a token sequence against the stack of the link pass -/

theorem closeAt_attrs (k : Nat) (rest : List nodeKind) (s : Nat) :
    closeAt (List.replicate k .attrNode ++ rest) s = (closeAt rest s).map (· + k) := by
  induction k with
  | zero => simp
  | succ k ih =>
    rw [List.replicate_succ, List.cons_append, closeAt_leaf _ _ _ (by simp) (by simp), ih]
    cases closeAt rest s <;> simp [Nat.add_assoc]

theorem closeAt_tokens (ts : List Token) :
    ∀ (d d1 : Nat) (rest : List nodeKind), depthAfter ts d = some d1 →
      closeAt (recordKinds ts ++ rest) (d + 1) =
        (closeAt rest (d1 + 1)).map (· + (recordKinds ts).length) := by
  induction ts with
  | nil =>
    intro d d1 rest h
    simp only [depthAfter, Option.some.injEq] at h
    subst h
    simp [recordKinds]
  | cons t ts ih =>
    intro d d1 rest h
    have hrk : recordKinds (t :: ts) = tokenKinds t ++ recordKinds ts := by
      simp [recordKinds]
    rw [hrk, List.append_assoc, List.length_append]
    cases t with
    | StartElement nm attr =>
      simp only [depthAfter] at h
      simp only [tokenKinds, List.cons_append, closeAt, List.length_cons, List.length_replicate]
      rw [List.append_eq, closeAt_attrs, ih _ _ _ h]
      cases closeAt rest (d1 + 1) with
      | none => simp
      | some v => simp; omega
    | EndElement nm =>
      cases d with
      | zero => simp [depthAfter] at h
      | succ e =>
        simp only [depthAfter] at h
        simp only [tokenKinds, List.cons_append, List.nil_append, closeAt, List.length_cons,
          List.length_nil]
        rw [if_neg (by omega)]
        have : e + 1 + 1 - 1 = e + 1 := by omega
        rw [this, List.append_eq, List.nil_append, ih _ _ _ h]
        cases closeAt rest (d1 + 1) with
      | none => simp
      | some v => simp; omega
    | CharData x =>
      simp only [depthAfter] at h
      simp only [tokenKinds, List.cons_append, List.nil_append, List.length_cons, List.length_nil]
      rw [closeAt_leaf _ _ _ (by simp) (by simp), ih _ _ _ h]
      cases closeAt rest (d1 + 1) with
      | none => simp
      | some v => simp; omega
    | Comment x =>
      simp only [depthAfter] at h
      simp only [tokenKinds, List.cons_append, List.nil_append, List.length_cons, List.length_nil]
      rw [closeAt_leaf _ _ _ (by simp) (by simp), ih _ _ _ h]
      cases closeAt rest (d1 + 1) with
      | none => simp
      | some v => simp; omega
    | ProcInst x y =>
      simp only [depthAfter] at h
      simp only [tokenKinds, List.cons_append, List.nil_append, List.length_cons, List.length_nil]
      rw [closeAt_leaf _ _ _ (by simp) (by simp), ih _ _ _ h]
      cases closeAt rest (d1 + 1) with
      | none => simp
      | some v => simp; omega
    | Directive x =>
      simp only [depthAfter] at h
      simp only [tokenKinds, List.nil_append, List.length_nil, Nat.zero_add]
      exact ih _ _ _ h

/-- Outcome of `ParseDecoder` on an error-free token source: `io.EOF` when no end
record closes the synthetic root, else the tree returned at the first one that does,
all records up to it linked and all later ones untouched. -/
theorem ParseDecoder_spec (ts : List Token) :
    (closeAt (recordKinds ts ++ [.endNode]) 1 = none ∧
        ParseDecoder { tokens := ts } = .error .EOF) ∨
      ∃ r t rn, closeAt (recordKinds ts ++ [.endNode]) 1 = some r ∧
        ParseDecoder { tokens := ts } = .ok t ∧ t.root = 0 ∧
        LinkInv (.startNode :: (recordKinds ts ++ [.endNode])) (r + 2) t.nodes [] ∧
        t.nodes[0]? = some rn ∧ rn.end_ = r + 1 := by
  have hinv0 := linkInv_init ts
  have hlen : (buildNodes ts).length = (recordKinds ts).length + 2 := by
    have := congrArg List.length (buildNodes_kinds ts)
    simp only [List.length_map, List.length_cons, List.length_append, List.length_nil] at this
    omega
  have h0 : (buildNodes ts)[0]? = some (buildNodes ts)[0] :=
    List.getElem?_eq_getElem (by omega)
  generalize (buildNodes ts)[0] = nd0 at h0
  have hk0 : nd0.kind = .startNode := by
    have := kind_of_getElem? (buildNodes_kinds ts) h0
    simp only [List.getElem?_cons_zero, Option.some.injEq] at this
    exact this.symm
  obtain ⟨up, hup0, _, heq⟩ :=
    linkLoop_start ((recordKinds ts).length + 1) 0 (buildNodes ts) [] nd0 h0 hk0
  have hinv1 := linkInv_start hinv0 h0 hk0 up (by
    intro u hu
    have hup : up = nd0.up := hup0 rfl
    have := (hinv0.fresh 0 nd0 (Nat.le_refl _) h0).2.2.2.1
    rw [hup, this] at hu
    cases hu)
  have hPD : ParseDecoder { tokens := ts } =
      linkLoop ((recordKinds ts).length + 1) (0 + 1)
        ((buildNodes ts).set 0 { nd0 with nodes := true, pos := 0, up := up }) [0] := by
    unfold ParseDecoder
    simp only
    rw [hlen, ← heq]
  have hspec := linkLoop_spec _ ((recordKinds ts).length + 1) (0 + 1) _ [0] hinv1
    (by simp; omega) (by simp)
  simp only [Nat.zero_add, List.drop_succ_cons, List.drop_zero, List.length_singleton,
    List.getLast?_singleton, Option.some.injEq] at hspec
  rw [hPD]
  rcases hspec with ⟨h1, h2⟩ | ⟨r, t, h1, h2, h3, h4, rn, h5, h6⟩
  · left
    exact ⟨h1, h2⟩
  · right
    refine ⟨r, t, rn, h1, h2, h4.symm, ?_, ?_, by omega⟩
    · have : r + 2 = 1 + r + 1 := by omega
      rw [this]
      exact h3
    · rw [← h4] at h5
      exact h5


theorem depthAfter_none_split (ts : List Token) :
    ∀ d, depthAfter ts d = none →
      ∃ pre nm post, ts = pre ++ Token.EndElement nm :: post ∧ depthAfter pre d = some 0 := by
  induction ts with
  | nil => intro d h; simp [depthAfter] at h
  | cons t ts ih =>
    intro d h
    cases t with
    | StartElement nm attr =>
      simp only [depthAfter] at h
      obtain ⟨pre, nm1, post, h1, h2⟩ := ih _ h
      exact ⟨_ :: pre, nm1, post, by rw [h1]; rfl, by simpa [depthAfter] using h2⟩
    | EndElement nm =>
      cases d with
      | zero => exact ⟨[], nm, ts, rfl, rfl⟩
      | succ e =>
        simp only [depthAfter] at h
        obtain ⟨pre, nm1, post, h1, h2⟩ := ih _ h
        exact ⟨_ :: pre, nm1, post, by rw [h1]; rfl, by simpa [depthAfter] using h2⟩
    | CharData x =>
      simp only [depthAfter] at h
      obtain ⟨pre, nm1, post, h1, h2⟩ := ih _ h
      exact ⟨_ :: pre, nm1, post, by rw [h1]; rfl, by simpa [depthAfter] using h2⟩
    | Comment x =>
      simp only [depthAfter] at h
      obtain ⟨pre, nm1, post, h1, h2⟩ := ih _ h
      exact ⟨_ :: pre, nm1, post, by rw [h1]; rfl, by simpa [depthAfter] using h2⟩
    | ProcInst x y =>
      simp only [depthAfter] at h
      obtain ⟨pre, nm1, post, h1, h2⟩ := ih _ h
      exact ⟨_ :: pre, nm1, post, by rw [h1]; rfl, by simpa [depthAfter] using h2⟩
    | Directive x =>
      simp only [depthAfter] at h
      obtain ⟨pre, nm1, post, h1, h2⟩ := ih _ h
      exact ⟨_ :: pre, nm1, post, by rw [h1]; rfl, by simpa [depthAfter] using h2⟩

theorem recordKinds_append (a b : List Token) :
    recordKinds (a ++ b) = recordKinds a ++ recordKinds b := by
  simp [recordKinds]

/-- The tree `ParseDecoder` returns for a well-nested, error-free token sequence: the
root is record 0 and the link pass has processed every record of the table. -/
theorem ParseDecoder_wellNested (ts : List Token) (h : wellNested ts) :
    ∃ t, ParseDecoder { tokens := ts } = .ok t ∧ t.root = 0 ∧
      LinkInv (.startNode :: (recordKinds ts ++ [.endNode])) t.nodes.length t.nodes [] := by
  have hca := closeAt_tokens ts 0 0 [.endNode] h
  simp only [Nat.zero_add, closeAt, Nat.le_refl, ↓reduceIte, Option.map_some'] at hca
  rcases ParseDecoder_spec ts with ⟨h1, _⟩ | ⟨r, t, rn, h1, h2, h3, h4, _, _⟩
  · rw [hca] at h1
    cases h1
  · rw [hca] at h1
    simp only [Option.some.injEq] at h1
    refine ⟨t, h2, h3, ?_⟩
    have hl : t.nodes.length = r + 2 := by
      have := congrArg List.length h4.kinds
      simp only [List.length_map, List.length_cons, List.length_append, List.length_nil] at this
      omega
    rw [hl]
    exact h4

/-- C7: for every error-free token sequence in which every `EndElement` closes an open
`StartElement` and at least one `StartElement` is never closed, `ParseDecoder` returns
the error `io.EOF` and no tree. -/
theorem unclosed_start_rejected (tokens : List Token) (d : Nat)
    (h : depthAfter tokens 0 = some (d + 1)) :
    ParseDecoder { tokens := tokens } = .error .EOF := by
  have hca := closeAt_tokens tokens 0 (d + 1) [.endNode] h
  have hnone : closeAt [nodeKind.endNode] (d + 1 + 1) = none := by
    simp [closeAt]
  rw [hnone] at hca
  simp only [Nat.zero_add, Option.map_none'] at hca
  rcases ParseDecoder_spec tokens with ⟨_, h2⟩ | ⟨r, t, rn, h1, _⟩
  · exact h2
  · rw [hca] at h1
    cases h1

/-- Witness of C7: the tokens of `<a><b></a>`. -/
theorem unclosed_start_rejected_witness :
    ParseDecoder { tokens := [ .StartElement { Local := ascii "a" } [],
                               .StartElement { Local := ascii "b" } [],
                               .EndElement { Local := ascii "a" } ] } = .error .EOF :=
  unclosed_start_rejected _ 0 (by rfl)

/-- C8 as stated fails: the single token `EndElement`, and the tokens `StartElement a`,
`EndElement`, `EndElement`, each have an `EndElement` with no `StartElement` open, and
`ParseDecoder` returns a tree for them, with no error. -/
theorem stray_close_not_rejected :
    depthAfter [Token.EndElement { Local := ascii "a" }] 0 = none ∧
      ParseDecoder { tokens := [.EndElement { Local := ascii "a" }] } =
        .ok { nodes := [ { kind := .startNode, nodes := true, pos := 0, end_ := 1 },
                         { kind := .endNode }, { kind := .endNode } ],
              root := 0 } ∧
      depthAfter [ Token.StartElement { Local := ascii "a" } [],
                   Token.EndElement { Local := ascii "a" },
                   Token.EndElement { Local := ascii "a" } ] 0 = none ∧
      ParseDecoder { tokens := [ .StartElement { Local := ascii "a" } [],
                                 .EndElement { Local := ascii "a" },
                                 .EndElement { Local := ascii "a" } ] } =
        .ok { nodes := [ { kind := .startNode, nodes := true, pos := 0, end_ := 3, down := [1] },
                         { kind := .startNode, name := { Local := ascii "a" }, nodes := true,
                           pos := 1, end_ := 2, up := some 0 },
                         { kind := .endNode }, { kind := .endNode }, { kind := .endNode } ],
              root := 0 } := by
  refine ⟨by rfl, by rfl, by rfl, by rfl⟩

/-- C8, amended: a stray close is not rejected. For every error-free token sequence
with an `EndElement` at a point where no `StartElement` of the sequence is open,
`ParseDecoder` returns a tree and no error: the root is record 0, closed at the record
of the first such `EndElement`; the table holds the records of all tokens, and the
records after that one are left as the token loop wrote them. -/
theorem stray_close_returns_tree (tokens : List Token) (h : depthAfter tokens 0 = none) :
    ∃ pre nm post t rn, tokens = pre ++ Token.EndElement nm :: post ∧
      depthAfter pre 0 = some 0 ∧
      ParseDecoder { tokens := tokens } = .ok t ∧ t.root = 0 ∧ t.nodes[0]? = some rn ∧
      rn.end_ = (recordKinds pre).length + 1 ∧
      t.nodes.length = (recordKinds tokens).length + 2 ∧
      ∀ i nd, rn.end_ < i → t.nodes[i]? = some nd → nd.fresh := by
  obtain ⟨pre, nm, post, hsplit, hpre⟩ := depthAfter_none_split tokens 0 h
  have hrk : recordKinds tokens ++ [nodeKind.endNode] =
      recordKinds pre ++ (nodeKind.endNode :: (recordKinds post ++ [nodeKind.endNode])) := by
    rw [hsplit, recordKinds_append]
    simp [recordKinds, tokenKinds]
  have hca := closeAt_tokens pre 0 0 (nodeKind.endNode :: (recordKinds post ++ [.endNode])) hpre
  rw [← hrk] at hca
  simp only [Nat.zero_add, closeAt, Nat.le_refl, ↓reduceIte, Option.map_some'] at hca
  rcases ParseDecoder_spec tokens with ⟨h1, _⟩ | ⟨r, t, rn, h1, h2, h3, h4, h5, h6⟩
  · rw [hca] at h1
    cases h1
  · rw [hca] at h1
    simp only [Option.some.injEq] at h1
    refine ⟨pre, nm, post, t, rn, hsplit, hpre, h2, h3, h5, by omega, ?_, ?_⟩
    · have := congrArg List.length h4.kinds
      simp only [List.length_map, List.length_cons, List.length_append, List.length_nil] at this
      omega
    · intro i nd hi hnd
      exact h4.fresh i nd (by omega) hnd

/-- Witness of C8, amended: the tokens `StartElement a`, `EndElement`, `EndElement`. -/
theorem stray_close_returns_tree_witness :
    ∃ pre nm post t rn,
      [ Token.StartElement { Local := ascii "a" } [], Token.EndElement { Local := ascii "a" },
        Token.EndElement { Local := ascii "a" } ] = pre ++ Token.EndElement nm :: post ∧
      depthAfter pre 0 = some 0 ∧
      ParseDecoder { tokens := [ .StartElement { Local := ascii "a" } [],
                                 .EndElement { Local := ascii "a" },
                                 .EndElement { Local := ascii "a" } ] } = .ok t ∧
      t.root = 0 ∧ t.nodes[0]? = some rn ∧
      rn.end_ = (recordKinds pre).length + 1 ∧
      t.nodes.length =
        (recordKinds [ Token.StartElement { Local := ascii "a" } [],
          Token.EndElement { Local := ascii "a" },
          Token.EndElement { Local := ascii "a" } ]).length + 2 ∧
      ∀ i nd, rn.end_ < i → t.nodes[i]? = some nd → nd.fresh :=
  stray_close_returns_tree _ (by rfl)

/-! ### The path compiler: what the scanning methods read -/

theorem getElem?_eq_head?_drop {α : Type} (l : List α) (i : Nat) :
    l[i]? = (l.drop i).head? := by
  rw [List.head?_drop]

theorem drop_eq_cons_iff {α : Type} {l : List α} {i : Nat} {x : α} {xs : List α}
    (h : l.drop i = x :: xs) : l[i]? = some x ∧ l.drop (i + 1) = xs ∧ i < l.length := by
  have h1 : l[i]? = some x := by rw [getElem?_eq_head?_drop, h]; rfl
  refine ⟨h1, ?_, (List.getElem?_eq_some.mp h1).1⟩
  have : l.drop (i + 1) = (l.drop i).drop 1 := by rw [List.drop_drop]
  rw [this, h]
  rfl

theorem skipByte_eq (c : pathCompiler) (b : Nat) :
    c.skipByte b =
      if (c.path.drop c.i).head? = some b then (true, { c with i := c.i + 1 }) else (false, c) := by
  unfold pathCompiler.skipByte
  rw [getElem?_eq_head?_drop]

theorem peekByte_eq (c : pathCompiler) (b : Nat) :
    c.peekByte b = decide ((c.path.drop c.i).head? = some b) := by
  unfold pathCompiler.peekByte
  rw [getElem?_eq_head?_drop]

theorem skipNameLoop_eq (path : GoString) (n : Nat) :
    ∀ i, path.length - i ≤ n →
      skipNameLoop path n i = i + ((path.drop i).takeWhile nameLike).length := by
  induction n with
  | zero =>
    intro i h
    have : path.drop i = [] := List.drop_eq_nil_of_le (by omega)
    simp [skipNameLoop, this]
  | succ n ih =>
    intro i h
    unfold skipNameLoop
    cases hd : path.drop i with
    | nil =>
      have : path[i]? = none := by rw [getElem?_eq_head?_drop, hd]; rfl
      simp [this]
    | cons x xs =>
      obtain ⟨h1, h2, h3⟩ := drop_eq_cons_iff hd
      rw [h1]
      simp only
      by_cases hx : nameLike x = true
      · have hx1 : (decide (128 ≤ x) || isNameByte x) = true := hx
        rw [if_pos hx1, ih (i + 1) (by omega), h2, List.takeWhile_cons, if_pos hx]
        simp only [List.length_cons]
        omega
      · have hx1 : ¬ (decide (128 ≤ x) || isNameByte x) = true := hx
        rw [if_neg hx1, List.takeWhile_cons, if_neg hx]
        simp

theorem skipName_eq (c : pathCompiler) :
    c.skipName =
      (decide (nameLen (c.path.drop c.i) > 0), { c with i := c.i + nameLen (c.path.drop c.i) }) := by
  unfold pathCompiler.skipName
  cases hd : c.path.drop c.i with
  | nil =>
    have : c.path[c.i]? = none := by rw [getElem?_eq_head?_drop, hd]; rfl
    rw [this]
    simp [nameLen]
  | cons x xs =>
    obtain ⟨h1, h2, h3⟩ := drop_eq_cons_iff hd
    rw [h1]
    simp only
    by_cases hx : x = 42
    · simp [nameLen, hx]
    · rw [if_neg hx, skipNameLoop_eq _ _ _ (Nat.le_refl _), hd]
      simp [nameLen, hx]

theorem nameLen_le (rem : List Nat) : nameLen rem ≤ rem.length := by
  unfold nameLen
  cases rem with
  | nil => simp
  | cons b bs =>
    simp only
    split
    · simp
    · exact (List.takeWhile_sublist _).length_le

theorem takeWhile_append_stop (rem X : List Nat) (h : ∀ b, X.head? = some b → nameLike b = false) :
    (rem ++ X).takeWhile nameLike = rem.takeWhile nameLike := by
  induction rem with
  | nil =>
    cases X with
    | nil => rfl
    | cons x xs =>
      have := h x rfl
      simp [List.takeWhile_cons, this]
  | cons a rem ih =>
    simp only [List.cons_append, List.takeWhile_cons, ih]

theorem nameLen_append (rem X : List Nat) (h : ∀ b, X.head? = some b → b = 91) :
    nameLen (rem ++ X) = nameLen rem := by
  have hstop : ∀ b, X.head? = some b → nameLike b = false := by
    intro b hb
    rw [h b hb]
    rfl
  cases rem with
  | nil =>
    cases X with
    | nil => rfl
    | cons x xs =>
      have hx := h x rfl
      subst hx
      simp [nameLen, List.takeWhile_cons, nameLike, isNameByte]
  | cons a rem =>
    have := takeWhile_append_stop (a :: rem) X hstop
    simp only [List.cons_append] at this
    simp only [nameLen, List.cons_append, this]

theorem slice_eq_take_drop {α : Type} (l : List α) (i k : Nat) :
    slice l i (i + k) = (l.drop i).take k := by
  unfold slice
  rw [List.drop_take]
  congr 1
  omega

theorem CSim.advance {X : List Nat} {c c1 : pathCompiler} (h : CSim X c c1) (k : Nat)
    (hk : k ≤ (c.path.drop c.i).length) :
    CSim X { c with i := c.i + k } { c1 with i := c1.i + k } := by
  have hlen := congrArg List.length h.rem
  simp only [List.length_drop, List.length_append] at hlen hk
  refine ⟨h.steps, ?_, ?_, ?_, h.stop⟩
  · simp only
    rw [← List.drop_drop, ← List.drop_drop, h.rem, List.drop_append_of_le_length (by simpa using hk)]
  · simp only
    have := h.le
    omega
  · simp only
    have := h.le1
    omega

theorem CSim.head {X : List Nat} {c c1 : pathCompiler} (h : CSim X c c1) (b : Nat)
    (hb : b ≠ 91) :
    ((c1.path.drop c1.i).head? = some b) ↔ ((c.path.drop c.i).head? = some b) := by
  rw [h.rem]
  cases hd : c.path.drop c.i with
  | nil =>
    simp only [List.nil_append, List.head?_nil]
    constructor
    · intro hx
      exact absurd (h.stop b hx) hb
    · intro hx
      cases hx
  | cons x xs => simp

/-- The two runs of `skipByte` agree, for a byte other than `[`. -/
theorem skipByte_sim {X : List Nat} {c c1 : pathCompiler} (h : CSim X c c1) (b : Nat)
    (hb : b ≠ 91) :
    (c.skipByte b = (true, { c with i := c.i + 1 }) ∧
        c1.skipByte b = (true, { c1 with i := c1.i + 1 }) ∧
        CSim X { c with i := c.i + 1 } { c1 with i := c1.i + 1 } ∧
        (c.path.drop c.i).head? = some b) ∨
      (c.skipByte b = (false, c) ∧ c1.skipByte b = (false, c1) ∧
        (c.path.drop c.i).head? ≠ some b) := by
  rw [skipByte_eq, skipByte_eq]
  by_cases hx : (c.path.drop c.i).head? = some b
  · left
    rw [if_pos hx, if_pos ((h.head b hb).mpr hx)]
    refine ⟨rfl, rfl, h.advance 1 ?_, hx⟩
    cases hd : c.path.drop c.i with
    | nil => rw [hd] at hx; cases hx
    | cons x xs => simp
  · right
    rw [if_neg hx, if_neg (fun h1 => hx ((h.head b hb).mp h1))]
    exact ⟨rfl, rfl, hx⟩

/-- The two runs of `skipName` agree and read the same name. -/
theorem skipName_sim {X : List Nat} {c c1 : pathCompiler} (h : CSim X c c1) :
    ∃ k, c.skipName = (decide (k > 0), { c with i := c.i + k }) ∧
      c1.skipName = (decide (k > 0), { c1 with i := c1.i + k }) ∧
      CSim X { c with i := c.i + k } { c1 with i := c1.i + k } ∧
      slice c.path c.i (c.i + k) = slice c1.path c1.i (c1.i + k) ∧
      k = nameLen (c.path.drop c.i) := by
  refine ⟨nameLen (c.path.drop c.i), skipName_eq c, ?_, h.advance _ (nameLen_le _), ?_, rfl⟩
  · rw [skipName_eq c1, h.rem, nameLen_append _ _ h.stop]
  · rw [slice_eq_take_drop, slice_eq_take_drop, h.rem, List.take_append_of_le_length (nameLen_le _)]

/-! ### The path compiler: two runs on the same input -/

theorem relRes_error (X : List Nat) (k : Nat) (c c1 : pathCompiler) (e e1 : CompileError) :
    RelRes X k c c1 (.error e) (.error e1) :=
  trivial

theorem prog_mono {k j : Nat} {c c0 d : pathCompiler} (h : Prog k c d) (f : Fwd j c0 c) :
    Prog (k + j) c0 d := by
  obtain ⟨st, hst⟩ := h.steps
  exact ⟨h.path.trans f.path, by have := h.le; have := f.le; omega, st, by rw [hst, f.steps]⟩

theorem RelRes.mono {X : List Nat} {k j : Nat} {c c1 c0 c01 : pathCompiler}
    {r r1 : Except CompileError pathCompiler} (h : RelRes X k c c1 r r1) (f : Fwd j c0 c)
    (f1 : Fwd j c01 c1) : RelRes X (k + j) c0 c01 r r1 := by
  cases r with
  | error e =>
    cases r1 with
    | error e1 => trivial
    | ok d1 => exact h.elim
  | ok d =>
    cases r1 with
    | error e1 =>
      obtain ⟨h1, h2, h3, h4, h5⟩ := h
      exact ⟨h1, h2, h3, h4.trans f1.path, prog_mono h5 f⟩
    | ok d1 =>
      obtain ⟨h1, h2, h3⟩ := h
      exact ⟨h1, prog_mono h2 f, prog_mono h3 f1⟩

theorem RelRes.weaken {X : List Nat} {k j : Nat} {c c1 : pathCompiler}
    {r r1 : Except CompileError pathCompiler} (h : RelRes X k c c1 r r1) (hj : j ≤ k) :
    RelRes X j c c1 r r1 := by
  have hp : ∀ d c, Prog k c d → Prog j c d := fun d c p =>
    ⟨p.path, by have := p.le; omega, p.steps⟩
  cases r with
  | error e =>
    cases r1 with
    | error e1 => trivial
    | ok d1 => exact h.elim
  | ok d =>
    cases r1 with
    | error e1 =>
      obtain ⟨h1, h2, h3, h4, h5⟩ := h
      exact ⟨h1, h2, h3, h4, hp _ _ h5⟩
    | ok d1 =>
      obtain ⟨h1, h2, h3⟩ := h
      exact ⟨h1, hp _ _ h2, hp _ _ h3⟩

theorem fwd_i (c : pathCompiler) (j : Nat) : Fwd j c { c with i := c.i + j } :=
  ⟨rfl, rfl, Nat.le_refl _⟩

theorem Fwd.trans {j k : Nat} {a b c : pathCompiler} (h1 : Fwd j a b) (h2 : Fwd k b c) :
    Fwd (j + k) a c :=
  ⟨h2.path.trans h1.path, h2.steps.trans h1.steps, by have := h1.le; have := h2.le; omega⟩

/-- The separator check: the two runs agree, and a run that finds `/` reads it. -/
theorem compileFinish_sim {X : List Nat} {c c1 : pathCompiler} (h : CSim X c c1)
    (step : pathStep) :
    RelRes X (if (c.path.drop c.i).head? = some 47 then 1 else 0) c c1
      (compileFinish c step) (compileFinish c1 step) := by
  unfold compileFinish
  have hrem := h.rem
  have hlen := congrArg List.length h.rem
  simp only [List.length_drop, List.length_append] at hlen
  rw [getElem?_eq_head?_drop, getElem?_eq_head?_drop c1.path, hrem]
  cases hd : c.path.drop c.i with
  | nil =>
    have hci : c.i = c.path.length := by
      have := congrArg List.length hd
      simp only [List.length_drop, List.length_nil] at this
      have := h.le
      omega
    rw [hd] at hrem
    simp only [List.nil_append, List.head?_nil]
    rw [if_neg (by simp)]
    cases hX : X with
    | nil =>
      simp only [List.head?_nil]
      refine ⟨⟨by simp only; rw [h.steps], ?_, h.le, h.le1, by simp⟩, ?_, ?_⟩
      · simp only
        rw [hrem, hd, hX]
      · exact ⟨rfl, Nat.le_refl _, step, rfl⟩
      · exact ⟨rfl, Nat.le_refl _, step, rfl⟩
    | cons x xs =>
      have hx := h.stop x (by rw [hX]; rfl)
      subst hx
      simp only [List.head?_cons]
      rw [if_neg (by decide)]
      refine ⟨by simp, hci, ?_, rfl, ⟨rfl, Nat.le_refl _, step, rfl⟩⟩
      simp only [pathCompiler.errorf]
      rw [hX] at hlen
      have := h.le1
      simp only [List.length_cons] at hlen ⊢
      omega
  | cons x xs =>
    simp only [List.cons_append, List.head?_cons]
    by_cases hx : x = 47
    · rw [if_pos hx, if_pos hx, if_pos (by rw [hx])]
      have hadv := h.advance 1 (by rw [hd]; simp)
      refine ⟨⟨by simp only; rw [h.steps], hadv.rem, hadv.le, hadv.le1, h.stop⟩, ?_, ?_⟩
      · exact ⟨rfl, by simp only; omega, step, rfl⟩
      · exact ⟨rfl, by simp only; omega, step, rfl⟩
    · rw [if_neg hx, if_neg hx]
      trivial

theorem compileFinish_sim0 {X : List Nat} {c c1 : pathCompiler} (h : CSim X c c1)
    (step : pathStep) : RelRes X 0 c c1 (compileFinish c step) (compileFinish c1 step) :=
  (compileFinish_sim h step).weaken (Nat.zero_le _)

theorem compileKindTest_sim {X : List Nat} {c c1 : pathCompiler} (h : CSim X c c1)
    (step : pathStep) : RelRes X 0 c c1 (compileKindTest c step) (compileKindTest c1 step) := by
  unfold compileKindTest
  simp only
  split
  · exact relRes_error _ _ _ _ _ _
  · rename_i kind _
    split
    · exact relRes_error _ _ _ _ _ _
    · rcases skipByte_sim h 34 (by decide) with ⟨h1, h2, hs, _⟩ | ⟨h1, h2, _⟩
      · rw [h1, h2]
        simp only [↓reduceIte]
        split
        · exact relRes_error _ _ _ _ _ _
        · obtain ⟨k, n1, n2, hs2, hsl, _⟩ := skipName_sim hs
          rw [n1, n2]
          simp only
          rcases skipByte_sim hs2 34 (by decide) with ⟨q1, q2, hs3, _⟩ | ⟨q1, q2, _⟩
          · rw [q1, q2]
            simp only [not_true_eq_false, ↓reduceIte]
            rcases skipByte_sim hs3 41 (by decide) with ⟨e1, e2, hs4, _⟩ | ⟨e1, e2, _⟩
            · rw [e1, e2]
              simp only [not_true_eq_false, ↓reduceIte]
              simp only at hsl
              rw [hsl]
              exact ((compileFinish_sim0 hs4 _).mono
                (((fwd_i c 1).trans (fwd_i _ k)).trans ((fwd_i _ 1).trans (fwd_i _ 1)))
                (((fwd_i c1 1).trans (fwd_i _ k)).trans ((fwd_i _ 1).trans (fwd_i _ 1)))).weaken
                (Nat.zero_le _)
            · rw [e1, e2]
              simp only [Bool.false_eq_true, not_false_eq_true, ↓reduceIte]
              exact relRes_error _ _ _ _ _ _
          · rw [q1, q2]
            simp only [Bool.false_eq_true, not_false_eq_true, ↓reduceIte]
            exact relRes_error _ _ _ _ _ _
      · rw [h1, h2]
        simp only [Bool.false_eq_true, ↓reduceIte]
        rcases skipByte_sim h 41 (by decide) with ⟨e1, e2, hs4, _⟩ | ⟨e1, e2, _⟩
        · rw [e1, e2]
          simp only [not_true_eq_false, ↓reduceIte]
          exact ((compileFinish_sim0 hs4 _).mono (fwd_i c 1) (fwd_i c1 1)).weaken (Nat.zero_le _)
        · rw [e1, e2]
          simp only [Bool.false_eq_true, not_false_eq_true, ↓reduceIte]
          exact relRes_error _ _ _ _ _ _


/-- The part of `compileAxis` after the optional axis: a kind test or a plain name. -/
theorem axisTail_sim {X : List Nat} {d d1 : pathCompiler} (h : CSim X d d1) (step1 : pathStep) :
    RelRes X 0 d d1
      (if (d.skipByte 40).1 = true then compileKindTest (d.skipByte 40).2 step1
       else if step1.name = ascii "*" ∧ step1.kind = .anyNode then
         compileFinish (d.skipByte 40).2 { step1 with kind := .startNode }
       else compileFinish (d.skipByte 40).2 step1)
      (if (d1.skipByte 40).1 = true then compileKindTest (d1.skipByte 40).2 step1
       else if step1.name = ascii "*" ∧ step1.kind = .anyNode then
         compileFinish (d1.skipByte 40).2 { step1 with kind := .startNode }
       else compileFinish (d1.skipByte 40).2 step1) := by
  rcases skipByte_sim h 40 (by decide) with ⟨h1, h2, hs, _⟩ | ⟨h1, h2, _⟩
  · rw [h1, h2]
    simp only [↓reduceIte]
    exact ((compileKindTest_sim hs step1).mono (fwd_i d 1) (fwd_i d1 1)).weaken (Nat.zero_le _)
  · rw [h1, h2]
    simp only [Bool.false_eq_true, ↓reduceIte]
    split
    · exact compileFinish_sim0 h _
    · exact compileFinish_sim0 h _

theorem compileAxis_sim {X : List Nat} {c c1 : pathCompiler} (h : CSim X c c1)
    (step : pathStep) : RelRes X 0 c c1 (compileAxis c step) (compileAxis c1 step) := by
  unfold compileAxis
  rcases skipByte_sim h 58 (by decide) with ⟨h1, h2, hs, _⟩ | ⟨h1, h2, _⟩
  · rw [h1, h2]
    simp only [↓reduceIte]
    rcases skipByte_sim hs 58 (by decide) with ⟨q1, q2, hs2, _⟩ | ⟨q1, q2, _⟩
    · rw [q1, q2]
      simp only [not_true_eq_false, ↓reduceIte]
      by_cases hax : step.name ∈ axisNames
      · simp only [hax, not_true_eq_false, ↓reduceIte]
        obtain ⟨k, n1, n2, hs3, hsl, _⟩ := skipName_sim hs2
        rw [n1, n2]
        simp only at hsl
        by_cases hk : k > 0
        · simp only [hk, decide_True, not_true_eq_false, ↓reduceIte]
          rw [hsl]
          exact ((axisTail_sim hs3 _).mono ((fwd_i c 1).trans ((fwd_i _ 1).trans (fwd_i _ k)))
            ((fwd_i c1 1).trans ((fwd_i _ 1).trans (fwd_i _ k)))).weaken (Nat.zero_le _)
        · simp only [hk, decide_False, Bool.false_eq_true, not_false_eq_true, ↓reduceIte]
          exact relRes_error _ _ _ _ _ _
      · simp only [hax, not_false_eq_true, ↓reduceIte]
        exact relRes_error _ _ _ _ _ _
    · rw [q1, q2]
      simp only [Bool.false_eq_true, not_false_eq_true, ↓reduceIte]
      exact relRes_error _ _ _ _ _ _
  · rw [h1, h2]
    simp only [Bool.false_eq_true, ↓reduceIte]
    exact axisTail_sim h step

theorem compileTest_sim {X : List Nat} {c c1 : pathCompiler} (h : CSim X c c1)
    (step : pathStep) :
    RelRes X (if step.name = [] then 1 else 0) c c1 (compileTest c step)
      (compileTest c1 step) := by
  have hk1 : (if step.name = [] then 1 else 0) ≤ 1 := by split <;> omega
  unfold compileTest
  rw [peekByte_eq, peekByte_eq]
  by_cases hp : (c.path.drop c.i).head? = some 47
  · have hp1 := (h.head 47 (by decide)).mpr hp
    simp only [hp, hp1, decide_True, ↓reduceIte]
    have := compileFinish_sim h
      { step with axis := ascii "descendant-or-self", name := ascii "*" }
    rw [if_pos hp] at this
    exact this.weaken hk1
  · have hp1 : ¬ (c1.path.drop c1.i).head? = some 47 := fun x => hp ((h.head 47 (by decide)).mp x)
    simp only [hp, hp1, decide_False, Bool.false_eq_true, ↓reduceIte]
    rcases skipByte_sim h 64 (by decide) with ⟨h1, h2, hs, _⟩ | ⟨h1, h2, _⟩
    · rw [h1, h2]
      simp only [↓reduceIte]
      obtain ⟨k, n1, n2, hs2, hsl, _⟩ := skipName_sim hs
      rw [n1, n2]
      simp only at hsl
      by_cases hk : k > 0
      · simp only [hk, decide_True, not_true_eq_false, ↓reduceIte]
        rw [hsl]
        exact ((compileFinish_sim0 hs2 _).mono ((fwd_i c 1).trans (fwd_i _ k))
          ((fwd_i c1 1).trans (fwd_i _ k))).weaken (by omega)
      · simp only [hk, decide_False, Bool.false_eq_true, not_false_eq_true, ↓reduceIte]
        exact relRes_error _ _ _ _ _ _
    · rw [h1, h2]
      simp only [Bool.false_eq_true, ↓reduceIte]
      obtain ⟨k, n1, n2, hs2, hsl, _⟩ := skipName_sim h
      rw [n1, n2]
      simp only
      rw [← hsl]
      generalize hst : (if decide (k > 0) = true then
        ({ step with name := slice c.path c.i (c.i + k) } : pathStep) else step) = step2
      have hkk : step2.name ≠ [] → (if step.name = [] then 1 else 0) ≤ 0 + k := by
        intro hne
        by_cases hk : k > 0
        · split <;> omega
        · simp only [hk, decide_False, Bool.false_eq_true, ↓reduceIte] at hst
          rw [← hst] at hne
          rw [if_neg hne]
          omega
      by_cases hn : step2.name = []
      · simp only [hn, ↓reduceIte]
        exact relRes_error _ _ _ _ _ _
      · simp only [hn, ↓reduceIte]
        have hK := hkk hn
        generalize (if step.name = [] then 1 else 0) = K at hK ⊢
        split
        · exact ((compileFinish_sim0 hs2 _).mono (fwd_i c k) (fwd_i c1 k)).weaken hK
        · split
          · exact ((compileFinish_sim0 hs2 _).mono (fwd_i c k) (fwd_i c1 k)).weaken hK
          · split
            · exact ((compileFinish_sim0 hs2 _).mono (fwd_i c k) (fwd_i c1 k)).weaken hK
            · exact ((compileAxis_sim hs2 _).mono (fwd_i c k) (fwd_i c1 k)).weaken hK

/-- One round of the loop of `compile`: the two runs agree, and a successful round
appends one step and reads at least one byte. -/
theorem compileStep_sim {X : List Nat} {c c1 : pathCompiler} (h : CSim X c c1)
    (hi : c.i = 0 ↔ c1.i = 0)
    (hl : c.i = 0 → (c.path.drop c.i).head? = some 47 →
      c.path.length ≠ 1 ∧ c1.path.length ≠ 1) :
    RelRes X 1 c c1 (compileStep c) (compileStep c1) := by
  unfold compileStep
  by_cases h0 : c.i = 0
  · have h01 := hi.mp h0
    simp only [h0, h01, ↓reduceIte]
    rcases skipByte_sim h 47 (by decide) with ⟨h1, h2, hs, hh⟩ | ⟨h1, h2, _⟩
    · obtain ⟨hl1, hl2⟩ := hl h0 hh
      rw [h1, h2]
      simp only [↓reduceIte, hl1, hl2]
      have := compileTest_sim hs { axis := ascii "child", root := true }
      rw [if_pos rfl] at this
      exact (this.mono (fwd_i c 1) (fwd_i c1 1)).weaken (by omega)
    · rw [h1, h2]
      simp only [Bool.false_eq_true, ↓reduceIte]
      have := compileTest_sim h { axis := ascii "child" }
      rw [if_pos rfl] at this
      exact this
  · have h01 : ¬ c1.i = 0 := fun x => h0 (hi.mpr x)
    simp only [h0, h01, ↓reduceIte, Bool.false_eq_true]
    have := compileTest_sim h { axis := ascii "child" }
    rw [if_pos rfl] at this
    exact this

/-! ### The loop of `compile` -/

theorem compileLoop_done (n : Nat) (c : pathCompiler) (h : ¬ c.i < c.path.length) :
    compileLoop n c = .ok c := by
  cases n <;> simp [compileLoop, h]

theorem compileLoop_succ (n : Nat) (c : pathCompiler) (h : c.i < c.path.length) :
    compileLoop (n + 1) c =
      match compileStep c with
      | .error e => .error e
      | .ok c1 => compileLoop n c1 := by
  cases hc : compileStep c <;> simp only [compileLoop, if_pos h, hc]

/-- A round of `compile` that starts at the byte `[` fails there. -/
theorem compileStep_at_bracket (c : pathCompiler) (h : (c.path.drop c.i).head? = some 91) :
    ∃ e, compileStep c = .error e ∧ e.offset = c.i ∧ e.path = c.path := by
  cases hd : c.path.drop c.i with
  | nil => rw [hd] at h; cases h
  | cons x xs =>
    rw [hd] at h
    simp only [List.head?_cons, Option.some.injEq] at h
    subst h
    have hn : nameLen (91 :: xs) = 0 := by
      simp [nameLen, List.takeWhile_cons, nameLike, isNameByte]
    have hsb : ∀ b, b ≠ 91 → c.skipByte b = (false, c) := by
      intro b hb
      rw [skipByte_eq, hd]
      simp only [List.head?_cons, Option.some.injEq]
      rw [if_neg (fun h => hb h.symm)]
    have hpk : c.peekByte 47 = false := by
      rw [peekByte_eq, hd]
      simp
    have hsn : c.skipName = (false, c) := by
      rw [skipName_eq, hd, hn]
      simp
    refine ⟨c.errorf .missingName, ?_, rfl, rfl⟩
    unfold compileStep
    have hr : (if c.i = 0 then c.skipByte 47 else (false, c)) = (false, c) := by
      split
      · exact hsb 47 (by decide)
      · rfl
    rw [hr]
    simp only [Bool.false_eq_true, ↓reduceIte]
    unfold compileTest
    rw [hpk, hsb 64 (by decide)]
    simp only [Bool.false_eq_true, ↓reduceIte, hsn]

theorem compileLoop_sim (X : List Nat) (n : Nat) :
    ∀ (n1 : Nat) (c c1 : pathCompiler), CSim X c c1 → (c.i = 0 ↔ c1.i = 0) →
      (c.i = 0 → (c.path.drop c.i).head? = some 47 →
        c.path.length ≠ 1 ∧ c1.path.length ≠ 1) →
      c.path.length - c.i ≤ n → c1.path.length - c1.i ≤ n1 →
      RelLoop X c1 (compileLoop n c) (compileLoop n1 c1) := by
  induction n with
  | zero =>
    intro n1 c c1 h hi hl hn hn1
    have hlen := congrArg List.length h.rem
    simp only [List.length_drop, List.length_append] at hlen
    have hle := h.le
    have hle1 := h.le1
    rw [compileLoop_done 0 c (by omega)]
    cases hX : X with
    | nil =>
      rw [hX] at hlen
      simp only [List.length_nil] at hlen
      rw [compileLoop_done n1 c1 (by omega)]
      exact ⟨h.steps, rfl⟩
    | cons x xs =>
      have hx := h.stop x (by rw [hX]; rfl)
      subst hx
      have hd : c.path.drop c.i = [] := List.drop_eq_nil_of_le (by omega)
      have hrem := h.rem
      rw [hd, hX] at hrem
      obtain ⟨e, he1, he2, he3⟩ := compileStep_at_bracket c1 (by rw [hrem]; rfl)
      rw [hX] at hlen
      simp only [List.length_cons] at hlen
      cases n1 with
      | zero => omega
      | succ m1 =>
        rw [compileLoop_succ m1 c1 (by omega), he1]
        refine ⟨by simp, ?_, he3⟩
        simp only [List.length_cons]
        rw [he2, he3]
        omega
  | succ m ih =>
    intro n1 c c1 h hi hl hn hn1
    have hlen := congrArg List.length h.rem
    simp only [List.length_drop, List.length_append] at hlen
    have hle := h.le
    have hle1 := h.le1
    by_cases hlt : c.i < c.path.length
    · cases n1 with
      | zero => omega
      | succ m1 =>
        rw [compileLoop_succ m c hlt, compileLoop_succ m1 c1 (by omega)]
        have hsim := compileStep_sim h hi hl
        cases hr : compileStep c with
        | error e =>
          cases hr1 : compileStep c1 with
          | error e1 => trivial
          | ok d1 =>
            rw [hr, hr1] at hsim
            exact hsim.elim
        | ok d =>
          cases hr1 : compileStep c1 with
          | error e1 =>
            rw [hr, hr1] at hsim
            obtain ⟨s1, s2, s3, s4, s5⟩ := hsim
            simp only
            rw [compileLoop_done m d (by omega)]
            exact ⟨s1, s3, s4⟩
          | ok d1 =>
            rw [hr, hr1] at hsim
            obtain ⟨s1, s2, s3⟩ := hsim
            simp only
            have hp := s2.le
            have hp1 := s3.le
            have hpath := s2.path
            have hpath1 := s3.path
            have hrec := ih m1 d d1 s1 (by constructor <;> intro <;> omega)
              (by intro h0; omega) (by rw [hpath]; omega) (by rw [hpath1]; omega)
            cases hq : compileLoop m d with
            | error e =>
              cases hq1 : compileLoop m1 d1 with
              | error e1 => trivial
              | ok f1 =>
                rw [hq, hq1] at hrec
                exact hrec.elim
            | ok f =>
              cases hq1 : compileLoop m1 d1 with
              | error e1 =>
                rw [hq, hq1] at hrec
                obtain ⟨t1, t2, t3⟩ := hrec
                exact ⟨t1, t2, t3.trans hpath1⟩
              | ok f1 =>
                rw [hq, hq1] at hrec
                exact hrec
    · rw [compileLoop_done (m + 1) c hlt]
      cases hX : X with
      | nil =>
        rw [hX] at hlen
        simp only [List.length_nil] at hlen
        rw [compileLoop_done n1 c1 (by omega)]
        exact ⟨h.steps, rfl⟩
      | cons x xs =>
        have hx := h.stop x (by rw [hX]; rfl)
        subst hx
        have hd : c.path.drop c.i = [] := List.drop_eq_nil_of_le (by omega)
        have hrem := h.rem
        rw [hd, hX] at hrem
        obtain ⟨e, he1, he2, he3⟩ := compileStep_at_bracket c1 (by rw [hrem]; rfl)
        rw [hX] at hlen
        simp only [List.length_cons] at hlen
        cases n1 with
        | zero => omega
        | succ m1 =>
          rw [compileLoop_succ m1 c1 (by omega), he1]
          refine ⟨by simp, ?_, he3⟩
          simp only [List.length_cons]
          rw [he2, he3]
          omega

/-! ### The claims about `Compile` -/

theorem ascii_slashes : ascii "//" = [47, 47] := by decide

theorem compileStep_slashes (s : GoString) :
    compileStep { steps := [], path := ascii "//" ++ s, i := 0 } =
      .ok { steps := [stepDOS], path := ascii "//" ++ s, i := 2 } := by
  rw [ascii_slashes]
  simp [compileStep, compileTest, compileFinish, pathCompiler.skipByte, pathCompiler.peekByte,
    stepDOS]

theorem ascii_explicit :
    ascii "/descendant-or-self::node()/" =
      [47, 100, 101, 115, 99, 101, 110, 100, 97, 110, 116, 45, 111, 114, 45, 115, 101, 108, 102,
       58, 58, 110, 111, 100, 101, 40, 41, 47] := by decide

theorem compileStep_explicit (s : GoString) :
    compileStep { steps := [], path := ascii "/descendant-or-self::node()/" ++ s, i := 0 } =
      .ok { steps := [stepDOS], path := ascii "/descendant-or-self::node()/" ++ s, i := 28 } := by
  rw [ascii_explicit]
  have hname : [100, 101, 115, 99, 101, 110, 100, 97, 110, 116, 45, 111, 114, 45, 115, 101, 108,
      102] = ascii "descendant-or-self" := by decide
  have h1 : ¬ ([100, 101, 115, 99, 101, 110, 100, 97, 110, 116, 45, 111, 114, 45, 115, 101, 108,
      102] : GoString) = ascii "*" := by decide
  have h2 : ¬ ([100, 101, 115, 99, 101, 110, 100, 97, 110, 116, 45, 111, 114, 45, 115, 101, 108,
      102] : GoString) = ascii "." := by decide
  have h3 : ¬ ([100, 101, 115, 99, 101, 110, 100, 97, 110, 116, 45, 111, 114, 45, 115, 101, 108,
      102] : GoString) = ascii ".." := by decide
  have h4 : ([100, 101, 115, 99, 101, 110, 100, 97, 110, 116, 45, 111, 114, 45, 115, 101, 108,
      102] : GoString) ∈ axisNames := by decide
  have h5 : ¬ ([100, 101, 115, 99, 101, 110, 100, 97, 110, 116, 45, 111, 114, 45, 115, 101, 108,
      102] : GoString) = ascii "attribute" := by decide
  have h6 : ([110, 111, 100, 101] : GoString) = ascii "node" := by decide
  have n1 : nameLen (100 :: 101 :: 115 :: 99 :: 101 :: 110 :: 100 :: 97 :: 110 :: 116 :: 45 ::
      111 :: 114 :: 45 :: 115 :: 101 :: 108 :: 102 :: 58 :: 58 :: 110 :: 111 :: 100 :: 101 ::
      40 :: 41 :: 47 :: s) = 18 := by
    simp [nameLen, List.takeWhile_cons, nameLike, isNameByte]
  have n2 : nameLen (110 :: 111 :: 100 :: 101 :: 40 :: 41 :: 47 :: s) = 4 := by
    simp [nameLen, List.takeWhile_cons, nameLike, isNameByte]
  unfold compileStep
  simp only [pathCompiler.skipByte, List.cons_append, List.getElem?_cons_zero, ↓reduceIte,
    List.length_cons]
  unfold compileTest
  simp only [pathCompiler.peekByte, List.getElem?_cons_succ, List.getElem?_cons_zero,
    Option.some.injEq, Nat.reduceEqDiff, decide_False, Bool.false_eq_true, ↓reduceIte,
    pathCompiler.skipByte, skipName_eq, List.drop_succ_cons, List.drop_zero, n1, Nat.zero_add,
    Nat.reduceAdd, Nat.reduceGT, decide_True, slice, List.take_succ_cons, List.take_zero,
    List.nil_append, List.cons_ne_nil, h1, h2, h3]
  unfold compileAxis
  simp only [pathCompiler.skipByte, List.getElem?_cons_succ, List.getElem?_cons_zero,
    ↓reduceIte, not_true_eq_false, h4, h5, skipName_eq, List.drop_succ_cons, List.drop_zero, n2,
    Nat.reduceAdd, Nat.reduceGT, decide_True, slice, List.take_succ_cons, List.take_zero,
    not_false_eq_true, List.nil_append]
  unfold compileKindTest
  simp only [h6, ↓reduceIte, ne_eq, not_true_eq_false, pathCompiler.skipByte,
    List.getElem?_cons_succ, List.getElem?_cons_zero, Option.some.injEq, Nat.reduceEqDiff,
    Bool.false_eq_true, not_false_eq_true, Nat.reduceAdd]
  unfold compileFinish
  simp only [List.getElem?_cons_succ, List.getElem?_cons_zero, ↓reduceIte, Nat.reduceAdd,
    List.nil_append, stepDOS, hname]


theorem Compile_eq (path : GoString) :
    Compile path =
      match compileLoop path.length { steps := [], path := path, i := 0 } with
      | .error e => .error e
      | .ok c => .ok { path := path, steps := c.steps } := by
  rfl

theorem compileTest_at_bracket (c : pathCompiler) (step : pathStep)
    (h : (c.path.drop c.i).head? = some 91) (hn : step.name = []) :
    compileTest c step = .error (c.errorf .missingName) := by
  cases hd : c.path.drop c.i with
  | nil => rw [hd] at h; cases h
  | cons x xs =>
    rw [hd] at h
    simp only [List.head?_cons, Option.some.injEq] at h
    subst h
    have hnl : nameLen (91 :: xs) = 0 := by
      simp [nameLen, List.takeWhile_cons, nameLike, isNameByte]
    have hsb : ∀ b, b ≠ 91 → c.skipByte b = (false, c) := by
      intro b hb
      rw [skipByte_eq, hd]
      simp only [List.head?_cons, Option.some.injEq]
      rw [if_neg (fun h => hb h.symm)]
    have hpk : c.peekByte 47 = false := by
      rw [peekByte_eq, hd]
      simp
    have hsn : c.skipName = (false, c) := by
      rw [skipName_eq, hd, hnl]
      simp
    unfold compileTest
    rw [hpk, hsb 64 (by decide)]
    simp only [Bool.false_eq_true, ↓reduceIte, hsn, hn]

/-- The path `/` followed by `[`: the round fails at offset 1. -/
theorem Compile_slash_bracket (r : GoString) :
    Compile (47 :: 91 :: r) =
      .error { path := 47 :: 91 :: r, offset := 1, cause := .missingName } := by
  rw [Compile_eq]
  simp only [List.length_cons]
  rw [compileLoop_succ _ _ (by simp)]
  have : compileStep { steps := [], path := 47 :: 91 :: r, i := 0 } =
      .error { path := 47 :: 91 :: r, offset := 1, cause := .missingName } := by
    unfold compileStep
    simp only [pathCompiler.skipByte, List.getElem?_cons_zero, ↓reduceIte, List.length_cons]
    rw [compileTest_at_bracket _ _ (by simp) (by simp)]
    rfl
  rw [this]

/-- C9: for every path `p` that `Compile` accepts and every string `r`,
`Compile(p + "[" + r)` fails, and the offset of the error is `len(p)`, the index of the
`[`. -/
theorem predicate_rejected (p r : GoString) (P : Path) (h : Compile p = .ok P) :
    ∃ e, Compile (p ++ 91 :: r) = .error e ∧ e.offset = p.length ∧ e.path = p ++ 91 :: r := by
  by_cases hp : p = [47]
  · subst hp
    exact ⟨_, Compile_slash_bracket r, rfl, rfl⟩
  · have hsim : CSim (91 :: r) { steps := [], path := p, i := 0 }
        { steps := [], path := p ++ 91 :: r, i := 0 } :=
      ⟨rfl, by simp, Nat.zero_le _, Nat.zero_le _, by simp⟩
    have hl : ({ steps := [], path := p, i := 0 } : pathCompiler).i = 0 →
        ((({ steps := [], path := p, i := 0 } : pathCompiler).path.drop
          ({ steps := [], path := p, i := 0 } : pathCompiler).i).head? = some 47) →
        ({ steps := [], path := p, i := 0 } : pathCompiler).path.length ≠ 1 ∧
          ({ steps := [], path := p ++ 91 :: r, i := 0 } : pathCompiler).path.length ≠ 1 := by
      intro _ hh
      simp only [List.drop_zero] at hh
      cases p with
      | nil => cases hh
      | cons x xs =>
        simp only [List.head?_cons, Option.some.injEq] at hh
        subst hh
        cases xs with
        | nil => exact absurd rfl hp
        | cons y ys => simp
    have hrel := compileLoop_sim (91 :: r) p.length (p ++ 91 :: r).length _ _ hsim Iff.rfl hl
      (by simp) (by simp)
    rw [Compile_eq] at h
    rw [Compile_eq]
    cases hc : compileLoop p.length { steps := [], path := p, i := 0 } with
    | error e => rw [hc] at h; cases h
    | ok d =>
      rw [hc] at hrel
      cases hc1 : compileLoop (p ++ 91 :: r).length { steps := [], path := p ++ 91 :: r, i := 0 } with
      | ok d1 =>
        rw [hc1] at hrel
        exact absurd hrel.2 (by simp)
      | error e1 =>
        rw [hc1] at hrel
        obtain ⟨_, h2, h3⟩ := hrel
        refine ⟨e1, rfl, ?_, h3⟩
        rw [h3] at h2
        simp only [List.length_append, List.length_cons] at h2
        omega

/-- Witness of C9: `/a/b[1]` fails with offset 4. -/
theorem predicate_rejected_witness :
    ∃ e, Compile (ascii "/a/b" ++ 91 :: ascii "1]") = .error e ∧
      e.offset = (ascii "/a/b").length ∧ e.path = ascii "/a/b" ++ 91 :: ascii "1]" :=
  predicate_rejected (ascii "/a/b") (ascii "1]") scenarioPathAB (by rfl)

/-- C10: for every string `s`, `Compile("//" + s)` and
`Compile("/descendant-or-self::node()/" + s)` both fail, or both succeed with the same
step sequence, so that they give the same iterator on every node; and `//b` and
`/descendant-or-self::node()/child::b` compile to the same two steps. -/
theorem leading_slashes_sugar (s : GoString) :
    ((∃ e e1, Compile (ascii "//" ++ s) = .error e ∧
          Compile (ascii "/descendant-or-self::node()/" ++ s) = .error e1) ∨
        ∃ P Q, Compile (ascii "//" ++ s) = .ok P ∧
          Compile (ascii "/descendant-or-self::node()/" ++ s) = .ok Q ∧ P.steps = Q.steps ∧
          (∀ tbl node, P.Iter tbl node = Q.Iter tbl node) ∧
          ∀ tbl fuel node, P.Strings tbl fuel node = Q.Strings tbl fuel node) ∧
      (Compile (ascii "//b")).map (fun P => P.steps) =
        .ok [stepDOS, { axis := ascii "child", name := ascii "b" }] ∧
      (Compile (ascii "/descendant-or-self::node()/child::b")).map (fun P => P.steps) =
        .ok [stepDOS, { axis := ascii "child", name := ascii "b" }] := by
  refine ⟨?_, by rfl, by rfl⟩
  have hA : (ascii "//" ++ s).length = (s.length + 1) + 1 := by
    rw [ascii_slashes]; simp
  have hB : (ascii "/descendant-or-self::node()/" ++ s).length = (s.length + 27) + 1 := by
    rw [ascii_explicit]; simp
  have hsim : CSim [] { steps := [stepDOS], path := ascii "//" ++ s, i := 2 }
      { steps := [stepDOS], path := ascii "/descendant-or-self::node()/" ++ s, i := 28 } := by
    refine ⟨rfl, ?_, ?_, ?_, by simp⟩
    · rw [ascii_slashes, ascii_explicit]
      simp
    · simp only; omega
    · simp only; omega
  have hrel := compileLoop_sim [] (s.length + 1) (s.length + 27) _ _ hsim
    (by constructor <;> intro h <;> simp at h) (by intro h; simp at h)
    (by simp only; omega) (by simp only; omega)
  rw [Compile_eq, Compile_eq, hA, hB, compileLoop_succ _ _ (by simp only; omega),
    compileLoop_succ _ _ (by simp only; omega), compileStep_slashes, compileStep_explicit]
  simp only
  cases hc : compileLoop (s.length + 1) { steps := [stepDOS], path := ascii "//" ++ s, i := 2 } with
  | error e =>
    cases hc1 : compileLoop (s.length + 27)
        { steps := [stepDOS], path := ascii "/descendant-or-self::node()/" ++ s, i := 28 } with
    | error e1 => exact Or.inl ⟨e, e1, rfl, rfl⟩
    | ok d1 =>
      rw [hc, hc1] at hrel
      exact hrel.elim
  | ok d =>
    cases hc1 : compileLoop (s.length + 27)
        { steps := [stepDOS], path := ascii "/descendant-or-self::node()/" ++ s, i := 28 } with
    | error e1 =>
      rw [hc, hc1] at hrel
      exact absurd rfl hrel.1
    | ok d1 =>
      rw [hc, hc1] at hrel
      right
      refine ⟨_, _, rfl, rfl, hrel.1, ?_, ?_⟩
      · intro tbl node
        simp only [Path.Iter, hrel.1]
      · intro tbl fuel node
        simp only [Path.Strings, Path.Iter, hrel.1]

/-! ### The tree of a well-nested token sequence -/

theorem computeDown_pairwise (tbl : List Node) (p pos e : Nat) :
    (computeDown tbl p pos e).Pairwise (fun a b => a < b) := by
  unfold computeDown
  exact List.Pairwise.filter _ (List.pairwise_lt_range' _ _)

theorem mem_computeDown {tbl : List Node} {p pos e c : Nat} (h : c ∈ computeDown tbl p pos e) :
    pos < c ∧ c < e ∧ ∃ cn, tbl[c]? = some cn ∧ cn.up = some p ∧ isDownKind cn.kind = true := by
  unfold computeDown at h
  rw [List.mem_filter, List.mem_range'_1] at h
  obtain ⟨hr, hc⟩ := h
  refine ⟨by omega, by omega, ?_⟩
  cases hcn : tbl[c]? with
  | none => rw [hcn] at hc; simp at hc
  | some cn =>
    rw [hcn] at hc
    simp only [Bool.and_eq_true, decide_eq_true_eq] at hc
    exact ⟨cn, rfl, hc.1, hc.2⟩

theorem treeOK_of_linkInv {K : List nodeKind} {tbl : List Node}
    (h : LinkInv K tbl.length tbl []) : TreeOK tbl := by
  have hlt : ∀ (i : Nat) (nd : Node), tbl[i]? = some nd → i < tbl.length := fun i nd hi =>
    (List.getElem?_eq_some.mp hi).1
  refine ⟨?_, ?_, ?_, ?_, ?_, h.endFresh⟩
  · intro i nd hi hk
    exact h.linked i nd (hlt i nd hi) hi hk
  · intro i nd u hi hu
    obtain ⟨h1, h2⟩ := h.upOK i nd u (hlt i nd hi) hi hu
    refine ⟨h1, ?_⟩
    rw [← h.kinds, List.getElem?_map] at h2
    cases hun : tbl[u]? with
    | none => rw [hun] at h2; simp at h2
    | some un =>
      rw [hun] at h2
      simp only [Option.map_some', Option.some.injEq] at h2
      exact ⟨un, rfl, h2⟩
  · intro i nd hi hk
    by_cases hk2 : nd.kind = .endNode
    · exact (h.endFresh i nd hi hk2).2.2.2.2
    · exact (h.leaf i nd (hlt i nd hi) hi hk hk2).2
  · intro i nd hi hk
    obtain ⟨c1, c2, _, c4⟩ := h.closed i nd (hlt i nd hi) hi hk (by simp)
    exact ⟨c1, c2, c4⟩
  · intro i nd hi hk hk2
    exact (h.leaf i nd (hlt i nd hi) hi hk hk2).1

/-- The tree of a well-nested, error-free token sequence is fully linked. -/
theorem ParseDecoder_treeOK (ts : List Token) (h : wellNested ts) :
    ∃ t, ParseDecoder { tokens := ts } = .ok t ∧ t.root = 0 ∧ TreeOK t.nodes := by
  obtain ⟨t, h1, h2, h3⟩ := ParseDecoder_wellNested ts h
  exact ⟨t, h1, h2, treeOK_of_linkInv h3⟩

theorem TreeOK.downSorted {tbl : List Node} (T : TreeOK tbl) {u : Nat} {un : Node}
    (hu : tbl[u]? = some un) : un.down.Pairwise (fun a b => a < b) := by
  by_cases hk : un.kind = .startNode
  · rw [(T.downEq u un hu hk).2.2]
    exact computeDown_pairwise _ _ _ _
  · rw [T.downNil u un hu hk]
    exact List.Pairwise.nil

theorem TreeOK.downMem {tbl : List Node} (T : TreeOK tbl) {u c : Nat} {un : Node}
    (hu : tbl[u]? = some un) (hc : c ∈ un.down) :
    un.kind = .startNode ∧ ∃ cn, tbl[c]? = some cn ∧ cn.up = some u := by
  by_cases hk : un.kind = .startNode
  · rw [(T.downEq u un hu hk).2.2] at hc
    obtain ⟨_, _, cn, h1, h2, _⟩ := mem_computeDown hc
    exact ⟨hk, cn, h1, h2⟩
  · rw [T.downNil u un hu hk] at hc
    cases hc

/-! ### The scanning loops of `next` -/

theorem match_not_end {step : pathStep} {n : Node} (h : step.match_ n = true) :
    n.kind ≠ .endNode := by
  unfold pathStep.match_ at h
  simp only [Bool.and_eq_true, decide_eq_true_eq] at h
  exact h.1.1

theorem indexNodes_ok {tbl : List Node} {cur : Node} {i : Int} {k : Nat} {n : Node}
    (h : indexNodes tbl cur i = .ok (k, n)) : (k : Int) = i ∧ tbl[k]? = some n := by
  unfold indexNodes at h
  split at h
  · rename_i hc
    split at h
    · rename_i n1 hn
      simp only [Except.ok.injEq, Prod.mk.injEq] at h
      obtain ⟨h1, h2⟩ := h
      subst h1 h2
      exact ⟨Int.toNat_of_nonneg hc.2, hn⟩
    · simp at h
  · simp at h

theorem indexDown_ok {tbl : List Node} {down : List Nat} {i : Int} {c : Nat} {n : Node}
    (h : indexDown tbl down i = .ok (c, n)) :
    ∃ j : Nat, (j : Int) = i ∧ down[j]? = some c ∧ tbl[c]? = some n := by
  unfold indexDown at h
  split at h
  · rename_i hc
    split at h
    · rename_i c1 hc1
      unfold deref at h
      simp only at h
      split at h
      · rename_i n1 hn1
        simp only [Except.ok.injEq, Prod.mk.injEq] at h
        obtain ⟨h1, h2⟩ := h
        subst h1 h2
        split at hn1
        · rename_i n2 hn2
          simp only [Except.ok.injEq] at hn1
          subst hn1
          exact ⟨i.toNat, Int.toNat_of_nonneg hc, hc1, hn2⟩
        · simp at hn1
      · simp at h
    · simp at h
  · simp at h

theorem scanTable_spec (tbl : List Node) (step : pathStep) (cur : Node) (bound : Int)
    (f : Nat) :
    ∀ (idx : Int) (k : Nat) (idx2 : Int),
      scanTable tbl step cur bound f idx = .ok (some k, idx2) →
        idx ≤ k ∧ idx2 = (k : Int) + 1 ∧ ∃ n, tbl[k]? = some n ∧ step.match_ n = true := by
  induction f with
  | zero => intro idx k idx2 h; simp [scanTable] at h
  | succ f ih =>
    intro idx k idx2 h
    unfold scanTable at h
    split at h
    · split at h
      · simp at h
      · rename_i k1 n hix
        obtain ⟨hk1, hn⟩ := indexNodes_ok hix
        split at h
        · obtain ⟨h1, h2, h3⟩ := ih _ _ _ h
          exact ⟨by omega, h2, h3⟩
        · split at h
          · rename_i hm
            simp only [Except.ok.injEq, Prod.mk.injEq, Option.some.injEq] at h
            obtain ⟨h1, h2⟩ := h
            subst h1
            exact ⟨by omega, by omega, n, hn, hm⟩
          · obtain ⟨h1, h2, h3⟩ := ih _ _ _ h
            exact ⟨by omega, h2, h3⟩
    · simp at h

theorem scanAttr_spec (tbl : List Node) (step : pathStep) (cur : Node) (aux : Int)
    (f : Nat) :
    ∀ (idx : Int) (k : Nat) (idx2 : Int),
      scanAttr tbl step cur aux f idx = .ok (some k, idx2) →
        idx ≤ k ∧ idx2 = (k : Int) + 1 ∧ ∃ n, tbl[k]? = some n ∧ step.match_ n = true := by
  induction f with
  | zero => intro idx k idx2 h; simp [scanAttr] at h
  | succ f ih =>
    intro idx k idx2 h
    unfold scanAttr at h
    split at h
    · split at h
      · simp at h
      · rename_i k1 n hix
        obtain ⟨hk1, hn⟩ := indexNodes_ok hix
        split at h
        · simp at h
        · split at h
          · rename_i hm
            simp only [Except.ok.injEq, Prod.mk.injEq, Option.some.injEq] at h
            obtain ⟨h1, h2⟩ := h
            subst h1
            exact ⟨by omega, by omega, n, hn, hm⟩
          · obtain ⟨h1, h2, h3⟩ := ih _ _ _ h
            exact ⟨by omega, h2, h3⟩
    · simp at h

theorem scanDown_spec (tbl : List Node) (step : pathStep) (down : List Nat) (f : Nat) :
    ∀ (idx : Int) (c : Nat) (idx2 : Int),
      scanDown tbl step down f idx = .ok (some c, idx2) →
        ∃ j : Nat, idx ≤ j ∧ idx2 = (j : Int) + 1 ∧ down[j]? = some c ∧
          ∃ n, tbl[c]? = some n ∧ step.match_ n = true := by
  induction f with
  | zero => intro idx c idx2 h; simp [scanDown] at h
  | succ f ih =>
    intro idx c idx2 h
    unfold scanDown at h
    split at h
    · split at h
      · simp at h
      · rename_i c1 n hix
        obtain ⟨j, hj1, hj2, hj3⟩ := indexDown_ok hix
        split at h
        · rename_i hm
          simp only [Except.ok.injEq, Prod.mk.injEq, Option.some.injEq] at h
          obtain ⟨h1, h2⟩ := h
          subst h1
          exact ⟨j, by omega, by omega, hj2, n, hj3, hm⟩
        · obtain ⟨j2, h1, h2, h3⟩ := ih _ _ _ h
          exact ⟨j2, by omega, h2, h3⟩
    · simp at h

/-! ### Dispatch of `next` on the forward axes -/

theorem nextAxis_self (tbl : List Node) (fuel : Nat) (s : pathStepState) (p : Nat) (cur : Node)
    (h : s.step.axis = ascii "self") : s.nextAxis tbl fuel p cur = s.nextSelf cur := by
  unfold pathStepState.nextAxis
  rw [if_pos h]

theorem nextAxis_child (tbl : List Node) (fuel : Nat) (s : pathStepState) (p : Nat) (cur : Node)
    (h : s.step.axis = ascii "child") : s.nextAxis tbl fuel p cur = s.nextChild tbl fuel cur := by
  unfold pathStepState.nextAxis
  rw [h]
  rfl

theorem nextAxis_descendant (tbl : List Node) (fuel : Nat) (s : pathStepState) (p : Nat)
    (cur : Node) (h : s.step.axis = ascii "descendant" ∨ s.step.axis = ascii "descendant-or-self") :
    s.nextAxis tbl fuel p cur = s.nextDescendant tbl fuel cur := by
  unfold pathStepState.nextAxis
  rcases h with h | h <;> rw [h] <;> rfl

theorem nextAxis_following (tbl : List Node) (fuel : Nat) (s : pathStepState) (p : Nat)
    (cur : Node) (h : s.step.axis = ascii "following") :
    s.nextAxis tbl fuel p cur = s.nextFollowing tbl fuel cur := by
  unfold pathStepState.nextAxis
  rw [h]
  rfl

theorem nextAxis_followingSibling (tbl : List Node) (fuel : Nat) (s : pathStepState) (p : Nat)
    (cur : Node) (h : s.step.axis = ascii "following-sibling") :
    s.nextAxis tbl fuel p cur = s.nextFollowingSibling tbl fuel p cur := by
  unfold pathStepState.nextAxis
  rw [h]
  rfl

theorem nextAxis_attribute (tbl : List Node) (fuel : Nat) (s : pathStepState) (p : Nat)
    (cur : Node) (h : s.step.axis = ascii "attribute") :
    s.nextAxis tbl fuel p cur = s.nextAttribute tbl fuel cur := by
  unfold pathStepState.nextAxis
  rw [h]
  rfl


/-! ### The forward axes emit in the order of the table -/

theorem foundIn_true {s s1 : pathStepState} {aux : Int} {r : Except Fault (Option Nat × Int)}
    (h : s.foundIn aux r = .ok (true, s1)) :
    ∃ k idx2, r = .ok (some k, idx2) ∧ s1.node = some k ∧ s1.idx = idx2 ∧ s1.step = s.step := by
  unfold pathStepState.foundIn at h
  split at h
  · simp at h
  · rename_i r1
    simp only [Except.ok.injEq] at h
    unfold pathStepState.found at h
    split at h
    · rename_i k hk
      simp only [Prod.mk.injEq, true_and] at h
      subst h
      exact ⟨k, r1.2, by rw [← hk], rfl, rfl, rfl⟩
    · simp at h

theorem pos_eq_some {tbl : List Node} {s : pathStepState} {k : Nat} {nd : Node}
    (hs : s.node = some k) (hk : tbl[k]? = some nd) : s.pos tbl = some nd.pos := by
  unfold pathStepState.pos deref
  rw [hs]
  simp only [hk]

/-- The table-scanning loop of the descendant and following axes returns a record at or
after the index it resumes from. -/
theorem scanTable_emit {tbl : List Node} (T : TreeOK tbl) {s s1 : pathStepState} {cur : Node}
    {bound aux idx : Int} {fuel : Nat}
    (h : s.foundIn aux (scanTable tbl s.step cur bound fuel idx) = .ok (true, s1)) :
    JScan tbl s1 ∧ ∃ k : Nat, s1.node = some k ∧ idx ≤ k := by
  obtain ⟨k, idx2, hr, h1, h2, _⟩ := foundIn_true h
  obtain ⟨g1, g2, n, g3, g4⟩ := scanTable_spec _ _ _ _ _ _ _ _ hr
  have hl := T.linked k n g3 (match_not_end g4)
  exact ⟨⟨k, n, h1, g3, hl.2, by rw [h2, g2]⟩, k, h1, g1⟩

theorem scanAttr_emit {tbl : List Node} (T : TreeOK tbl) {s s1 : pathStepState} {cur : Node}
    {aux idx : Int} {fuel : Nat}
    (h : s.foundIn aux (scanAttr tbl s.step cur aux fuel idx) = .ok (true, s1)) :
    JScan tbl s1 ∧ ∃ k : Nat, s1.node = some k ∧ idx ≤ k := by
  obtain ⟨k, idx2, hr, h1, h2, _⟩ := foundIn_true h
  obtain ⟨g1, g2, n, g3, g4⟩ := scanAttr_spec _ _ _ _ _ _ _ _ hr
  have hl := T.linked k n g3 (match_not_end g4)
  exact ⟨⟨k, n, h1, g3, hl.2, by rw [h2, g2]⟩, k, h1, g1⟩

/-- The loop over the children of `u` returns an entry at or after the one it resumes
from. -/
theorem scanDown_emit {tbl : List Node} (T : TreeOK tbl) {s s1 : pathStepState} {u : Nat}
    {un : Node} (hu : tbl[u]? = some un) {idx : Int} {fuel : Nat}
    (h : s.foundIn s.aux (scanDown tbl s.step un.down fuel idx) = .ok (true, s1)) :
    ∃ (k : Nat) (nd : Node) (j : Nat), s1.node = some k ∧ tbl[k]? = some nd ∧ nd.pos = k ∧
      nd.up = some u ∧ un.kind = .startNode ∧ s1.idx = (j : Int) + 1 ∧ un.down[j]? = some k ∧
      idx ≤ j := by
  obtain ⟨k, idx2, hr, h1, h2, _⟩ := foundIn_true h
  obtain ⟨j, g1, g2, g3, n, g4, g5⟩ := scanDown_spec _ _ _ _ _ _ _ hr
  have hl := T.linked k n g4 (match_not_end g5)
  obtain ⟨hk, cn, hc1, hc2⟩ := T.downMem hu (List.getElem?_mem g3)
  rw [g4] at hc1
  simp only [Option.some.injEq] at hc1
  subst hc1
  exact ⟨k, n, j, h1, g4, hl.2, hc2, hk, by rw [h2, g2], g3, g1⟩

theorem scanDown_nil_none {tbl : List Node} {s s1 : pathStepState} {idx : Int} {fuel : Nat}
    (h : s.foundIn s.aux (scanDown tbl s.step [] fuel idx) = .ok (true, s1)) : False := by
  obtain ⟨k, idx2, hr, _⟩ := foundIn_true h
  obtain ⟨j, _, _, g3, _⟩ := scanDown_spec _ _ _ _ _ _ _ hr
  simp at g3

theorem nextDescendant_emit {tbl : List Node} (T : TreeOK tbl) {s s1 : pathStepState}
    {cur : Node} {fuel : Nat} (h : s.nextDescendant tbl fuel cur = .ok (true, s1)) :
    JScan tbl s1 ∧ ∃ k : Nat, s1.node = some k ∧ (s.idx ≠ 0 → s.idx ≤ k) := by
  unfold pathStepState.nextDescendant at h
  obtain ⟨h1, k, h2, h3⟩ := scanTable_emit T h
  refine ⟨h1, k, h2, ?_⟩
  intro h0
  simp only [h0, ↓reduceIte] at h3
  exact h3

theorem nextFollowing_emit {tbl : List Node} (T : TreeOK tbl) {s s1 : pathStepState}
    {cur : Node} {fuel : Nat} (h : s.nextFollowing tbl fuel cur = .ok (true, s1)) :
    JScan tbl s1 ∧ ∃ k : Nat, s1.node = some k ∧ (s.idx ≠ 0 → s.idx ≤ k) := by
  unfold pathStepState.nextFollowing at h
  obtain ⟨h1, k, h2, h3⟩ := scanTable_emit T h
  refine ⟨h1, k, h2, ?_⟩
  intro h0
  simp only [h0, ↓reduceIte] at h3
  exact h3

theorem nextAttribute_emit {tbl : List Node} (T : TreeOK tbl) {s s1 : pathStepState}
    {cur : Node} {fuel : Nat} (h : s.nextAttribute tbl fuel cur = .ok (true, s1)) :
    JScan tbl s1 ∧ ∃ k : Nat, s1.node = some k ∧ (s.idx ≠ 0 → s.idx ≤ k) := by
  unfold pathStepState.nextAttribute at h
  obtain ⟨h1, k, h2, h3⟩ := scanAttr_emit T h
  refine ⟨h1, k, h2, ?_⟩
  intro h0
  simp only [h0, ↓reduceIte] at h3
  exact h3

theorem nextChild_emit {tbl : List Node} (T : TreeOK tbl) {s s1 : pathStepState} {p : Nat}
    {cur : Node} (hcur : tbl[p]? = some cur) {fuel : Nat}
    (h : s.nextChild tbl fuel cur = .ok (true, s1)) :
    ∃ (k : Nat) (nd : Node) (u : Nat) (un : Node) (j : Nat), s1.node = some k ∧
      tbl[k]? = some nd ∧ nd.pos = k ∧ nd.up = some u ∧ tbl[u]? = some un ∧
      un.kind = .startNode ∧ s1.idx = (j : Int) + 1 ∧ un.down[j]? = some k ∧
      (s.idx ≠ 0 → cur.up = some u ∧ s.idx ≤ j) := by
  unfold pathStepState.nextChild at h
  by_cases h0 : s.idx = 0
  · simp only [h0, ↓reduceIte] at h
    rw [← h0] at h
    obtain ⟨k, nd, j, g1, g2, g3, g4, g5, g6, g7, _⟩ := scanDown_emit T hcur h
    exact ⟨k, nd, p, cur, j, g1, g2, g3, g4, hcur, g5, g6, g7, fun hne => absurd h0 hne⟩
  · simp only [h0, ↓reduceIte] at h
    cases hup : cur.up with
    | none => simp [hup, deref] at h
    | some u =>
      rw [hup] at h
      unfold deref at h
      simp only at h
      cases hun : tbl[u]? with
      | none => simp [hun] at h
      | some un =>
        simp only [hun] at h
        obtain ⟨k, nd, j, g1, g2, g3, g4, g5, g6, g7, g8⟩ := scanDown_emit T hun h
        exact ⟨k, nd, u, un, j, g1, g2, g3, g4, hun, g5, g6, g7, fun _ => ⟨rfl, g8⟩⟩

theorem nextFollowingSibling_emit {tbl : List Node} (T : TreeOK tbl) {s s1 : pathStepState}
    {p : Nat} {cur : Node} {fuel : Nat}
    (h : s.nextFollowingSibling tbl fuel p cur = .ok (true, s1)) :
    ∃ (k : Nat) (nd : Node) (u : Nat) (un : Node) (j : Nat), s1.node = some k ∧
      tbl[k]? = some nd ∧ nd.pos = k ∧ nd.up = some u ∧ tbl[u]? = some un ∧
      un.kind = .startNode ∧ s1.idx = (j : Int) + 1 ∧ un.down[j]? = some k ∧
      (s.idx ≠ 0 → cur.up = some u ∧ s.idx ≤ j) := by
  unfold pathStepState.nextFollowingSibling at h
  cases hup : cur.up with
  | none =>
    rw [hup] at h
    exact (scanDown_nil_none h).elim
  | some u =>
    rw [hup] at h
    unfold deref at h
    simp only at h
    cases hun : tbl[u]? with
    | none => simp [hun] at h
    | some un =>
      simp only [hun] at h
      split at h
      · simp at h
      · rename_i f hf
        obtain ⟨k, nd, j, g1, g2, g3, g4, g5, g6, g7, g8⟩ := scanDown_emit T hun h
        refine ⟨k, nd, u, un, j, g1, g2, g3, g4, hun, g5, g6, g7, ?_⟩
        intro hne
        rw [if_neg hne] at hf
        simp only [Except.ok.injEq] at hf
        rw [← hf] at g8
        exact ⟨rfl, g8⟩


theorem posLt_trans {a b c : Option Nat} (h1 : posLt a b) (h2 : posLt b c) : posLt a c := by
  obtain ⟨x, y, rfl, rfl, hxy⟩ := h1
  obtain ⟨y1, z, hy, rfl, hyz⟩ := h2
  cases hy
  exact ⟨x, z, rfl, rfl, by omega⟩

theorem jscan_pos {tbl : List Node} {s : pathStepState} (h : JScan tbl s) :
    ∃ k : Nat, s.node = some k ∧ s.pos tbl = some k ∧ s.idx = (k : Int) + 1 := by
  obtain ⟨k, nd, h1, h2, h3, h4⟩ := h
  exact ⟨k, h1, by rw [pos_eq_some h1 h2, h3], h4⟩

/-- Two cursors of a table-scanning axis, the second found at or after the index the first
resumes from. -/
theorem jscan_lt {tbl : List Node} {s s1 : pathStepState} (h : JScan tbl s)
    (h1 : JScan tbl s1) (hle : ∃ k : Nat, s1.node = some k ∧ (s.idx ≠ 0 → s.idx ≤ k)) :
    posLt (s.pos tbl) (s1.pos tbl) := by
  obtain ⟨k, _, g2, g3⟩ := jscan_pos h
  obtain ⟨k1, f1, f2, _⟩ := jscan_pos h1
  obtain ⟨k2, e1, e2⟩ := hle
  rw [f1] at e1
  cases e1
  have := e2 (by omega)
  exact ⟨k, k1, g2, f2, by omega⟩

/-- Two cursors of the child or following-sibling axis under the same parent, the second
at a later entry of its children. -/
theorem jdown_lt {tbl : List Node} (T : TreeOK tbl) {s s1 : pathStepState} {p : Nat}
    {cur : Node} (hn : s.node = some p) (hcur : tbl[p]? = some cur) (h : JDown tbl s)
    (h1 : ∃ (k : Nat) (nd : Node) (u : Nat) (un : Node) (j : Nat), s1.node = some k ∧
      tbl[k]? = some nd ∧ nd.pos = k ∧ nd.up = some u ∧ tbl[u]? = some un ∧
      un.kind = .startNode ∧ s1.idx = (j : Int) + 1 ∧ un.down[j]? = some k ∧
      (s.idx ≠ 0 → cur.up = some u ∧ s.idx ≤ j)) :
    posLt (s.pos tbl) (s1.pos tbl) := by
  obtain ⟨k, nd, u, un, j, a1, a2, a3, a4, a5, _, a7, a8⟩ := h
  obtain ⟨k1, nd1, u1, un1, j1, b1, b2, b3, _, b5, _, _, b8, b9⟩ := h1
  rw [hn] at a1
  cases a1
  rw [hcur] at a2
  cases a2
  obtain ⟨c1, c2⟩ := b9 (by omega)
  rw [a4] at c1
  cases c1
  rw [a5] at b5
  cases b5
  have hs := T.downSorted a5
  have hj : j < j1 := by omega
  obtain ⟨hjl, hje⟩ := List.getElem?_eq_some_iff.mp a8
  obtain ⟨hjl1, hje1⟩ := List.getElem?_eq_some_iff.mp b8
  have hlt := (List.pairwise_iff_getElem.mp hs) j j1 hjl hjl1 hj
  rw [hje, hje1] at hlt
  refine ⟨p, k1, ?_, ?_, hlt⟩
  · rw [pos_eq_some hn hcur, a3]
  · rw [pos_eq_some b1 b2, b3]

theorem forwardAxes_cases {a : GoString} (h : a ∈ forwardAxes) :
    a = ascii "self" ∨ a = ascii "child" ∨ a = ascii "attribute" ∨ a = ascii "descendant" ∨
      a = ascii "descendant-or-self" ∨ a = ascii "following" ∨
      a = ascii "following-sibling" := by
  simpa [forwardAxes] using h

/-- A call of a forward axis that returns a node leaves the cursor in the resuming form,
and on a node later in the table than the one a resuming cursor stood on. -/
theorem nextAxis_forward {tbl : List Node} (T : TreeOK tbl) {s s1 : pathStepState} {p : Nat}
    {cur : Node} {fuel : Nat} (ha : s.step.axis ∈ forwardAxes) (hn : s.node = some p)
    (hcur : tbl[p]? = some cur) (h : s.nextAxis tbl fuel p cur = .ok (true, s1)) :
    s1.step = s.step ∧ JFwd tbl s1 ∧ (JFwd tbl s → posLt (s.pos tbl) (s1.pos tbl)) := by
  have hstep : s1.step = s.step := (nextAxis_post tbl fuel s p cur true s1 h).2
  refine ⟨hstep, ?_⟩
  rcases forwardAxes_cases ha with hx | hx | hx | hx | hx | hx | hx
  · rw [nextAxis_self _ _ _ _ _ hx] at h
    unfold pathStepState.nextSelf at h
    split at h
    · rename_i hc
      simp only [Except.ok.injEq, Prod.mk.injEq, true_and] at h
      subst h
      refine ⟨⟨?_, ⟨cur.pos, pos_eq_some hn hcur⟩, ?_, ?_⟩, ?_⟩
      · simp only [hc.1]
        decide
      · intro hh
        simp only [hx] at hh
        exact absurd hh (by decide)
      · intro hh
        simp only [hx] at hh
        exact absurd hh (by decide)
      · intro hj
        exact absurd hc.1 hj.1
    · simp at h
  · rw [nextAxis_child _ _ _ _ _ hx] at h
    have he := nextChild_emit T hcur h
    have hd : JDown tbl s1 := by
      obtain ⟨k, nd, u, un, j, b1, b2, b3, b4, b5, b6, b7, b8, _⟩ := he
      exact ⟨k, nd, u, un, j, b1, b2, b3, b4, b5, b6, b7, b8⟩
    refine ⟨⟨?_, ?_, fun _ => hd, ?_⟩, ?_⟩
    · obtain ⟨_, _, _, _, j, _, _, _, _, _, _, b7, _⟩ := hd
      omega
    · obtain ⟨k, nd, _, _, _, b1, b2, _⟩ := hd
      exact ⟨nd.pos, pos_eq_some b1 b2⟩
    · intro hh
      rw [hstep, hx] at hh
      exact absurd hh (by decide)
    · intro hj
      exact jdown_lt T hn hcur (hj.2.2.1 (Or.inl hx)) he
  · rw [nextAxis_attribute _ _ _ _ _ hx] at h
    obtain ⟨hd, he⟩ := nextAttribute_emit T h
    refine ⟨⟨?_, ?_, ?_, fun _ => hd⟩, ?_⟩
    · obtain ⟨k, _, _, b3⟩ := jscan_pos hd
      omega
    · obtain ⟨k, _, b2, _⟩ := jscan_pos hd
      exact ⟨k, b2⟩
    · intro hh
      rw [hstep, hx] at hh
      exact absurd hh (by decide)
    · intro hj
      exact jscan_lt (hj.2.2.2 (Or.inl hx)) hd he
  · rw [nextAxis_descendant _ _ _ _ _ (Or.inl hx)] at h
    obtain ⟨hd, he⟩ := nextDescendant_emit T h
    refine ⟨⟨?_, ?_, ?_, fun _ => hd⟩, ?_⟩
    · obtain ⟨k, _, _, b3⟩ := jscan_pos hd
      omega
    · obtain ⟨k, _, b2, _⟩ := jscan_pos hd
      exact ⟨k, b2⟩
    · intro hh
      rw [hstep, hx] at hh
      exact absurd hh (by decide)
    · intro hj
      exact jscan_lt (hj.2.2.2 (Or.inr (Or.inl hx))) hd he
  · rw [nextAxis_descendant _ _ _ _ _ (Or.inr hx)] at h
    obtain ⟨hd, he⟩ := nextDescendant_emit T h
    refine ⟨⟨?_, ?_, ?_, fun _ => hd⟩, ?_⟩
    · obtain ⟨k, _, _, b3⟩ := jscan_pos hd
      omega
    · obtain ⟨k, _, b2, _⟩ := jscan_pos hd
      exact ⟨k, b2⟩
    · intro hh
      rw [hstep, hx] at hh
      exact absurd hh (by decide)
    · intro hj
      exact jscan_lt (hj.2.2.2 (Or.inr (Or.inr (Or.inl hx)))) hd he
  · rw [nextAxis_following _ _ _ _ _ hx] at h
    obtain ⟨hd, he⟩ := nextFollowing_emit T h
    refine ⟨⟨?_, ?_, ?_, fun _ => hd⟩, ?_⟩
    · obtain ⟨k, _, _, b3⟩ := jscan_pos hd
      omega
    · obtain ⟨k, _, b2, _⟩ := jscan_pos hd
      exact ⟨k, b2⟩
    · intro hh
      rw [hstep, hx] at hh
      exact absurd hh (by decide)
    · intro hj
      exact jscan_lt (hj.2.2.2 (Or.inr (Or.inr (Or.inr hx)))) hd he
  · rw [nextAxis_followingSibling _ _ _ _ _ hx] at h
    have he := nextFollowingSibling_emit T h
    have hd : JDown tbl s1 := by
      obtain ⟨k, nd, u, un, j, b1, b2, b3, b4, b5, b6, b7, b8, _⟩ := he
      exact ⟨k, nd, u, un, j, b1, b2, b3, b4, b5, b6, b7, b8⟩
    refine ⟨⟨?_, ?_, fun _ => hd, ?_⟩, ?_⟩
    · obtain ⟨_, _, _, _, j, _, _, _, _, _, _, b7, _⟩ := hd
      omega
    · obtain ⟨k, nd, _, _, _, b1, b2, _⟩ := hd
      exact ⟨nd.pos, pos_eq_some b1 b2⟩
    · intro hh
      rw [hstep, hx] at hh
      exact absurd hh (by decide)
    · intro hj
      exact jdown_lt T hn hcur (hj.2.2.1 (Or.inr hx)) he

theorem deref_ok {tbl : List Node} {p : Nat} {cur : Node} (h : deref tbl (some p) = .ok cur) :
    tbl[p]? = some cur := by
  unfold deref at h
  simp only at h
  split at h
  · simp only [Except.ok.injEq] at h
    subst h
    assumption
  · simp at h

/-- Method `next` on a forward axis: a call that returns a node leaves the cursor in the
resuming form, and on a node later in the table than a resuming cursor stood on. -/
theorem next_forward {tbl : List Node} (T : TreeOK tbl) {s s1 : pathStepState} {fuel : Nat}
    (ha : s.step.axis ∈ forwardAxes) (h : s.next tbl fuel = .ok (true, s1)) :
    s1.step = s.step ∧ JFwd tbl s1 ∧ (JFwd tbl s → posLt (s.pos tbl) (s1.pos tbl)) := by
  unfold pathStepState.next at h
  split at h
  · simp at h
  · rename_i p0 hp0
    split at h
    · simp at h
    · rename_i p hp
      split at h
      · simp at h
      · rename_i cur hcur
        have hc := deref_ok hcur
        obtain ⟨h1, h2, h3⟩ := nextAxis_forward T (s := { s with node := some p }) ha rfl hc h
        refine ⟨h1, h2, ?_⟩
        intro hj
        have hi : ¬ (s.step.root = true ∧ s.idx = 0) := fun hh => hj.1 hh.2
        rw [if_neg hi] at hp
        simp only [Except.ok.injEq] at hp
        subst hp
        have hs : ({ s with node := some p0 } : pathStepState) = s := by
          cases s
          simp only at hp0
          subst hp0
          rfl
        rw [hs] at h3
        exact h3 hj


theorem retreat_single (tbl : List Node) (fuel : Nat) (s : pathStepState) :
    retreat tbl fuel 0 [s] =
      match s.next tbl fuel with
      | .error e => .error e
      | .ok (true, s1) => .ok (some 0, [s1])
      | .ok (false, s1) => .ok (none, [s1]) := by
  unfold retreat
  rcases hn : s.next tbl fuel with e | ⟨b, s1⟩
  · simp only [retreat, List.getElem?_cons_zero, hn]
  · cases b <;> simp only [retreat, List.getElem?_cons_zero, List.set_cons_zero, hn]

theorem advance_single (tbl : List Node) (fuel n : Nat) (s : pathStepState) :
    advance tbl fuel n 0 [s] = .ok (true, 0, [s]) := by
  cases n with
  | zero => rfl
  | succ n =>
    unfold advance
    simp

/-- With one step, a call of `Next` that returns true has made one or more calls of the
step, each returning true, and stands on the result of the last. -/
theorem nextLoop_single (tbl : List Node) (fuel : Nat) (n : Nat) :
    ∀ (iter iter1 : Iter) (s : pathStepState), iter.state = [s] →
      nextLoop tbl fuel n 0 iter = .ok (true, iter1) →
      ∃ s1, iter1.state = [s1] ∧ Relation.TransGen (NextTo tbl fuel) s s1 := by
  induction n with
  | zero =>
    intro iter iter1 s _ h
    simp [nextLoop] at h
  | succ n ih =>
    intro iter iter1 s hst h
    unfold nextLoop at h
    rw [hst, retreat_single] at h
    cases hnx : s.next tbl fuel with
    | error e =>
      rw [hnx] at h
      simp at h
    | ok r =>
      obtain ⟨b, s1⟩ := r
      cases b with
      | false =>
        rw [hnx] at h
        simp at h
      | true =>
        rw [hnx] at h
        simp only [advance_single, List.getElem?_cons_zero] at h
        have hstep : NextTo tbl fuel s s1 := hnx
        split at h
        · simp at h
        · split at h
          · simp at h
          · obtain ⟨s2, h1, h2⟩ := ih { iter with state := [s1] } iter1 s1 rfl h
            exact ⟨s2, h1, Relation.TransGen.head hstep h2⟩
          · simp only [Except.ok.injEq, Prod.mk.injEq, true_and] at h
            subst h
            exact ⟨s1, rfl, Relation.TransGen.single hstep⟩

theorem Next_single {tbl : List Node} {fuel : Nat} {iter iter1 : Iter} {s : pathStepState}
    (hst : iter.state = [s]) (h : iter.Next tbl fuel = .ok (true, iter1)) :
    ∃ s1, iter1.state = [s1] ∧ Relation.TransGen (NextTo tbl fuel) s s1 := by
  unfold Iter.Next at h
  rw [hst] at h
  exact nextLoop_single tbl fuel fuel iter iter1 s hst h

/-- A chain of calls of a forward step, each returning true. -/
theorem chain_forward {tbl : List Node} (T : TreeOK tbl) {fuel : Nat} {s s1 : pathStepState}
    (h : Relation.TransGen (NextTo tbl fuel) s s1) (ha : s.step.axis ∈ forwardAxes) :
    s1.step = s.step ∧ JFwd tbl s1 ∧ (JFwd tbl s → posLt (s.pos tbl) (s1.pos tbl)) := by
  induction h with
  | single h1 => exact next_forward T ha h1
  | tail _ h2 ih =>
    obtain ⟨i1, i2, i3⟩ := ih
    obtain ⟨j1, j2, j3⟩ := next_forward T (by rw [i1]; exact ha) h2
    exact ⟨by rw [j1, i1], j2, fun hj => posLt_trans (i3 hj) (j3 i2)⟩

theorem Iter.pos_single (tbl : List xmlpath.Node) {iter : Iter} {s : pathStepState}
    (h : iter.state = [s]) : iter.pos tbl = s.pos tbl := by
  unfold Iter.pos pathStepState.pos
  rw [h]
  rfl

/-- With one forward step, the positions of the nodes successive calls of `Next` return
are strictly increasing, and all after that of a cursor already in the resuming form. -/
theorem trace_forward {tbl : List Node} (T : TreeOK tbl) (fuel : Nat) (k : Nat) :
    ∀ (iter : Iter) (s : pathStepState), iter.state = [s] → s.step.axis ∈ forwardAxes →
      ((iter.trace tbl fuel k).map (Iter.pos tbl)).Pairwise posLt ∧
      (JFwd tbl s → ∀ x ∈ (iter.trace tbl fuel k).map (Iter.pos tbl), posLt (s.pos tbl) x) := by
  induction k with
  | zero =>
    intro iter s _ _
    simp [Iter.trace]
  | succ k ih =>
    intro iter s hst ha
    unfold Iter.trace
    split
    · rename_i iter1 hnx
      obtain ⟨s1, h1, h2⟩ := Next_single hst hnx
      obtain ⟨c1, c2, c3⟩ := chain_forward T h2 ha
      obtain ⟨i1, i2⟩ := ih iter1 s1 h1 (by rw [c1]; exact ha)
      have hp := Iter.pos_single tbl h1
      simp only [List.map_cons, List.pairwise_cons, List.mem_cons, forall_eq_or_imp]
      refine ⟨⟨?_, i1⟩, ?_⟩
      · intro x hx
        rw [hp]
        exact i2 c2 x hx
      · intro hj
        refine ⟨?_, ?_⟩
        · rw [hp]
          exact c3 hj
        · intro x hx
          exact posLt_trans (c3 hj) (i2 c2 x hx)
    · simp

theorem pathIter_single {tbl : List Node} {P : Path} {step : pathStep} {node : Nat}
    {iter : Iter} (hs : P.steps = [step]) (hi : P.Iter tbl node = .ok iter) :
    iter.state = [{ step := step, node := some node }] := by
  unfold Path.Iter at hi
  rw [hs] at hi
  split at hi
  · simp at hi
  · simp only [List.map_cons, List.map_nil, Except.ok.injEq] at hi
    rw [← hi]
    rfl

/-- C2 (counterexample): on the tree of the document `<a><x><b/></x><b/></a>`, the path
`//b` iterated from the root returns the second `b` (position 6) before the first
(position 3), and the path `ancestor::*` iterated from the first `b` returns the positions
2, 1, 0: in neither case are the positions strictly increasing. -/
theorem emitted_positions_not_increasing :
    wellNested nestedTokens ∧
      ParseDecoder { tokens := nestedTokens } = .ok nestedTree ∧
      Compile (ascii "//b") = .ok nestedPathB ∧
      nestedPathB.Iter nestedTree.nodes 0 = .ok nestedIterB ∧
      (nestedIterB.trace nestedTree.nodes 16 2).map (Iter.pos nestedTree.nodes) =
        [some 6, some 3] ∧
      ¬ ((nestedIterB.trace nestedTree.nodes 16 2).map (Iter.pos nestedTree.nodes)).Pairwise
          posLt ∧
      Compile (ascii "ancestor::*") = .ok nestedPathAncestor ∧
      nestedPathAncestor.Iter nestedTree.nodes 3 = .ok nestedIterAncestor ∧
      (nestedIterAncestor.trace nestedTree.nodes 16 3).map (Iter.pos nestedTree.nodes) =
        [some 2, some 1, some 0] ∧
      ¬ ((nestedIterAncestor.trace nestedTree.nodes 16 3).map
          (Iter.pos nestedTree.nodes)).Pairwise posLt := by
  have h1 : (nestedIterB.trace nestedTree.nodes 16 2).map (Iter.pos nestedTree.nodes) =
      [some 6, some 3] := by rfl
  have h2 : (nestedIterAncestor.trace nestedTree.nodes 16 3).map (Iter.pos nestedTree.nodes) =
      [some 2, some 1, some 0] := by rfl
  refine ⟨by decide, by rfl, by rfl, by rfl, h1, ?_, by rfl, by rfl, h2, ?_⟩
  · rw [h1]
    intro h
    obtain ⟨x, y, hx, hy, hlt⟩ := (List.pairwise_cons.mp h).1 (some 3) (by simp)
    cases hx
    cases hy
    omega
  · rw [h2]
    intro h
    obtain ⟨x, y, hx, hy, hlt⟩ := (List.pairwise_cons.mp h).1 (some 1) (by simp)
    cases hx
    cases hy
    omega

/-- C2 (amended): in every tree `ParseDecoder` returns for a well-nested token sequence,
from every start node, for every path accepted by `Compile` that has exactly one step
and whose axis is a forward axis (self, child, attribute, descendant, descendant-or-self,
following, following-sibling), the nodes on which successive calls of `Next` return true
have strictly increasing table positions. -/
theorem forward_step_document_order (tokens : List Token) (t : Tree) (path : GoString)
    (P : Path) (step : pathStep) (node : Nat) (iter : Iter) (fuel k : Nat)
    (hw : wellNested tokens) (ht : ParseDecoder { tokens := tokens } = .ok t)
    (_hc : Compile path = .ok P) (hs : P.steps = [step]) (ha : step.axis ∈ forwardAxes)
    (hi : P.Iter t.nodes node = .ok iter) :
    ((iter.trace t.nodes fuel k).map (Iter.pos t.nodes)).Pairwise posLt := by
  obtain ⟨t1, h1, _, h3⟩ := ParseDecoder_treeOK tokens hw
  rw [ht] at h1
  cases h1
  exact (trace_forward h3 fuel k iter _ (pathIter_single hs hi) ha).1

/-- Witness of C2 (amended): the document `<a><x><b/></x><b/></a>`, the path
`descendant::b`, the root, five calls. -/
theorem forward_step_document_order_witness :
    ((nestedIterDescendant.trace nestedTree.nodes 16 5).map
        (Iter.pos nestedTree.nodes)).Pairwise posLt :=
  forward_step_document_order nestedTokens nestedTree (ascii "descendant::b")
    nestedPathDescendant { axis := ascii "descendant", name := ascii "b" } 0
    nestedIterDescendant 16 5 (by decide) (by rfl) (by rfl) (by rfl) (by decide) (by rfl)

/-! ### Runs of a one-step path -/

theorem split_first_good (good : Nat → Bool) (rest : List Nat) :
    (∀ x ∈ rest, good x = false) ∨
      ∃ pre c post, rest = pre ++ c :: post ∧ (∀ x ∈ pre, good x = false) ∧ good c = true := by
  induction rest with
  | nil => exact Or.inl (fun x hx => by cases hx)
  | cons a rest ih =>
    by_cases ha : good a = true
    · exact Or.inr ⟨[], a, rest, rfl, (fun x hx => by cases hx), ha⟩
    · rcases ih with h | ⟨pre, c, post, h1, h2, h3⟩
      · left
        intro x hx
        rcases List.mem_cons.mp hx with hx | hx
        · rw [hx]
          simpa using ha
        · exact h x hx
      · right
        refine ⟨a :: pre, c, post, by rw [h1]; rfl, ?_, h3⟩
        intro x hx
        rcases List.mem_cons.mp hx with hx | hx
        · rw [hx]
          simpa using ha
        · exact h2 x hx

theorem filter_all_bad (good : Nat → Bool) (rest : List Nat) (h : ∀ x ∈ rest, good x = false) :
    rest.filter good = [] := by
  rw [List.filter_eq_nil_iff]
  intro a ha
  rw [h a ha]
  simp

theorem filter_first_good (good : Nat → Bool) (pre post : List Nat) (c : Nat)
    (h : ∀ x ∈ pre, good x = false) (hc : good c = true) :
    (pre ++ c :: post).filter good = c :: post.filter good := by
  rw [List.filter_append, filter_all_bad good pre h, List.filter_cons, hc]
  rfl

/-- A scanning step: a cursor that is about to scan the candidates `rest` (relation `At`)
returns the first good candidate and is then about to scan the candidates after it, and
returns false when no candidate is good. Then the cursor goes through the good
candidates of `rest`, in order. -/
theorem chain_of_scan (tbl : List Node) (fuel : Nat) (good : Nat → Bool)
    (At : pathStepState → List Nat → Prop)
    (hhit : ∀ s pre c post, At s (pre ++ c :: post) → (∀ x ∈ pre, good x = false) →
      good c = true → ∃ s1, s.next tbl fuel = .ok (true, s1) ∧ s1.node = some c ∧ At s1 post)
    (hmiss : ∀ s rest, At s rest → (∀ x ∈ rest, good x = false) →
      ∃ s1, s.next tbl fuel = .ok (false, s1)) (m : Nat) :
    ∀ (rest : List Nat) (s : pathStepState), rest.length ≤ m → At s rest →
      ∃ l, Chain tbl fuel s l ∧ l.map (fun s1 => s1.node) = (rest.filter good).map some := by
  induction m with
  | zero =>
    intro rest s hlen hat
    have : rest = [] := List.length_eq_zero.mp (by omega)
    subst this
    exact ⟨[], hmiss s [] hat (fun x hx => by cases hx), rfl⟩
  | succ m ih =>
    intro rest s hlen hat
    rcases split_first_good good rest with h | ⟨pre, c, post, h1, h2, h3⟩
    · exact ⟨[], hmiss s rest hat h, by rw [filter_all_bad good rest h]; rfl⟩
    · subst h1
      obtain ⟨s1, g1, g2, g3⟩ := hhit s pre c post hat h2 h3
      have hl : post.length ≤ m := by
        simp only [List.length_append, List.length_cons] at hlen
        omega
      obtain ⟨l, i1, i2⟩ := ih post s1 hl g3
      refine ⟨s1 :: l, ⟨g1, i1⟩, ?_⟩
      rw [filter_first_good good pre post c h2 h3]
      simp only [List.map_cons, g2, i2]

/-- The run to exhaustion of an iterator with one step whose cursor goes through the
cursors `l`, standing on pairwise different records that are not marked seen: `Next`
returns true once for each, in order, and then false. -/
theorem run_of_chain (tbl : List Node) (fuel : Nat) :
    ∀ (l : List pathStepState) (L : List Nat) (s : pathStepState) (seen : List Bool) (n : Nat),
      Chain tbl (fuel + 1) s l → l.map (fun s1 => s1.node) = L.map some → L.Nodup →
      (∀ k ∈ L, (∃ nd, tbl[k]? = some nd ∧ nd.pos = k) ∧ seen[k]? = some false) →
      l.length < n →
      ∃ r, Iter.run tbl (fuel + 1) n { state := [s], seen := seen } = .ok r ∧
        r.map (Iter.pos tbl) = L.map some := by
  intro l
  induction l with
  | nil =>
    intro L s seen n hc hL _ _ hn
    obtain ⟨s1, hs1⟩ := hc
    have hLn : L = [] := by
      cases L with
      | nil => rfl
      | cons a L => simp at hL
    subst hLn
    cases n with
    | zero => omega
    | succ n =>
      refine ⟨[], ?_, rfl⟩
      simp only [Iter.run, Iter.Next, List.length_singleton, nextLoop, retreat_single, hs1]
  | cons s1 l ih =>
    intro L s seen n hc hL hnd hok hn
    obtain ⟨hs1, hc1⟩ := hc
    cases L with
    | nil => simp at hL
    | cons k L =>
      simp only [List.map_cons, List.cons.injEq] at hL
      obtain ⟨hk, hL1⟩ := hL
      obtain ⟨⟨nd, hnd1, hnd2⟩, hseen⟩ := hok k (List.mem_cons_self _ _)
      rw [List.nodup_cons] at hnd
      cases n with
      | zero => omega
      | succ n =>
        have hderef : deref tbl s1.node = .ok nd := by
          rw [hk]
          simp only [deref, hnd1]
        obtain ⟨r, hr1, hr2⟩ := ih L s1 (seen.set k true) n hc1 hL1 hnd.2 (by
          intro k1 hk1
          refine ⟨(hok k1 (List.mem_cons_of_mem _ hk1)).1, ?_⟩
          have hne : k ≠ k1 := fun h => hnd.1 (h ▸ hk1)
          rw [List.getElem?_set_ne hne]
          exact (hok k1 (List.mem_cons_of_mem _ hk1)).2) (by
          simp only [List.length_cons] at hn
          omega)
        refine ⟨{ state := [s1], seen := seen.set k true } :: r, ?_, ?_⟩
        · simp only [Iter.run, Iter.Next, List.length_singleton, nextLoop, retreat_single, hs1,
            advance_single, List.getElem?_cons_zero, hderef, hnd2, hseen, hr1]
        · simp only [List.map_cons, hr2, List.cons.injEq, and_true]
          rw [Iter.pos_single tbl rfl, pos_eq_some hk hnd1, hnd2]

/-! ### The child axis -/

theorem next_eq_axis {tbl : List Node} {fuel : Nat} {s : pathStepState} {p : Nat} {cur : Node}
    (hn : s.node = some p) (hcur : tbl[p]? = some cur)
    (hr : ¬ (s.step.root = true ∧ s.idx = 0)) :
    s.next tbl fuel = s.nextAxis tbl fuel p cur := by
  have hs : ({ s with node := some p } : pathStepState) = s := by
    cases s
    simp only at hn
    subst hn
    rfl
  unfold pathStepState.next
  simp only [hn, if_neg hr, deref, hcur, hs]

theorem indexDown_eq {tbl : List Node} {down : List Nat} {j c : Nat} {r : Node}
    (hj : down[j]? = some c) (hc : tbl[c]? = some r) :
    indexDown tbl down (j : Int) = .ok (c, r) := by
  unfold indexDown
  simp only [Int.natCast_nonneg, ↓reduceIte, Int.toNat_ofNat, hj, deref, hc]

theorem matchAt_true {tbl : List Node} {step : pathStep} {c : Nat}
    (h : matchAt tbl step c = true) : ∃ r, tbl[c]? = some r ∧ step.match_ r = true := by
  unfold matchAt at h
  split at h
  · rename_i r hr
    exact ⟨r, hr, h⟩
  · cases h

theorem matchAt_false {tbl : List Node} {step : pathStep} {c : Nat} {r : Node}
    (hr : tbl[c]? = some r) (h : matchAt tbl step c = false) : step.match_ r = false := by
  unfold matchAt at h
  rw [hr] at h
  exact h

/-- The loop of the child axis returns the first entry that passes the test. -/
theorem scanDown_hit {tbl : List Node} {step : pathStep} {down : List Nat} {c : Nat}
    {post : List Nat} (hd : ∀ x ∈ down, ∃ r, tbl[x]? = some r)
    (hc : matchAt tbl step c = true) :
    ∀ (pre : List Nat) (j f : Nat), down.drop j = pre ++ c :: post →
      (∀ x ∈ pre, matchAt tbl step x = false) → pre.length < f →
      scanDown tbl step down f (j : Int) = .ok (some c, (j : Int) + pre.length + 1) := by
  intro pre
  induction pre with
  | nil =>
    intro j f hdrop _ hf
    obtain ⟨h1, _, h3⟩ := drop_eq_cons_iff hdrop
    obtain ⟨r, hr1, hr2⟩ := matchAt_true hc
    cases f with
    | zero => simp at hf
    | succ f =>
      unfold scanDown
      have : (j : Int) < (down.length : Int) := by omega
      simp only [this, ↓reduceIte, indexDown_eq h1 hr1, hr2, List.length_nil]
      simp
  | cons a pre ih =>
    intro j f hdrop hbad hf
    have hdrop1 : down.drop j = a :: (pre ++ c :: post) := hdrop
    obtain ⟨h1, h2, h3⟩ := drop_eq_cons_iff hdrop1
    obtain ⟨r, hr⟩ := hd a (List.getElem?_mem h1)
    have hm := matchAt_false hr (hbad a (List.mem_cons_self _ _))
    cases f with
    | zero => simp at hf
    | succ f =>
      unfold scanDown
      have : (j : Int) < (down.length : Int) := by omega
      simp only [this, ↓reduceIte, indexDown_eq h1 hr, hm, Bool.false_eq_true]
      have e : (j : Int) + 1 = ((j + 1 : Nat) : Int) := by omega
      rw [e, ih (j + 1) f h2 (fun x hx => hbad x (List.mem_cons_of_mem _ hx))
        (by simp only [List.length_cons] at hf; omega)]
      simp only [List.length_cons, Except.ok.injEq, Prod.mk.injEq, true_and]
      omega

/-- The loop of the child axis runs to the end of the entries when none passes the test. -/
theorem scanDown_miss {tbl : List Node} {step : pathStep} {down : List Nat}
    (hd : ∀ x ∈ down, ∃ r, tbl[x]? = some r) :
    ∀ (rest : List Nat) (j f : Nat), down.drop j = rest →
      (∀ x ∈ rest, matchAt tbl step x = false) → rest.length < f →
      scanDown tbl step down f (j : Int) = .ok (none, (j : Int) + rest.length) := by
  intro rest
  induction rest with
  | nil =>
    intro j f hdrop _ hf
    have hlen : down.length ≤ j := List.drop_eq_nil_iff.mp hdrop
    cases f with
    | zero => simp at hf
    | succ f =>
      unfold scanDown
      have : ¬ (j : Int) < (down.length : Int) := by omega
      simp only [this, ↓reduceIte, List.length_nil]
      simp
  | cons a rest ih =>
    intro j f hdrop hbad hf
    obtain ⟨h1, h2, h3⟩ := drop_eq_cons_iff hdrop
    obtain ⟨r, hr⟩ := hd a (List.getElem?_mem h1)
    have hm := matchAt_false hr (hbad a (List.mem_cons_self _ _))
    cases f with
    | zero => simp at hf
    | succ f =>
      unfold scanDown
      have : (j : Int) < (down.length : Int) := by omega
      simp only [this, ↓reduceIte, indexDown_eq h1 hr, hm, Bool.false_eq_true]
      have e : (j : Int) + 1 = ((j + 1 : Nat) : Int) := by omega
      rw [e, ih (j + 1) f h2 (fun x hx => hbad x (List.mem_cons_of_mem _ hx))
        (by simp only [List.length_cons] at hf; omega)]
      simp only [List.length_cons, Except.ok.injEq, Prod.mk.injEq, true_and]
      omega


theorem foundIn_some (s : pathStepState) (aux : Int) (c : Nat) (idx : Int) :
    s.foundIn aux (.ok (some c, idx)) =
      .ok (true, { s with node := some c, idx := idx, aux := aux }) := rfl

theorem foundIn_none (s : pathStepState) (aux : Int) (idx : Int) :
    s.foundIn aux (.ok (none, idx)) =
      .ok (false, { s with node := none, idx := idx, aux := aux }) := rfl

/-- Method `next` on the child axis, for a cursor about to scan entries of `down`. -/
theorem next_child_eq {tbl : List Node} {step : pathStep} {n : Nat} {nd : Node}
    (hn : tbl[n]? = some nd) (hax : step.axis = ascii "child") (hroot : step.root = false)
    {s : pathStepState} {rest : List Nat} (fuel : Nat) (hat : AtChild tbl step n nd.down s rest) :
    ∃ j : Nat, s.idx = (j : Int) ∧ nd.down.drop j = rest ∧
      s.next tbl fuel = s.foundIn s.aux (scanDown tbl step nd.down fuel (j : Int)) := by
  obtain ⟨hs, j, hj, hdrop, hnode⟩ := hat
  refine ⟨j, hj, hdrop, ?_⟩
  have hr : ¬ (s.step.root = true ∧ s.idx = 0) := by
    rw [hs, hroot]
    simp
  rcases hnode with ⟨h0, hnode⟩ | ⟨h0, c, cn, hc1, hc2, hc3⟩
  · rw [next_eq_axis hnode hn hr, nextAxis_child _ _ _ _ _ (by rw [hs]; exact hax)]
    unfold pathStepState.nextChild
    have : s.idx = 0 := by rw [hj, h0]; rfl
    simp only [this, ↓reduceIte, hs]
    rw [h0]
    rfl
  · rw [next_eq_axis hc1 hc2 hr, nextAxis_child _ _ _ _ _ (by rw [hs]; exact hax)]
    unfold pathStepState.nextChild
    have : s.idx ≠ 0 := by rw [hj]; omega
    simp only [this, ↓reduceIte, hc3, deref, hn, hs]
    rw [hj]

/-- The cursors of a child step started on record `n`: one for each entry of the
children of `n` that passes the test, in order. -/
theorem child_chain {tbl : List Node} (T : TreeOK tbl) {n : Nat} {nd : Node}
    (hn : tbl[n]? = some nd) {step : pathStep} (hax : step.axis = ascii "child")
    (hroot : step.root = false) (fuel : Nat) (hf : nd.down.length < fuel) :
    ∃ l, Chain tbl fuel { step := step, node := some n } l ∧
      l.map (fun s1 => s1.node) = (nd.down.filter (matchAt tbl step)).map some := by
  have hd : ∀ x ∈ nd.down, ∃ r, tbl[x]? = some r := by
    intro x hx
    obtain ⟨_, cn, h1, _⟩ := T.downMem hn hx
    exact ⟨cn, h1⟩
  refine chain_of_scan tbl fuel (matchAt tbl step) (AtChild tbl step n nd.down) ?_ ?_
    nd.down.length nd.down _ (Nat.le_refl _) ⟨rfl, 0, rfl, rfl, Or.inl ⟨rfl, rfl⟩⟩
  · intro s pre c post hat hbad hgood
    obtain ⟨j, hj, hdrop, hnext⟩ := next_child_eq hn hax hroot fuel hat
    have hlen : pre.length < fuel := by
      have := congrArg List.length hdrop
      simp only [List.length_drop, List.length_append, List.length_cons] at this
      omega
    rw [scanDown_hit hd hgood pre j fuel hdrop hbad hlen, foundIn_some] at hnext
    refine ⟨_, hnext, rfl, hat.1, j + pre.length + 1, by simp only; omega, ?_, Or.inr ⟨by omega, ?_⟩⟩
    · have : nd.down.drop (j + pre.length + 1) = (nd.down.drop j).drop (pre.length + 1) := by
        rw [List.drop_drop]
        rfl
      rw [this, hdrop, List.drop_append]
      rfl
    · have hmem : c ∈ nd.down := by
        have : c ∈ nd.down.drop j := by rw [hdrop]; simp
        exact List.mem_of_mem_drop this
      obtain ⟨_, cn, h1, h2⟩ := T.downMem hn hmem
      exact ⟨c, cn, rfl, h1, h2⟩
  · intro s rest hat hbad
    obtain ⟨j, hj, hdrop, hnext⟩ := next_child_eq hn hax hroot fuel hat
    have hlen : rest.length < fuel := by
      have := congrArg List.length hdrop
      simp only [List.length_drop] at this
      omega
    rw [scanDown_miss hd rest j fuel hdrop hbad hlen, foundIn_none] at hnext
    exact ⟨_, hnext⟩

/-! ### The link pass leaves the payload of the records alone -/

theorem map_payload_set (nodes : List Node) (p : Nat) (nd nd1 : Node) (h : nodes[p]? = some nd)
    (hk : nd1.payload = nd.payload) :
    (nodes.set p nd1).map Node.payload = nodes.map Node.payload := by
  apply List.ext_getElem?
  intro i
  rw [List.getElem?_map, List.getElem?_map]
  by_cases hip : p = i
  · subst hip
    rw [List.getElem?_set_self (List.getElem?_eq_some.mp h).1, h]
    simp [hk]
  · rw [List.getElem?_set_ne hip]

theorem linkLoop_payload (n : Nat) :
    ∀ (pos : Nat) (nodes : List Node) (stack : List Nat) (t : Tree),
      linkLoop n pos nodes stack = .ok t → t.nodes.map Node.payload = nodes.map Node.payload := by
  induction n with
  | zero =>
    intro pos nodes stack t h
    simp [linkLoop] at h
  | succ n ih =>
    intro pos nodes stack t h
    cases hnd : nodes[pos]? with
    | none => simp [linkLoop, hnd] at h
    | some nd =>
      by_cases hk1 : nd.kind = .startNode
      · obtain ⟨up, _, _, heq⟩ := linkLoop_start n pos nodes stack nd hnd hk1
        rw [heq] at h
        rw [ih _ _ _ _ h]
        exact map_payload_set nodes pos nd _ hnd rfl
      · by_cases hk2 : nd.kind = .endNode
        · cases stack with
          | nil => simp [linkLoop, hnd, hk2] at h
          | cons p rest =>
            cases htop : nodes[p]? with
            | none => simp [linkLoop, hnd, hk2, htop] at h
            | some top =>
              rw [linkLoop_end n pos p nodes rest nd top hnd hk2 htop] at h
              have hset : (((nodes.set p { top with end_ := pos }).set p
                  { top with end_ := pos,
                             down := computeDown (nodes.set p { top with end_ := pos }) p top.pos
                               pos }).map Node.payload) = nodes.map Node.payload := by
                rw [List.set_set]
                exact map_payload_set nodes p top _ htop rfl
              split at h
              · simp only [Except.ok.injEq] at h
                rw [← h]
                exact hset
              · rw [ih _ _ _ _ h]
                exact hset
        · by_cases hk3 : nd.kind = .anyNode
          · simp only [linkLoop, hnd, hk3] at h
            exact ih _ _ _ _ h
          · obtain ⟨up, _, _, heq⟩ := linkLoop_leaf n pos nodes stack nd hnd hk1 hk2 hk3
            rw [heq] at h
            rw [ih _ _ _ _ h]
            exact map_payload_set nodes pos nd _ hnd rfl

/-- The payload of the records of the tree `ParseDecoder` returns is the payload the
token loop wrote. -/
theorem ParseDecoder_payload {ts : List Token} {t : Tree}
    (h : ParseDecoder { tokens := ts } = .ok t) :
    t.nodes.map Node.payload = (buildNodes ts).map Node.payload := by
  unfold ParseDecoder at h
  exact linkLoop_payload _ _ _ _ _ h


theorem appendToken_unnamed (nodes : List Node) (text : GoString) (t : Token)
    (h : ∀ nd ∈ nodes, (nd.kind = .textNode ∨ nd.kind = .commentNode) → nd.name.Local = []) :
    ∀ nd ∈ (appendToken nodes text t).1,
      (nd.kind = .textNode ∨ nd.kind = .commentNode) → nd.name.Local = [] := by
  cases t <;> simp only [appendToken, List.mem_append, List.mem_singleton, List.mem_map] <;>
    intro nd hnd
  · rcases hnd with (hnd | hnd) | ⟨a, _, hnd⟩
    · exact h nd hnd
    · subst hnd; simp
    · subst hnd; simp
  · rcases hnd with hnd | hnd
    · exact h nd hnd
    · subst hnd; simp
  · rcases hnd with hnd | hnd
    · exact h nd hnd
    · subst hnd; simp
  · rcases hnd with hnd | hnd
    · exact h nd hnd
    · subst hnd; simp
  · rcases hnd with hnd | hnd
    · exact h nd hnd
    · subst hnd; simp
  · exact h nd hnd

theorem readTokens_unnamed (ts : List Token) :
    ∀ (nodes : List Node) (text : GoString),
      (∀ nd ∈ nodes, (nd.kind = .textNode ∨ nd.kind = .commentNode) → nd.name.Local = []) →
      ∀ nd ∈ (readTokens ts nodes text).1,
        (nd.kind = .textNode ∨ nd.kind = .commentNode) → nd.name.Local = [] := by
  induction ts with
  | nil => intro nodes text h; simpa [readTokens] using h
  | cons t ts ih =>
    intro nodes text h
    simp only [readTokens]
    exact ih _ _ (appendToken_unnamed nodes text t h)

theorem buildNodes_unnamed (ts : List Token) :
    ∀ nd ∈ buildNodes ts, (nd.kind = .textNode ∨ nd.kind = .commentNode) → nd.name.Local = [] := by
  unfold buildNodes
  intro nd hnd
  rcases List.mem_append.mp hnd with h | h
  · refine readTokens_unnamed ts _ _ ?_ nd h
    intro x hx
    simp only [List.mem_singleton] at hx
    subst hx
    simp
  · simp only [List.mem_singleton] at h
    subst h
    simp

/-- Text and comment records of a tree have no name. -/
theorem ParseDecoder_unnamed {ts : List Token} {t : Tree}
    (h : ParseDecoder { tokens := ts } = .ok t) {i : Nat} {nd : Node}
    (hi : t.nodes[i]? = some nd) (hk : nd.kind = .textNode ∨ nd.kind = .commentNode) :
    nd.name.Local = [] := by
  have hp := congrArg (fun l => l[i]?) (ParseDecoder_payload h)
  simp only [List.getElem?_map, hi, Option.map_some'] at hp
  cases hb : (buildNodes ts)[i]? with
  | none => rw [hb] at hp; simp at hp
  | some b =>
    rw [hb] at hp
    simp only [Option.map_some', Option.some.injEq, Node.payload, Prod.mk.injEq] at hp
    have := buildNodes_unnamed ts b (List.getElem?_mem hb) (by rw [← hp.1]; exact hk)
    rw [hp.2.1, this]

/-! ### From the cursors of a step to the run of the iterator -/

theorem nodup_bounded_length {L : List Nat} {N : Nat} (h : L.Nodup) (hb : ∀ k ∈ L, k < N) :
    L.length ≤ N := by
  have h1 : L.toFinset ⊆ Finset.range N := by
    intro k hk
    rw [List.mem_toFinset] at hk
    exact Finset.mem_range.mpr (hb k hk)
  have h2 := Finset.card_le_card h1
  rw [List.toFinset_card_of_nodup h, Finset.card_range] at h2
  exact h2

theorem pathIter_eq {tbl : List Node} (T : TreeOK tbl) {P : Path} {step : pathStep}
    (hs : P.steps = [step]) {n : Nat} {nd : Node} (hn : tbl[n]? = some nd)
    (hk : nd.kind ≠ .endNode) :
    P.Iter tbl n =
      .ok { state := [{ step := step, node := some n }],
            seen := List.replicate tbl.length false } := by
  unfold Path.Iter
  have hl := (T.linked n nd hn hk).1
  simp only [deref, hn, hs, List.map_cons, List.map_nil, lenNodes, hl, ↓reduceIte]
  rfl

/-- The run to exhaustion of a one-step path whose cursor goes through cursors standing
on the records `L`. -/
theorem run_one_step {tbl : List Node} (T : TreeOK tbl) {P : Path} {step : pathStep}
    (hs : P.steps = [step]) {n : Nat} {nd : Node} (hn : tbl[n]? = some nd)
    (hk : nd.kind ≠ .endNode) {fuel : Nat} (hf : tbl.length < fuel)
    {l : List pathStepState} {L : List Nat}
    (hc : Chain tbl fuel { step := step, node := some n } l)
    (hl : l.map (fun s1 => s1.node) = L.map some) (hL : L.Nodup)
    (hgood : ∀ k ∈ L, ∃ r, tbl[k]? = some r ∧ r.kind ≠ .endNode) :
    ∃ iter r, P.Iter tbl n = .ok iter ∧ iter.run tbl fuel fuel = .ok r ∧
      r.map (Iter.pos tbl) = L.map some := by
  obtain ⟨f, rfl⟩ : ∃ f, fuel = f + 1 := ⟨fuel - 1, by omega⟩
  have hlen : l.length < f + 1 := by
    have h1 : l.length = L.length := by
      have := congrArg List.length hl
      simpa using this
    have h2 := nodup_bounded_length hL (N := tbl.length) (by
      intro k hk1
      obtain ⟨r, hr, _⟩ := hgood k hk1
      exact (List.getElem?_eq_some.mp hr).1)
    omega
  obtain ⟨r, hr1, hr2⟩ := run_of_chain tbl f l L _ (List.replicate tbl.length false) (f + 1)
    hc hl hL (by
      intro k hk1
      obtain ⟨r, hr, hrk⟩ := hgood k hk1
      refine ⟨⟨r, hr, (T.linked k r hr hrk).2⟩, ?_⟩
      have hlt := (List.getElem?_eq_some.mp hr).1
      rw [List.getElem?_eq_getElem (by simpa using hlt)]
      simp) hlen
  exact ⟨_, r, pathIter_eq T hs hn hk, hr1, hr2⟩

/-! ### A bare name -/

theorem nameLen_all {N : GoString} (hne : N ≠ []) (hN : ∀ b ∈ N, nameLike b = true) :
    nameLen N = N.length := by
  cases N with
  | nil => exact absurd rfl hne
  | cons b bs =>
    unfold nameLen
    have hb : b ≠ 42 := by
      intro h
      have := hN b (List.mem_cons_self _ _)
      rw [h] at this
      revert this
      decide
    simp only [hb, ↓reduceIte]
    rw [List.takeWhile_eq_self_iff.mpr hN]

theorem head_nameLike {N : GoString} (hN : ∀ b ∈ N, nameLike b = true) (x : Nat)
    (hx : nameLike x = false) : N.head? ≠ some x := by
  intro h
  cases N with
  | nil => cases h
  | cons b bs =>
    simp only [List.head?_cons, Option.some.injEq] at h
    have := hN b (List.mem_cons_self _ _)
    rw [h, hx] at this
    cases this

theorem slice_all {α : Type} (l : List α) : slice l 0 (0 + l.length) = l := by
  rw [slice_eq_take_drop]
  simp

/-- The one round of `compile` on a path that is a bare name. -/
theorem compileStep_name {N : GoString} (hne : N ≠ []) (hN : ∀ b ∈ N, nameLike b = true)
    (h1 : N ≠ ascii ".") (h2 : N ≠ ascii "..") :
    compileStep { steps := [], path := N, i := 0 } =
      .ok { steps := [{ axis := ascii "child", name := N }], path := N, i := N.length } := by
  have hstar : N ≠ ascii "*" := by
    intro h
    have := hN 42 (by rw [h]; decide)
    revert this
    decide
  have e47 : ¬ (N.head? = some 47) := head_nameLike hN 47 (by decide)
  have e64 : ¬ (N.head? = some 64) := head_nameLike hN 64 (by decide)
  have hlen : 0 < N.length := List.length_pos.mpr hne
  have hend : (List.drop N.length N).head? = none := by simp
  unfold compileStep compileTest
  simp only [skipByte_eq, peekByte_eq, skipName_eq, List.drop_zero, e47, e64, ↓reduceIte,
    decide_False, decide_True, Bool.false_eq_true, nameLen_all hne hN, gt_iff_lt, hlen,
    Nat.zero_add, not_true_eq_false, not_false_eq_true]
  have hs : slice N 0 N.length = N := by simpa using slice_all N
  simp only [hs, hne, hstar, h1, h2, ↓reduceIte]
  unfold compileAxis
  simp only [skipByte_eq, hend, ↓reduceIte, Bool.false_eq_true, hstar, false_and, reduceCtorEq]
  unfold compileFinish
  simp



theorem TreeOK.down_length {tbl : List Node} (T : TreeOK tbl) {n : Nat} {nd : Node}
    (hn : tbl[n]? = some nd) : nd.down.length ≤ tbl.length := by
  apply nodup_bounded_length
  · exact (T.downSorted hn).imp (fun h => Nat.ne_of_lt h)
  · intro k hk
    obtain ⟨_, cn, h1, _⟩ := T.downMem hn hk
    exact (List.getElem?_eq_some.mp h1).1

theorem TreeOK.downKind {tbl : List Node} (T : TreeOK tbl) {u c : Nat} {un : Node}
    (hu : tbl[u]? = some un) (hc : c ∈ un.down) :
    ∃ cn, tbl[c]? = some cn ∧ isDownKind cn.kind = true := by
  by_cases hk : un.kind = .startNode
  · rw [(T.downEq u un hu hk).2.2] at hc
    obtain ⟨_, _, cn, h1, _, h3⟩ := mem_computeDown hc
    exact ⟨cn, h1, h3⟩
  · rw [T.downNil u un hu hk] at hc
    cases hc

theorem Compile_name {N : GoString} (hne : N ≠ []) (hN : ∀ b ∈ N, nameLike b = true)
    (h1 : N ≠ ascii ".") (h2 : N ≠ ascii "..") :
    Compile N = .ok { path := N, steps := [nameStep N] } := by
  obtain ⟨m, hm⟩ : ∃ m, N.length = m + 1 :=
    ⟨N.length - 1, by have := List.length_pos.mpr hne; omega⟩
  rw [Compile_eq, hm, compileLoop_succ _ _ (by simp only; omega),
    compileStep_name hne hN h1 h2]
  simp only
  rw [compileLoop_done _ _ (by simp)]
  rfl

theorem matchAt_name {tbl : List Node} {N : GoString} (hN : ∀ b ∈ N, nameLike b = true)
    {c : Nat} {cn : Node} (hc : tbl[c]? = some cn) (hk : cn.kind ≠ .endNode) :
    matchAt tbl (nameStep N) c = nameAt tbl N c := by
  have hstar : N ≠ ascii "*" := by
    intro h
    have := hN 42 (by rw [h]; decide)
    revert this
    decide
  unfold matchAt nameAt
  simp only [hc, pathStep.match_, nameStep, hk, hstar, ne_eq, not_false_eq_true, decide_True,
    decide_False, Bool.true_or, Bool.and_self, Bool.false_or, Bool.true_and]


/-- C11 (counterexample): the bare name `a` compiles to one child step whose kind test is
`anyNode`, not `startNode`; on the tree of the document `<?a x?><a/>`, evaluated from the
root, it returns the processing instruction with target `a` (position 1) and then the
element `a` (position 2). -/
theorem bare_name_returns_procinst :
    Compile (ascii "a") =
        .ok { path := ascii "a",
              steps := [{ axis := ascii "child", name := ascii "a", kind := .anyNode }] } ∧
      Compile (ascii "a") ≠
        .ok { path := ascii "a",
              steps := [{ axis := ascii "child", name := ascii "a", kind := .startNode }] } ∧
      wellNested targetTokens ∧
      ParseDecoder { tokens := targetTokens } = .ok targetTree ∧
      (∃ iter, Path.Iter targetTree.nodes
            { path := ascii "a",
              steps := [{ axis := ascii "child", name := ascii "a", kind := .anyNode }] } 0 =
          .ok iter ∧
        (iter.run targetTree.nodes 8 8).map (fun r => r.map (Iter.pos targetTree.nodes)) =
          .ok [some 1, some 2]) ∧
      (targetTree.nodes[1]?).map (fun nd => nd.kind) = some .procInstNode := by
  refine ⟨by rfl, ?_, by decide, by rfl, ⟨_, rfl, by rfl⟩, by rfl⟩
  have h : Compile (ascii "a") =
      .ok { path := ascii "a",
            steps := [{ axis := ascii "child", name := ascii "a", kind := .anyNode }] } := by rfl
  rw [h]
  intro h3
  simp at h3

/-- C11 (amended): for every non-empty name `N` made of bytes `skipName` accepts, other
than `.` and `..`, `Compile(N)` succeeds with exactly one step whose axis is child, whose
name test is `N` and whose kind test is `anyNode`; so, in every tree of a well-nested
token sequence, evaluating `N` from a node returns exactly the entries of the node's
children whose local name is `N`, in order, each an element or a processing instruction
(with target `N`). -/
theorem bare_name_step (N : GoString) (hne : N ≠ []) (hN : ∀ b ∈ N, nameLike b = true)
    (h1 : N ≠ ascii ".") (h2 : N ≠ ascii "..") :
    Compile N =
        .ok { path := N, steps := [{ axis := ascii "child", name := N, kind := .anyNode }] } ∧
      ∀ (tokens : List Token) (t : Tree) (n : Nat) (nd : Node) (fuel : Nat),
        wellNested tokens → ParseDecoder { tokens := tokens } = .ok t →
        t.nodes[n]? = some nd → nd.kind ≠ .endNode → t.nodes.length < fuel →
        ∃ iter r,
          Path.Iter t.nodes
              { path := N, steps := [{ axis := ascii "child", name := N, kind := .anyNode }] } n =
            .ok iter ∧
          iter.run t.nodes fuel fuel = .ok r ∧
          r.map (Iter.pos t.nodes) = (nd.down.filter (nameAt t.nodes N)).map some ∧
          ∀ c ∈ nd.down.filter (nameAt t.nodes N), ∃ cn, t.nodes[c]? = some cn ∧
            cn.name.Local = N ∧ (cn.kind = .startNode ∨ cn.kind = .procInstNode) := by
  refine ⟨Compile_name hne hN h1 h2, ?_⟩
  intro tokens t n nd fuel hw ht hn hk hf
  obtain ⟨t1, ht1, _, T⟩ := ParseDecoder_treeOK tokens hw
  rw [ht] at ht1
  cases ht1
  have hfil : nd.down.filter (matchAt t.nodes (nameStep N)) = nd.down.filter (nameAt t.nodes N) := by
    apply List.filter_congr
    intro c hc
    obtain ⟨cn, hc1, hc2⟩ := T.downKind hn hc
    exact matchAt_name hN hc1 (by intro h; rw [h] at hc2; cases hc2)
  obtain ⟨l, hl1, hl2⟩ := child_chain T hn (show (nameStep N).axis = ascii "child" from rfl) rfl fuel
    (by have := T.down_length hn; omega)
  rw [hfil] at hl2
  have hmem : ∀ c ∈ nd.down.filter (nameAt t.nodes N), ∃ cn, t.nodes[c]? = some cn ∧
      cn.name.Local = N ∧ (cn.kind = .startNode ∨ cn.kind = .procInstNode) := by
    intro c hc
    rw [List.mem_filter] at hc
    obtain ⟨cn, hc1, hc2⟩ := T.downKind hn hc.1
    have hname : cn.name.Local = N := by
      have := hc.2
      unfold nameAt at this
      rw [hc1] at this
      simpa using this
    refine ⟨cn, hc1, hname, ?_⟩
    have hnot : ¬ (cn.kind = .textNode ∨ cn.kind = .commentNode) := by
      intro hkk
      have := ParseDecoder_unnamed ht hc1 hkk
      rw [hname] at this
      exact hne this
    rw [not_or] at hnot
    cases hkind : cn.kind <;> rw [hkind] at hc2 hnot <;> simp_all [isDownKind]
  obtain ⟨iter, r, hr1, hr2, hr3⟩ := run_one_step T (P := { path := N, steps := [nameStep N] })
    rfl hn hk hf hl1 hl2
    (((T.downSorted hn).imp (fun h => Nat.ne_of_lt h)).sublist (List.filter_sublist _))
    (by
      intro k hk1
      obtain ⟨cn, hc1, _, hc3⟩ := hmem k hk1
      refine ⟨cn, hc1, ?_⟩
      rcases hc3 with h | h <;> rw [h] <;> decide)
  exact ⟨iter, r, hr1, hr2, hr3, hmem⟩

/-- Witness of C11 (amended): the name `a`. -/
theorem bare_name_step_witness :
    Compile (ascii "a") =
        .ok { path := ascii "a",
              steps := [{ axis := ascii "child", name := ascii "a", kind := .anyNode }] } ∧
      ∀ (tokens : List Token) (t : Tree) (n : Nat) (nd : Node) (fuel : Nat),
        wellNested tokens → ParseDecoder { tokens := tokens } = .ok t →
        t.nodes[n]? = some nd → nd.kind ≠ .endNode → t.nodes.length < fuel →
        ∃ iter r,
          Path.Iter t.nodes
              { path := ascii "a",
                steps := [{ axis := ascii "child", name := ascii "a", kind := .anyNode }] } n =
            .ok iter ∧
          iter.run t.nodes fuel fuel = .ok r ∧
          r.map (Iter.pos t.nodes) = (nd.down.filter (nameAt t.nodes (ascii "a"))).map some ∧
          ∀ c ∈ nd.down.filter (nameAt t.nodes (ascii "a")), ∃ cn, t.nodes[c]? = some cn ∧
            cn.name.Local = ascii "a" ∧ (cn.kind = .startNode ∨ cn.kind = .procInstNode) :=
  bare_name_step (ascii "a") (by decide) (by decide) (by decide) (by decide)

/-! ### Nesting of the records under the link pass -/

theorem stack_below_top {p : Nat} {rest : List Nat}
    (h : (p :: rest).Pairwise (fun a b => b < a)) : ∀ s ∈ rest, s < p :=
  (List.pairwise_cons.mp h).1

theorem stack_le_top {p : Nat} {rest : List Nat}
    (h : (p :: rest).Pairwise (fun a b => b < a)) : ∀ s ∈ p :: rest, s ≤ p := by
  intro s hs
  rcases List.mem_cons.mp hs with h1 | h1
  · omega
  · exact Nat.le_of_lt (stack_below_top h s h1)

theorem nestInv_start {K : List nodeKind} {pos : Nat} {nodes : List Node} {stack : List Nat}
    (hinv : LinkInv K pos nodes stack) (hn : NestInv pos nodes stack) {nd : Node}
    (_hnd : nodes[pos]? = some nd) (up : Option Nat)
    (hup : ∀ u, up = some u → ∃ r, stack = u :: r) (hup2 : 0 < pos → ∃ u, up = some u)
    (hup0 : pos = 0 → up = none) :
    NestInv (pos + 1) (nodes.set pos { nd with nodes := true, pos := pos, up := up })
      (pos :: stack) := by
  refine ⟨?_, ?_, ?_, ?_, ?_, ?_, ?_⟩
  · intro x hx
    rcases getElem?_set_cases hx with ⟨h0, h1, _⟩ | ⟨_, h2⟩
    · subst h1
      exact hup0 h0.symm
    · exact hn.rootUp x h2
  · intro i x hi0 hi hx hxk
    rcases getElem?_set_cases hx with ⟨h0, h1, _⟩ | ⟨h0, h2⟩
    · subst h1
      exact hup2 (by omega)
    · exact hn.hasUp i x hi0 (by omega) h2 hxk
  · intro i x u un hi hx hxu hun
    rcases getElem?_set_cases hx with ⟨h0, h1, _⟩ | ⟨h0, h2⟩
    · subst h1
      obtain ⟨r, hr⟩ := hup u hxu
      exact Or.inl (by rw [hr]; simp)
    · have hu := (hinv.upOK i x u (by omega) h2 hxu).1
      rcases getElem?_set_cases hun with ⟨g0, _, _⟩ | ⟨_, g2⟩
      · omega
      · rcases hn.upIn i x u un (by omega) h2 hxu g2 with h | h
        · exact Or.inl (List.mem_cons_of_mem _ h)
        · exact Or.inr h
  · intro s hs i x u hsi hi hx hxu
    rcases List.mem_cons.mp hs with h | h
    · omega
    · rcases getElem?_set_cases hx with ⟨h0, h1, _⟩ | ⟨h0, h2⟩
      · subst h1
        obtain ⟨r, hr⟩ := hup u hxu
        have hsort := hinv.stackSorted
        rw [hr] at hsort h
        exact stack_le_top hsort s h
      · exact hn.above s h i x u hsi (by omega) h2 hxu
  · intro c cn i x u hc hcn hck hcs hci hie hx hxu
    rw [List.mem_cons, not_or] at hcs
    rcases getElem?_set_cases hcn with ⟨g0, _, _⟩ | ⟨_, g2⟩
    · exact absurd g0 hcs.1
    · have hcl := hinv.closed c cn (by omega) g2 hck hcs.2
      rcases getElem?_set_cases hx with ⟨h0, _, _⟩ | ⟨_, h2⟩
      · omega
      · exact hn.lam c cn i x u (by omega) g2 hck hcs.2 hci hie h2 hxu
  · intro c cn u un hc hcn hck hcs hcu hue hun hunk
    rw [List.mem_cons, not_or] at hcs
    rcases getElem?_set_cases hcn with ⟨g0, _, _⟩ | ⟨_, g2⟩
    · exact absurd g0 hcs.1
    · have hcl := hinv.closed c cn (by omega) g2 hck hcs.2
      rcases getElem?_set_cases hun with ⟨h0, _, _⟩ | ⟨_, h2⟩
      · omega
      · exact hn.nest c cn u un (by omega) g2 hck hcs.2 hcu hue h2 hunk
  · intro c cn hc hcn hck hcs s hs hcs2
    rw [List.mem_cons, not_or] at hcs
    rcases getElem?_set_cases hcn with ⟨g0, _, _⟩ | ⟨_, g2⟩
    · exact absurd g0 hcs.1
    · have hcl := hinv.closed c cn (by omega) g2 hck hcs.2
      rcases List.mem_cons.mp hs with h | h
      · omega
      · exact hn.sep c cn (by omega) g2 hck hcs.2 s h hcs2

theorem nestInv_leaf {K : List nodeKind} {pos : Nat} {nodes : List Node} {stack : List Nat}
    (hinv : LinkInv K pos nodes stack) (hn : NestInv pos nodes stack) {nd : Node}
    (_hnd : nodes[pos]? = some nd) (hk : nd.kind ≠ .startNode) (up : Option Nat)
    (hup : ∀ u, up = some u → ∃ r, stack = u :: r) (hup2 : 0 < pos → ∃ u, up = some u)
    (hup0 : pos = 0 → up = none) :
    NestInv (pos + 1)
      (nodes.set pos { nd with nodes := true, pos := pos, up := up, end_ := pos + 1 }) stack := by
  refine ⟨?_, ?_, ?_, ?_, ?_, ?_, ?_⟩
  · intro x hx
    rcases getElem?_set_cases hx with ⟨h0, h1, _⟩ | ⟨_, h2⟩
    · subst h1
      exact hup0 h0.symm
    · exact hn.rootUp x h2
  · intro i x hi0 hi hx hxk
    rcases getElem?_set_cases hx with ⟨h0, h1, _⟩ | ⟨h0, h2⟩
    · subst h1
      exact hup2 (by omega)
    · exact hn.hasUp i x hi0 (by omega) h2 hxk
  · intro i x u un hi hx hxu hun
    rcases getElem?_set_cases hx with ⟨h0, h1, _⟩ | ⟨h0, h2⟩
    · subst h1
      obtain ⟨r, hr⟩ := hup u hxu
      exact Or.inl (by rw [hr]; simp)
    · have hu := (hinv.upOK i x u (by omega) h2 hxu).1
      rcases getElem?_set_cases hun with ⟨g0, _, _⟩ | ⟨_, g2⟩
      · omega
      · exact hn.upIn i x u un (by omega) h2 hxu g2
  · intro s hs i x u hsi hi hx hxu
    rcases getElem?_set_cases hx with ⟨h0, h1, _⟩ | ⟨h0, h2⟩
    · subst h1
      obtain ⟨r, hr⟩ := hup u hxu
      have hsort := hinv.stackSorted
      rw [hr] at hsort hs
      exact stack_le_top hsort s hs
    · exact hn.above s hs i x u hsi (by omega) h2 hxu
  · intro c cn i x u hc hcn hck hcs hci hie hx hxu
    rcases getElem?_set_cases hcn with ⟨_, g1, _⟩ | ⟨g0, g2⟩
    · subst g1
      exact absurd hck hk
    · have hcl := hinv.closed c cn (by omega) g2 hck hcs
      rcases getElem?_set_cases hx with ⟨h0, _, _⟩ | ⟨_, h2⟩
      · omega
      · exact hn.lam c cn i x u (by omega) g2 hck hcs hci hie h2 hxu
  · intro c cn u un hc hcn hck hcs hcu hue hun hunk
    rcases getElem?_set_cases hcn with ⟨_, g1, _⟩ | ⟨g0, g2⟩
    · subst g1
      exact absurd hck hk
    · have hcl := hinv.closed c cn (by omega) g2 hck hcs
      rcases getElem?_set_cases hun with ⟨h0, _, _⟩ | ⟨_, h2⟩
      · omega
      · exact hn.nest c cn u un (by omega) g2 hck hcs hcu hue h2 hunk
  · intro c cn hc hcn hck hcs s hs hcs2
    rcases getElem?_set_cases hcn with ⟨_, g1, _⟩ | ⟨g0, g2⟩
    · subst g1
      exact absurd hck hk
    · exact hn.sep c cn (by omega) g2 hck hcs s hs hcs2


theorem nestInv_end {K : List nodeKind} {pos p : Nat} {nodes : List Node} {rest : List Nat}
    (hinv : LinkInv K pos nodes (p :: rest)) (hn : NestInv pos nodes (p :: rest)) {nd top : Node}
    (hnd : nodes[pos]? = some nd) (hk : nd.kind = .endNode) (htop : nodes[p]? = some top)
    (down : List Nat) :
    NestInv (pos + 1) (nodes.set p { top with end_ := pos, down := down }) rest := by
  have hp := hinv.stackOK p (List.mem_cons_self _ _)
  have hbelow := stack_below_top hinv.stackSorted
  have hfresh := hinv.fresh pos nd (Nat.le_refl _) hnd
  have hpne : pos ≠ p := by omega
  refine ⟨?_, ?_, ?_, ?_, ?_, ?_, ?_⟩
  · intro x hx
    rcases getElem?_set_cases hx with ⟨h0, h1, _⟩ | ⟨_, h2⟩
    · subst h1
      subst h0
      exact hn.rootUp top htop
    · exact hn.rootUp x h2
  · intro i x hi0 hi hx hxk
    rcases getElem?_set_cases hx with ⟨h0, h1, _⟩ | ⟨h0, h2⟩
    · subst h1
      subst h0
      exact hn.hasUp i top hi0 hp.1 htop hxk
    · by_cases hip : i = pos
      · subst hip
        rw [hnd] at h2
        cases h2
        exact absurd hk hxk
      · exact hn.hasUp i x hi0 (by omega) h2 hxk
  · intro i x u un hi hx hxu hun
    have hold : ∃ x0, nodes[i]? = some x0 ∧ x0.up = some u := by
      rcases getElem?_set_cases hx with ⟨h0, h1, _⟩ | ⟨h0, h2⟩
      · subst h1
        subst h0
        exact ⟨top, htop, hxu⟩
      · exact ⟨x, h2, hxu⟩
    obtain ⟨x0, hx0, hx0u⟩ := hold
    have hipos : i < pos := by
      by_cases hip : i = pos
      · subst hip
        rw [hnd] at hx0
        cases hx0
        rw [hfresh.2.2.2.1] at hx0u
        cases hx0u
      · omega
    rcases getElem?_set_cases hun with ⟨g0, g1, _⟩ | ⟨g0, g2⟩
    · subst g1
      exact Or.inr hipos
    · rcases hn.upIn i x0 u un hipos hx0 hx0u g2 with h | h
      · rcases List.mem_cons.mp h with h1 | h1
        · exact absurd h1 g0
        · exact Or.inl h1
      · exact Or.inr h
  · intro s hs i x u hsi hi hx hxu
    have hold : ∃ x0, nodes[i]? = some x0 ∧ x0.up = some u := by
      rcases getElem?_set_cases hx with ⟨h0, h1, _⟩ | ⟨h0, h2⟩
      · subst h1
        subst h0
        exact ⟨top, htop, hxu⟩
      · exact ⟨x, h2, hxu⟩
    obtain ⟨x0, hx0, hx0u⟩ := hold
    have hipos : i < pos := by
      by_cases hip : i = pos
      · subst hip
        rw [hnd] at hx0
        cases hx0
        rw [hfresh.2.2.2.1] at hx0u
        cases hx0u
      · omega
    exact hn.above s (List.mem_cons_of_mem _ hs) i x0 u hsi hipos hx0 hx0u
  · intro c cn i x u hc hcn hck hcs hci hie hx hxu
    have hold : ∃ x0, nodes[i]? = some x0 ∧ x0.up = some u := by
      rcases getElem?_set_cases hx with ⟨h0, h1, _⟩ | ⟨h0, h2⟩
      · subst h1
        subst h0
        exact ⟨top, htop, hxu⟩
      · exact ⟨x, h2, hxu⟩
    obtain ⟨x0, hx0, hx0u⟩ := hold
    rcases getElem?_set_cases hcn with ⟨g0, g1, _⟩ | ⟨g0, g2⟩
    · subst g1
      subst g0
      exact hn.above c (List.mem_cons_self _ _) i x0 u hci hie hx0 hx0u
    · have hcpos : c < pos := by
        by_cases hcp : c = pos
        · subst hcp
          rw [hnd] at g2
          cases g2
          rw [hk] at hck
          cases hck
        · omega
      have hcs2 : c ∉ p :: rest := by
        rw [List.mem_cons, not_or]
        exact ⟨g0, hcs⟩
      exact hn.lam c cn i x0 u hcpos g2 hck hcs2 hci hie hx0 hx0u
  · intro c cn u un hc hcn hck hcs hcu hue hun hunk
    rcases getElem?_set_cases hcn with ⟨g0, g1, _⟩ | ⟨g0, g2⟩
    · subst g1
      subst g0
      simp only at hue ⊢
      rcases getElem?_set_cases hun with ⟨h0, _, _⟩ | ⟨h0, h2⟩
      · omega
      · have hus : u ∉ c :: rest := by
          rw [List.mem_cons, not_or]
          refine ⟨h0, ?_⟩
          intro hmem
          have := hbelow u hmem
          omega
        exact (hinv.closed u un hue h2 hunk hus).2.1
    · have hcpos : c < pos := by
        by_cases hcp : c = pos
        · subst hcp
          rw [hnd] at g2
          cases g2
          rw [hk] at hck
          cases hck
        · omega
      have hcs2 : c ∉ p :: rest := by
        rw [List.mem_cons, not_or]
        exact ⟨g0, hcs⟩
      rcases getElem?_set_cases hun with ⟨h0, _, _⟩ | ⟨h0, h2⟩
      · subst h0
        have := hn.sep c cn hcpos g2 hck hcs2 u (List.mem_cons_self _ _) hcu
        omega
      · exact hn.nest c cn u un hcpos g2 hck hcs2 hcu hue h2 hunk
  · intro c cn hc hcn hck hcs s hs hcs2
    rcases getElem?_set_cases hcn with ⟨g0, g1, _⟩ | ⟨g0, g2⟩
    · subst g0
      have := hbelow s hs
      omega
    · have hcpos : c < pos := by
        by_cases hcp : c = pos
        · subst hcp
          rw [hnd] at g2
          cases g2
          rw [hk] at hck
          cases hck
        · omega
      have hcs3 : c ∉ p :: rest := by
        rw [List.mem_cons, not_or]
        exact ⟨g0, hcs⟩
      exact hn.sep c cn hcpos g2 hck hcs3 s (List.mem_cons_of_mem _ hs) hcs2


/-- The nesting invariant holds for the table the link pass returns. -/
theorem linkLoop_nest (K : List nodeKind) (n : Nat) :
    ∀ (pos : Nat) (nodes : List Node) (stack : List Nat) (t : Tree),
      LinkInv K pos nodes stack → NestInv pos nodes stack → 0 < pos → stack ≠ [] →
      linkLoop n pos nodes stack = .ok t →
      ∃ pos1, LinkInv K pos1 t.nodes [] ∧ NestInv pos1 t.nodes [] := by
  induction n with
  | zero =>
    intro pos nodes stack t _ _ _ _ h
    simp [linkLoop] at h
  | succ n ih =>
    intro pos nodes stack t hinv hn hpos hne h
    cases hnd : nodes[pos]? with
    | none => simp [linkLoop, hnd] at h
    | some nd =>
      have hKpos : K[pos]? = some nd.kind := kind_of_getElem? hinv.kinds hnd
      cases stack with
      | nil => exact absurd rfl hne
      | cons q r =>
        by_cases hk1 : nd.kind = .startNode
        · obtain ⟨up, _, hu2, heq⟩ := linkLoop_start n pos nodes (q :: r) nd hnd hk1
          have hupq : up = some q := hu2 q r rfl
          have hup : ∀ u, up = some u → ∃ r1, q :: r = u :: r1 := by
            intro u hu
            rw [hupq] at hu
            cases hu
            exact ⟨r, rfl⟩
          rw [heq] at h
          exact ih _ _ _ t (linkInv_start hinv hnd hk1 up hup)
            (nestInv_start hinv hn hnd up hup (fun _ => ⟨q, hupq⟩) (fun h0 => by omega))
            (by omega) (by simp) h
        · by_cases hk2 : nd.kind = .endNode
          · have hq := hinv.stackOK q (List.mem_cons_self _ _)
            have hqlt : q < nodes.length := by
              have := (List.getElem?_eq_some.mp hq.2).1
              rw [← hinv.kinds, List.length_map] at this
              exact this
            have htop : nodes[q]? = some nodes[q] := List.getElem?_eq_getElem hqlt
            generalize nodes[q] = top at htop
            rw [linkLoop_end n pos q nodes r nd top hnd hk2 htop] at h
            have hinv2 := linkInv_end hinv hnd hk2 htop
            have hn2 := nestInv_end hinv hn hnd hk2 htop
              (computeDown (nodes.set q { top with end_ := pos }) q top.pos pos)
            rw [← List.set_set] at hn2
            cases r with
            | nil =>
              simp only [List.isEmpty_nil, ↓reduceIte, Except.ok.injEq] at h
              subst h
              exact ⟨pos + 1, hinv2, hn2⟩
            | cons q2 r2 =>
              simp only [List.isEmpty_cons, Bool.false_eq_true, ↓reduceIte] at h
              exact ih _ _ _ t hinv2 hn2 (by omega) (by simp) h
          · have hk3 : nd.kind ≠ .anyNode := by
              intro h3
              apply hinv.noAny
              rw [← h3]
              exact List.getElem?_mem hKpos
            obtain ⟨up, _, hu2, heq⟩ := linkLoop_leaf n pos nodes (q :: r) nd hnd hk1 hk2 hk3
            have hupq : up = some q := hu2 q r rfl
            have hup : ∀ u, up = some u → ∃ r1, q :: r = u :: r1 := by
              intro u hu
              rw [hupq] at hu
              cases hu
              exact ⟨r, rfl⟩
            rw [heq] at h
            exact ih _ _ _ t (linkInv_leaf hinv hnd hk1 hk2 up hup)
              (nestInv_leaf hinv hn hnd hk1 up hup (fun _ => ⟨q, hupq⟩) (fun h0 => by omega))
              (by omega) (by simp) h


theorem nestInv_init (ts : List Token) : NestInv 0 (buildNodes ts) [] := by
  refine ⟨?_, ?_, ?_, ?_, ?_, ?_, ?_⟩
  · intro nd h
    exact (buildNodes_fresh ts nd (List.getElem?_mem h)).2.2.2.1
  · intro i nd _ hi; omega
  · intro i nd u un hi; omega
  · intro s hs; cases hs
  · intro c cn i nd u hc; omega
  · intro c cn u un hc; omega
  · intro c cn hc; omega

theorem treeNest_of {K : List nodeKind} {pos1 : Nat} {tbl : List Node}
    (hinv : LinkInv K pos1 tbl []) (hn : NestInv pos1 tbl []) (T : TreeOK tbl) :
    TreeNest tbl := by
  have hlt : ∀ (i : Nat) (nd : Node), tbl[i]? = some nd → nd.nodes = true → i < pos1 := by
    intro i nd hi hnodes
    by_contra hcon
    have := (hinv.fresh i nd (by omega) hi).1
    rw [this] at hnodes
    cases hnodes
  have hlt2 : ∀ (i : Nat) (nd : Node), tbl[i]? = some nd → nd.kind ≠ .endNode → i < pos1 :=
    fun i nd hi hk => hlt i nd hi (T.linked i nd hi hk).1
  have hlt3 : ∀ (i : Nat) (nd : Node) (u : Nat), tbl[i]? = some nd → nd.up = some u →
      i < pos1 := by
    intro i nd u hi hu
    by_contra hcon
    have := (hinv.fresh i nd (by omega) hi).2.2.2.1
    rw [this] at hu
    cases hu
  have hstart : ∀ (c : Nat) (cn : Node), tbl[c]? = some cn → cn.kind = .startNode →
      c < pos1 := fun c cn hc hk => hlt2 c cn hc (by rw [hk]; decide)
  refine ⟨hn.rootUp, ?_, ?_, ?_, ?_, ?_⟩
  · intro i nd hi0 hi hk
    exact hn.hasUp i nd hi0 (hlt2 i nd hi hk) hi hk
  · intro i nd u un hi hu hun
    rcases hn.upIn i nd u un (hlt3 i nd u hi hu) hi hu hun with h | h
    · cases h
    · exact h
  · intro c cn i nd u hc hck hci hie hi hu
    exact hn.lam c cn i nd u (hstart c cn hc hck) hc hck (by simp) hci hie hi hu
  · intro c cn u un hc hck hcu hue hun hunk
    exact hn.nest c cn u un (hstart c cn hc hck) hc hck (by simp) hcu hue hun hunk
  · intro c cn hc hck
    obtain ⟨_, _, h3, _⟩ := hinv.closed c cn (hstart c cn hc hck) hc hck (by simp)
    rw [← hinv.kinds, List.getElem?_map] at h3
    cases he : tbl[cn.end_]? with
    | none => rw [he] at h3; simp at h3
    | some e =>
      rw [he] at h3
      simp only [Option.map_some', Option.some.injEq] at h3
      exact ⟨e, rfl, h3⟩

/-- The invariants of the link pass hold for every table `ParseDecoder` returns, up to the
position where the pass returned. -/
theorem ParseDecoder_link {ts : List Token} {t : Tree}
    (ht : ParseDecoder { tokens := ts } = .ok t) :
    ∃ pos1, LinkInv (.startNode :: (recordKinds ts ++ [.endNode])) pos1 t.nodes [] ∧
      NestInv pos1 t.nodes [] := by
  have hinv0 := linkInv_init ts
  have hlen : (buildNodes ts).length = (recordKinds ts).length + 2 := by
    have := congrArg List.length (buildNodes_kinds ts)
    simp only [List.length_map, List.length_cons, List.length_append, List.length_nil] at this
    omega
  have h0 : (buildNodes ts)[0]? = some (buildNodes ts)[0] :=
    List.getElem?_eq_getElem (by omega)
  generalize (buildNodes ts)[0] = nd0 at h0
  have hk0 : nd0.kind = .startNode := by
    have := kind_of_getElem? (buildNodes_kinds ts) h0
    simp only [List.getElem?_cons_zero, Option.some.injEq] at this
    exact this.symm
  obtain ⟨up, hup0, _, heq⟩ :=
    linkLoop_start ((recordKinds ts).length + 1) 0 (buildNodes ts) [] nd0 h0 hk0
  have hupn : up = none := by
    rw [hup0 rfl]
    exact (hinv0.fresh 0 nd0 (Nat.le_refl _) h0).2.2.2.1
  have hup : ∀ u, up = some u → ∃ r, ([] : List Nat) = u :: r := by
    intro u hu
    rw [hupn] at hu
    cases hu
  have hinv1 := linkInv_start hinv0 h0 hk0 up hup
  have hn1 := nestInv_start hinv0 (nestInv_init ts) h0 up hup (fun h1 => by omega)
    (fun _ => hupn)
  have hPD : ParseDecoder { tokens := ts } =
      linkLoop ((recordKinds ts).length + 1) (0 + 1)
        ((buildNodes ts).set 0 { nd0 with nodes := true, pos := 0, up := up }) [0] := by
    unfold ParseDecoder
    simp only
    rw [hlen, ← heq]
  rw [hPD] at ht
  exact linkLoop_nest _ _ _ _ _ t hinv1 hn1 (by omega) (by simp) ht

/-- The tree of a well-nested, error-free token sequence: every record is linked and the
containers are properly nested. -/
theorem ParseDecoder_nest (ts : List Token) (h : wellNested ts) :
    ∃ t, ParseDecoder { tokens := ts } = .ok t ∧ t.root = 0 ∧ TreeOK t.nodes ∧
      TreeNest t.nodes := by
  obtain ⟨t, ht, hroot, T⟩ := ParseDecoder_treeOK ts h
  obtain ⟨pos1, g1, g2⟩ := ParseDecoder_link ht
  exact ⟨t, ht, hroot, T, treeNest_of g1 g2 T⟩

/-! ### Ancestors and subtree intervals -/

theorem upChain_succ {tbl : List Node} {f x u : Nat} {nd : Node} (hx : tbl[x]? = some nd)
    (hu : nd.up = some u) : upChain tbl (f + 1) x = u :: upChain tbl f u := by
  simp only [upChain, hx, hu]

theorem upChain_none {tbl : List Node} {f x : Nat} {nd : Node} (hx : tbl[x]? = some nd)
    (hu : nd.up = none) : upChain tbl f x = [] := by
  cases f with
  | zero => rfl
  | succ f => simp only [upChain, hx, hu]

/-- In a tree of a well-nested token sequence, the proper ancestors of a record are the
containers whose interval holds it. -/
theorem mem_upChain_iff {tbl : List Node} (T : TreeOK tbl) (N : TreeNest tbl) {c : Nat}
    {cn : Node} (hc : tbl[c]? = some cn) (hck : cn.kind = .startNode) :
    ∀ (x f : Nat) (xn : Node), x ≤ f → tbl[x]? = some xn → xn.kind ≠ .endNode →
      (c ∈ upChain tbl f x ↔ c < x ∧ x < cn.end_) := by
  intro x
  induction x using Nat.strong_induction_on with
  | _ x ih =>
    intro f xn hf hx hxk
    by_cases hx0 : x = 0
    · subst hx0
      rw [upChain_none hx (N.rootUp xn hx)]
      simp
    · obtain ⟨u, hu⟩ := N.hasUp x xn (by omega) hx hxk
      obtain ⟨hux, un, hun, hunk⟩ := T.upStart x xn u hx hu
      obtain ⟨g, rfl⟩ : ∃ g, f = g + 1 := ⟨f - 1, by omega⟩
      rw [upChain_succ hx hu, List.mem_cons,
        ih u hux g un (by omega) hun (by rw [hunk]; decide)]
      have hin := N.upIn x xn u un hx hu hun
      constructor
      · rintro (h | ⟨h1, h2⟩)
        · subst h
          rw [hc] at hun
          cases hun
          exact ⟨hux, hin⟩
        · have := N.nest c cn u un hc hck h1 h2 hun hunk
          exact ⟨by omega, by omega⟩
      · rintro ⟨h1, h2⟩
        have := N.lam c cn x xn u hc hck h1 h2 hx hu
        by_cases hcu : c = u
        · exact Or.inl hcu
        · exact Or.inr ⟨by omega, by omega⟩

theorem mem_ancestors_iff {tbl : List Node} (T : TreeOK tbl) (N : TreeNest tbl) {c x : Nat}
    {cn xn : Node} (hc : tbl[c]? = some cn) (hck : cn.kind = .startNode)
    (hx : tbl[x]? = some xn) (hxk : xn.kind ≠ .endNode) :
    c ∈ ancestors tbl x ↔ c < x ∧ x < cn.end_ :=
  mem_upChain_iff T N hc hck x x xn (Nat.le_refl _) hx hxk

/-- An ancestor is a container. -/
theorem upChain_start {tbl : List Node} (T : TreeOK tbl) :
    ∀ (f x c : Nat), c ∈ upChain tbl f x → ∃ cn, tbl[c]? = some cn ∧ cn.kind = .startNode := by
  intro f
  induction f with
  | zero => intro x c h; cases h
  | succ f ih =>
    intro x c h
    unfold upChain at h
    split at h
    · rename_i nd hnd
      split at h
      · rename_i u hu
        rcases List.mem_cons.mp h with h1 | h1
        · subst h1
          exact (T.upStart x nd c hnd hu).2
        · exact ih u c h1
      · cases h
    · cases h


/-! ### String values -/

theorem flatText_nil (tbl : List Node) : flatText tbl [] = [] := rfl

theorem flatText_cons (tbl : List Node) (i : Nat) (l : List Nat) :
    flatText tbl (i :: l) = textOf tbl i ++ flatText tbl l := rfl

theorem flatText_append (tbl : List Node) (l1 l2 : List Nat) :
    flatText tbl (l1 ++ l2) = flatText tbl l1 ++ flatText tbl l2 := by
  unfold flatText
  rw [List.map_append, List.flatten_append]

theorem flatText_empty (tbl : List Node) (l : List Nat) (h : ∀ i ∈ l, textOf tbl i = []) :
    flatText tbl l = [] := by
  induction l with
  | nil => rfl
  | cons a l ih =>
    rw [flatText_cons, h a (List.mem_cons_self _ _), ih (fun i hi => h i (List.mem_cons_of_mem _ hi))]
    rfl

/-- The loop of `string` appends the texts of the records it visits. -/
theorem stringLoop_eq {tbl : List Node} {cur : Node} (hcur : cur.nodes = true) :
    ∀ (l : List Nat) (acc : GoString), (∀ i ∈ l, i < tbl.length) →
      stringLoop tbl cur l acc = .ok (acc ++ flatText tbl l) := by
  intro l
  induction l with
  | nil =>
    intro acc _
    simp [stringLoop, flatText_nil]
  | cons i l ih =>
    intro acc hl
    have hi := hl i (List.mem_cons_self _ _)
    have hget : tbl[i]? = some tbl[i] := List.getElem?_eq_getElem hi
    generalize tbl[i] = r at hget
    have hix : indexNodes tbl cur (i : Int) = .ok (i, r) := by
      unfold indexNodes
      simp only [hcur, Int.natCast_nonneg, and_self, ↓reduceIte, Int.toNat_ofNat, hget]
    unfold stringLoop
    simp only [hix]
    rw [flatText_cons]
    unfold textOf
    simp only [hget]
    split
    · rw [ih _ (fun j hj => hl j (List.mem_cons_of_mem _ hj)), List.append_assoc]
    · rw [ih _ (fun j hj => hl j (List.mem_cons_of_mem _ hj))]
      simp

/-- The string value depends only on the node the iterator stands on. -/
theorem string_eq_nodeIter {tbl : List Node} {iter : Iter} {s : pathStepState} {p : Nat}
    (hs : iter.state.getLast? = some s) (hp : s.node = some p) :
    iter.string tbl = (nodeIter p).string tbl := by
  unfold Iter.string
  rw [hs]
  simp only [nodeIter, List.getLast?_singleton, hp]

/-- The string value of a record that is not an attribute, in a linked table: the texts
of the records of its interval. -/
theorem string_interval {tbl : List Node} (T : TreeOK tbl) {p : Nat} {nd : Node}
    (hp : tbl[p]? = some nd) (hk : nd.kind ≠ .endNode) (hka : nd.kind ≠ .attrNode)
    (he : nd.end_ ≤ tbl.length) :
    (nodeIter p).string tbl = .ok (flatText tbl (List.range' p (nd.end_ - p))) := by
  obtain ⟨h1, h2⟩ := T.linked p nd hp hk
  unfold Iter.string
  simp only [nodeIter, List.getLast?_singleton, deref, hp, hka, ↓reduceIte, h2]
  rw [stringLoop_eq h1]
  · simp
  · intro i hi
    rw [List.mem_range'_1] at hi
    omega

theorem TreeOK.end_le {tbl : List Node} (T : TreeOK tbl) {p : Nat} {nd : Node}
    (hp : tbl[p]? = some nd) (hk : nd.kind ≠ .endNode) : p < nd.end_ ∧ nd.end_ ≤ tbl.length := by
  by_cases hs : nd.kind = .startNode
  · obtain ⟨h1, h2, _⟩ := T.downEq p nd hp hs
    omega
  · have := T.leafEnd p nd hp hs hk
    have := (List.getElem?_eq_some.mp hp).1
    omega


/-! ### The children of a container -/

theorem mem_computeDown_iff {tbl : List Node} {p pos e c : Nat} :
    c ∈ computeDown tbl p pos e ↔
      pos < c ∧ c < e ∧ ∃ cn, tbl[c]? = some cn ∧ cn.up = some p ∧ isDownKind cn.kind = true := by
  constructor
  · exact mem_computeDown
  · rintro ⟨h1, h2, cn, h3, h4, h5⟩
    unfold computeDown
    rw [List.mem_filter, List.mem_range'_1]
    refine ⟨by omega, ?_⟩
    simp only [h3, h4, decide_True, h5, Bool.and_self]

/-- The children of a container are the records whose parent it is and whose kind is
start, text, comment or processing instruction. -/
theorem mem_down_iff {tbl : List Node} (T : TreeOK tbl) (N : TreeNest tbl) {c d : Nat}
    {cn : Node} (hc : tbl[c]? = some cn) (hck : cn.kind = .startNode) :
    d ∈ cn.down ↔ ∃ dn, tbl[d]? = some dn ∧ dn.up = some c ∧ isDownKind dn.kind = true := by
  rw [(T.downEq c cn hc hck).2.2, mem_computeDown_iff]
  constructor
  · rintro ⟨_, _, h⟩
    exact h
  · rintro ⟨dn, h1, h2, h3⟩
    exact ⟨(T.upStart d dn c h1 h2).1, N.upIn d dn c cn h1 h2 hc, dn, h1, h2, h3⟩

theorem endAt_eq {tbl : List Node} {i : Nat} {r : Node} (h : tbl[i]? = some r) :
    endAt tbl i = r.end_ := by
  unfold endAt
  rw [h]

/-- Every record inside the interval of a container lies in the interval of one of the
records whose parent the container is. -/
theorem child_cover {tbl : List Node} (T : TreeOK tbl) (N : TreeNest tbl) {c : Nat} {cn : Node}
    (hc : tbl[c]? = some cn) (hck : cn.kind = .startNode) :
    ∀ (i : Nat) (r : Node), c < i → i < cn.end_ → tbl[i]? = some r → r.kind ≠ .endNode →
      ∃ d dn, tbl[d]? = some dn ∧ dn.up = some c ∧ d ≤ i ∧ i < dn.end_ ∧
        (d = i ∨ dn.kind = .startNode) := by
  intro i
  induction i using Nat.strong_induction_on with
  | _ i ih =>
    intro r hci hie hi hk
    obtain ⟨u, hu⟩ := N.hasUp i r (by omega) hi hk
    obtain ⟨hui, un, hun, hunk⟩ := T.upStart i r u hi hu
    have hcu := N.lam c cn i r u hc hck hci hie hi hu
    by_cases hcu2 : c = u
    · subst hcu2
      exact ⟨i, r, hi, hu, Nat.le_refl _, (T.end_le hi hk).1, Or.inl rfl⟩
    · obtain ⟨d, dn, h1, h2, h3, h4, h5⟩ := ih u hui un (by omega) (by omega) hun
        (by rw [hunk]; decide)
      have hin := N.upIn i r u un hi hu hun
      refine ⟨d, dn, h1, h2, by omega, ?_, ?_⟩
      · rcases h5 with h5 | h5
        · subst h5
          rw [hun] at h1
          cases h1
          exact hin
        · by_cases hdu : d = u
          · subst hdu
            rw [hun] at h1
            cases h1
            exact hin
          · have := N.nest d dn u un h1 h5 (by omega) h4 hun hunk
            omega
      · rcases h5 with h5 | h5
        · subst h5
          rw [hun] at h1
          cases h1
          exact Or.inr hunk
        · exact Or.inr h5

theorem range'_split (lo mid hi : Nat) (h1 : lo ≤ mid) (h2 : mid ≤ hi) :
    List.range' lo (mid - lo) ++ List.range' mid (hi - mid) = List.range' lo (hi - lo) := by
  have := List.range'_append_1 lo (mid - lo) (hi - mid)
  have e : lo + (mid - lo) = mid := by omega
  rw [e] at this
  rw [this]
  congr 1
  omega

/-- The texts of an interval that is covered by intervals lying in it one after the
other: the texts of these intervals, one after the other. -/
theorem flatText_cover (tbl : List Node) (E : Nat → Nat) :
    ∀ (ds : List Nat) (lo hi : Nat), lo ≤ hi →
      (∀ d ∈ ds, lo ≤ d ∧ d ≤ E d ∧ E d ≤ hi) →
      ds.Pairwise (fun d d1 => E d ≤ d1) →
      (∀ i, lo ≤ i → i < hi → textOf tbl i ≠ [] → ∃ d ∈ ds, d ≤ i ∧ i < E d) →
      flatText tbl (List.range' lo (hi - lo)) =
        (ds.map (fun d => flatText tbl (List.range' d (E d - d)))).flatten := by
  intro ds
  induction ds with
  | nil =>
    intro lo hi _ _ _ hcov
    simp only [List.map_nil, List.flatten_nil]
    apply flatText_empty
    intro i hi1
    rw [List.mem_range'_1] at hi1
    by_contra hcon
    obtain ⟨d, hd, _⟩ := hcov i (by omega) (by omega) hcon
    cases hd
  | cons d ds ih =>
    intro lo hi hlh hin hpw hcov
    obtain ⟨h1, h2, h3⟩ := hin d (List.mem_cons_self _ _)
    rw [List.pairwise_cons] at hpw
    have hsplit : List.range' lo (hi - lo) =
        List.range' lo (d - lo) ++ (List.range' d (E d - d) ++ List.range' (E d) (hi - E d)) := by
      rw [range'_split d (E d) hi h2 h3, range'_split lo d hi h1 (by omega)]
    rw [hsplit, flatText_append, flatText_append]
    have hfirst : flatText tbl (List.range' lo (d - lo)) = [] := by
      apply flatText_empty
      intro i hi1
      rw [List.mem_range'_1] at hi1
      by_contra hcon
      obtain ⟨d1, hd1, g1, g2⟩ := hcov i (by omega) (by omega) hcon
      rcases List.mem_cons.mp hd1 with h | h
      · omega
      · have := hpw.1 d1 h
        omega
    rw [hfirst, List.nil_append, List.map_cons, List.flatten_cons]
    congr 1
    apply ih (E d) hi h3
    · intro d1 hd1
      obtain ⟨g1, g2, g3⟩ := hin d1 (List.mem_cons_of_mem _ hd1)
      exact ⟨hpw.1 d1 hd1, g2, g3⟩
    · exact hpw.2
    · intro i hi1 hi2 hne
      obtain ⟨d1, hd1, g1, g2⟩ := hcov i (by omega) hi2 hne
      rcases List.mem_cons.mp hd1 with h | h
      · subst h
        omega
      · exact ⟨d1, h, g1, g2⟩


theorem textOf_ne_nil {tbl : List Node} {i : Nat} (h : textOf tbl i ≠ []) :
    ∃ r, tbl[i]? = some r ∧
      (r.kind = .textNode ∨ r.kind = .commentNode ∨ r.kind = .procInstNode) := by
  unfold textOf at h
  split at h
  · rename_i r hr
    split at h
    · rename_i hk
      exact ⟨r, hr, hk⟩
    · exact absurd rfl h
  · exact absurd rfl h

/-- The texts of the interval of a container: the texts of the intervals of its children,
one after the other. -/
theorem flatText_container {tbl : List Node} (T : TreeOK tbl) (N : TreeNest tbl) {c : Nat}
    {cn : Node} (hc : tbl[c]? = some cn) (hck : cn.kind = .startNode) :
    flatText tbl (List.range' c (cn.end_ - c)) =
      (cn.down.map (fun d => flatText tbl (List.range' d (endAt tbl d - d)))).flatten := by
  obtain ⟨hce, _, hdown⟩ := T.downEq c cn hc hck
  have hr : List.range' c (cn.end_ - c) = c :: List.range' (c + 1) (cn.end_ - (c + 1)) := by
    have : cn.end_ - c = (cn.end_ - (c + 1)) + 1 := by omega
    rw [this, List.range'_succ]
  have ht : textOf tbl c = [] := by
    unfold textOf
    simp [hc, hck]
  rw [hr, flatText_cons, ht, List.nil_append]
  have hmem : ∀ d ∈ cn.down, ∃ dn, tbl[d]? = some dn ∧ dn.up = some c ∧
      isDownKind dn.kind = true ∧ c < d ∧ d < dn.end_ ∧ dn.end_ ≤ cn.end_ := by
    intro d hd
    obtain ⟨dn, h1, h2, h3⟩ := (mem_down_iff T N hc hck).mp hd
    have hne : dn.kind ≠ .endNode := by
      intro h
      rw [h] at h3
      cases h3
    have h4 := (T.upStart d dn c h1 h2).1
    have h5 := N.upIn d dn c cn h1 h2 hc
    refine ⟨dn, h1, h2, h3, h4, (T.end_le h1 hne).1, ?_⟩
    by_cases hs : dn.kind = .startNode
    · have := N.nest c cn d dn hc hck h4 h5 h1 hs
      omega
    · have := T.leafEnd d dn h1 hs hne
      omega
  apply flatText_cover tbl (endAt tbl) cn.down (c + 1) cn.end_ (by omega)
  · intro d hd
    obtain ⟨dn, h1, _, _, h4, h5, h6⟩ := hmem d hd
    rw [endAt_eq h1]
    omega
  · refine (T.downSorted hc).imp_of_mem ?_
    intro d d1 hd hd1 hlt
    obtain ⟨dn, h1, _, h3, _, _, _⟩ := hmem d hd
    obtain ⟨dn1, g1, g2, _, g4, _, _⟩ := hmem d1 hd1
    rw [endAt_eq h1]
    by_cases hs : dn.kind = .startNode
    · by_contra hcon
      have := N.lam d dn d1 dn1 c h1 hs hlt (by omega) g1 g2
      have := (hmem d hd)
      omega
    · have hne : dn.kind ≠ .endNode := by
        intro h
        rw [h] at h3
        cases h3
      have := T.leafEnd d dn h1 hs hne
      omega
  · intro i hi1 hi2 hne
    obtain ⟨r, hr1, hr2⟩ := textOf_ne_nil hne
    have hrk : r.kind ≠ .endNode := by
      rcases hr2 with h | h | h <;> rw [h] <;> decide
    obtain ⟨d, dn, h1, h2, h3, h4, h5⟩ := child_cover T N hc hck i r (by omega) hi2 hr1 hrk
    refine ⟨d, ?_, h3, by rw [endAt_eq h1]; exact h4⟩
    rw [mem_down_iff T N hc hck]
    refine ⟨dn, h1, h2, ?_⟩
    rcases h5 with h5 | h5
    · subst h5
      rw [hr1] at h1
      cases h1
      rcases hr2 with h | h | h <;> rw [h] <;> rfl
    · rw [h5]
      rfl

/-- C12: in every tree `ParseDecoder` returns for a well-nested token sequence, the string
value of an attribute record is its attribute value, the string value of a text, comment
or processing-instruction record is its own text, and the string value of a container is
the concatenation of the string values of the entries of its children, in order; the
string value an iterator returns is that of the record it stands on. -/
theorem string_value_flattens (tokens : List Token) (t : Tree) (p : Nat) (nd : Node)
    (hw : wellNested tokens) (ht : ParseDecoder { tokens := tokens } = .ok t)
    (hp : t.nodes[p]? = some nd) :
    (∀ (iter : Iter) (s : pathStepState), iter.state.getLast? = some s → s.node = some p →
        iter.string t.nodes = (nodeIter p).string t.nodes) ∧
      (nd.kind = .attrNode → (nodeIter p).string t.nodes = .ok nd.attr) ∧
      (nd.kind = .textNode ∨ nd.kind = .commentNode ∨ nd.kind = .procInstNode →
        (nodeIter p).string t.nodes = .ok nd.text) ∧
      (nd.kind = .startNode →
        ∃ vs : List GoString,
          List.Forall₂ (fun d v => (nodeIter d).string t.nodes = .ok v) nd.down vs ∧
          (nodeIter p).string t.nodes = .ok vs.flatten) := by
  obtain ⟨t1, ht1, _, T, N⟩ := ParseDecoder_nest tokens hw
  rw [ht] at ht1
  cases ht1
  refine ⟨fun iter s hs hn => string_eq_nodeIter hs hn, ?_, ?_, ?_⟩
  · intro hk
    unfold Iter.string
    simp only [nodeIter, List.getLast?_singleton, deref, hp, hk, ↓reduceIte]
  · intro hk
    have hne : nd.kind ≠ .endNode := by
      rcases hk with h | h | h <;> rw [h] <;> decide
    have hna : nd.kind ≠ .attrNode := by
      rcases hk with h | h | h <;> rw [h] <;> decide
    have hns : nd.kind ≠ .startNode := by
      rcases hk with h | h | h <;> rw [h] <;> decide
    rw [string_interval T hp hne hna (T.end_le hp hne).2, T.leafEnd p nd hp hns hne]
    have : p + 1 - p = 1 := by omega
    rw [this]
    simp only [List.range', flatText_cons, flatText_nil, List.append_nil, textOf, hp, hk,
      ↓reduceIte]
  · intro hk
    have hne : nd.kind ≠ .endNode := by rw [hk]; decide
    have hna : nd.kind ≠ .attrNode := by rw [hk]; decide
    refine ⟨nd.down.map (fun d => flatText t.nodes (List.range' d (endAt t.nodes d - d))), ?_, ?_⟩
    · rw [List.forall₂_map_right_iff, List.forall₂_same]
      intro d hd
      obtain ⟨dn, h1, _, h3⟩ := (mem_down_iff T N hp hk).mp hd
      have hdne : dn.kind ≠ .endNode := by
        intro h
        rw [h] at h3
        cases h3
      have hdna : dn.kind ≠ .attrNode := by
        intro h
        rw [h] at h3
        cases h3
      rw [string_interval T h1 hdne hdna (T.end_le h1 hdne).2, endAt_eq h1]
    · rw [string_interval T hp hne hna (T.end_le hp hne).2, flatText_container T N hp hk]

/-- Witness of C12: record 1 (element `a`) of the scenario document, whose children are
the records 2 and 6. -/
theorem string_value_flattens_witness :
    ∃ vs : List GoString,
      List.Forall₂ (fun d v => (nodeIter d).string scenarioTree.nodes = .ok v) [2, 6] vs ∧
      (nodeIter 1).string scenarioTree.nodes = .ok vs.flatten :=
  (string_value_flattens scenarioTokens scenarioTree 1
    { kind := .startNode, name := { Local := ascii "a" }, nodes := true, pos := 1, end_ := 10,
      up := some 0, down := [2, 6] }
    (by decide) (by rfl) (by rfl)).2.2.2 rfl

/-! ### The table scan of the descendant axes -/

theorem range'_eq_append_cons : ∀ (pre : List Nat) (j m c : Nat) (post : List Nat),
    List.range' j m = pre ++ c :: post →
      c = j + pre.length ∧ post = List.range' (c + 1) (j + m - (c + 1)) ∧ c < j + m := by
  intro pre
  induction pre with
  | nil =>
    intro j m c post h
    cases m with
    | zero => simp at h
    | succ m =>
      rw [List.range'_succ] at h
      simp only [List.nil_append, List.cons.injEq] at h
      obtain ⟨h1, h2⟩ := h
      subst h1
      refine ⟨rfl, ?_, by omega⟩
      rw [← h2]
      congr 1
      omega
  | cons a pre ih =>
    intro j m c post h
    cases m with
    | zero => simp at h
    | succ m =>
      rw [List.range'_succ] at h
      simp only [List.cons_append, List.cons.injEq] at h
      obtain ⟨_, h2⟩ := h
      obtain ⟨g1, g2, g3⟩ := ih (j + 1) m c post h2
      refine ⟨by simp only [List.length_cons]; omega, ?_, by omega⟩
      rw [g2]
      congr 1
      omega

theorem indexNodes_eq {tbl : List Node} {cur : Node} (hcur : cur.nodes = true) {j : Nat}
    {r : Node} (hj : tbl[j]? = some r) : indexNodes tbl cur (j : Int) = .ok (j, r) := by
  unfold indexNodes
  simp only [hcur, Int.natCast_nonneg, and_self, ↓reduceIte, Int.toNat_ofNat, hj]

theorem scanGood_true {tbl : List Node} {step : pathStep} {c : Nat}
    (h : scanGood tbl step c = true) :
    ∃ r, tbl[c]? = some r ∧ r.kind ≠ .attrNode ∧ step.match_ r = true := by
  unfold scanGood at h
  split at h
  · rename_i r hr
    simp only [Bool.and_eq_true, decide_eq_true_eq] at h
    exact ⟨r, hr, h.1, h.2⟩
  · cases h

theorem scanGood_false {tbl : List Node} {step : pathStep} {c : Nat} {r : Node}
    (hr : tbl[c]? = some r) (h : scanGood tbl step c = false) :
    r.kind = .attrNode ∨ step.match_ r = false := by
  unfold scanGood at h
  rw [hr] at h
  simp only [Bool.and_eq_false_imp, decide_eq_true_eq] at h
  by_cases hk : r.kind = .attrNode
  · exact Or.inl hk
  · exact Or.inr (h hk)

/-- The table scan returns the first record that is not an attribute and passes the
test. -/
theorem scanTable_hit {tbl : List Node} {step : pathStep} {cur : Node} (hcur : cur.nodes = true)
    {bound : Nat} (hb : bound ≤ tbl.length) {c : Nat} {post : List Nat}
    (hc : scanGood tbl step c = true) :
    ∀ (pre : List Nat) (j f : Nat), List.range' j (bound - j) = pre ++ c :: post →
      (∀ x ∈ pre, scanGood tbl step x = false) → pre.length < f →
      scanTable tbl step cur (bound : Int) f (j : Int) = .ok (some c, (c : Int) + 1) := by
  intro pre
  induction pre with
  | nil =>
    intro j f hr _ hf
    obtain ⟨h1, _, h3⟩ := range'_eq_append_cons [] j _ c post hr
    simp only [List.length_nil, Nat.add_zero] at h1
    subst h1
    obtain ⟨r, hr1, hr2, hr3⟩ := scanGood_true hc
    cases f with
    | zero => simp at hf
    | succ f =>
      unfold scanTable
      have : (c : Int) < (bound : Int) := by omega
      simp only [this, ↓reduceIte, indexNodes_eq hcur hr1, hr2, hr3]
  | cons a pre ih =>
    intro j f hr hbad hf
    have hr0 : List.range' j (bound - j) = [] ++ a :: (pre ++ c :: post) := hr
    obtain ⟨h1, h2, h3⟩ := range'_eq_append_cons [] j _ a _ hr0
    simp only [List.length_nil, Nat.add_zero] at h1
    subst h1
    have halt : a < tbl.length := by omega
    have hget : tbl[a]? = some tbl[a] := List.getElem?_eq_getElem halt
    generalize tbl[a] = r at hget
    have hbad1 := scanGood_false hget (hbad a (List.mem_cons_self _ _))
    have hrest : List.range' (a + 1) (bound - (a + 1)) = pre ++ c :: post := by
      rw [h2]
      congr 1
      omega
    cases f with
    | zero => simp at hf
    | succ f =>
      have hrec := ih (a + 1) f hrest (fun x hx => hbad x (List.mem_cons_of_mem _ hx))
        (by simp only [List.length_cons] at hf; omega)
      have e : ((a + 1 : Nat) : Int) = (a : Int) + 1 := by omega
      rw [e] at hrec
      unfold scanTable
      have : (a : Int) < (bound : Int) := by omega
      simp only [this, ↓reduceIte, indexNodes_eq hcur hget]
      rcases hbad1 with hk | hm
      · simp only [hk, ↓reduceIte, hrec]
      · by_cases hk : r.kind = .attrNode
        · simp only [hk, ↓reduceIte, hrec]
        · simp only [hk, ↓reduceIte, hm, Bool.false_eq_true, hrec]

/-- The table scan runs to the bound when no record is returned. -/
theorem scanTable_miss {tbl : List Node} {step : pathStep} {cur : Node} (hcur : cur.nodes = true)
    {bound : Nat} (hb : bound ≤ tbl.length) :
    ∀ (rest : List Nat) (j f : Nat), List.range' j (bound - j) = rest →
      (∀ x ∈ rest, scanGood tbl step x = false) → rest.length < f →
      ∃ idx, scanTable tbl step cur (bound : Int) f (j : Int) = .ok (none, idx) := by
  intro rest
  induction rest with
  | nil =>
    intro j f hr _ hf
    have hm : bound - j = 0 := by
      have := congrArg List.length hr
      simpa using this
    cases f with
    | zero => simp at hf
    | succ f =>
      unfold scanTable
      have : ¬ (j : Int) < (bound : Int) := by omega
      simp only [this, ↓reduceIte]
      exact ⟨_, rfl⟩
  | cons a rest ih =>
    intro j f hr hbad hf
    have hr0 : List.range' j (bound - j) = [] ++ a :: rest := hr
    obtain ⟨h1, h2, h3⟩ := range'_eq_append_cons [] j _ a _ hr0
    simp only [List.length_nil, Nat.add_zero] at h1
    subst h1
    have halt : a < tbl.length := by omega
    have hget : tbl[a]? = some tbl[a] := List.getElem?_eq_getElem halt
    generalize tbl[a] = r at hget
    have hbad1 := scanGood_false hget (hbad a (List.mem_cons_self _ _))
    have hrest : List.range' (a + 1) (bound - (a + 1)) = rest := by
      rw [h2]
      congr 1
      omega
    cases f with
    | zero => simp at hf
    | succ f =>
      obtain ⟨idx, hrec⟩ := ih (a + 1) f hrest (fun x hx => hbad x (List.mem_cons_of_mem _ hx))
        (by simp only [List.length_cons] at hf; omega)
      have e : ((a + 1 : Nat) : Int) = (a : Int) + 1 := by omega
      rw [e] at hrec
      refine ⟨idx, ?_⟩
      unfold scanTable
      have : (a : Int) < (bound : Int) := by omega
      simp only [this, ↓reduceIte, indexNodes_eq hcur hget]
      rcases hbad1 with hk | hm
      · simp only [hk, ↓reduceIte, hrec]
      · by_cases hk : r.kind = .attrNode
        · simp only [hk, ↓reduceIte, hrec]
        · simp only [hk, ↓reduceIte, hm, Bool.false_eq_true, hrec]


/-- Method `next` on a descendant axis, for a cursor about to scan the table. -/
theorem next_desc_eq {tbl : List Node} {step : pathStep} {n : Nat} {nd : Node}
    (hn : tbl[n]? = some nd) (hpos : nd.pos = n)
    (hax : step.axis = ascii "descendant" ∨ step.axis = ascii "descendant-or-self")
    (hroot : step.root = false) {s : pathStepState} {rest : List Nat} (fuel : Nat)
    (hat : AtDesc tbl step n (if step.axis = ascii "descendant" then n + 1 else n) nd.end_ s
      rest) :
    ∃ (j : Nat) (cur : Node), cur.nodes = true ∧ rest = List.range' j (nd.end_ - j) ∧
      s.next tbl fuel =
        s.foundIn (nd.end_ : Int) (scanTable tbl step cur (nd.end_ : Int) fuel (j : Int)) := by
  obtain ⟨hs, p, cur, hp, hcur, hlinked, hcase⟩ := hat
  have hr : ¬ (s.step.root = true ∧ s.idx = 0) := by
    rw [hs, hroot]
    simp
  rw [next_eq_axis hp hcur hr, nextAxis_descendant _ _ _ _ _ (by rw [hs]; exact hax)]
  unfold pathStepState.nextDescendant
  rcases hcase with ⟨h0, hpn, hrest⟩ | ⟨j, hj, hj0, haux, hrest⟩
  · subst hpn
    rw [hn] at hcur
    cases hcur
    refine ⟨_, nd, hlinked, hrest, ?_⟩
    simp only [h0, ↓reduceIte, hs, hpos]
    by_cases hd : step.axis = ascii "descendant"
    · simp only [hd, ↓reduceIte, Nat.cast_add, Nat.cast_one]
    · simp only [hd, ↓reduceIte]
  · refine ⟨j, cur, hlinked, hrest, ?_⟩
    have hj1 : ¬ ((j : Int) = 0) := by omega
    simp only [hs, haux, hj, hj1, ↓reduceIte]

/-- The cursors of a descendant step started on record `n`: one for each record of the
interval scanned that is not an attribute and passes the test, in order. -/
theorem desc_chain {tbl : List Node} (T : TreeOK tbl) {n : Nat} {nd : Node}
    (hn : tbl[n]? = some nd) (hk : nd.kind ≠ .endNode) {step : pathStep}
    (hax : step.axis = ascii "descendant" ∨ step.axis = ascii "descendant-or-self")
    (hroot : step.root = false) (fuel : Nat) (hf : tbl.length < fuel) :
    ∃ l, Chain tbl fuel { step := step, node := some n } l ∧
      l.map (fun s1 => s1.node) =
        ((List.range' (if step.axis = ascii "descendant" then n + 1 else n)
            (nd.end_ - (if step.axis = ascii "descendant" then n + 1 else n))).filter
          (scanGood tbl step)).map some := by
  obtain ⟨hlinked, hpos⟩ := T.linked n nd hn hk
  have hb := (T.end_le hn hk).2
  refine chain_of_scan tbl fuel (scanGood tbl step)
    (AtDesc tbl step n (if step.axis = ascii "descendant" then n + 1 else n) nd.end_) ?_ ?_
    tbl.length _ _ ?_ ⟨rfl, n, nd, rfl, hn, hlinked, Or.inl ⟨rfl, rfl, rfl⟩⟩
  · intro s pre c post hat hbad hgood
    obtain ⟨j, cur, hcur, hrest, hnext⟩ := next_desc_eq hn hpos hax hroot fuel hat
    obtain ⟨g1, g2, g3⟩ := range'_eq_append_cons pre j _ c post hrest.symm
    have hlen : pre.length < fuel := by omega
    rw [scanTable_hit hcur hb hgood pre j fuel hrest.symm hbad hlen, foundIn_some] at hnext
    obtain ⟨r, hr1, _, hr3⟩ := scanGood_true hgood
    refine ⟨_, hnext, rfl, hat.1, c, r, rfl, hr1, (T.linked c r hr1 (match_not_end hr3)).1,
      Or.inr ⟨c + 1, by simp, by omega, rfl, ?_⟩⟩
    rw [g2]
    congr 1
    omega
  · intro s rest hat hbad
    obtain ⟨j, cur, hcur, hrest, hnext⟩ := next_desc_eq hn hpos hax hroot fuel hat
    have hlen : rest.length < fuel := by
      rw [hrest, List.length_range']
      omega
    obtain ⟨idx, hm⟩ := scanTable_miss hcur hb rest j fuel hrest.symm hbad hlen
    rw [hm, foundIn_none] at hnext
    exact ⟨_, hnext⟩
  · rw [List.length_range']
    omega

/-! ### The character content of the document -/

theorem slice_appended (text t : GoString) :
    slice (text ++ t) text.length (text.length + t.length) = t := by
  rw [slice_eq_take_drop, List.drop_left, List.take_length]

theorem flatten_recText_nil (l : List Node) (h : ∀ r ∈ l, recText r = []) :
    (l.map recText).flatten = [] := by
  rw [List.flatten_eq_nil_iff]
  intro x hx
  rw [List.mem_map] at hx
  obtain ⟨r, hr, hrx⟩ := hx
  rw [← hrx]
  exact h r hr

theorem appendToken_recText (nodes : List Node) (text : GoString) (t : Token) :
    ((appendToken nodes text t).1.map recText).flatten =
      (nodes.map recText).flatten ++ tokenText t := by
  cases t with
  | StartElement nm attr =>
    simp only [appendToken, List.map_append, List.flatten_append, tokenText]
    have h2 : (List.map recText (attr.map fun a =>
        ({ kind := .attrNode, name := a.name, attr := a.value } : Node))).flatten = [] := by
      apply flatten_recText_nil
      intro r hr
      rw [List.mem_map] at hr
      obtain ⟨a, _, ha⟩ := hr
      subst ha
      rfl
    rw [h2]
    simp [recText]
  | EndElement nm =>
    simp only [appendToken, List.map_append, List.flatten_append, List.map_cons, List.map_nil,
      tokenText]
    rfl
  | CharData d =>
    simp only [appendToken, List.map_append, List.flatten_append, List.map_cons, List.map_nil,
      tokenText, recText, slice_appended, true_or, ↓reduceIte]
    simp
  | Comment d =>
    simp only [appendToken, List.map_append, List.flatten_append, List.map_cons, List.map_nil,
      tokenText, recText, slice_appended, true_or, or_true, ↓reduceIte]
    simp
  | ProcInst target inst =>
    simp only [appendToken, List.map_append, List.flatten_append, List.map_cons, List.map_nil,
      tokenText, recText, slice_appended, or_true, ↓reduceIte]
    simp
  | Directive d =>
    simp [appendToken, tokenText]

theorem readTokens_recText (ts : List Token) :
    ∀ (nodes : List Node) (text : GoString),
      ((readTokens ts nodes text).1.map recText).flatten =
        (nodes.map recText).flatten ++ charContent ts := by
  induction ts with
  | nil => intro nodes text; simp [readTokens, charContent]
  | cons t ts ih =>
    intro nodes text
    simp only [readTokens]
    rw [ih, appendToken_recText]
    simp [charContent]

theorem buildNodes_recText (ts : List Token) :
    ((buildNodes ts).map recText).flatten = charContent ts := by
  unfold buildNodes
  rw [List.map_append, List.flatten_append, readTokens_recText]
  simp [recText]

theorem recText_of_payload {a b : Node} (h : a.payload = b.payload) : recText a = recText b := by
  simp only [Node.payload, Prod.mk.injEq] at h
  unfold recText
  rw [h.1, h.2.2.2]

/-- The texts of all records of the tree, in table order, are the character content of
the token sequence. -/
theorem ParseDecoder_recText {ts : List Token} {t : Tree}
    (h : ParseDecoder { tokens := ts } = .ok t) :
    (t.nodes.map recText).flatten = charContent ts := by
  rw [← buildNodes_recText]
  congr 1
  have hp := ParseDecoder_payload h
  apply List.ext_getElem?
  intro i
  have hi := congrArg (fun l => l[i]?) hp
  simp only [List.getElem?_map] at hi ⊢
  cases h1 : t.nodes[i]? with
  | none =>
    rw [h1] at hi
    cases h2 : (buildNodes ts)[i]? with
    | none => rfl
    | some b => rw [h2] at hi; simp at hi
  | some a =>
    rw [h1] at hi
    cases h2 : (buildNodes ts)[i]? with
    | none => rw [h2] at hi; simp at hi
    | some b =>
      rw [h2] at hi
      simp only [Option.map_some', Option.some.injEq] at hi ⊢
      exact recText_of_payload hi

theorem textOf_eq (tbl : List Node) (i : Nat) :
    textOf tbl i = (tbl[i]?.map recText).getD [] := by
  unfold textOf
  cases tbl[i]? with
  | none => rfl
  | some r => rfl

theorem flatText_all (tbl : List Node) :
    flatText tbl (List.range' 0 tbl.length) = (tbl.map recText).flatten := by
  unfold flatText
  congr 1
  apply List.ext_getElem?
  intro i
  simp only [List.getElem?_map]
  by_cases hi : i < tbl.length
  · rw [List.getElem?_range' 0 1 hi, List.getElem?_eq_getElem hi]
    simp only [Option.map_some', Nat.zero_add, Nat.one_mul, textOf_eq,
      List.getElem?_eq_getElem hi, Option.getD_some]
  · rw [List.getElem?_eq_none (by simpa using hi), List.getElem?_eq_none (by simpa using hi)]
    rfl


/-- Record 0 of the tree is the synthetic root, a container. -/
theorem ParseDecoder_rootKind {ts : List Token} {t : Tree}
    (h : ParseDecoder { tokens := ts } = .ok t) :
    ∃ rn, t.nodes[0]? = some rn ∧ rn.kind = .startNode := by
  have hp := congrArg (fun l => l[0]?) (ParseDecoder_payload h)
  have hk := congrArg (fun l => l[0]?) (buildNodes_kinds ts)
  simp only [List.getElem?_map, List.getElem?_cons_zero] at hp hk
  cases hb : (buildNodes ts)[0]? with
  | none => rw [hb] at hk; simp at hk
  | some b =>
    rw [hb] at hp hk
    cases ha : t.nodes[0]? with
    | none => rw [ha] at hp; simp at hp
    | some a =>
      rw [ha] at hp
      simp only [Option.map_some', Option.some.injEq, Node.payload, Prod.mk.injEq] at hp hk
      exact ⟨a, rfl, by rw [hp.1, hk]⟩

/-- Every record other than the root lies inside the interval of the root. -/
theorem inside_root {tbl : List Node} (T : TreeOK tbl) (N : TreeNest tbl) {rn : Node}
    (h0 : tbl[0]? = some rn) (hrk : rn.kind = .startNode) :
    ∀ (i : Nat) (r : Node), 0 < i → tbl[i]? = some r → r.kind ≠ .endNode → i < rn.end_ := by
  intro i
  induction i using Nat.strong_induction_on with
  | _ i ih =>
    intro r hi0 hi hk
    obtain ⟨u, hu⟩ := N.hasUp i r hi0 hi hk
    obtain ⟨hui, un, hun, hunk⟩ := T.upStart i r u hi hu
    have hin := N.upIn i r u un hi hu hun
    by_cases hu0 : u = 0
    · subst hu0
      rw [h0] at hun
      cases hun
      exact hin
    · have h1 := ih u hui un (by omega) hun (by rw [hunk]; decide)
      have := N.nest 0 rn u un h0 hrk (by omega) h1 hun hunk
      omega

/-- The string value of the root is the texts of all records of the table. -/
theorem flatText_root {tbl : List Node} (T : TreeOK tbl) (N : TreeNest tbl) {rn : Node}
    (h0 : tbl[0]? = some rn) (hrk : rn.kind = .startNode) :
    flatText tbl (List.range' 0 (rn.end_ - 0)) = (tbl.map recText).flatten := by
  have hle := (T.end_le h0 (by rw [hrk]; decide)).2
  have hsp := range'_split 0 rn.end_ tbl.length (Nat.zero_le _) hle
  simp only [Nat.sub_zero] at hsp
  rw [← flatText_all, ← hsp, flatText_append, Nat.sub_zero]
  have : flatText tbl (List.range' rn.end_ (tbl.length - rn.end_)) = [] := by
    apply flatText_empty
    intro i hi
    rw [List.mem_range'_1] at hi
    by_contra hcon
    obtain ⟨r, hr1, hr2⟩ := textOf_ne_nil hcon
    have hrk2 : r.kind ≠ .endNode := by
      rcases hr2 with h | h | h <;> rw [h] <;> decide
    have hpos := (T.end_le h0 (by rw [hrk]; decide)).1
    have := inside_root T N h0 hrk i r (by omega) hr1 hrk2
    omega
  rw [this, List.append_nil]

/-- One call of `Next` on an iterator with one step whose cursor returns a record not yet
marked seen. -/
theorem Next_of_next {tbl : List Node} {f : Nat} {s s1 : pathStepState} {seen : List Bool}
    {r : Node} (hs : s.next tbl (f + 1) = .ok (true, s1)) (hd : deref tbl s1.node = .ok r)
    (hseen : seen[r.pos]? = some false) :
    Iter.Next tbl (f + 1) { state := [s], seen := seen } =
      .ok (true, { state := [s1], seen := seen.set r.pos true }) := by
  simp only [Iter.Next, List.length_singleton, nextLoop, retreat_single, hs, advance_single,
    List.getElem?_cons_zero, hd, hseen]


/-- C13: for every well-nested, error-free token sequence, `descendant-or-self::node()`
compiles, and the first value it returns from the root of the tree built (the value
`String` returns, the string value of the root) is the concatenation, in token order, of
the bytes of the `CharData` and `Comment` tokens and the instruction bytes of the
`ProcInst` tokens. -/
theorem root_string_round_trip (tokens : List Token) (t : Tree) (fuel : Nat)
    (hw : wellNested tokens) (ht : ParseDecoder { tokens := tokens } = .ok t)
    (hf : t.nodes.length < fuel) :
    Compile (ascii "descendant-or-self::node()") = .ok pathDescendantOrSelf ∧
      pathDescendantOrSelf.String t.nodes fuel t.root = .ok (charContent tokens, true) := by
  refine ⟨by rfl, ?_⟩
  obtain ⟨t1, ht1, hroot, T, N⟩ := ParseDecoder_nest tokens hw
  rw [ht] at ht1
  cases ht1
  obtain ⟨rn, h0, hrk⟩ := ParseDecoder_rootKind ht
  have hrne : rn.kind ≠ .endNode := by rw [hrk]; decide
  obtain ⟨hpos, hle⟩ := T.end_le h0 hrne
  obtain ⟨f, rfl⟩ : ∃ f, fuel = f + 1 := ⟨fuel - 1, by omega⟩
  obtain ⟨st, hst, hax, hkind, hname, hsroot⟩ : ∃ st : pathStep,
      pathDescendantOrSelf.steps = [st] ∧ st.axis = ascii "descendant-or-self" ∧
        st.kind = .anyNode ∧ st.name = ascii "*" ∧ st.root = false :=
    ⟨_, rfl, rfl, rfl, rfl, rfl⟩
  obtain ⟨l, hl1, hl2⟩ := desc_chain T h0 hrne (Or.inr hax) hsroot (f + 1) hf
  have hnd : st.axis ≠ ascii "descendant" := by
    rw [hax]
    decide
  simp only [hnd, ↓reduceIte] at hl2
  have hgood : scanGood t.nodes st 0 = true := by
    unfold scanGood
    simp [h0, hrk, pathStep.match_, hkind, hname]
  obtain ⟨m, hm⟩ : ∃ m, rn.end_ - 0 = m + 1 := ⟨rn.end_ - 1, by omega⟩
  rw [hm, List.range'_succ, List.filter_cons, hgood] at hl2
  simp only [↓reduceIte, List.map_cons] at hl2
  cases l with
  | nil => simp at hl2
  | cons s1 l2 =>
    simp only [List.map_cons, List.cons.injEq] at hl2
    obtain ⟨hnext, _⟩ := hl1
    have hd : deref t.nodes s1.node = .ok rn := by
      rw [hl2.1]
      simp only [deref, h0]
    have hrpos := (T.linked 0 rn h0 hrne).2
    have hseen : (List.replicate t.nodes.length false)[rn.pos]? = some false := by
      rw [hrpos, List.getElem?_eq_getElem (by simpa using (by omega : 0 < t.nodes.length))]
      simp
    unfold Path.String
    rw [hroot, pathIter_eq T hst h0 hrne]
    simp only
    rw [Next_of_next hnext hd hseen]
    simp only
    rw [string_eq_nodeIter (show ([s1] : List pathStepState).getLast? = some s1 from rfl) hl2.1,
      string_interval T h0 hrne (by rw [hrk]; decide) hle, flatText_root T N h0 hrk,
      ParseDecoder_recText ht]

/-- Witness of C13: the scenario document, whose character content is `xy`. -/
theorem root_string_round_trip_witness :
    Compile (ascii "descendant-or-self::node()") = .ok pathDescendantOrSelf ∧
      pathDescendantOrSelf.String scenarioTree.nodes 13 scenarioTree.root =
        .ok (charContent scenarioTokens, true) :=
  root_string_round_trip scenarioTokens scenarioTree 13 (by decide) (by rfl) (by decide)

/-! ### The steps a round of `compile` appends -/

theorem skipByte_steps (c : pathCompiler) (b : Nat) : (c.skipByte b).2.steps = c.steps := by
  unfold pathCompiler.skipByte
  split <;> rfl

theorem skipName_steps (c : pathCompiler) : c.skipName.2.steps = c.steps := by
  unfold pathCompiler.skipName
  split
  · rfl
  · split <;> rfl

theorem compileFinish_steps {c d : pathCompiler} {step : pathStep}
    (h : compileFinish c step = .ok d) : d.steps = c.steps ++ [step] := by
  unfold compileFinish at h
  split at h
  · split at h
    · simp only [Except.ok.injEq] at h
      rw [← h]
    · simp at h
  · simp only [Except.ok.injEq] at h
    rw [← h]

theorem compileKindTest_root {c d : pathCompiler} {step : pathStep}
    (h : compileKindTest c step = .ok d) :
    ∃ st, d.steps = c.steps ++ [st] ∧ st.root = step.root := by
  unfold compileKindTest at h
  simp only at h
  split at h
  · simp at h
  · split at h
    · simp at h
    · split at h
      · split at h
        · simp at h
        · split at h
          · simp at h
          · split at h
            · simp at h
            · have := compileFinish_steps h
              simp only [skipByte_steps, skipName_steps] at this
              exact ⟨_, this, rfl⟩
      · split at h
        · simp at h
        · have := compileFinish_steps h
          simp only [skipByte_steps] at this
          exact ⟨_, this, rfl⟩

theorem compileAxis_root {c d : pathCompiler} {step : pathStep}
    (h : compileAxis c step = .ok d) :
    ∃ st, d.steps = c.steps ++ [st] ∧ st.root = step.root := by
  unfold compileAxis at h
  simp only at h
  split at h
  · simp at h
  · rename_i c1 step1 hax
    have hc1 : c1.steps = c.steps ∧ step1.root = step.root := by
      split at hax
      · split at hax
        · simp at hax
        · split at hax
          · simp at hax
          · split at hax
            · simp at hax
            · simp only [Except.ok.injEq, Prod.mk.injEq] at hax
              obtain ⟨h1, h2⟩ := hax
              rw [← h1, ← h2]
              simp only [skipName_steps, skipByte_steps]
              exact ⟨trivial, trivial⟩
      · simp only [Except.ok.injEq, Prod.mk.injEq] at hax
        obtain ⟨h1, h2⟩ := hax
        rw [← h1, ← h2]
        exact ⟨skipByte_steps _ _, rfl⟩
    split at h
    · obtain ⟨st, g1, g2⟩ := compileKindTest_root h
      rw [skipByte_steps, hc1.1] at g1
      exact ⟨st, g1, by rw [g2, hc1.2]⟩
    · split at h
      · have := compileFinish_steps h
        rw [skipByte_steps, hc1.1] at this
        exact ⟨_, this, hc1.2⟩
      · have := compileFinish_steps h
        rw [skipByte_steps, hc1.1] at this
        exact ⟨_, this, hc1.2⟩

theorem compileTest_root {c d : pathCompiler} {step : pathStep}
    (h : compileTest c step = .ok d) :
    ∃ st, d.steps = c.steps ++ [st] ∧ st.root = step.root := by
  unfold compileTest at h
  split at h
  · exact ⟨_, compileFinish_steps h, rfl⟩
  · simp only at h
    split at h
    · split at h
      · simp at h
      · have := compileFinish_steps h
        simp only [skipName_steps, skipByte_steps] at this
        exact ⟨_, this, rfl⟩
    · have hr : (if (c.skipByte 64).2.skipName.1 = true then
            ({ step with name := slice c.path (c.skipByte 64).2.i (c.skipByte 64).2.skipName.2.i } :
              pathStep)
            else step).root = step.root := by
        split <;> rfl
      generalize (if (c.skipByte 64).2.skipName.1 = true then
            ({ step with name := slice c.path (c.skipByte 64).2.i (c.skipByte 64).2.skipName.2.i } :
              pathStep)
            else step) = step2 at h hr
      split at h
      · simp at h
      · split at h
        · have := compileFinish_steps h
          simp only [skipName_steps, skipByte_steps] at this
          exact ⟨_, this, hr⟩
        · split at h
          · have := compileFinish_steps h
            simp only [skipName_steps, skipByte_steps] at this
            exact ⟨_, this, hr⟩
          · split at h
            · have := compileFinish_steps h
              simp only [skipName_steps, skipByte_steps] at this
              exact ⟨_, this, hr⟩
            · obtain ⟨st, g1, g2⟩ := compileAxis_root h
              simp only [skipName_steps, skipByte_steps] at g1
              exact ⟨st, g1, by rw [g2, hr]⟩


theorem compileStep_root {c d : pathCompiler} (h : compileStep c = .ok d) :
    ∃ st, d.steps = c.steps ++ [st] ∧ (c.i = 0 → c.path.head? = some 47 → st.root = true) := by
  unfold compileStep at h
  simp only at h
  obtain ⟨st, h1, h2⟩ := compileTest_root h
  refine ⟨st, ?_, ?_⟩
  · rw [h1]
    congr 1
    split
    · exact skipByte_steps _ _
    · rfl
  · intro hi hh
    rw [h2]
    have : c.skipByte 47 = (true, { c with i := c.i + 1 }) := by
      rw [skipByte_eq, hi, List.drop_zero, if_pos hh]
    simp only [hi, ↓reduceIte, this]

theorem compileLoop_steps (n : Nat) :
    ∀ (c d : pathCompiler), compileLoop n c = .ok d → ∃ l, d.steps = c.steps ++ l := by
  induction n with
  | zero =>
    intro c d h
    unfold compileLoop at h
    split at h
    · simp at h
    · simp only [Except.ok.injEq] at h
      exact ⟨[], by rw [h]; simp⟩
  | succ n ih =>
    intro c d h
    by_cases hi : c.i < c.path.length
    · rw [compileLoop_succ n c hi] at h
      cases hc : compileStep c with
      | error e => rw [hc] at h; simp at h
      | ok c1 =>
        rw [hc] at h
        simp only at h
        obtain ⟨st, h1, _⟩ := compileStep_root hc
        obtain ⟨l, h2⟩ := ih c1 d h
        exact ⟨st :: l, by rw [h2, h1]; simp⟩
    · rw [compileLoop_done _ _ hi] at h
      simp only [Except.ok.injEq] at h
      exact ⟨[], by rw [h]; simp⟩

/-- A path string that is not empty and compiles has a first step, and the first step is
root-anchored when the string begins with `/`. -/
theorem Compile_first {path : GoString} {P : Path} (h : Compile path = .ok P)
    (hne : path ≠ []) :
    ∃ st l, P.steps = st :: l ∧ (path.head? = some 47 → st.root = true) := by
  rw [Compile_eq] at h
  obtain ⟨m, hm⟩ : ∃ m, path.length = m + 1 :=
    ⟨path.length - 1, by have := List.length_pos.mpr hne; omega⟩
  rw [hm, compileLoop_succ _ _ (by simp only; omega)] at h
  cases hc : compileStep { steps := [], path := path, i := 0 } with
  | error e => rw [hc] at h; simp at h
  | ok c1 =>
    rw [hc] at h
    simp only at h
    obtain ⟨st, h1, h2⟩ := compileStep_root hc
    cases hl : compileLoop m c1 with
    | error e => rw [hl] at h; simp at h
    | ok c2 =>
      rw [hl] at h
      simp only [Except.ok.injEq] at h
      obtain ⟨l, h3⟩ := compileLoop_steps m c1 c2 hl
      refine ⟨st, l, ?_, fun hh => h2 rfl hh⟩
      rw [← h, h3, h1]
      rfl

/-! ### The root walk -/

theorem linked_lt {K : List nodeKind} {pos1 : Nat} {tbl : List Node}
    (hinv : LinkInv K pos1 tbl []) {n : Nat} {nd : Node} (hn : tbl[n]? = some nd)
    (hl : nd.nodes = true) : n < pos1 ∧ nd.kind ≠ .endNode := by
  constructor
  · by_contra hcon
    have := (hinv.fresh n nd (by omega) hn).1
    rw [this] at hl
    cases hl
  · intro hk
    have := (hinv.endFresh n nd hn hk).1
    rw [this] at hl
    cases hl

/-- From every linked record the root walk ends at record 0. -/
theorem rootWalk_root {K : List nodeKind} {pos1 : Nat} {tbl : List Node}
    (hinv : LinkInv K pos1 tbl []) (hnest : NestInv pos1 tbl []) :
    ∀ (n : Nat) (nd : Node) (fuel : Nat), tbl[n]? = some nd → nd.nodes = true → n < fuel →
      rootWalk tbl fuel n = .ok 0 := by
  intro n
  induction n using Nat.strong_induction_on with
  | _ n ih =>
    intro nd fuel hn hl hf
    obtain ⟨hlt, hk⟩ := linked_lt hinv hn hl
    obtain ⟨f, rfl⟩ : ∃ f, fuel = f + 1 := ⟨fuel - 1, by omega⟩
    unfold rootWalk
    simp only [deref, hn]
    cases hu : nd.up with
    | none =>
      simp only
      by_cases h0 : n = 0
      · rw [h0]
      · obtain ⟨u, hu2⟩ := hnest.hasUp n nd (by omega) hlt hn hk
        rw [hu] at hu2
        cases hu2
    | some u =>
      simp only
      obtain ⟨hun, hku⟩ := hinv.upOK n nd u hlt hn hu
      rw [← hinv.kinds, List.getElem?_map] at hku
      cases hget : tbl[u]? with
      | none => rw [hget] at hku; simp at hku
      | some un =>
        rw [hget] at hku
        simp only [Option.map_some', Option.some.injEq] at hku
        have hul := (hinv.linked u un (by omega) hget (by rw [hku]; decide)).1
        exact ih u hun un f hget hul (by omega)

/-- The first call of `next` on a root-anchored cursor does not depend on the linked
record the cursor starts on. -/
theorem next_root_anchored {K : List nodeKind} {pos1 : Nat} {tbl : List Node}
    (hinv : LinkInv K pos1 tbl []) (hnest : NestInv pos1 tbl []) {st : pathStep}
    (hr : st.root = true) {n : Nat} {nd : Node} (hn : tbl[n]? = some nd)
    (hl : nd.nodes = true) {fuel : Nat} (hf : tbl.length ≤ fuel) :
    pathStepState.next tbl fuel { step := st, node := some n } =
      pathStepState.next tbl fuel { step := st, node := some 0 } := by
  have hlen := (List.getElem?_eq_some.mp hn).1
  have h0lt : 0 < tbl.length := by omega
  have h0 : tbl[0]? = some tbl[0] := List.getElem?_eq_getElem h0lt
  generalize tbl[0] = r0 at h0
  have hl0 : r0.nodes = true := by
    have hp : 0 < pos1 := by
      have := (linked_lt hinv hn hl).1
      omega
    have hk : K[0]? = some r0.kind := kind_of_getElem? hinv.kinds h0
    by_cases hk0 : r0.kind = .endNode
    · -- record 0 cannot be an end record: a linked record has been processed
      exfalso
      have hfr := hinv.endFresh 0 r0 h0 hk0
      by_cases hn0 : n = 0
      · subst hn0
        rw [hn] at h0
        cases h0
        rw [hfr.1] at hl
        cases hl
      · obtain ⟨hlt, hkn⟩ := linked_lt hinv hn hl
        have := rootWalk_root hinv hnest n nd (n + 1) hn hl (by omega)
        -- the walk from n ends at 0, whose record would then be linked
        have h2 : ∀ (f m : Nat) (md : Node), tbl[m]? = some md → md.nodes = true →
            rootWalk tbl f m = .ok 0 → ∃ z, tbl[0]? = some z ∧ z.nodes = true := by
          intro f
          induction f with
          | zero => intro m md _ _ h; simp [rootWalk] at h
          | succ f ihf =>
            intro m md hm hml h
            unfold rootWalk at h
            simp only [deref, hm] at h
            cases hu : md.up with
            | none =>
              rw [hu] at h
              simp only [Except.ok.injEq] at h
              subst h
              exact ⟨md, hm, hml⟩
            | some u =>
              rw [hu] at h
              simp only at h
              obtain ⟨hlt2, _⟩ := linked_lt hinv hm hml
              obtain ⟨hun, hku⟩ := hinv.upOK m md u hlt2 hm hu
              rw [← hinv.kinds, List.getElem?_map] at hku
              cases hget : tbl[u]? with
              | none => rw [hget] at hku; simp at hku
              | some un =>
                rw [hget] at hku
                simp only [Option.map_some', Option.some.injEq] at hku
                have hul := (hinv.linked u un (by omega) hget (by rw [hku]; decide)).1
                exact ihf u un hget hul h
        obtain ⟨z, hz1, hz2⟩ := h2 _ n nd hn hl this
        rw [h0] at hz1
        cases hz1
        rw [hfr.1] at hz2
        cases hz2
    · exact (hinv.linked 0 r0 hp h0 hk0).1
  unfold pathStepState.next
  simp only [hr, and_self, ↓reduceIte, rootWalk_root hinv hnest n nd fuel hn hl (by omega),
    rootWalk_root hinv hnest 0 r0 fuel h0 hl0 (by omega)]


/-! ### The first call of `Next` -/

/-- With every cursor above the first one fresh, the first inner loop of `Next` falls
through to the first cursor. -/
theorem retreat_fresh (tbl : List Node) (fuel : Nat) (s0 : pathStepState)
    (rest : List pathStepState) (hrest : ∀ s ∈ rest, s.node = none) :
    ∀ tip, tip ≤ rest.length →
      retreat tbl fuel tip (s0 :: rest) = retreat tbl fuel 0 (s0 :: rest) := by
  intro tip
  induction tip with
  | zero => intro _; rfl
  | succ tip ih =>
    intro htip
    have hget : (s0 :: rest)[tip + 1]? = some rest[tip] := by
      rw [List.getElem?_cons_succ, List.getElem?_eq_getElem (by omega)]
    generalize rest[tip] = s at hget
    have hs : s.node = none := by
      rw [List.getElem?_cons_succ] at hget
      exact hrest s (List.getElem?_mem hget)
    have e : retreat tbl fuel (tip + 1) (s0 :: rest) = retreat tbl fuel tip (s0 :: rest) := by
      rw [retreat]
      simp only [hget, next_of_nil tbl fuel s hs, set_getElem?_self _ _ _ hget]
    rw [e]
    exact ih (by omega)

theorem retreat_zero_congr (tbl : List Node) (fuel : Nat) (s0 s1 : pathStepState)
    (rest : List pathStepState) (h : s0.next tbl fuel = s1.next tbl fuel) :
    retreat tbl fuel 0 (s0 :: rest) = retreat tbl fuel 0 (s1 :: rest) := by
  rw [retreat, retreat]
  simp only [List.getElem?_cons_zero, List.set_cons_zero, h]

theorem nextLoop_congr (tbl : List Node) (fuel n tip : Nat) (it1 it2 : Iter)
    (hseen : it1.seen = it2.seen)
    (h : retreat tbl fuel tip it1.state = retreat tbl fuel tip it2.state) :
    nextLoop tbl fuel n tip it1 = nextLoop tbl fuel n tip it2 := by
  cases n with
  | zero => rfl
  | succ n =>
    rw [nextLoop, nextLoop, h, hseen]

/-- Two iterators that differ only in the record a root-anchored first cursor starts on:
`Next` returns the same result, the iterator after the call included. -/
theorem Next_root_anchored {K : List nodeKind} {pos1 : Nat} {tbl : List Node}
    (hinv : LinkInv K pos1 tbl []) (hnest : NestInv pos1 tbl []) {st : pathStep}
    (hr : st.root = true) {n : Nat} {nd : Node} (hn : tbl[n]? = some nd)
    (hl : nd.nodes = true) {fuel : Nat} (hf : tbl.length ≤ fuel)
    (rest : List pathStepState) (hrest : ∀ s ∈ rest, s.node = none) (seen : List Bool) :
    Iter.Next tbl fuel { state := { step := st, node := some n } :: rest, seen := seen } =
      Iter.Next tbl fuel { state := { step := st, node := some 0 } :: rest, seen := seen } := by
  unfold Iter.Next
  simp only [List.length_cons]
  refine nextLoop_congr tbl fuel fuel rest.length
    { state := { step := st, node := some n } :: rest, seen := seen }
    { state := { step := st, node := some 0 } :: rest, seen := seen } (by rfl) ?_
  simp only
  rw [retreat_fresh tbl fuel _ rest hrest _ (Nat.le_refl _),
    retreat_fresh tbl fuel _ rest hrest _ (Nat.le_refl _)]
  exact retreat_zero_congr tbl fuel _ _ rest (next_root_anchored hinv hnest hr hn hl hf)

theorem trace_congr (tbl : List Node) (fuel : Nat) (it1 it2 : Iter)
    (h : it1.Next tbl fuel = it2.Next tbl fuel) (k : Nat) :
    it1.trace tbl fuel k = it2.trace tbl fuel k := by
  cases k with
  | zero => rfl
  | succ k => rw [Iter.trace, Iter.trace, h]

theorem run_congr (tbl : List Node) (fuel : Nat) (it1 it2 : Iter)
    (h : it1.Next tbl fuel = it2.Next tbl fuel) (k : Nat) :
    it1.run tbl fuel k = it2.run tbl fuel k := by
  cases k with
  | zero => rfl
  | succ k => rw [Iter.run, Iter.run, h]

theorem pathIter_cons {tbl : List Node} {P : Path} {st : pathStep} {l : List pathStep}
    (hs : P.steps = st :: l) {n : Nat} {nd : Node} (hn : tbl[n]? = some nd)
    (hl : nd.nodes = true) :
    P.Iter tbl n =
      .ok { state := { step := st, node := some n } :: l.map (fun x => { step := x }),
            seen := List.replicate tbl.length false } := by
  unfold Path.Iter
  simp only [deref, hn, hs, List.map_cons, lenNodes, hl, ↓reduceIte]
  rfl


theorem ParseDecoder_ok_tokens {d : Decoder} {t : Tree} (h : ParseDecoder d = .ok t) :
    ParseDecoder { tokens := d.tokens } = .ok t := by
  unfold ParseDecoder at h ⊢
  cases he : d.err with
  | none =>
    rw [he] at h
    exact h
  | some e =>
    rw [he] at h
    simp at h

theorem ParseDecoder_root {ts : List Token} {t : Tree}
    (h : ParseDecoder { tokens := ts } = .ok t) : t.root = 0 := by
  rcases ParseDecoder_spec ts with ⟨_, h2⟩ | ⟨r, t1, rn, _, h2, h3, _⟩
  · rw [h] at h2
    cases h2
  · rw [h] at h2
    cases h2
    exact h3

/-- C14: for every tree returned by `ParseDecoder`, every path beginning with `/` that
`Compile` accepts and any two nodes `n1`, `n2` of the tree (records the link pass has
linked), the iterators for `n1`, for `n2` and for the root behave alike: the first call of
`Next` gives the same result and leaves the same iterator, so the same nodes are returned
in the same order. -/
theorem root_anchored_start_independent (d : Decoder) (t : Tree) (path : GoString) (P : Path)
    (n1 n2 : Nat) (nd1 nd2 : Node) (fuel : Nat)
    (ht : ParseDecoder d = .ok t) (hc : Compile path = .ok P) (hslash : path.head? = some 47)
    (hn1 : t.nodes[n1]? = some nd1) (hl1 : nd1.nodes = true)
    (hn2 : t.nodes[n2]? = some nd2) (hl2 : nd2.nodes = true) (hf : t.nodes.length ≤ fuel) :
    ∃ it1 it2 it0, P.Iter t.nodes n1 = .ok it1 ∧ P.Iter t.nodes n2 = .ok it2 ∧
      P.Iter t.nodes t.root = .ok it0 ∧
      it1.Next t.nodes fuel = it0.Next t.nodes fuel ∧
      it2.Next t.nodes fuel = it0.Next t.nodes fuel ∧
      ∀ k, it1.trace t.nodes fuel k = it0.trace t.nodes fuel k ∧
        it2.trace t.nodes fuel k = it0.trace t.nodes fuel k ∧
        it1.run t.nodes fuel k = it0.run t.nodes fuel k ∧
        it2.run t.nodes fuel k = it0.run t.nodes fuel k := by
  have ht2 := ParseDecoder_ok_tokens ht
  obtain ⟨pos1, hinv, hnest⟩ := ParseDecoder_link ht2
  have hroot := ParseDecoder_root ht2
  obtain ⟨rn, h0, hrk⟩ := ParseDecoder_rootKind ht2
  have hl0 : rn.nodes = true := by
    have hp : 0 < pos1 := by
      have := (linked_lt hinv hn1 hl1).1
      omega
    exact (hinv.linked 0 rn hp h0 (by rw [hrk]; decide)).1
  have hne : path ≠ [] := by
    intro h
    rw [h] at hslash
    cases hslash
  obtain ⟨st, l, hs, hr⟩ := Compile_first hc hne
  have hr1 := hr hslash
  have hrest : ∀ s ∈ l.map (fun x => ({ step := x } : pathStepState)), s.node = none := by
    intro s hs1
    rw [List.mem_map] at hs1
    obtain ⟨x, _, hx⟩ := hs1
    rw [← hx]
  have e1 := Next_root_anchored hinv hnest hr1 hn1 hl1 hf _ hrest
    (List.replicate t.nodes.length false)
  have e2 := Next_root_anchored hinv hnest hr1 hn2 hl2 hf _ hrest
    (List.replicate t.nodes.length false)
  refine ⟨_, _, _, pathIter_cons hs hn1 hl1, pathIter_cons hs hn2 hl2,
    by rw [hroot]; exact pathIter_cons hs h0 hl0, e1, e2, ?_⟩
  intro k
  exact ⟨trace_congr _ _ _ _ e1 k, trace_congr _ _ _ _ e2 k, run_congr _ _ _ _ e1 k,
    run_congr _ _ _ _ e2 k⟩

/-- Witness of C14: the scenario document, the path `/a/b`, the text record 4 and the
attribute record 7. -/
theorem root_anchored_start_independent_witness :
    ∃ it1 it2 it0, scenarioPathAB.Iter scenarioTree.nodes 4 = .ok it1 ∧
      scenarioPathAB.Iter scenarioTree.nodes 7 = .ok it2 ∧
      scenarioPathAB.Iter scenarioTree.nodes scenarioTree.root = .ok it0 ∧
      it1.Next scenarioTree.nodes 12 = it0.Next scenarioTree.nodes 12 ∧
      it2.Next scenarioTree.nodes 12 = it0.Next scenarioTree.nodes 12 ∧
      ∀ k, it1.trace scenarioTree.nodes 12 k = it0.trace scenarioTree.nodes 12 k ∧
        it2.trace scenarioTree.nodes 12 k = it0.trace scenarioTree.nodes 12 k ∧
        it1.run scenarioTree.nodes 12 k = it0.run scenarioTree.nodes 12 k ∧
        it2.run scenarioTree.nodes 12 k = it0.run scenarioTree.nodes 12 k :=
  root_anchored_start_independent { tokens := scenarioTokens } scenarioTree (ascii "/a/b")
    scenarioPathAB 4 7
    { kind := .textNode, text := ascii "x", nodes := true, pos := 4, end_ := 5, up := some 2 }
    { kind := .attrNode, name := { Local := ascii "id" }, attr := ascii "2", nodes := true,
      pos := 7, end_ := 8, up := some 6 }
    12 (by rfl) (by rfl) (by rfl) (by rfl) (by rfl) (by rfl) (by rfl) (by decide)

/-- C15: for every tree `ParseDecoder` returns for a well-nested token sequence, every node
`n` and every one-step relative path on the axis `descendant` (resp.
`descendant-or-self`), the run of the iterator to exhaustion returns exactly the records
at the table indices `i` with `n.pos < i < n.end` (resp. `n.pos ≤ i < n.end`) that are
not attribute records and pass the test of the step, each once, in increasing order. -/
theorem descendant_scans_interval (tokens : List Token) (t : Tree) (path : GoString)
    (P : Path) (step : pathStep) (n : Nat) (nd : Node) (fuel : Nat)
    (hw : wellNested tokens) (ht : ParseDecoder { tokens := tokens } = .ok t)
    (_hc : Compile path = .ok P) (hs : P.steps = [step]) (hroot : step.root = false)
    (hax : step.axis = ascii "descendant" ∨ step.axis = ascii "descendant-or-self")
    (hn : t.nodes[n]? = some nd) (hk : nd.kind ≠ .endNode) (hf : t.nodes.length < fuel) :
    ∃ iter r, P.Iter t.nodes n = .ok iter ∧ iter.run t.nodes fuel fuel = .ok r ∧
      r.map (Iter.pos t.nodes) =
        ((List.range' (if step.axis = ascii "descendant" then nd.pos + 1 else nd.pos)
            (nd.end_ - (if step.axis = ascii "descendant" then nd.pos + 1 else nd.pos))).filter
          (scanGood t.nodes step)).map some := by
  obtain ⟨t1, ht1, _, T⟩ := ParseDecoder_treeOK tokens hw
  rw [ht] at ht1
  cases ht1
  obtain ⟨l, hl1, hl2⟩ := desc_chain T hn hk hax hroot fuel hf
  rw [(T.linked n nd hn hk).2]
  refine run_one_step T hs hn hk hf hl1 hl2 ((List.nodup_range' _ _).filter _) ?_
  intro k hk1
  rw [List.mem_filter] at hk1
  obtain ⟨r, hr1, _, hr3⟩ := scanGood_true hk1.2
  exact ⟨r, hr1, match_not_end hr3⟩

/-- Witness of C15: the document `<a><x><b/></x><b/></a>`, the path `descendant::b`, the
root. -/
theorem descendant_scans_interval_witness :
    ∃ iter r, nestedPathDescendant.Iter nestedTree.nodes 0 = .ok iter ∧
      iter.run nestedTree.nodes 11 11 = .ok r ∧
      r.map (Iter.pos nestedTree.nodes) = [some 3, some 6] :=
  descendant_scans_interval nestedTokens nestedTree (ascii "descendant::b")
    nestedPathDescendant { axis := ascii "descendant", name := ascii "b" } 0
    { kind := .startNode, nodes := true, pos := 0, end_ := 9, down := [1] } 11
    (by decide) (by rfl) (by rfl) (by rfl) (by rfl) (Or.inl (by rfl)) (by rfl) (by decide)
    (by decide)

/-- C16 (failing input): on the tree of `<a><b id="1">x</b><b id="2">y</b></a>`, the path
`preceding-sibling::*` evaluated from the second `b` (record 6, entry 1 of the children
`[2, 6]` of `a`) returns record 6 itself and then record 2. -/
theorem preceding_sibling_returns_self :
    wellNested scenarioTokens ∧
      ParseDecoder { tokens := scenarioTokens } = .ok scenarioTree ∧
      (scenarioTree.nodes[1]?).map (fun nd => nd.down) = some [2, 6] ∧
      Compile (ascii "preceding-sibling::*") =
        .ok { path := ascii "preceding-sibling::*",
              steps := [{ axis := ascii "preceding-sibling", name := ascii "*",
                          kind := .startNode }] } ∧
      ∃ iter, Path.Iter scenarioTree.nodes
            { path := ascii "preceding-sibling::*",
              steps := [{ axis := ascii "preceding-sibling", name := ascii "*",
                          kind := .startNode }] } 6 = .ok iter ∧
        (iter.run scenarioTree.nodes 13 13).map (fun r => r.map (Iter.pos scenarioTree.nodes)) =
          .ok [some 6, some 2] := by
  exact ⟨by decide, by rfl, by rfl, by rfl, _, rfl, by rfl⟩


/-! ### The `preceding` axis -/

theorem nextAxis_preceding (tbl : List Node) (fuel : Nat) (s : pathStepState) (p : Nat)
    (cur : Node) (h : s.step.axis = ascii "preceding") :
    s.nextAxis tbl fuel p cur = s.nextPreceding tbl fuel cur := by
  unfold pathStepState.nextAxis
  rw [h]
  rfl

theorem mem_ancestors_lt {tbl : List Node} (T : TreeOK tbl) (N : TreeNest tbl) {n a : Nat}
    {nd : Node} (hn : tbl[n]? = some nd) (hk : nd.kind ≠ .endNode) (ha : a ∈ ancestors tbl n) :
    ∃ an, tbl[a]? = some an ∧ an.kind = .startNode ∧ a < n ∧ n < an.end_ := by
  obtain ⟨an, h1, h2⟩ := upChain_start T n n a ha
  obtain ⟨h3, h4⟩ := (mem_ancestors_iff T N h1 h2 hn hk).mp ha
  exact ⟨an, h1, h2, h3, h4⟩

/-- The parent of `n` or of an ancestor of `n` is an ancestor of `n`. -/
theorem up_mem_ancestors {tbl : List Node} (T : TreeOK tbl) (N : TreeNest tbl) {n : Nat}
    {nd : Node} (hn : tbl[n]? = some nd) (hk : nd.kind ≠ .endNode) {A u : Nat} {an : Node}
    (hA : A = n ∨ A ∈ ancestors tbl n) (han : tbl[A]? = some an) (hu : an.up = some u) :
    u ∈ ancestors tbl n := by
  obtain ⟨huA, un, hun, hunk⟩ := T.upStart A an u han hu
  have hin := N.upIn A an u un han hu hun
  rw [mem_ancestors_iff T N hun hunk hn hk]
  rcases hA with h | h
  · subst h
    exact ⟨huA, hin⟩
  · obtain ⟨an1, g1, g2, g3, g4⟩ := mem_ancestors_lt T N hn hk h
    rw [han] at g1
    cases g1
    have := N.nest u un A an hun hunk huA hin han g2
    exact ⟨by omega, by omega⟩

/-- An ancestor of `n` below `A`, which is `n` or an ancestor of `n`, is the parent of `A`
or lies below it. -/
theorem ancestor_below {tbl : List Node} (T : TreeOK tbl) (N : TreeNest tbl) {n : Nat}
    {nd : Node} (hn : tbl[n]? = some nd) (hk : nd.kind ≠ .endNode) {A x : Nat} {an : Node}
    (hA : A = n ∨ A ∈ ancestors tbl n) (han : tbl[A]? = some an)
    (hx : x ∈ ancestors tbl n) (hxA : x < A) : ∃ u, an.up = some u ∧ x ≤ u := by
  obtain ⟨xn, g1, g2, g3, g4⟩ := mem_ancestors_lt T N hn hk hx
  have hAk : an.kind ≠ .endNode ∧ A ≤ n := by
    rcases hA with h | h
    · subst h
      rw [hn] at han
      cases han
      exact ⟨hk, Nat.le_refl _⟩
    · obtain ⟨an1, e1, e2, e3, _⟩ := mem_ancestors_lt T N hn hk h
      rw [han] at e1
      cases e1
      exact ⟨by rw [e2]; decide, by omega⟩
  have hxa : x ∈ ancestors tbl A :=
    (mem_ancestors_iff T N g1 g2 han hAk.1).mpr ⟨hxA, by omega⟩
  obtain ⟨u, hu⟩ := N.hasUp A an (by omega) han hAk.1
  refine ⟨u, hu, ?_⟩
  obtain ⟨huA, un, hun, hunk⟩ := T.upStart A an u han hu
  obtain ⟨B, hB⟩ : ∃ B, A = B + 1 := ⟨A - 1, by omega⟩
  unfold ancestors at hxa
  rw [hB] at hxa
  rw [← hB] at hxa
  have hch : upChain tbl (B + 1) A = u :: upChain tbl B u := upChain_succ han hu
  rw [hB] at hxa
  rw [show upChain tbl (B + 1) (B + 1) = upChain tbl (B + 1) A from by rw [hB], hch,
    List.mem_cons] at hxa
  rcases hxa with h | h
  · omega
  · have := (mem_upChain_iff T N g1 g2 u B un (by omega) hun (by rw [hunk]; decide)).mp h
    omega

theorem lowAnc_step {tbl : List Node} {n A x : Nat} (h : LowAnc tbl n A (x + 1))
    (h1 : x ≠ n) (h2 : x ∉ ancestors tbl n) : LowAnc tbl n A x := by
  obtain ⟨g1, g2, g3⟩ := h
  refine ⟨g1, by omega, ?_⟩
  intro a ha hxa
  apply g3 a ha
  rcases ha with h | h
  · subst h
    omega
  · have : a ≠ x := fun e => h2 (e ▸ h)
    omega

theorem precGood_true {tbl : List Node} {step : pathStep} {n c : Nat}
    (h : precGood tbl step n c = true) :
    ∃ r, tbl[c]? = some r ∧ r.kind ≠ .attrNode ∧ c ∉ ancestors tbl n ∧ step.match_ r = true := by
  unfold precGood at h
  split at h
  · rename_i r hr
    simp only [Bool.and_eq_true, decide_eq_true_eq] at h
    exact ⟨r, hr, h.1.1, h.1.2, h.2⟩
  · cases h

theorem precGood_false {tbl : List Node} {step : pathStep} {n c : Nat} {r : Node}
    (hr : tbl[c]? = some r) (h : precGood tbl step n c = false) (h1 : r.kind ≠ .attrNode)
    (h2 : c ∉ ancestors tbl n) : step.match_ r = false := by
  unfold precGood at h
  rw [hr] at h
  simpa [h1, h2] using h


theorem ancSelf_record {tbl : List Node} (T : TreeOK tbl) (N : TreeNest tbl) {n : Nat}
    {nd : Node} (hn : tbl[n]? = some nd) (hk : nd.kind ≠ .endNode) {A : Nat}
    (hA : A = n ∨ A ∈ ancestors tbl n) : ∃ an, tbl[A]? = some an ∧ A ≤ n := by
  rcases hA with h | h
  · subst h
    exact ⟨nd, hn, Nat.le_refl _⟩
  · obtain ⟨an, g1, _, g3, _⟩ := mem_ancestors_lt T N hn hk h
    exact ⟨an, g1, by omega⟩

/-- One round of the loop of the `preceding` axis on a record that is not returned. -/
theorem scanPreceding_skip {tbl : List Node} (T : TreeOK tbl) (N : TreeNest tbl) {n : Nat}
    {nd : Node} (hn : tbl[n]? = some nd) (hk : nd.kind ≠ .endNode) {step : pathStep}
    {cur : Node} (hcur : cur.nodes = true) {x A : Nat} (f : Nat)
    (hlow : LowAnc tbl n A (x + 1)) (hx : x + 1 ≤ n)
    (hbad : precGood tbl step n x = false) :
    ∃ A1 : Nat, scanPreceding tbl step cur (f + 1) (x : Int) (A : Int) =
        scanPreceding tbl step cur f ((x : Int) - 1) (A1 : Int) ∧ LowAnc tbl n A1 x := by
  have hnlt := (List.getElem?_eq_some.mp hn).1
  have hxlt : x < tbl.length := by omega
  have hget : tbl[x]? = some tbl[x] := List.getElem?_eq_getElem hxlt
  generalize tbl[x] = r at hget
  obtain ⟨an, han, hAn⟩ := ancSelf_record T N hn hk hlow.1
  conv =>
    enter [1, A1, 1, 1]
    rw [scanPreceding]
  simp only [Int.natCast_nonneg, ↓reduceIte, indexNodes_eq hcur hget, indexNodes_eq hcur han]
  by_cases hattr : r.kind = .attrNode
  · refine ⟨A, by simp only [hattr, ↓reduceIte], lowAnc_step hlow (by omega) ?_⟩
    intro hmem
    obtain ⟨xn, g1, g2, _⟩ := mem_ancestors_lt T N hn hk hmem
    rw [hget] at g1
    cases g1
    rw [g2] at hattr
    cases hattr
  · simp only [hattr, ↓reduceIte]
    by_cases hup : an.up = some x
    · have hxanc := up_mem_ancestors T N hn hk hlow.1 han hup
      obtain ⟨xn, g1, g2, _⟩ := mem_ancestors_lt T N hn hk hxanc
      rw [hget] at g1
      cases g1
      have hpos := (T.linked x r hget (by rw [g2]; decide)).2
      refine ⟨x, by simp only [hup, ↓reduceIte, hpos], Or.inr hxanc, Nat.le_refl _, ?_⟩
      intro a _ ha
      exact ha
    · have hnot : x ∉ ancestors tbl n := by
        intro hmem
        obtain ⟨u, hu1, hu2⟩ := ancestor_below T N hn hk hlow.1 han hmem (by have := hlow.2.1; omega)
        have hne : u ≠ x := by
          intro e
          rw [e] at hu1
          exact hup hu1
        have huanc := up_mem_ancestors T N hn hk hlow.1 han hu1
        have := hlow.2.2 u (Or.inr huanc) (by omega)
        have := (T.upStart A an u han hu1).1
        omega
      have hm := precGood_false hget hbad hattr hnot
      exact ⟨A, by simp only [hup, ↓reduceIte, hm, Bool.false_eq_true],
        lowAnc_step hlow (by omega) hnot⟩

/-- One round of the loop of the `preceding` axis on a record that is returned. -/
theorem scanPreceding_emit {tbl : List Node} (T : TreeOK tbl) (N : TreeNest tbl) {n : Nat}
    {nd : Node} (hn : tbl[n]? = some nd) (hk : nd.kind ≠ .endNode) {step : pathStep}
    {cur : Node} (hcur : cur.nodes = true) {c A : Nat} (f : Nat)
    (hlow : LowAnc tbl n A (c + 1)) (hc : c + 1 ≤ n)
    (hgood : precGood tbl step n c = true) :
    scanPreceding tbl step cur (f + 1) (c : Int) (A : Int) =
        .ok (some c, (c : Int) - 1, (A : Int)) ∧ LowAnc tbl n A c := by
  obtain ⟨r, hr1, hr2, hr3, hr4⟩ := precGood_true hgood
  obtain ⟨an, han, hAn⟩ := ancSelf_record T N hn hk hlow.1
  have hup : an.up ≠ some c := by
    intro hup
    exact hr3 (up_mem_ancestors T N hn hk hlow.1 han hup)
  refine ⟨?_, lowAnc_step hlow (by omega) hr3⟩
  unfold scanPreceding
  simp only [Int.natCast_nonneg, ↓reduceIte, indexNodes_eq hcur hr1, indexNodes_eq hcur han,
    hr2, hup, hr4]

theorem range_reverse_succ (m : Nat) :
    (List.range (m + 1)).reverse = m :: (List.range m).reverse := by
  rw [List.range_succ, List.reverse_append]
  rfl

/-- The loop of the `preceding` axis returns the first record, going down, that is not an
attribute, not an ancestor of the start and passes the test. -/
theorem scanPreceding_hit {tbl : List Node} (T : TreeOK tbl) (N : TreeNest tbl) {n : Nat}
    {nd : Node} (hn : tbl[n]? = some nd) (hk : nd.kind ≠ .endNode) {step : pathStep}
    {cur : Node} (hcur : cur.nodes = true) {c : Nat} {post : List Nat}
    (hgood : precGood tbl step n c = true) :
    ∀ (pre : List Nat) (m A f : Nat), (List.range m).reverse = pre ++ c :: post →
      (∀ x ∈ pre, precGood tbl step n x = false) → LowAnc tbl n A m → m ≤ n →
      pre.length < f →
      ∃ A1 : Nat, scanPreceding tbl step cur f ((m : Int) - 1) (A : Int) =
          .ok (some c, (c : Int) - 1, (A1 : Int)) ∧
        LowAnc tbl n A1 c ∧ post = (List.range c).reverse ∧ c < m := by
  intro pre
  induction pre with
  | nil =>
    intro m A f hr _ hlow hm hf
    cases m with
    | zero => simp at hr
    | succ m =>
      rw [range_reverse_succ] at hr
      simp only [List.nil_append, List.cons.injEq] at hr
      obtain ⟨h1, h2⟩ := hr
      subst h1
      obtain ⟨g, rfl⟩ : ∃ g, f = g + 1 := ⟨f - 1, by simp at hf; omega⟩
      obtain ⟨e1, e2⟩ := scanPreceding_emit T N hn hk hcur g hlow hm hgood
      have e : (((m + 1 : Nat) : Int) - 1) = (m : Int) := by omega
      rw [e]
      exact ⟨A, e1, e2, h2.symm, by omega⟩
  | cons a pre ih =>
    intro m A f hr hbad hlow hm hf
    cases m with
    | zero => simp at hr
    | succ m =>
      rw [range_reverse_succ] at hr
      simp only [List.cons_append, List.cons.injEq] at hr
      obtain ⟨h1, h2⟩ := hr
      subst h1
      obtain ⟨g, rfl⟩ : ∃ g, f = g + 1 := ⟨f - 1, by simp at hf; omega⟩
      obtain ⟨A1, e1, e2⟩ := scanPreceding_skip T N hn hk hcur g hlow hm
        (hbad m (List.mem_cons_self _ _))
      obtain ⟨A2, i1, i2, i3, i4⟩ := ih m A1 g h2
        (fun x hx => hbad x (List.mem_cons_of_mem _ hx)) e2 (by omega)
        (by simp only [List.length_cons] at hf; omega)
      have e : (((m + 1 : Nat) : Int) - 1) = (m : Int) := by omega
      rw [e, e1]
      exact ⟨A2, i1, i2, i3, by omega⟩

/-- The loop of the `preceding` axis runs to the start of the table when no record is
returned. -/
theorem scanPreceding_miss {tbl : List Node} (T : TreeOK tbl) (N : TreeNest tbl) {n : Nat}
    {nd : Node} (hn : tbl[n]? = some nd) (hk : nd.kind ≠ .endNode) {step : pathStep}
    {cur : Node} (hcur : cur.nodes = true) :
    ∀ (m A f : Nat), (∀ x ∈ (List.range m).reverse, precGood tbl step n x = false) →
      LowAnc tbl n A m → m ≤ n → m < f →
      ∃ (i1 A1 : Int), scanPreceding tbl step cur f ((m : Int) - 1) (A : Int) =
          .ok (none, i1, A1) := by
  intro m
  induction m with
  | zero =>
    intro A f _ _ _ hf
    obtain ⟨g, rfl⟩ : ∃ g, f = g + 1 := ⟨f - 1, by omega⟩
    unfold scanPreceding
    simp
  | succ m ih =>
    intro A f hbad hlow hm hf
    obtain ⟨g, rfl⟩ : ∃ g, f = g + 1 := ⟨f - 1, by omega⟩
    rw [range_reverse_succ] at hbad
    obtain ⟨A1, e1, e2⟩ := scanPreceding_skip T N hn hk hcur g hlow hm
      (hbad m (List.mem_cons_self _ _))
    obtain ⟨i1, A2, h1⟩ := ih A1 g (fun x hx => hbad x (List.mem_cons_of_mem _ hx)) e2
      (by omega) (by omega)
    have e : (((m + 1 : Nat) : Int) - 1) = (m : Int) := by omega
    rw [e, e1]
    exact ⟨i1, A2, h1⟩


theorem linked_not_end {tbl : List Node} (T : TreeOK tbl) {p : Nat} {cur : Node}
    (hp : tbl[p]? = some cur) (hl : cur.nodes = true) : cur.kind ≠ .endNode := by
  intro hk
  have := (T.endFresh p cur hp hk).1
  rw [this] at hl
  cases hl

theorem root_mem_ancestors {tbl : List Node} (T : TreeOK tbl) (N : TreeNest tbl) {rn : Node}
    (h0 : tbl[0]? = some rn) (hrk : rn.kind = .startNode) {n : Nat} {nd : Node}
    (hn : tbl[n]? = some nd) (hk : nd.kind ≠ .endNode) (hpos : 0 < n) :
    0 ∈ ancestors tbl n :=
  (mem_ancestors_iff T N h0 hrk hn hk).mpr ⟨hpos, inside_root T N h0 hrk n nd hpos hn hk⟩

/-- Method `next` on the `preceding` axis, for a cursor about to scan the table: the loop
run from the index and the ancestor the cursor holds. -/
theorem next_prec_eq {tbl : List Node} {n : Nat} {step : pathStep} (hax : step.axis = ascii "preceding") (hroot : step.root = false)
    {s : pathStepState} {rest : List Nat} (fuel : Nat) (hat : AtPrec tbl step n s rest) :
    ∃ (cur : Node) (m A : Nat), cur.nodes = true ∧ rest = (List.range m).reverse ∧
      (m ≤ n ∧ LowAnc tbl n A m ∨
        (m = 1 ∧ A = 1 ∧ 1 < n ∧ tbl[1]? = some cur)) ∧
      ∀ r, scanPreceding tbl step cur fuel ((m : Int) - 1) (A : Int) = .ok r →
        s.next tbl fuel = .ok (s.found (r.1, r.2.1) r.2.2) := by
  obtain ⟨hs, p, cur, hp, hcur, hlinked, hpos, hcase⟩ := hat
  have hr : ¬ (s.step.root = true ∧ s.idx = 0) := by
    rw [hs, hroot]
    simp
  rw [next_eq_axis hp hcur hr, nextAxis_preceding _ _ _ _ _ (by rw [hs]; exact hax)]
  unfold pathStepState.nextPreceding
  rcases hcase with ⟨h0, hpn, hrest⟩ | ⟨m, A, hm, hm0, haux, hrest, hmn, hlow⟩
  · refine ⟨cur, p, p, hlinked, hrest, ?_, ?_⟩
    · rcases hpn with h | ⟨h1, h2⟩
      · subst h
        exact Or.inl ⟨Nat.le_refl _, Or.inl rfl, Nat.le_refl _, fun a _ ha => ha⟩
      · subst h1
        exact Or.inr ⟨rfl, rfl, h2, hcur⟩
    · intro r hscan
      simp only [h0, ↓reduceIte, hs, hpos, hscan]
  · refine ⟨cur, m, A, hlinked, hrest, Or.inl ⟨hmn, hlow⟩, ?_⟩
    intro r hscan
    have hm1 : ¬ ((m : Int) - 1 = 0) := by rw [← hm]; exact hm0
    simp only [hs, haux, hm, hm1, ↓reduceIte, hscan]


/-- The loop of the `preceding` axis run from record 1 by a cursor whose `idx` is 0:
record 0 is the parent of record 1 and is skipped. -/
theorem scanPreceding_one {tbl : List Node} (T : TreeOK tbl) (N : TreeNest tbl) {rn cur : Node}
    (h0 : tbl[0]? = some rn) (hrk : rn.kind = .startNode) (h1 : tbl[1]? = some cur)
    (hl : cur.nodes = true) (step : pathStep) (f : Nat) :
    ∃ (i1 A1 : Int), scanPreceding tbl step cur (f + 2) (((1 : Nat) : Int) - 1)
        ((1 : Nat) : Int) = .ok (none, i1, A1) := by
  obtain ⟨u, hu⟩ := N.hasUp 1 cur (by omega) h1 (linked_not_end T h1 hl)
  have hu0 : u = 0 := by
    have := (T.upStart 1 cur u h1 hu).1
    omega
  subst hu0
  have hx0 : indexNodes tbl cur 0 = .ok (0, rn) := indexNodes_eq hl h0
  have hx1 : indexNodes tbl cur 1 = .ok (1, cur) := indexNodes_eq hl h1
  refine ⟨-1, (rn.pos : Int), ?_⟩
  rw [scanPreceding]
  have hattr : rn.kind ≠ .attrNode := by rw [hrk]; decide
  simp only [Nat.cast_one, Int.sub_self, Int.le_refl, ↓reduceIte, hx0, hattr, hx1, hu]
  rw [scanPreceding]
  simp

/-- The cursors of a `preceding` step started on record `n`: one for each record below
`n`, going down, that is not an attribute, not an ancestor of `n` and passes the test. -/
theorem prec_chain {tbl : List Node} (T : TreeOK tbl) (N : TreeNest tbl) {rn : Node}
    (h0 : tbl[0]? = some rn) (hrk : rn.kind = .startNode) {n : Nat} {nd : Node}
    (hn : tbl[n]? = some nd) (hk : nd.kind ≠ .endNode) {step : pathStep}
    (hax : step.axis = ascii "preceding") (hroot : step.root = false) (fuel : Nat)
    (hf : tbl.length < fuel) :
    ∃ l, Chain tbl fuel { step := step, node := some n } l ∧
      l.map (fun s1 => s1.node) =
        ((List.range n).reverse.filter (precGood tbl step n)).map some := by
  obtain ⟨hlinked, hpos⟩ := T.linked n nd hn hk
  have hnlt := (List.getElem?_eq_some.mp hn).1
  refine chain_of_scan tbl fuel (precGood tbl step n) (AtPrec tbl step n) ?_ ?_
    n _ _ (by simp) ⟨rfl, n, nd, rfl, hn, hlinked, hpos, Or.inl ⟨rfl, Or.inl rfl, rfl⟩⟩
  · intro s pre c post hat hbad hgood
    obtain ⟨cur, m, A, hcur, hrest, hcase, hnext⟩ := next_prec_eq hax hroot fuel hat
    rcases hcase with ⟨hmn, hlow⟩ | ⟨hm1, _, h1n, _⟩
    · have hlen : pre.length < fuel := by
        have := congrArg List.length hrest
        simp only [List.length_append, List.length_cons, List.length_reverse,
          List.length_range] at this
        omega
      obtain ⟨A1, e1, e2, e3, e4⟩ := scanPreceding_hit T N hn hk hcur hgood pre m A fuel
        hrest.symm hbad hlow hmn hlen
      have hnx := hnext _ e1
      obtain ⟨r, hr1, _, _, hr4⟩ := precGood_true hgood
      obtain ⟨g1, g2⟩ := T.linked c r hr1 (match_not_end hr4)
      refine ⟨_, hnx, rfl, hat.1, c, r, rfl, hr1, g1, g2, ?_⟩
      by_cases hc1 : c = 1
      · subst hc1
        exact Or.inl ⟨by simp [pathStepState.found], Or.inr ⟨rfl, by omega⟩, e3⟩
      · refine Or.inr ⟨c, A1, rfl, ?_, rfl, e3, by omega, e2⟩
        simp only [pathStepState.found]
        omega
    · exfalso
      rw [hm1] at hrest
      have hc0 : c = 0 := by
        have hmem : c ∈ (List.range 1).reverse := by rw [← hrest]; simp
        simpa using hmem
      subst hc0
      obtain ⟨_, _, _, hnot, _⟩ := precGood_true hgood
      exact hnot (root_mem_ancestors T N h0 hrk hn hk (by omega))
  · intro s rest hat hbad
    obtain ⟨cur, m, A, hcur, hrest, hcase, hnext⟩ := next_prec_eq hax hroot fuel hat
    rcases hcase with ⟨hmn, hlow⟩ | ⟨hm1, hA1, h1n, hc1⟩
    · obtain ⟨i1, A1, e1⟩ := scanPreceding_miss T N hn hk hcur m A fuel
        (by rw [← hrest]; exact hbad) hlow hmn (by omega)
      exact ⟨_, hnext _ e1⟩
    · obtain ⟨g, rfl⟩ : ∃ g, fuel = g + 2 := ⟨fuel - 2, by omega⟩
      subst hm1 hA1
      obtain ⟨i1, A1, e1⟩ := scanPreceding_one T N h0 hrk hc1 hcur step g
      exact ⟨_, hnext _ e1⟩


/-- C17: for every tree `ParseDecoder` returns for a well-nested token sequence, every node
`n` and every one-step relative path on the axis `preceding`, the run of the iterator to
exhaustion returns exactly the records at the table indices `i < n.pos` that are not
attribute records, are not ancestors of `n` and pass the test of the step, each once, in
decreasing order. -/
theorem preceding_scans_backwards (tokens : List Token) (t : Tree) (path : GoString)
    (P : Path) (step : pathStep) (n : Nat) (nd : Node) (fuel : Nat)
    (hw : wellNested tokens) (ht : ParseDecoder { tokens := tokens } = .ok t)
    (_hc : Compile path = .ok P) (hs : P.steps = [step]) (hroot : step.root = false)
    (hax : step.axis = ascii "preceding")
    (hn : t.nodes[n]? = some nd) (hk : nd.kind ≠ .endNode) (hf : t.nodes.length < fuel) :
    ∃ iter r, P.Iter t.nodes n = .ok iter ∧ iter.run t.nodes fuel fuel = .ok r ∧
      r.map (Iter.pos t.nodes) =
        ((List.range nd.pos).reverse.filter (precGood t.nodes step n)).map some := by
  obtain ⟨t1, ht1, _, T, N⟩ := ParseDecoder_nest tokens hw
  rw [ht] at ht1
  cases ht1
  obtain ⟨rn, h0, hrk⟩ := ParseDecoder_rootKind ht
  obtain ⟨l, hl1, hl2⟩ := prec_chain T N h0 hrk hn hk hax hroot fuel hf
  rw [(T.linked n nd hn hk).2]
  refine run_one_step T hs hn hk hf hl1 hl2
    ((List.nodup_reverse.mpr (List.nodup_range n)).filter _) ?_
  intro k hk1
  rw [List.mem_filter] at hk1
  obtain ⟨r, hr1, _, _, hr4⟩ := precGood_true hk1.2
  exact ⟨r, hr1, match_not_end hr4⟩

/-- Witness of C17: the scenario document, the path `preceding::node()`, the text record 8
(`y`), whose ancestors are the records 6, 1 and 0: the records 4 and 2 are returned. -/
theorem preceding_scans_backwards_witness :
    ∃ iter r,
      Path.Iter scenarioTree.nodes
          { path := ascii "preceding::node()",
            steps := [{ axis := ascii "preceding", name := ascii "*", kind := .anyNode }] } 8 =
        .ok iter ∧
      iter.run scenarioTree.nodes 13 13 = .ok r ∧
      r.map (Iter.pos scenarioTree.nodes) = [some 4, some 2] :=
  preceding_scans_backwards scenarioTokens scenarioTree (ascii "preceding::node()")
    { path := ascii "preceding::node()",
      steps := [{ axis := ascii "preceding", name := ascii "*", kind := .anyNode }] }
    { axis := ascii "preceding", name := ascii "*", kind := .anyNode } 8
    { kind := .textNode, text := ascii "y", nodes := true, pos := 8, end_ := 9, up := some 6 } 13
    (by decide) (by rfl) (by rfl) (by rfl) (by rfl) (by rfl) (by rfl) (by decide) (by decide)

/-! ### The invariants of the tree -/

theorem computeDown_eq_filter (tbl : List Node) (p pos e : Nat) :
    computeDown tbl p pos e = (List.range' (pos + 1) (e - (pos + 1))).filter (isChildOf tbl p) :=
  rfl

theorem isChildOf_true {tbl : List Node} {c i : Nat} (h : isChildOf tbl c i = true) :
    ∃ r, tbl[i]? = some r ∧ r.up = some c ∧ isDownKind r.kind = true := by
  unfold isChildOf at h
  split at h
  · rename_i r hr
    simp only [Bool.and_eq_true, decide_eq_true_eq] at h
    exact ⟨r, hr, h.1, h.2⟩
  · cases h

/-- The children of a container: the records of the whole table whose parent it is and
whose kind is start, text, comment or processing instruction, in table order. -/
theorem down_eq_filter {tbl : List Node} (T : TreeOK tbl) (N : TreeNest tbl) {c : Nat}
    {cn : Node} (hc : tbl[c]? = some cn) (hck : cn.kind = .startNode) :
    cn.down = (List.range tbl.length).filter (isChildOf tbl c) := by
  obtain ⟨h1, h2, h3⟩ := T.downEq c cn hc hck
  have hsplit : List.range tbl.length =
      List.range' 0 (c + 1 - 0) ++ (List.range' (c + 1) (cn.end_ - (c + 1)) ++
        List.range' cn.end_ (tbl.length - cn.end_)) := by
    rw [range'_split (c + 1) cn.end_ tbl.length (by omega) (by omega),
      range'_split 0 (c + 1) tbl.length (Nat.zero_le _) (by omega), Nat.sub_zero,
      List.range_eq_range']
  rw [h3, computeDown_eq_filter, hsplit, List.filter_append, List.filter_append]
  have hout : ∀ i, isChildOf tbl c i = true → c + 1 ≤ i ∧ i < cn.end_ := by
    intro i hi
    obtain ⟨r, hr1, hr2, _⟩ := isChildOf_true hi
    have := (T.upStart i r c hr1 hr2).1
    have := N.upIn i r c cn hr1 hr2 hc
    omega
  have e1 : (List.range' 0 (c + 1 - 0)).filter (isChildOf tbl c) = [] := by
    rw [List.filter_eq_nil_iff]
    intro i hi hgood
    rw [List.mem_range'_1] at hi
    have := hout i hgood
    omega
  have e2 : (List.range' cn.end_ (tbl.length - cn.end_)).filter (isChildOf tbl c) = [] := by
    rw [List.filter_eq_nil_iff]
    intro i hi hgood
    rw [List.mem_range'_1] at hi
    have := hout i hgood
    omega
  rw [e1, e2, List.nil_append, List.append_nil]

/-- C18: in every tree `ParseDecoder` returns for a well-nested, error-free token
sequence, the children `down` of every container `c` are, in increasing table order and
without repetition, exactly the records whose `up` is `c` and whose kind is start, text,
comment or processing instruction; no attribute record and no end record is among
them. -/
theorem children_invariant (tokens : List Token) (t : Tree) (c : Nat) (cn : Node)
    (hw : wellNested tokens) (ht : ParseDecoder { tokens := tokens } = .ok t)
    (hc : t.nodes[c]? = some cn) (hck : cn.kind = .startNode) :
    cn.down = (List.range t.nodes.length).filter (isChildOf t.nodes c) ∧
      cn.down.Pairwise (fun a b => a < b) ∧ cn.down.Nodup ∧
      (∀ d, d ∈ cn.down ↔
        ∃ dn, t.nodes[d]? = some dn ∧ dn.up = some c ∧
          (dn.kind = .startNode ∨ dn.kind = .textNode ∨ dn.kind = .commentNode ∨
            dn.kind = .procInstNode)) ∧
      ∀ d ∈ cn.down, ∀ dn, t.nodes[d]? = some dn →
        dn.kind ≠ .attrNode ∧ dn.kind ≠ .endNode := by
  obtain ⟨t1, ht1, _, T, N⟩ := ParseDecoder_nest tokens hw
  rw [ht] at ht1
  cases ht1
  have hkinds : ∀ k : nodeKind, isDownKind k = true ↔
      (k = .startNode ∨ k = .textNode ∨ k = .commentNode ∨ k = .procInstNode) := by
    intro k
    cases k <;> simp [isDownKind]
  refine ⟨down_eq_filter T N hc hck, T.downSorted hc,
    (T.downSorted hc).imp (fun h => Nat.ne_of_lt h), ?_, ?_⟩
  · intro d
    rw [mem_down_iff T N hc hck]
    constructor
    · rintro ⟨dn, h1, h2, h3⟩
      exact ⟨dn, h1, h2, (hkinds _).mp h3⟩
    · rintro ⟨dn, h1, h2, h3⟩
      exact ⟨dn, h1, h2, (hkinds _).mpr h3⟩
  · intro d hd dn hdn
    obtain ⟨dn1, h1, _, h3⟩ := (mem_down_iff T N hc hck).mp hd
    rw [hdn] at h1
    cases h1
    constructor <;> intro h <;> rw [h] at h3 <;> cases h3

/-- Witness of C18: the element `a` (record 1) of the scenario document. -/
theorem children_invariant_witness :
    [2, 6] = (List.range scenarioTree.nodes.length).filter (isChildOf scenarioTree.nodes 1) ∧
      [2, 6].Pairwise (fun a b => a < b) ∧ [2, 6].Nodup ∧
      (∀ d, d ∈ [2, 6] ↔
        ∃ dn, scenarioTree.nodes[d]? = some dn ∧ dn.up = some 1 ∧
          (dn.kind = .startNode ∨ dn.kind = .textNode ∨ dn.kind = .commentNode ∨
            dn.kind = .procInstNode)) ∧
      ∀ d ∈ [2, 6], ∀ dn, scenarioTree.nodes[d]? = some dn →
        dn.kind ≠ .attrNode ∧ dn.kind ≠ .endNode :=
  children_invariant scenarioTokens scenarioTree 1
    { kind := .startNode, name := { Local := ascii "a" }, nodes := true, pos := 1, end_ := 10,
      up := some 0, down := [2, 6] }
    (by decide) (by rfl) (by rfl) (by rfl)

/-- C19: in every tree `ParseDecoder` returns for a well-nested, error-free token
sequence, every record that is not an end record has `pos` equal to its table index;
every container has `end` above `pos`, with an end record at index `end`; every other
such record has `end = pos + 1`; and for a container `c` and a record `x` that is not an
end record, `c.pos < x.pos < c.end` holds if and only if `c` is a proper ancestor of
`x`, that is, on the chain of `up` links from `x` (followed for `f` links, any `f` from
the index of `x` on). -/
theorem subtree_interval_invariant (tokens : List Token) (t : Tree)
    (hw : wellNested tokens) (ht : ParseDecoder { tokens := tokens } = .ok t) :
    (∀ (i : Nat) (nd : Node), t.nodes[i]? = some nd → nd.kind ≠ .endNode → nd.pos = i) ∧
      (∀ (c : Nat) (cn : Node), t.nodes[c]? = some cn → cn.kind = .startNode →
        cn.pos < cn.end_ ∧ ∃ e, t.nodes[cn.end_]? = some e ∧ e.kind = .endNode) ∧
      (∀ (i : Nat) (nd : Node), t.nodes[i]? = some nd → nd.kind ≠ .startNode →
        nd.kind ≠ .endNode → nd.end_ = nd.pos + 1) ∧
      ∀ (c x f : Nat) (cn xn : Node), t.nodes[c]? = some cn → cn.kind = .startNode →
        t.nodes[x]? = some xn → xn.kind ≠ .endNode → x ≤ f →
        ((cn.pos < xn.pos ∧ xn.pos < cn.end_) ↔ c ∈ upChain t.nodes f x) := by
  obtain ⟨t1, ht1, _, T, N⟩ := ParseDecoder_nest tokens hw
  rw [ht] at ht1
  cases ht1
  refine ⟨fun i nd hi hk => (T.linked i nd hi hk).2, ?_, ?_, ?_⟩
  · intro c cn hc hck
    have hpos := (T.linked c cn hc (by rw [hck]; decide)).2
    rw [hpos]
    exact ⟨(T.downEq c cn hc hck).1, N.endKind c cn hc hck⟩
  · intro i nd hi h1 h2
    rw [(T.linked i nd hi h2).2]
    exact T.leafEnd i nd hi h1 h2
  · intro c x f cn xn hc hck hx hxk hf
    rw [(T.linked c cn hc (by rw [hck]; decide)).2, (T.linked x xn hx hxk).2]
    exact (mem_upChain_iff T N hc hck x f xn hf hx hxk).symm

/-- Witness of C19: the scenario document. -/
theorem subtree_interval_invariant_witness :
    (∀ (i : Nat) (nd : Node), scenarioTree.nodes[i]? = some nd → nd.kind ≠ .endNode →
        nd.pos = i) ∧
      (∀ (c : Nat) (cn : Node), scenarioTree.nodes[c]? = some cn → cn.kind = .startNode →
        cn.pos < cn.end_ ∧ ∃ e, scenarioTree.nodes[cn.end_]? = some e ∧ e.kind = .endNode) ∧
      (∀ (i : Nat) (nd : Node), scenarioTree.nodes[i]? = some nd → nd.kind ≠ .startNode →
        nd.kind ≠ .endNode → nd.end_ = nd.pos + 1) ∧
      ∀ (c x f : Nat) (cn xn : Node), scenarioTree.nodes[c]? = some cn →
        cn.kind = .startNode → scenarioTree.nodes[x]? = some xn → xn.kind ≠ .endNode → x ≤ f →
        ((cn.pos < xn.pos ∧ xn.pos < cn.end_) ↔ c ∈ upChain scenarioTree.nodes f x) :=
  subtree_interval_invariant scenarioTokens scenarioTree (by decide) (by rfl)

/-- C20: `Compile` accepts the empty path string and returns a path without any step (the
loop of `compile` runs while `c.i < len(c.path)`, so no round is run and no name is asked
for); `Path.Iter` of that path then reads `iter.state[0]` of an empty slice: it faults
from every node, with an index out of range from the root of the scenario document. -/
theorem empty_path_compiles_without_step :
    Compile (ascii "") = .ok { path := [], steps := [] } ∧
      (∀ (tbl : List Node) (n : Nat),
        ∃ e, Path.Iter tbl { path := [], steps := [] } n = .error e) ∧
      Path.Iter scenarioTree.nodes { path := [], steps := [] } scenarioTree.root =
        .error .indexOutOfRange := by
  refine ⟨by rfl, ?_, by rfl⟩
  intro tbl n
  cases h : deref tbl (some n) with
  | error e => exact ⟨e, by simp only [Path.Iter, h]⟩
  | ok nd => exact ⟨.indexOutOfRange, by simp only [Path.Iter, h, List.map_nil]⟩

/-- C5 (failing input): on the tree of `<a><b id="1">x</b><b id="2">y</b></a>`, the path
`descendant::*/ancestor-or-self::*/preceding-sibling::*` evaluated from the root: the
first call of `Next` emits the element `a`, so `Exists` returns true and `String` returns
`xy` and true; the second call brings the `preceding-sibling` cursor onto the root, whose
absent `down` slice it indexes at 0, so `Strings` fails with an index out of range and
returns no list. This holds for every bound `f + 2` on the rounds of the loops. -/
theorem strings_faults_after_first_value (f : Nat) :
    wellNested scenarioTokens ∧
      ParseDecoder { tokens := scenarioTokens } = .ok scenarioTree ∧
      Compile (ascii "descendant::*/ancestor-or-self::*/preceding-sibling::*") =
        .ok { path := ascii "descendant::*/ancestor-or-self::*/preceding-sibling::*",
              steps := [{ axis := ascii "descendant", name := ascii "*", kind := .startNode },
                        { axis := ascii "ancestor-or-self", name := ascii "*",
                          kind := .startNode },
                        { axis := ascii "preceding-sibling", name := ascii "*",
                          kind := .startNode }] } ∧
      Path.Exists scenarioTree.nodes (f + 2)
          { path := ascii "descendant::*/ancestor-or-self::*/preceding-sibling::*",
            steps := [{ axis := ascii "descendant", name := ascii "*", kind := .startNode },
                      { axis := ascii "ancestor-or-self", name := ascii "*",
                        kind := .startNode },
                      { axis := ascii "preceding-sibling", name := ascii "*",
                        kind := .startNode }] } scenarioTree.root = .ok true ∧
      Path.String scenarioTree.nodes (f + 2)
          { path := ascii "descendant::*/ancestor-or-self::*/preceding-sibling::*",
            steps := [{ axis := ascii "descendant", name := ascii "*", kind := .startNode },
                      { axis := ascii "ancestor-or-self", name := ascii "*",
                        kind := .startNode },
                      { axis := ascii "preceding-sibling", name := ascii "*",
                        kind := .startNode }] } scenarioTree.root = .ok (ascii "xy", true) ∧
      Path.Strings scenarioTree.nodes (f + 2)
          { path := ascii "descendant::*/ancestor-or-self::*/preceding-sibling::*",
            steps := [{ axis := ascii "descendant", name := ascii "*", kind := .startNode },
                      { axis := ascii "ancestor-or-self", name := ascii "*",
                        kind := .startNode },
                      { axis := ascii "preceding-sibling", name := ascii "*",
                        kind := .startNode }] } scenarioTree.root =
        .error .indexOutOfRange :=
  ⟨by decide, by rfl, by rfl, by rfl, by rfl, by rfl⟩

end xmlpath
